import Mathlib

/-!
Verification development for the metarclone upload/download planner.

The Python sources under src/metarclone are shallowly embedded below:
byte strings are lists of naturals, hashlib hash objects are the list of
bytes fed to them so far (the digest of an object is the configured hash
function applied to that list), Python dicts are association lists that
preserve insertion order, and Python sets are realised as lists (Python
iterates sets in an unspecified order; the embedding fixes the order to
the underlying directory listing order, one of the orders Python may
produce).  Fallible operations return Except or Option.
-/

set_option maxRecDepth 12000

namespace Metarclone

/-- Raw byte strings (Python bytes): a list of naturals below 256. -/
abbrev ByteStr := List Nat

/-- Little-endian encoding of a natural into a fixed number of bytes,
mirroring Python int.to_bytes(k, little). -/
def toLE : Nat → Nat → List Nat
  | _, 0 => []
  | v, k + 1 => v % 256 :: toLE (v / 256) k

/-- Little-endian signed encoding mirroring int.to_bytes(k, little, signed=True):
two's complement, i.e. the value modulo 2 ^ (8 * k). -/
def sToLE (v : Int) (k : Nat) : List Nat := toLE ((v % ((2 : Int) ^ (8 * k))).toNat) k

/-- Strict lexicographic order on byte strings (Python bytes comparison). -/
def bytesLt : List Nat → List Nat → Bool
  | [], [] => false
  | [], _ :: _ => true
  | _ :: _, [] => false
  | a :: as, b :: bs => if a < b then true else if b < a then false else bytesLt as bs

/-- Reflexive lexicographic order on byte strings. -/
def bytesLe (x y : List Nat) : Bool := !(bytesLt y x)

/-- Insert into a sorted list keeping stability (used to model Python sorted). -/
def insLe {α : Type} (le : α → α → Bool) (a : α) : List α → List α
  | [] => [a]
  | b :: bs => if le a b then a :: b :: bs else b :: insLe le a bs

/-- Stable insertion sort modelling Python sorted(). -/
def isort {α : Type} (le : α → α → Bool) : List α → List α
  | [] => []
  | a :: as => insLe le a (isort le as)

/-- Association-list lookup, modelling Python dict access. -/
def alookup {α β : Type} [DecidableEq α] (k : α) : List (α × β) → Option β
  | [] => none
  | (k', v) :: rest => if k = k' then some v else alookup k rest

/-- Association-list insertion with Python dict assignment semantics:
replace the value in place if the key exists, otherwise append. -/
def ainsert {α β : Type} [DecidableEq α] (k : α) (v : β) : List (α × β) → List (α × β)
  | [] => [(k, v)]
  | (k', v') :: rest => if k = k' then (k, v) :: rest else (k', v') :: ainsert k v rest

/-- Association-list removal, modelling Python del d[k] (keys are unique). -/
def aremove {α β : Type} [DecidableEq α] (k : α) : List (α × β) → List (α × β)
  | [] => []
  | (k', v') :: rest => if k = k' then rest else (k', v') :: aremove k rest

/-- Modelling Python dict.update: insert every pair of the second list. -/
def aupdate {α β : Type} [DecidableEq α] (d other : List (α × β)) : List (α × β) :=
  other.foldl (fun acc kv => ainsert kv.1 kv.2 acc) d

/-- Decimal digit characters of a natural, most significant first
(the rendering used by Python str formatting of nonnegative ints). -/
def digitChars (n : Nat) : List Char :=
  if n = 0 then ['0'] else (Nat.digits 10 n).reverse.map fun d => Char.ofNat (48 + d)

/-- Python format f with 05d: decimal digits zero-padded on the left to width 5. -/
def pad5 (n : Nat) : String :=
  ⟨List.replicate (5 - (digitChars n).length) '0' ++ digitChars n⟩

/-- Pack object basename: reserved prefix, 5-digit zero-padded index, .tar,
compression suffix (upload.py line 259). -/
def packName (pfx : String) (idx : Nat) (sfx : String) : String :=
  pfx ++ pad5 idx ++ ".tar" ++ sfx

/-- posixpath.join for the remote-path strings used here (the second
component is always a relative non-empty object name). -/
def pjoin (a b : String) : String := a ++ "/" ++ b

/-- os.path.join on byte paths (the second component is always a relative
name without a path separator). -/
def bjoin (a b : ByteStr) : ByteStr := a ++ [47] ++ b

/-- os.path.basename of a byte path that does not end in a slash. -/
def basename (p : ByteStr) : ByteStr := ((p.reverse).takeWhile (fun b => b ≠ 47)).reverse

/-- os.path.relpath(p, base) in the only form the planner uses: p is base
itself extended by a slash and a relative remainder; the remainder is returned. -/
def relpath (base p : ByteStr) : ByteStr := p.drop (base.length + 1)

/-! ### Base32 name codec (utils.py encode_child / decode_child)

b32encode turns the big-endian bit stream of the input into 5-bit groups
(zero-padding the final group) over the RFC 4648 alphabet; the stripped
padding characters make the encoded length the ceiling of 8 n / 5.
-/

/-- The eight bits of a byte, most significant first. -/
def byteBits (b : Nat) : List Bool :=
  [b.testBit 7, b.testBit 6, b.testBit 5, b.testBit 4,
   b.testBit 3, b.testBit 2, b.testBit 1, b.testBit 0]

/-- Big-endian bit stream of a byte string. -/
def bitsOf : List Nat → List Bool
  | [] => []
  | b :: rest => byteBits b ++ bitsOf rest

/-- Split a bit stream into 5-bit groups, zero-padding the last group. -/
def groups5 : List Bool → List (List Bool)
  | [] => []
  | a :: b :: c :: d :: e :: rest => [a, b, c, d, e] :: groups5 rest
  | l => [l ++ List.replicate (5 - l.length) false]

/-- Value of a big-endian bit group. -/
def bitsVal (g : List Bool) : Nat :=
  g.foldl (fun a b => 2 * a + (if b then 1 else 0)) 0

/-- The RFC 4648 base32 alphabet. -/
def b32Alphabet : List Char := "ABCDEFGHIJKLMNOPQRSTUVWXYZ234567".data

/-- Character for a 5-bit value. -/
def valChar (v : Nat) : Char := b32Alphabet.getD v 'A'

/-- 5-bit value of an alphabet character (values outside the alphabet do not
occur in strings produced by the codec; Python b32decode would raise there). -/
def charVal (c : Char) : Nat := (b32Alphabet.indexOf c : Nat)

/-- The five bits of a 5-bit value, most significant first. -/
def valBits (v : Nat) : List Bool :=
  [v.testBit 4, v.testBit 3, v.testBit 2, v.testBit 1, v.testBit 0]

/-- utils.encode_child: unpadded base32 of a raw byte name. -/
def encode_child (name : ByteStr) : String :=
  ⟨(groups5 (bitsOf name)).map fun g => valChar (bitsVal g)⟩

/-- Reassemble bytes from a bit stream, dropping a trailing partial byte
(this mirrors how b32decode discards the zero bits introduced by padding). -/
def groups8 : List Bool → List Nat
  | b7 :: b6 :: b5 :: b4 :: b3 :: b2 :: b1 :: b0 :: rest =>
      bitsVal [b7, b6, b5, b4, b3, b2, b1, b0] :: groups8 rest
  | _ => []

/-- utils.decode_child: restore padding and invert base32. -/
def decode_child (s : String) : ByteStr :=
  groups8 ((s.data.map charVal).foldr (fun v acc => valBits v ++ acc) [])

/-- Lowercase hex characters. -/
def hexChar (n : Nat) : Char := "0123456789abcdef".data.getD n '0'

/-- hashlib hexdigest rendering of a digest byte string. -/
def hexStr (l : ByteStr) : String :=
  ⟨l.foldr (fun b acc => hexChar (b / 16) :: hexChar (b % 16) :: acc) []⟩

/-! ### Filesystem model

A snapshot of the local tree.  File contents stand for the bytes the
checksum engine would read: the file bytes for regular files and the link
target for symbolic links (checksum.py get_file_content_checksum).
-/

/-- The stat fields the planner reads (os.stat with follow_symlinks=False). -/
structure StatRes where
  st_mode : Nat
  st_size : Nat
  st_mtime_ns : Int
  st_ctime_ns : Int
  st_uid : Nat
  st_gid : Nat
  st_dev : Nat
  st_ino : Nat
  st_nlink : Nat
deriving DecidableEq

/-- stat.S_ISDIR. -/
def S_ISDIR (m : Nat) : Bool := m &&& 61440 == 16384

/-- stat.S_ISREG. -/
def S_ISREG (m : Nat) : Bool := m &&& 61440 == 32768

/-- stat.S_ISLNK. -/
def S_ISLNK (m : Nat) : Bool := m &&& 61440 == 40960

mutual
/-- A node of the local filesystem tree. -/
inductive FSNode where
  | file (st : StatRes) (content : List Nat)
  | dir (st : StatRes) (children : FSChildren)

/-- The listing of a directory: names with their nodes, in listing order. -/
inductive FSChildren where
  | nil
  | cons (name : ByteStr) (node : FSNode) (rest : FSChildren)
end

/-- The stat of a node. -/
def FSNode.stat : FSNode → StatRes
  | .file st _ => st
  | .dir st _ => st

/-- The names in a listing, in order. -/
def FSChildren.names : FSChildren → List ByteStr
  | .nil => []
  | .cons n _ rest => n :: rest.names

/-- Look a child up by name. -/
def FSChildren.lookup : FSChildren → ByteStr → Option FSNode
  | .nil, _ => none
  | .cons n node rest, q => if q = n then some node else rest.lookup q

/-- The listing as a list of pairs. -/
def FSChildren.toList : FSChildren → List (ByteStr × FSNode)
  | .nil => []
  | .cons n node rest => (n, node) :: rest.toList

/-- A byte is a valid filename byte: below 256 and not the path separator. -/
def goodByte (b : Nat) : Bool := decide (b < 256) && b != 47

/-- A valid filename: non-empty bytes, no separator, all below 256. -/
def goodName (n : ByteStr) : Bool := n != [] && n.all goodByte

mutual
/-- Wellformedness of a tree: constructors agree with stat modes, names are
valid and distinct within a directory. -/
def FSNode.wf : FSNode → Bool
  | .file st _ => !S_ISDIR st.st_mode
  | .dir st cs => S_ISDIR st.st_mode && cs.wf

/-- Wellformedness of a listing. -/
def FSChildren.wf : FSChildren → Bool
  | .nil => true
  | .cons n node rest =>
      goodName n && !(rest.names.contains n) && node.wf && rest.wf
end

mutual
/-- Size measure of a tree, for strong induction. -/
def FSNode.sz : FSNode → Nat
  | .file _ _ => 1
  | .dir _ cs => cs.sz + 1

/-- Size measure of a listing. -/
def FSChildren.sz : FSChildren → Nat
  | .nil => 1
  | .cons _ nd rest => nd.sz + rest.sz + 1
end

mutual
/-- All paths of the subtree rooted at a node placed at a given path. -/
def FSNode.allPaths : FSNode → ByteStr → List ByteStr
  | .file _ _, p => [p]
  | .dir _ cs, p => p :: cs.allPaths p

/-- All paths contributed by a listing under a given directory path. -/
def FSChildren.allPaths : FSChildren → ByteStr → List ByteStr
  | .nil, _ => []
  | .cons n nd rest, p => nd.allPaths (bjoin p n) ++ rest.allPaths p
end

mutual
/-- No non-directory of the tree has more than one hard link. -/
def FSNode.noHL : FSNode → Bool
  | .file st _ => decide (st.st_nlink ≤ 1)
  | .dir _ cs => cs.noHL

/-- No non-directory of the listing subtree has more than one hard link. -/
def FSChildren.noHL : FSChildren → Bool
  | .nil => true
  | .cons _ nd rest => nd.noHL && rest.noHL
end

/-- A placeholder node for total lookups over wellformed listings. -/
def defFSNode : FSNode := .file ⟨0, 0, 0, 0, 0, 0, 0, 0, 0⟩ []

/-- Total lookup of a child node. -/
def FSChildren.lookupD (cs : FSChildren) (n : ByteStr) : FSNode :=
  (cs.lookup n).getD defFSNode

/-! ### Configuration (config.py) -/

/-- SyncConfig: the fields the planner and checksum engine read.  The
hashlib factory is modelled by the digest function hashF together with the
algorithm name; external collaborators (rclone, tar) are modelled by the
transport oracle fields. -/
structure SyncConfig where
  dest_as_empty : Bool := false
  use_file_checksum : Bool := false
  use_owner : Bool := false
  use_directory_mtime : Bool := false
  hashF : List Nat → List Nat
  hash_name : String := "sha1"
  ignore_errors : Bool := false
  reserved_pfx : String := "_METARCLONE_"
  metadata_path : Option String := none
  s3_min_chunk_size_kib : Nat := 5 * 1024

/-- SyncConfig.head_bytes: 4-byte configuration header. -/
def SyncConfig.head_bytes (c : SyncConfig) : List Nat :=
  [(if c.use_file_checksum then 1 else 0) +
   (if c.use_owner then 2 else 0) +
   (if c.use_directory_mtime then 4 else 0), 0, 0, 0]

/-- UploadConfig: upload-only settings plus the transport oracle.
t_upload models rclone_upload (bytes transferred, or -1 on failure);
t_delete models rclone_delete. -/
structure UploadConfig extends SyncConfig where
  metadata_version : Nat := 1
  file_base_bytes : Nat := 64
  merge_threshold : Nat := 10 * 1024 * 1024
  delete_after_upload : Bool := true
  grouping_order : String := "size"
  compression_suffix : String := ".gz"
  t_upload : ByteStr → List ByteStr → String → Int
  t_delete : String → Bool → Bool

/-! ### Checksum engine (checksum.py)

A hashlib object is the byte string accumulated so far; the digest of an
object h is conf.hashF h.
-/

/-- checksum.init_file_checksum: seed a hash object with the header, the
raw name and the mode; for directories optionally the mtime and ownership
are appended and the digest is wrapped into a fresh hash state. -/
def init_file_checksum (name : ByteStr) (st : StatRes) (conf : SyncConfig) : ByteStr :=
  let h := conf.head_bytes ++ name ++ toLE st.st_mode 4
  if S_ISDIR st.st_mode then
    let h := h ++ (if conf.use_directory_mtime then sToLE st.st_mtime_ns 16 else [])
    let h := h ++ (if conf.use_owner then toLE st.st_uid 4 ++ toLE st.st_gid 4 else [])
    conf.hashF h
  else h

/-- checksum.get_file_content_checksum: digest of the content for regular
files, of the link target for symlinks, of nothing otherwise.  In this pure
filesystem model reads do not fail, so the None error path is absent. -/
def get_file_content_checksum (node : FSNode) (conf : SyncConfig) : ByteStr :=
  let st := node.stat
  let content := match node with
    | .file _ c => c
    | .dir _ _ => []
  if S_ISREG st.st_mode then conf.hashF content
  else if S_ISLNK st.st_mode then conf.hashF content
  else conf.hashF []

/-- checksum.one_file_checksum for a single (non-directory) entry. -/
def one_file_checksum (name : ByteStr) (node : FSNode) (conf : SyncConfig)
    (second_pass : Bool) : ByteStr :=
  let st := node.stat
  let h := init_file_checksum name st conf
  if conf.use_file_checksum && second_pass then
    conf.hashF (h ++ get_file_content_checksum node conf)
  else
    let h := h ++ toLE st.st_size 16 ++ sToLE st.st_mtime_ns 16
    let h := h ++ (if conf.use_owner then toLE st.st_uid 4 ++ toLE st.st_gid 4 else [])
    conf.hashF h

/-- checksum.ChecksumWalkResult, as the delta it accumulates. -/
structure CWR where
  total_size : Nat := 0
  total_files : Nat := 0
  hard_link_map : List ((Nat × Nat) × ByteStr) := []
deriving DecidableEq

/-- Sequential composition of two ChecksumWalkResult deltas. -/
def CWR.merge (a b : CWR) : CWR :=
  { total_size := a.total_size + b.total_size
    total_files := a.total_files + b.total_files
    hard_link_map := aupdate a.hard_link_map b.hard_link_map }

/-- Order pairs tagged with a byte-string name by that name. -/
def nameLe {α : Type} (x y : ByteStr × α) : Bool := bytesLe x.1 y.1

mutual
/-- checksum.file_checksum: digest of one entry together with the
ChecksumWalkResult delta it contributes.  For a directory the sorted
children are hashed recursively (os.scandir results sorted by name). -/
def file_checksum (name full_path : ByteStr) (node : FSNode) (conf : SyncConfig)
    (second_pass : Bool) : ByteStr × CWR :=
  match node with
  | .dir st cs =>
      let pairs := child_sigs cs full_path conf second_pass
      let sorted := isort nameLe pairs
      let h := sorted.foldl (fun h p => h ++ p.2.1) (init_file_checksum name st conf)
      let r : CWR := sorted.foldl (fun (r : CWR) p => r.merge p.2.2) ({} : CWR)
      (conf.hashF h, { r with total_files := r.total_files + 1 })
  | .file st _ =>
      let res := one_file_checksum name node conf second_pass
      (res,
       { total_size := st.st_size
         total_files := 1
         hard_link_map := if st.st_nlink > 1 then [((st.st_dev, st.st_ino), full_path)] else [] })

/-- Per-child digests of a listing, in listing order. -/
def child_sigs (cs : FSChildren) (fp : ByteStr) (conf : SyncConfig)
    (second_pass : Bool) : List (ByteStr × (ByteStr × CWR))
  := match cs with
  | .nil => []
  | .cons n node rest =>
      (n, file_checksum n (bjoin fp n) node conf second_pass) :: child_sigs rest fp conf second_pass
end

/-- checksum.checksum_walk: hexdigest of the concatenated sorted member
digests, together with the accumulated ChecksumWalkResult. -/
def checksum_walk (names : List (ByteStr × FSNode)) (path : ByteStr) (conf : SyncConfig)
    (second_pass : Bool) : String × CWR :=
  let sorted := isort nameLe names
  let sigs := sorted.map fun p => file_checksum p.1 (bjoin path p.1) p.2 conf second_pass
  let h := sigs.foldl (fun h s => h ++ s.1) []
  let r := sigs.foldl (fun r s => r.merge s.2) {}
  (hexStr (conf.hashF h), r)

/-! ### Metadata document model (upload.py docstring, §3 of the spec) -/

/-- One persisted pack record.  Optional fields model Python dict keys that
may be absent; exactly one checksum shape is populated by the writer. -/
structure PackEntry where
  list : List String
  file_size_checksum : Option String := none
  file_checksum : Option String := none
  mtime_checksum : Option String := none
deriving DecidableEq

/-- A retained directory record: pack records and child directory records,
both as insertion-ordered association lists. -/
inductive DirMeta where
  | mk (files : List (String × PackEntry)) (children : List (String × DirMeta))

/-- The pack records of a DirMeta. -/
def DirMeta.files : DirMeta → List (String × PackEntry)
  | .mk f _ => f

/-- The child records of a DirMeta. -/
def DirMeta.children : DirMeta → List (String × DirMeta)
  | .mk _ c => c

/-- A JSON scalar as stored in the document checksum object. -/
inductive JVal where
  | jb (b : Bool)
  | js (s : String)
deriving DecidableEq

/-- The top-level persisted document (upload.py lines 332-341). -/
structure Document where
  version : Nat
  meta : DirMeta
  root_name : String
  checksum : List (String × JVal)
  hard_links : List (List String)

/-! ### Upload planner state (upload.py) -/

/-- upload.SyncState: the shared hard-link table. -/
structure SyncState where
  hard_link_map : List ((Nat × Nat) × ByteStr) := []
  hard_link_list : List (ByteStr × ByteStr) := []

/-- upload.SyncWalkResult, with the constructor defaults of an empty
directory. -/
structure SWR where
  total_size : Nat := 0
  total_files : Nat := 1
  total_transfer_size : Nat := 0
  total_transfer_files : Nat := 1
  real_transfer_size : Nat := 0
  real_transfer_files : Nat := 0
  force_retain : Bool := false
  hard_link_map : Option (List ((Nat × Nat) × ByteStr)) := some []
  files_to_tar : Option (List ByteStr) := some []
  files_to_delete : List (String × Bool) := []
  retained_directories : Option (List ByteStr) := none
  metadata : Option DirMeta := none
  first_checksum : Option ByteStr := none
  second_checksum : Option ByteStr := none
  error_count : Nat := 0

/-- SyncWalkResult.set_force_retain. -/
def SWR.set_force_retain (res : SWR) (path : ByteStr) : SWR :=
  if res.force_retain then res
  else { res with
         force_retain := true
         files_to_tar := none
         metadata := some (.mk [] [])
         retained_directories := some [path]
         hard_link_map := none }

/-- Record a pack entry in the walk result metadata (res.metadata is always
present when this runs; the fallback constructs the same empty DirMeta that
set_force_retain would have installed). -/
def SWR.meta_add_file (res : SWR) (k : String) (v : PackEntry) : SWR :=
  { res with metadata := some (match res.metadata with
      | some m => .mk (ainsert k v m.files) m.children
      | none => .mk [(k, v)] []) }

/-- Remove a pack entry from the walk result metadata (failed upload). -/
def SWR.meta_remove_file (res : SWR) (k : String) : SWR :=
  { res with metadata := (res.metadata).map fun m => .mk (aremove k m.files) m.children }

/-- Record a child directory record in the walk result metadata. -/
def SWR.meta_add_child (res : SWR) (k : String) (v : DirMeta) : SWR :=
  { res with metadata := some (match res.metadata with
      | some m => .mk m.files (ainsert k v m.children)
      | none => .mk [] [(k, v)]) }

/-- upload_walk.remote_del: defer the deletion when delete_after_upload is
set, otherwise delete immediately and count a failure. -/
def remote_del (conf : UploadConfig) (remote_path : String) (res : SWR)
    (name : String) (is_dir : Bool) : SWR :=
  let del_path := pjoin remote_path name
  if conf.delete_after_upload then
    { res with files_to_delete := res.files_to_delete ++ [(del_path, is_dir)] }
  else if conf.t_delete del_path is_dir then res
  else { res with error_count := res.error_count + 1 }

/-- upload_walk.update_hardlink_map: append an equivalence when the global
table already holds the inode, otherwise record the path in the local map. -/
def upd_hlm (state : SyncState) (key : Nat × Nat) (fpath : ByteStr)
    (newh : List ((Nat × Nat) × ByteStr)) :
    SyncState × List ((Nat × Nat) × ByteStr) :=
  match alookup key state.hard_link_map with
  | some old => ({ state with hard_link_list := state.hard_link_list ++ [(old, fpath)] }, newh)
  | none => (state, ainsert key fpath newh)

/-- Fold upd_hlm over a map of hard-link candidates, then merge the local
map into the global table (the keep and pack-emission paths both do this). -/
def upd_hlm_all (state : SyncState) (items : List ((Nat × Nat) × ByteStr)) : SyncState :=
  let p := items.foldl (fun (p : SyncState × List ((Nat × Nat) × ByteStr)) kv =>
      upd_hlm p.1 kv.1 kv.2 p.2) (state, [])
  { p.1 with hard_link_map := aupdate p.1.hard_link_map p.2 }

/-- Add to a Python set realised as a list. -/
def saddStr (s : List String) (x : String) : List String :=
  if s.contains x then s else s ++ [x]

/-- Accumulator of the metadata-reuse phase of upload_walk. -/
structure WalkAcc where
  child_list : List ByteStr
  res : SWR
  state : SyncState
  remote_names : List String

/-- The decoded member list of a stored pack record. -/
def pack_members (rf : PackEntry) : List ByteStr := rf.list.map decode_child

/-- The walk list of a stored pack record over the present children. -/
def pack_walk_list (cs : FSChildren) (rf : PackEntry) : List (ByteStr × FSNode) :=
  (pack_members rf).filterMap fun f => (cs.lookup f).map fun nd => (f, nd)

/-- The keep decision of the metadata-reuse pass (upload.py lines 124-140):
every stored member still exists and the recomputed checksums match the
stored ones. -/
def keep_cond (conf : UploadConfig) (cs : FSChildren) (path : ByteStr)
    (rf : PackEntry) : Bool :=
  ((pack_members rf).all fun f => (cs.lookup f).isSome) &&
  (if conf.use_file_checksum then
    rf.file_size_checksum.isSome && rf.file_checksum.isSome &&
    rf.file_size_checksum ==
      some (checksum_walk (pack_walk_list cs rf) path conf.toSyncConfig false).1 &&
    rf.file_checksum ==
      some (checksum_walk (pack_walk_list cs rf) path conf.toSyncConfig true).1
  else
    rf.mtime_checksum ==
      some (checksum_walk (pack_walk_list cs rf) path conf.toSyncConfig false).1)

/-- The keep branch of the metadata-reuse pass (upload.py lines 141-152). -/
def reuse_keep (conf : UploadConfig) (cs : FSChildren) (path : ByteStr)
    (acc : WalkAcc) (filename : String) (remote_file : PackEntry) : WalkAcc :=
  let walk_res := (checksum_walk (pack_walk_list cs remote_file) path
    conf.toSyncConfig false).2
  let res := (acc.res.set_force_retain path).meta_add_file filename remote_file
  let res := { res with
               total_size := res.total_size + walk_res.total_size
               total_files := res.total_files + walk_res.total_files }
  { child_list := acc.child_list.filter fun c => !((pack_members remote_file).contains c)
    res := res
    state := upd_hlm_all acc.state walk_res.hard_link_map
    remote_names := saddStr acc.remote_names filename }

/-- The delete branch of the metadata-reuse pass (upload.py lines 153-158). -/
def reuse_del (conf : UploadConfig) (remote_path : String) (acc : WalkAcc)
    (filename : String) : WalkAcc :=
  { acc with
    res := remote_del conf remote_path acc.res filename false
    remote_names := if conf.delete_after_upload then saddStr acc.remote_names filename
                    else acc.remote_names }

/-- One step of the metadata-reuse pass (upload.py lines 119-158): verify a
stored pack against the present children and either keep it or schedule its
deletion. -/
def reuse_one (conf : UploadConfig) (cs : FSChildren) (path : ByteStr)
    (remote_path : String) (acc : WalkAcc) (filename : String)
    (remote_file : PackEntry) : WalkAcc :=
  if keep_cond conf cs path remote_file then
    reuse_keep conf cs path acc filename remote_file
  else
    reuse_del conf remote_path acc filename

/-- The metadata-reuse pass over every stored pack record, in storage order. -/
def reuse_pass (conf : UploadConfig) (cs : FSChildren) (path : ByteStr)
    (remote_path : String) (files : List (String × PackEntry)) (acc : WalkAcc) : WalkAcc :=
  files.foldl (fun a kv => reuse_one conf cs path remote_path a kv.1 kv.2) acc

/-- The stale-child-directory deletion pass (upload.py lines 160-163). -/
def children_del_pass (conf : UploadConfig) (cs : FSChildren)
    (remote_path : String) (children : List (String × DirMeta)) (acc : WalkAcc) : WalkAcc :=
  children.foldl (fun a kv =>
    let nm := decode_child kv.1
    let stale := if a.child_list.contains nm then
        match cs.lookup nm with
        | some nd => !S_ISDIR nd.stat.st_mode
        | none => true
      else true
    if stale then { a with res := remote_del conf remote_path a.res kv.1 true } else a) acc

/-- Accumulator of the child-recursion phase of upload_walk. -/
structure RecAcc where
  res : SWR
  state : SyncState
  drm : List (ByteStr × SWR)
  size_map : List (ByteStr × Nat)

/-- upload_walk.multifile_checksum: feed the per-child digests of already
sorted names into a hash object (directories contribute their folded
first or second checksum, files their one_file_checksum). -/
def multifile_checksum (cs : FSChildren) (path : ByteStr) (conf : UploadConfig)
    (drm : List (ByteStr × SWR)) (names : List ByteStr) (second_pass : Bool)
    (h0 : ByteStr) : ByteStr :=
  names.foldl (fun h ch =>
    match cs.lookup ch with
    | some nd =>
        if S_ISDIR nd.stat.st_mode then
          match alookup ch drm with
          | some cr =>
              if second_pass && conf.use_file_checksum then h ++ cr.second_checksum.getD []
              else h ++ cr.first_checksum.getD []
          | none => h
        else h ++ one_file_checksum ch nd conf.toSyncConfig second_pass
    | none => h) h0

/-- Lexicographic Bool order on a natural sort key with raw-name tie-break. -/
def natKeyLe (key : ByteStr → Nat) (a b : ByteStr) : Bool :=
  if key a < key b then true else if key b < key a then false else bytesLe a b

/-- Lexicographic Bool order on an integer sort key with raw-name tie-break. -/
def intKeyLe (key : ByteStr → Int) (a b : ByteStr) : Bool :=
  if key a < key b then true else if key b < key a then false else bytesLe a b

/-- The grouping-order sort of upload_walk (lines 240-247): size, mtime and
ctime are implemented; any other configured value raises NotImplementedError. -/
def group_sort (conf : UploadConfig) (cs : FSChildren)
    (size_map : List (ByteStr × Nat)) : Except Unit (List ByteStr) :=
  let keys := size_map.map (·.1)
  if conf.grouping_order = "size" then
    .ok (isort (natKeyLe fun x => (alookup x size_map).getD 0) keys)
  else if conf.grouping_order = "mtime" then
    .ok (isort (intKeyLe fun x => ((cs.lookup x).map fun nd => nd.stat.st_mtime_ns).getD 0) keys)
  else if conf.grouping_order = "ctime" then
    .ok (isort (intKeyLe fun x => ((cs.lookup x).map fun nd => nd.stat.st_ctime_ns).getD 0) keys)
  else .error ()

/-- The find-an-available-filename loop (upload.py lines 258-262), with
enough fuel to cover every possible collision with the reserved-name set. -/
def alloc_go (pfx sfx : String) (names : List String) : Nat → Nat → String × Nat
  | 0, idx => (packName pfx idx sfx, idx)
  | fuel + 1, idx =>
      let nm := packName pfx idx sfx
      if names.contains nm then alloc_go pfx sfx names fuel (idx + 1) else (nm, idx)

/-- Allocate the next pack name not present in the reserved-name set. -/
def alloc_name (conf : UploadConfig) (names : List String) (idx : Nat) : String × Nat :=
  alloc_go conf.reserved_pfx conf.compression_suffix names (names.length + 1) idx

/-- Expand one closed group into the concrete upload list and collect
hard-link candidates (upload.py lines 272-287). -/
def expand_group (conf : UploadConfig) (cs : FSChildren) (path : ByteStr)
    (drm : List (ByteStr × SWR)) (g : List ByteStr) (state : SyncState) :
    List ByteStr × SyncState :=
  let step := fun (acc : List ByteStr × SyncState × List ((Nat × Nat) × ByteStr)) (f : ByteStr) =>
    match cs.lookup f with
    | some nd =>
        if S_ISDIR nd.stat.st_mode then
          match alookup f drm with
          | some fr =>
              let p := fr.hard_link_map.getD [] |>.foldl
                (fun (p : SyncState × List ((Nat × Nat) × ByteStr)) kv => upd_hlm p.1 kv.1 kv.2 p.2)
                (acc.2.1, acc.2.2)
              (acc.1 ++ fr.files_to_tar.getD [], p.1, p.2)
          | none => acc
        else
          let st := nd.stat
          let fp := bjoin path f
          if st.st_nlink > 1 then
            let p := upd_hlm acc.2.1 (st.st_dev, st.st_ino) fp acc.2.2
            (acc.1 ++ [fp], p.1, p.2)
          else (acc.1 ++ [fp], acc.2.1, acc.2.2)
    | none => acc
  let r := g.foldl step ([], state, [])
  (r.1, { r.2.1 with hard_link_map := aupdate r.2.1.hard_link_map r.2.2 })

/-- The pack-emission loop of upload_walk (lines 249-309): walk the sorted
disposition list accumulating a running group size, close a group when it
exceeds the merge threshold or at the end of the list, and for each closed
group allocate a name, record the pack entry, expand and upload the group,
dropping the entry again if the transport fails. -/
def emission_loop (conf : UploadConfig) (cs : FSChildren) (path : ByteStr)
    (remote_path : String) (drm : List (ByteStr × SWR))
    (size_map : List (ByteStr × Nat)) (remote_names : List String) :
    List ByteStr → Nat → List ByteStr → Nat → SWR → SyncState → SWR × SyncState
  | [], _, _, _, res, state => (res, state)
  | child :: rest, group_size, current_group, file_idx, res, state =>
      let group_size := group_size + (alookup child size_map).getD 0
      let current_group := current_group ++ [child]
      if group_size > conf.merge_threshold || rest.isEmpty then
        let g := isort bytesLe current_group
        let alloc := alloc_name conf remote_names file_idx
        let upload_name := alloc.1
        let hx1 := hexStr (conf.hashF (multifile_checksum cs path conf drm g false []))
        let meta_item : PackEntry :=
          if conf.use_file_checksum then
            { list := g.map encode_child
              file_size_checksum := some hx1
              file_checksum := some
                (hexStr (conf.hashF (multifile_checksum cs path conf drm g true []))) }
          else
            { list := g.map encode_child
              mtime_checksum := some hx1 }
        let res := res.meta_add_file upload_name meta_item
        let ex := expand_group conf cs path drm g state
        let state := ex.2
        let rel := isort bytesLe (ex.1.map (relpath path))
        let remote_name := pjoin remote_path upload_name
        let nbytes := conf.t_upload path rel remote_name
        let res :=
          if nbytes < 0 then
            { res.meta_remove_file upload_name with error_count := res.error_count + 1 }
          else
            { res with
              real_transfer_size := res.real_transfer_size + nbytes.toNat
              real_transfer_files := res.real_transfer_files + 1 }
        emission_loop conf cs path remote_path drm size_map remote_names
          rest 0 [] (alloc.2 + 1) res state
      else
        emission_loop conf cs path remote_path drm size_map remote_names
          rest group_size current_group file_idx res state

mutual
/-- upload.upload_walk.  Returns none when the directory cannot be listed
(the node is not a directory); raises (Except.error) when the configured
grouping order is unimplemented, exactly as the Python raises
NotImplementedError.  The SyncState is threaded explicitly. -/
def upload_walk (node : FSNode) (path : ByteStr) (remote_path : String)
    (metadata : Option DirMeta) (conf : UploadConfig) (state : SyncState)
    (is_root : Bool) : Except Unit (Option SWR × SyncState) :=
  match node with
  | .file _ _ => .ok (none, state)
  | .dir st cs => do
      let acc0 : WalkAcc := ⟨cs.names, {}, state, []⟩
      let acc1 := match metadata with
        | some m =>
            children_del_pass conf cs remote_path m.children
              (reuse_pass conf cs path remote_path m.files acc0)
        | none => acc0
      let racc ← walk_children cs acc1.child_list metadata path remote_path conf
        ⟨acc1.res, acc1.state, [], []⟩
      let res := racc.res
      if !is_root && !res.force_retain &&
          res.total_size + res.total_files * conf.file_base_bytes ≤ conf.merge_threshold then
        let tar := (res.files_to_tar.getD []) ++ [path] ++
          (racc.size_map.map fun kv => bjoin path kv.1) ++
          (racc.drm.map fun kv => kv.2.files_to_tar.getD []).flatten
        let hlm := racc.drm.foldl (fun m kv => aupdate m (kv.2.hard_link_map.getD []))
          (res.hard_link_map.getD [])
        let first_hash := init_file_checksum (basename path) st conf.toSyncConfig
        let sorted_cl := isort bytesLe acc1.child_list
        let snd_digest := conf.hashF (multifile_checksum cs path conf racc.drm sorted_cl true first_hash)
        let fst_digest := conf.hashF (multifile_checksum cs path conf racc.drm sorted_cl false first_hash)
        let res := if conf.use_file_checksum then
            { res with second_checksum := some snd_digest }
          else res
        let res := { res with first_checksum := some fst_digest }
        let hlm := acc1.child_list.foldl (fun m ch =>
            match cs.lookup ch with
            | some nd =>
                let cst := nd.stat
                if !S_ISDIR cst.st_mode && cst.st_nlink > 1 then
                  ainsert (cst.st_dev, cst.st_ino) (bjoin path ch) m
                else m
            | none => m) hlm
        .ok (some { res with files_to_tar := some tar, hard_link_map := some hlm }, racc.state)
      else do
        let res := res.set_force_retain path
        let group_list ← group_sort conf cs racc.size_map
        let fin := emission_loop conf cs path remote_path racc.drm racc.size_map
          acc1.remote_names group_list 0 [] 0 res racc.state
        .ok (some fin.1, fin.2)

/-- The child-recursion loop of upload_walk (lines 166-195), iterating the
directory listing restricted to the children still needing disposition. -/
def walk_children (cs : FSChildren) (child_list : List ByteStr)
    (metadata : Option DirMeta) (path : ByteStr) (remote_path : String)
    (conf : UploadConfig) (acc : RecAcc) : Except Unit RecAcc :=
  match cs with
  | .nil => .ok acc
  | .cons child node rest =>
      if child_list.contains child then do
        let cst := node.stat
        if S_ISDIR cst.st_mode then
          let meta_child := metadata.bind fun m => alookup (encode_child child) m.children
          let w ← upload_walk node (bjoin path child)
            (pjoin remote_path (encode_child child)) meta_child conf acc.state false
          match w.1 with
          | none =>
              walk_children rest child_list metadata path remote_path conf
                { acc with state := w.2 }
          | some cr =>
              let res := acc.res
              let res := if cr.force_retain then
                  let res := res.set_force_retain path
                  let rd := (res.retained_directories.getD []) ++ (cr.retained_directories.getD [])
                  let res := { res with retained_directories := some rd }
                  let res := res.meta_add_child (encode_child child) (cr.metadata.getD (.mk [] []))
                  { res with
                    real_transfer_size := res.real_transfer_size + cr.real_transfer_size
                    real_transfer_files := res.real_transfer_files + cr.real_transfer_files }
                else res
              let size_map := if cr.force_retain then acc.size_map
                else ainsert child (cr.total_size + cr.total_files * conf.file_base_bytes) acc.size_map
              let res := { res with
                total_size := res.total_size + cr.total_size
                total_files := res.total_files + cr.total_files
                total_transfer_size := res.total_transfer_size + cr.total_transfer_size
                total_transfer_files := res.total_transfer_files + cr.total_transfer_files
                files_to_delete := res.files_to_delete ++ cr.files_to_delete
                error_count := res.error_count + cr.error_count }
              walk_children rest child_list metadata path remote_path conf
                { res := res, state := w.2, drm := ainsert child cr acc.drm, size_map := size_map }
        else
          let res := acc.res
          let res := { res with
            total_size := res.total_size + cst.st_size
            total_files := res.total_files + 1
            total_transfer_size := res.total_transfer_size + cst.st_size
            total_transfer_files := res.total_transfer_files + 1 }
          walk_children rest child_list metadata path remote_path conf
            { acc with
              res := res
              size_map := ainsert child (cst.st_size + conf.file_base_bytes) acc.size_map }
      else
        walk_children rest child_list metadata path remote_path conf acc
end

/-- Modelled from the spec: the external disjoint-set library used by the
upload driver (disjoint_set.DisjointSet).  Union the two paths of every
recorded pair; itersets yields the resulting components. -/
def ufUnion (gs : List (List ByteStr)) (x y : ByteStr) : List (List ByteStr) :=
  match gs.findIdx? (fun g => g.contains x), gs.findIdx? (fun g => g.contains y) with
  | none, none => gs ++ [[x, y]]
  | some i, none => gs.map fun g => if g.contains x then g ++ [y] else g
  | none, some j => gs.map fun g => if g.contains y then g ++ [x] else g
  | some i, some j =>
      if i = j then gs
      else
        let gi := gs.getD i []
        let gj := gs.getD j []
        (gs.eraseIdx j).map fun g => if g.contains x then gi ++ gj else g

/-- Modelled from the spec: all union-find components of the accumulated
hard-link equivalences. -/
def ufGroups (pairs : List (ByteStr × ByteStr)) : List (List ByteStr) :=
  pairs.foldl (fun gs p => ufUnion gs p.1 p.2) []

/-- The checksum object upload writes into the document (upload.py lines
335-339): it records exactly these three fields. -/
def upload_checksum_obj (conf : UploadConfig) : List (String × JVal) :=
  [("use_file_checksum", .jb conf.use_file_checksum),
   ("use_directory_mtime", .jb conf.use_directory_mtime),
   ("hash_function", .js conf.hash_name)]

/-- upload.upload: drive the walk from the root, execute deferred deletes,
upload the retained-directory skeleton pack, canonicalise hard links and
assemble the Document (lines 314-342). -/
def upload (node : FSNode) (path : ByteStr) (remote_path : String)
    (doc : Option Document) (conf : UploadConfig) :
    Except Unit (Option (SWR × Document)) := do
  let w ← upload_walk node path remote_path (doc.map (·.meta)) conf {} true
  match w.1 with
  | none => .ok none
  | some res =>
      let res := res.files_to_delete.foldl
        (fun (r : SWR) fd => if conf.t_delete fd.1 fd.2 then r
          else { r with error_count := r.error_count + 1 }) res
      let root_name := conf.reserved_pfx ++ "ROOT.tar" ++ conf.compression_suffix
      let nbytes := conf.t_upload path (isort bytesLe (res.retained_directories.getD []))
        (pjoin remote_path root_name)
      let res := if 0 ≤ nbytes then
          { res with
            real_transfer_size := res.real_transfer_size + nbytes.toNat
            real_transfer_files := res.real_transfer_files + 1 }
        else res
      let out : Document :=
        { version := conf.metadata_version
          meta := (res.metadata).getD (.mk [] [])
          root_name := root_name
          checksum := upload_checksum_obj conf
          hard_links := (ufGroups w.2.hard_link_list).map fun g =>
            g.map fun j => encode_child (relpath path j) }
      .ok (some (res, out))

/-! ### Decomposition of upload_walk on directories

These definitions name the successive phases of the directory branch of
upload_walk verbatim, so that upload_walk on a directory is definitionally
the composition walk_children followed by walk_finish starting from the
accumulator walk_acc1 produces.
-/

/-- The projection of a walk result onto the fields the child-recursion
loop leaves untouched when no child is promoted. -/
def swrCore (r : SWR) :
    Bool × Option DirMeta × Option (List ByteStr) ×
    Option (List ((Nat × Nat) × ByteStr)) × Option ByteStr × Option ByteStr ×
    Nat × Nat × Option (List ByteStr) :=
  (r.force_retain, r.metadata, r.files_to_tar, r.hard_link_map,
   r.first_checksum, r.second_checksum, r.real_transfer_size,
   r.real_transfer_files, r.retained_directories)

/-- The accumulator entering the child recursion: the metadata-reuse and
stale-children passes applied to the initial accumulator. -/
def walk_acc1 (cs : FSChildren) (path : ByteStr) (rp : String)
    (md : Option DirMeta) (conf : UploadConfig) (state : SyncState) : WalkAcc :=
  let acc0 : WalkAcc := ⟨cs.names, {}, state, []⟩
  match md with
  | some m => children_del_pass conf cs rp m.children (reuse_pass conf cs path rp m.files acc0)
  | none => acc0

/-- The folded walk result of the no-retain branch of upload_walk (lines
217-237 of upload.py). -/
def fold_swr (st : StatRes) (cs : FSChildren) (path : ByteStr)
    (conf : UploadConfig) (acc1 : WalkAcc) (racc : RecAcc) : SWR :=
  let res := racc.res
  let tar := (res.files_to_tar.getD []) ++ [path] ++
    (racc.size_map.map fun kv => bjoin path kv.1) ++
    (racc.drm.map fun kv => kv.2.files_to_tar.getD []).flatten
  let hlm := racc.drm.foldl (fun m kv => aupdate m (kv.2.hard_link_map.getD []))
    (res.hard_link_map.getD [])
  let first_hash := init_file_checksum (basename path) st conf.toSyncConfig
  let sorted_cl := isort bytesLe acc1.child_list
  let snd_digest := conf.hashF (multifile_checksum cs path conf racc.drm sorted_cl true first_hash)
  let fst_digest := conf.hashF (multifile_checksum cs path conf racc.drm sorted_cl false first_hash)
  let res := if conf.use_file_checksum then
      { res with second_checksum := some snd_digest }
    else res
  let res := { res with first_checksum := some fst_digest }
  let hlm := acc1.child_list.foldl (fun m ch =>
      match cs.lookup ch with
      | some nd =>
          let cst := nd.stat
          if !S_ISDIR cst.st_mode && cst.st_nlink > 1 then
            ainsert (cst.st_dev, cst.st_ino) (bjoin path ch) m
          else m
      | none => m) hlm
  { res with files_to_tar := some tar, hard_link_map := some hlm }

/-- The continuation of upload_walk after the child recursion: either fold
the directory or retain it and emit packs. -/
def walk_finish (st : StatRes) (cs : FSChildren) (path : ByteStr) (rp : String)
    (conf : UploadConfig) (is_root : Bool) (acc1 : WalkAcc) (racc : RecAcc) :
    Except Unit (Option SWR × SyncState) :=
  let res := racc.res
  if !is_root && !res.force_retain &&
      res.total_size + res.total_files * conf.file_base_bytes ≤ conf.merge_threshold then
    .ok (some (fold_swr st cs path conf acc1 racc), racc.state)
  else do
    let res := res.set_force_retain path
    let group_list ← group_sort conf cs racc.size_map
    let fin := emission_loop conf cs path rp racc.drm racc.size_map
      acc1.remote_names group_list 0 [] 0 res racc.state
    .ok (some fin.1, fin.2)

/-! ### Transport chunk-size selection (rclone.py lines 38-46) -/

/-- The s3-chunk-size value (in KiB) rclone_upload passes to the transport
command, if any, as a function of the expected-size hint. -/
def s3_chunk_size_arg (s3_min_chunk_size_kib : Nat) (suggested_size : Nat) : Option Nat :=
  if suggested_size > 6000 * s3_min_chunk_size_kib * 1024 then
    some (max s3_min_chunk_size_kib (suggested_size / (6000 * 1024) + 1))
  else if s3_min_chunk_size_kib > 5 * 1024 then
    some s3_min_chunk_size_kib
  else none

/-! ### Metadata store (metadata.py)

The gzip layer and the JSON codec are standard-library collaborators,
modelled as abstract partial decoders; rclone_download_raw and the local
filesystem read are oracles.  A gzip failure raises in both branches; a
JSON decode failure is caught only in the remote branch; a missing object
or file yields absent in both branches.
-/

/-- Substring test on character lists (the Python in operator on str). -/
def hasSub (pat : List Char) : List Char → Bool
  | [] => pat.isEmpty
  | c :: rest => pat.isPrefixOf (c :: rest) || hasSub pat rest

/-- metadata.metadata_path: location policy (is_remote, path). -/
def metadata_path (remote_path : String) (conf : SyncConfig) : Bool × String :=
  match conf.metadata_path with
  | none => (true, pjoin remote_path (conf.reserved_pfx ++ "META.json.gz"))
  | some p =>
      (p.data.contains ':' &&
        !(hasSub (":\\".data) p.data) && !(hasSub (":/".data) p.data), p)

/-- metadata.load_metadata.  remote_get models rclone_download_raw (absent
on transport failure), fs_read models open() (absent for FileNotFoundError),
gunzip models GzipFile reading, json_parse models json.load.  The result is
Except.error where the Python function lets an exception escape. -/
def load_metadata (remote_get : String → Option (List Nat))
    (fs_read : String → Option (List Nat))
    (gunzip : List Nat → Option (List Nat))
    (json_parse : List Nat → Option Document)
    (remote_path : String) (conf : SyncConfig) : Except Unit (Option Document) :=
  let mp := metadata_path remote_path conf
  if mp.1 then
    match remote_get mp.2 with
    | none => .ok none
    | some data =>
        match gunzip data with
        | none => .error ()
        | some plain =>
            match json_parse plain with
            | some d => .ok (some d)
            | none => .ok none
  else
    match fs_read mp.2 with
    | none => .ok none
    | some data =>
        match gunzip data with
        | none => .error ()
        | some plain =>
            match json_parse plain with
            | some d => .ok (some d)
            | none => .error ()

/-! ### CLI boundary (cli.py) -/

/-- cli.upload_func grouping-order validation (line 154): the values the
command line accepts. -/
def cli_grouping_orders : List String := ["size", "mtime", "ctime", "name"]

/-- The exit code computed at the end of cli.upload_func (lines 179-181):
sys.exit(1) exactly when the aggregated error count is positive.  The
ignore_errors flag is stored on the configuration (line 122) but never
consulted by any code path, so it is an argument that the computation does
not read. -/
def upload_exit_code (ignore_errors : Bool) (error_count : Nat) : Nat :=
  if error_count > 0 then 1 else 0

/-- The exit code computed at the end of cli.download_func (lines 196-198),
identical in shape. -/
def download_exit_code (ignore_errors : Bool) (error_count : Nat) : Nat :=
  if error_count > 0 then 1 else 0

/-! ### Download-side checksum configuration (download.py lines 49-53) -/

/-- The result of configuring a DownloadConfig from a document checksum
object: the four flags download() copies out of the mapping.  Absence of a
key is a Python KeyError, modelled as Except.error.  set_hash_function
itself (line 53) stores the named algorithm; its availability check is not
modelled since every name written by upload is an available algorithm. -/
structure DlChecksumConf where
  use_file_checksum : Bool
  use_directory_mtime : Bool
  use_owner : Bool
  hash_function : String
deriving DecidableEq

/-- Read a boolean out of the checksum mapping (documents written by this
program store booleans under the flag keys). -/
def jGetBool (m : List (String × JVal)) (k : String) : Except Unit Bool :=
  match alookup k m with
  | some (.jb b) => .ok b
  | some (.js _) => .ok false
  | none => .error ()

/-- Read a string out of the checksum mapping. -/
def jGetStr (m : List (String × JVal)) (k : String) : Except Unit String :=
  match alookup k m with
  | some (.js s) => .ok s
  | some (.jb _) => .ok ""
  | none => .error ()

/-- download.download lines 49-53: configure the checksum engine from the
checksum object of the loaded document, reading the four recorded fields. -/
def download_configure (m : List (String × JVal)) : Except Unit DlChecksumConf := do
  let ufc ← jGetBool m "use_file_checksum"
  let udm ← jGetBool m "use_directory_mtime"
  let uo ← jGetBool m "use_owner"
  let hf ← jGetStr m "hash_function"
  .ok ⟨ufc, udm, uo, hf⟩

/-! ### Spec-side file digest (spec §4.A, claim C5)

A second definition written from the words of the specification, for
comparison against the implementation: after hashing header, name and
mode, the digest of that state is fed into a fresh hash state before the
stat fields are appended, and the digest of that fresh state is returned.
-/

/-- The file digest as the specification words it (wrapping the inner
digest), in stat mode. -/
def spec_file_digest (name : ByteStr) (st : StatRes) (conf : SyncConfig) : ByteStr :=
  let inner := conf.hashF (conf.head_bytes ++ name ++ toLE st.st_mode 4)
  let h := inner ++ toLE st.st_size 16 ++ sToLE st.st_mtime_ns 16
  let h := h ++ (if conf.use_owner then toLE st.st_uid 4 ++ toLE st.st_gid 4 else [])
  conf.hashF h

/-! ## Concrete fixtures used by witnesses and counterexamples -/

/-- A concrete digest function for concrete evaluations: the input length
modulo 256 (one byte, so digests are valid byte strings). -/
def exHash : List Nat → List Nat := fun l => [l.length % 256]

/-- A concrete upload configuration whose transport always succeeds. -/
def exConf : UploadConfig :=
  { hashF := exHash, t_upload := fun _ _ _ => 0, t_delete := fun _ _ => true }

/-- Stat of a small regular file (mode 0o100644). -/
def exStF : StatRes := ⟨33188, 5, 1000, 2000, 0, 0, 1, 10, 1⟩

/-- Stat of a directory (mode 0o40755). -/
def exStD : StatRes := ⟨16877, 0, 1000, 2000, 0, 0, 1, 11, 1⟩

/-- A tree with a single small regular file named a. -/
def exTree1 : FSNode := .dir exStD (.cons [97] (.file exStF [104, 105]) .nil)

/-- First upload of the one-file tree with no previous metadata. -/
def exRun1 : Except Unit (Option (SWR × Document)) := upload exTree1 [114] "rem" none exConf

/-- The walk result and document of that run. -/
def exPair1 : SWR × Document :=
  (exRun1.toOption.bind id).getD ({}, ⟨0, .mk [] [], "", [], []⟩)

/-- The document the first run wrote. -/
def exDoc1 : Document := exPair1.2

/-- The upload configuration selecting the name grouping order. -/
def exConfName : UploadConfig :=
  { hashF := exHash, t_upload := fun _ _ _ => 0, t_delete := fun _ _ => true,
    grouping_order := "name" }

/-- An empty directory tree. -/
def exEmptyDir : FSNode := .dir exStD .nil

/-- A configuration with an explicitly configured local metadata path
(no colon, so the location is treated as local). -/
def exConfLocalMeta : SyncConfig := { hashF := exHash, metadata_path := some "meta.gz" }

/-- A configuration using the default remote metadata location. -/
def exConfRemoteMeta : SyncConfig := { hashF := exHash }

/-- Stat of a regular file with zero size and timestamps. -/
def exStReg : StatRes := ⟨33188, 0, 0, 0, 0, 0, 1, 12, 1⟩

/-- That file as a tree node. -/
def exFileNode : FSNode := .file exStReg []

/-- A concrete checksum configuration with the one-byte length digest. -/
def exSyncConf : SyncConfig := { hashF := exHash }

/-- The pack records held in a walk result (empty when no metadata yet). -/
def metaFiles (r : SWR) : List (String × PackEntry) :=
  match r.metadata with
  | some m => m.files
  | none => []

/-- The child directory records held in a walk result. -/
def metaChildren (r : SWR) : List (String × DirMeta) :=
  match r.metadata with
  | some m => m.children
  | none => []

/-- Lexicographic-by-code-point comparison of character lists, following
the spec notion of string order (Python string comparison). -/
def charsLe : List Char → List Char → Bool
  | [], _ => true
  | _ :: _, [] => false
  | a :: as, b :: bs =>
      if a.toNat < b.toNat then true
      else if b.toNat < a.toNat then false
      else charsLe as bs

/-- Spec-side string order. -/
def strLe (a b : String) : Bool := charsLe a.data b.data

/-- Spec-side sortedness of a string sequence. -/
def strSorted : List String → Bool
  | [] => true
  | [_] => true
  | a :: b :: t => strLe a b && strSorted (b :: t)

/-- A two-file directory whose raw names sort as 97 before 255, while the
base32 encodings of those names compare the other way as strings. -/
def exTreeC9 : FSNode :=
  .dir exStD (.cons [97] (.file exStF [104]) (.cons [255] (.file exStF [104]) .nil))

/-- The pack entry the emission loop records for a closed (already sorted)
group (upload.py lines 263-270). -/
def emit_item (conf : UploadConfig) (cs : FSChildren) (path : ByteStr)
    (drm : List (ByteStr × SWR)) (g : List ByteStr) : PackEntry :=
  if conf.use_file_checksum then
    { list := g.map encode_child
      file_size_checksum :=
        some (hexStr (conf.hashF (multifile_checksum cs path conf drm g false [])))
      file_checksum :=
        some (hexStr (conf.hashF (multifile_checksum cs path conf drm g true []))) }
  else
    { list := g.map encode_child
      mtime_checksum :=
        some (hexStr (conf.hashF (multifile_checksum cs path conf drm g false []))) }

/-- The walk result after one closed group is recorded, uploaded, and on
failure dropped again (upload.py lines 272-309). -/
def emit_res (conf : UploadConfig) (cs : FSChildren) (path : ByteStr) (rp : String)
    (drm : List (ByteStr × SWR)) (g : List ByteStr) (uname : String)
    (res : SWR) (st : SyncState) : SWR :=
  let res1 := res.meta_add_file uname (emit_item conf cs path drm g)
  let nbytes := conf.t_upload path
    (isort bytesLe ((expand_group conf cs path drm g st).1.map (relpath path)))
    (pjoin rp uname)
  if nbytes < 0 then
    { res1.meta_remove_file uname with error_count := res1.error_count + 1 }
  else
    { res1 with
      real_transfer_size := res1.real_transfer_size + nbytes.toNat
      real_transfer_files := res1.real_transfer_files + 1 }

/-- One member step of expand_group (upload.py lines 275-286), named so the
fold can be reasoned about stepwise. -/
def eg_step (conf : UploadConfig) (cs : FSChildren) (path : ByteStr)
    (drm : List (ByteStr × SWR))
    (acc : List ByteStr × SyncState × List ((Nat × Nat) × ByteStr)) (f : ByteStr) :
    List ByteStr × SyncState × List ((Nat × Nat) × ByteStr) :=
  match cs.lookup f with
  | some nd =>
      if S_ISDIR nd.stat.st_mode then
        match alookup f drm with
        | some fr =>
            let p := fr.hard_link_map.getD [] |>.foldl
              (fun (p : SyncState × List ((Nat × Nat) × ByteStr)) kv => upd_hlm p.1 kv.1 kv.2 p.2)
              (acc.2.1, acc.2.2)
            (acc.1 ++ fr.files_to_tar.getD [], p.1, p.2)
        | none => acc
      else
        let st := nd.stat
        let fp := bjoin path f
        if st.st_nlink > 1 then
          let p := upd_hlm acc.2.1 (st.st_dev, st.st_ino) fp acc.2.2
          (acc.1 ++ [fp], p.1, p.2)
        else (acc.1 ++ [fp], acc.2.1, acc.2.2)
  | none => acc

/-- A child name contained in no stored pack record of a file map. -/
def uncovered (files : List (String × PackEntry)) (ch : ByteStr) : Bool :=
  !(files.any fun p => (pack_members p.2).contains ch)

/-- The walk result produced by the promoted-child branch of the child
recursion (upload_walk lines 177-195), named for reuse in equations. -/
def promote_res (path : ByteStr) (child : ByteStr) (cr : SWR) (res0 : SWR) : SWR :=
  let res := res0.set_force_retain path
  let rd := (res.retained_directories.getD []) ++ (cr.retained_directories.getD [])
  let res := { res with retained_directories := some rd }
  let res := res.meta_add_child (encode_child child) (cr.metadata.getD (.mk [] []))
  let res := { res with
    real_transfer_size := res.real_transfer_size + cr.real_transfer_size
    real_transfer_files := res.real_transfer_files + cr.real_transfer_files }
  { res with
    total_size := res.total_size + cr.total_size
    total_files := res.total_files + cr.total_files
    total_transfer_size := res.total_transfer_size + cr.total_transfer_size
    total_transfer_files := res.total_transfer_files + cr.total_transfer_files
    files_to_delete := res.files_to_delete ++ cr.files_to_delete
    error_count := res.error_count + cr.error_count }

/-- The continuation of the upload driver after the root walk (upload.py
lines 318-342): execute deferred deletions, upload the retained-directory
skeleton pack and assemble the document. -/
def upload_finish (path : ByteStr) (remote_path : String) (conf : UploadConfig)
    (w : Option SWR × SyncState) : Except Unit (Option (SWR × Document)) :=
  match w.1 with
  | none => .ok none
  | some res =>
      let res := res.files_to_delete.foldl
        (fun (r : SWR) fd => if conf.t_delete fd.1 fd.2 then r
          else { r with error_count := r.error_count + 1 }) res
      let root_name := conf.reserved_pfx ++ "ROOT.tar" ++ conf.compression_suffix
      let nbytes := conf.t_upload path (isort bytesLe (res.retained_directories.getD []))
        (pjoin remote_path root_name)
      let res := if 0 ≤ nbytes then
          { res with
            real_transfer_size := res.real_transfer_size + nbytes.toNat
            real_transfer_files := res.real_transfer_files + 1 }
        else res
      let out : Document :=
        { version := conf.metadata_version
          meta := (res.metadata).getD (.mk [] [])
          root_name := root_name
          checksum := upload_checksum_obj conf
          hard_links := (ufGroups w.2.hard_link_list).map fun g =>
            g.map fun j => encode_child (relpath path j) }
      .ok (some (res, out))

/-- Spec-side characterisation of a directory record held against an
unchanged listing: every stored pack still verifies, the child records are
exactly the children no pack covers, in listing order, and every child
record names a directory whose record satisfies the same property
recursively and is substantial enough to be retained again off the root. -/
inductive GoodM : DirMeta → FSChildren → ByteStr → UploadConfig → Prop where
  | mk : ∀ (m : DirMeta) (cs : FSChildren) (path : ByteStr) (conf : UploadConfig)
      (F : ByteStr → DirMeta) (S : ByteStr → StatRes) (G : ByteStr → FSChildren),
      (m.files.map Prod.fst).Nodup →
      (∀ p ∈ m.files, keep_cond conf cs path p.2 = true) →
      m.children = (cs.names.filter (uncovered m.files)).map
        (fun ch => (encode_child ch, F ch)) →
      (∀ ch ∈ cs.names.filter (uncovered m.files),
        cs.lookup ch = some (.dir (S ch) (G ch))) →
      (∀ ch ∈ cs.names.filter (uncovered m.files),
        GoodM (F ch) (G ch) (bjoin path ch) conf) →
      (∀ ch ∈ cs.names.filter (uncovered m.files),
        (F ch).files ≠ [] ∨ (F ch).children ≠ [] ∨
          conf.merge_threshold < conf.file_base_bytes) →
      GoodM m cs path conf

/-! ## Lemma kit: insertion sort -/

/-- Membership in an insertion. -/
theorem mem_insLe {α : Type} (le : α → α → Bool) (a x : α) (l : List α) :
    x ∈ insLe le a l ↔ x = a ∨ x ∈ l := by
  induction l with
  | nil => simp [insLe]
  | cons b bs ih =>
      by_cases h : le a b = true
      · simp [insLe, h]
      · simp only [insLe, h, if_neg, Bool.not_eq_true, ite_false]
        simp [List.mem_cons, ih]
        tauto

/-- An insertion is a permutation of consing. -/
theorem insLe_perm {α : Type} (le : α → α → Bool) (a : α) (l : List α) :
    (insLe le a l).Perm (a :: l) := by
  induction l with
  | nil => simp [insLe]
  | cons b bs ih =>
      by_cases h : le a b = true
      · simp [insLe, h]
      · simp only [insLe, h, ite_false]
        exact ((ih.cons b).trans (List.Perm.swap a b bs))

/-- Sorting permutes. -/
theorem isort_perm {α : Type} (le : α → α → Bool) (l : List α) :
    (isort le l).Perm l := by
  induction l with
  | nil => simp [isort]
  | cons a as ih => exact (insLe_perm le a (isort le as)).trans (ih.cons a)

/-- Membership is preserved by sorting. -/
theorem mem_isort {α : Type} (le : α → α → Bool) (x : α) (l : List α) :
    x ∈ isort le l ↔ x ∈ l :=
  (isort_perm le l).mem_iff

/-- Sorting preserves distinctness. -/
theorem isort_nodup {α : Type} (le : α → α → Bool) (l : List α) (h : l.Nodup) :
    (isort le l).Nodup :=
  (isort_perm le l).nodup_iff.mpr h

/-- Inserting into a sorted list keeps it sorted, for a transitive total
order. -/
theorem insLe_pairwise {α : Type} (le : α → α → Bool)
    (htot : ∀ a b, le a b = true ∨ le b a = true)
    (htrans : ∀ a b c, le a b = true → le b c = true → le a c = true)
    (a : α) (l : List α)
    (h : l.Pairwise fun x y => le x y = true) :
    (insLe le a l).Pairwise fun x y => le x y = true := by
  induction l with
  | nil => simp [insLe]
  | cons b bs ih =>
      rcases h with _ | ⟨hb, hbs⟩
      by_cases hab : le a b = true
      · simp only [insLe, hab, ite_true]
        refine List.Pairwise.cons ?_ (List.Pairwise.cons hb hbs)
        intro x hx
        rcases List.mem_cons.mp hx with rfl | hx
        · exact hab
        · exact htrans a b x hab (hb x hx)
      · simp only [insLe, hab, ite_false]
        refine List.Pairwise.cons ?_ (ih hbs)
        intro x hx
        rcases (mem_insLe le a x bs).mp hx with rfl | hx
        · exact (htot x b).resolve_left (by simpa using hab)
        · exact hb x hx

/-- The result of isort is sorted, for a transitive total order. -/
theorem isort_pairwise {α : Type} (le : α → α → Bool)
    (htot : ∀ a b, le a b = true ∨ le b a = true)
    (htrans : ∀ a b c, le a b = true → le b c = true → le a c = true)
    (l : List α) :
    (isort le l).Pairwise fun x y => le x y = true := by
  induction l with
  | nil => simp [isort]
  | cons a as ih => exact insLe_pairwise le htot htrans a (isort le as) ih

/-- Sorting a sorted list is the identity. -/
theorem isort_eq_of_pairwise {α : Type} (le : α → α → Bool) (l : List α)
    (h : l.Pairwise fun x y => le x y = true) : isort le l = l := by
  induction l with
  | nil => rfl
  | cons a as ih =>
      rcases h with _ | ⟨ha, has⟩
      have : isort le as = as := ih has
      simp only [isort, this]
      cases as with
      | nil => rfl
      | cons b bs => simp [insLe, ha b (by simp)]

/-! ## Lemma kit: the byte-string order -/

/-- bytesLt is irreflexive. -/
theorem bytesLt_irrefl (a : List Nat) : bytesLt a a = false := by
  induction a with
  | nil => rfl
  | cons x xs ih => simp [bytesLt, ih]

/-- bytesLt is asymmetric. -/
theorem bytesLt_asymm (a b : List Nat) (h : bytesLt a b = true) :
    bytesLt b a = false := by
  induction a generalizing b with
  | nil =>
      cases b with
      | nil => simpa [bytesLt] using h
      | cons y ys => rfl
  | cons x xs ih =>
      cases b with
      | nil => simp [bytesLt] at h
      | cons y ys =>
          simp only [bytesLt] at h ⊢
          by_cases hxy : x < y
          · simp [hxy, Nat.lt_asymm hxy, Nat.ne_of_gt hxy]
          · by_cases hyx : y < x
            · simp [hxy, hyx] at h
            · have hxy' : x = y := Nat.le_antisymm (Nat.le_of_not_lt hyx) (Nat.le_of_not_lt hxy)
              subst hxy'
              rw [if_neg hxy, if_neg hxy] at h
              rw [if_neg hxy, if_neg hxy]
              exact ih ys h

/-- bytesLt is transitive. -/
theorem bytesLt_trans (a b c : List Nat) (hab : bytesLt a b = true)
    (hbc : bytesLt b c = true) : bytesLt a c = true := by
  induction a generalizing b c with
  | nil =>
      cases c with
      | nil =>
          cases b with
          | nil => simpa [bytesLt] using hab
          | cons y ys => simp [bytesLt] at hbc
      | cons z zs => rfl
  | cons x xs ih =>
      cases b with
      | nil => simp [bytesLt] at hab
      | cons y ys =>
          cases c with
          | nil => simp [bytesLt] at hbc
          | cons z zs =>
              simp only [bytesLt] at hab hbc ⊢
              by_cases hxy : x < y
              · by_cases hyz : y < z
                · simp [Nat.lt_trans hxy hyz]
                · by_cases hzy : z < y
                  · simp [hyz, hzy] at hbc
                  · have : y = z := Nat.le_antisymm (Nat.le_of_not_lt hzy) (Nat.le_of_not_lt hyz)
                    subst this
                    simp [hxy]
              · by_cases hyx : y < x
                · simp [hxy, hyx] at hab
                · have : x = y := Nat.le_antisymm (Nat.le_of_not_lt hyx) (Nat.le_of_not_lt hxy)
                  subst this
                  simp only [Nat.lt_irrefl, if_false, ite_self] at hab
                  by_cases hyz : x < z
                  · simp [hyz]
                  · by_cases hzy : z < x
                    · simp [hyz, hzy] at hbc
                    · have : x = z := Nat.le_antisymm (Nat.le_of_not_lt hzy) (Nat.le_of_not_lt hyz)
                      subst this
                      simp only [Nat.lt_irrefl, if_false, ite_self] at hbc ⊢
                      exact ih ys zs hab hbc

/-- bytesLe is total. -/
theorem bytesLe_total (a b : List Nat) :
    bytesLe a b = true ∨ bytesLe b a = true := by
  by_cases h : bytesLt b a = true
  · right
    simp [bytesLe, bytesLt_asymm b a h]
  · left
    simp only [bytesLe, Bool.not_eq_true] at h ⊢
    simp [h]

/-- bytesLt is connex on distinct byte strings. -/
theorem bytesLt_connex (a b : List Nat) (hne : a ≠ b) :
    bytesLt a b = true ∨ bytesLt b a = true := by
  induction a generalizing b with
  | nil =>
      cases b with
      | nil => exact absurd rfl hne
      | cons y ys => left; rfl
  | cons x xs ih =>
      cases b with
      | nil => right; rfl
      | cons y ys =>
          by_cases hxy : x < y
          · left; simp [bytesLt, hxy]
          · by_cases hyx : y < x
            · right; simp [bytesLt, hyx, Nat.lt_asymm hyx]
            · have hx : x = y := Nat.le_antisymm (Nat.le_of_not_lt hyx) (Nat.le_of_not_lt hxy)
              subst hx
              have hne' : xs ≠ ys := by
                intro he; exact hne (by rw [he])
              rcases ih ys hne' with h | h
              · left; simp [bytesLt, h]
              · right; simp [bytesLt, h]

/-- bytesLe is transitive. -/
theorem bytesLe_trans (a b c : List Nat) (hab : bytesLe a b = true)
    (hbc : bytesLe b c = true) : bytesLe a c = true := by
  simp only [bytesLe, Bool.not_eq_true'] at hab hbc ⊢
  by_contra hca
  simp only [Bool.not_eq_false] at hca
  by_cases he : a = b
  · subst he
    rw [hca] at hbc
    cases hbc
  · rcases bytesLt_connex a b he with h | h
    · have := bytesLt_trans c a b hca h
      rw [this] at hbc
      cases hbc
    · rw [h] at hab
      cases hab

/-- bytesLe is antisymmetric. -/
theorem bytesLe_antisymm (a b : List Nat) (hab : bytesLe a b = true)
    (hba : bytesLe b a = true) : a = b := by
  by_contra hne
  simp only [bytesLe, Bool.not_eq_true'] at hab hba
  rcases bytesLt_connex a b hne with h | h
  · rw [h] at hba; cases hba
  · rw [h] at hab; cases hab

/-! ## Lemma kit: association lists and string sets -/

/-- Inserting a fresh key appends. -/
theorem ainsert_eq_append {α β : Type} [DecidableEq α] (k : α) (v : β)
    (l : List (α × β)) (h : k ∉ l.map Prod.fst) : ainsert k v l = l ++ [(k, v)] := by
  induction l with
  | nil => rfl
  | cons p rest ih =>
      simp only [List.map_cons, List.mem_cons] at h
      push_neg at h
      simp only [ainsert, if_neg h.1]
      rw [ih h.2]
      simp

/-- Keys after inserting a fresh key. -/
theorem ainsert_keys_fresh {α β : Type} [DecidableEq α] (k : α) (v : β)
    (l : List (α × β)) (h : k ∉ l.map Prod.fst) :
    (ainsert k v l).map Prod.fst = l.map Prod.fst ++ [k] := by
  rw [ainsert_eq_append k v l h]
  simp

/-- Lookup after inserting a key finds it. -/
theorem alookup_ainsert_self {α β : Type} [DecidableEq α] (k : α) (v : β)
    (l : List (α × β)) : alookup k (ainsert k v l) = some v := by
  induction l with
  | nil => simp [ainsert, alookup]
  | cons p rest ih =>
      by_cases h : k = p.1
      · simp [ainsert, alookup, h]
      · simp [ainsert, alookup, h, ih]

/-- Lookup of a different key is unchanged by insertion. -/
theorem alookup_ainsert_ne {α β : Type} [DecidableEq α] (k k' : α) (v : β)
    (l : List (α × β)) (h : k' ≠ k) :
    alookup k' (ainsert k v l) = alookup k' l := by
  induction l with
  | nil => simp [ainsert, alookup, h]
  | cons p rest ih =>
      by_cases hk : k = p.1
      · subst hk
        simp [ainsert, alookup, h]
      · simp only [ainsert, if_neg hk]
        by_cases hk' : k' = p.1
        · simp [alookup, hk']
        · simp [alookup, hk', ih]

/-- Members found by lookup in a list with distinct keys. -/
theorem alookup_eq_some_of_mem {α β : Type} [DecidableEq α] (l : List (α × β))
    (hnd : (l.map Prod.fst).Nodup) (k : α) (v : β) (h : (k, v) ∈ l) :
    alookup k l = some v := by
  induction l with
  | nil => cases h
  | cons p rest ih =>
      simp only [List.map_cons, List.nodup_cons] at hnd
      rcases List.mem_cons.mp h with he | h'
      · rw [← he]
        simp [alookup]
      · have hk : k ≠ p.1 := by
          intro heq
          apply hnd.1
          apply List.mem_map.mpr
          exact ⟨(k, v), h', heq⟩
        simp only [alookup, if_neg hk]
        exact ih hnd.2 h'

/-- A successful lookup is list membership. -/
theorem mem_of_alookup_eq_some {α β : Type} [DecidableEq α] (l : List (α × β))
    (k : α) (v : β) (h : alookup k l = some v) : (k, v) ∈ l := by
  induction l with
  | nil => cases h
  | cons p rest ih =>
      by_cases hk : k = p.1
      · simp only [alookup, if_pos hk, Option.some.injEq] at h
        rw [hk, ← h]
        simp
      · simp only [alookup, if_neg hk] at h
        exact List.mem_cons_of_mem _ (ih h)

/-- Updating with the empty list is the identity. -/
theorem aupdate_nil {α β : Type} [DecidableEq α] (d : List (α × β)) :
    aupdate d [] = d := rfl

/-- Building an association list by repeated insertion of distinct keys
reproduces the list. -/
theorem ainsert_build {α β : Type} [DecidableEq α] (l acc : List (α × β))
    (h : (acc.map Prod.fst ++ l.map Prod.fst).Nodup) :
    l.foldl (fun a kv => ainsert kv.1 kv.2 a) acc = acc ++ l := by
  induction l generalizing acc with
  | nil => simp
  | cons p rest ih =>
      simp only [List.foldl_cons]
      have hfresh : p.1 ∉ acc.map Prod.fst := by
        intro hmem
        exact (List.nodup_append.mp h).2.2 hmem (by simp)
      rw [ainsert_eq_append p.1 p.2 acc hfresh]
      have : acc.map Prod.fst ++ (p :: rest).map Prod.fst =
          (acc ++ [p]).map Prod.fst ++ rest.map Prod.fst := by
        simp
      rw [this] at h
      have := ih (acc ++ [(p.1, p.2)]) (by simpa using h)
      simpa using this

/-- Membership after adding to a string set. -/
theorem mem_saddStr_self (s : List String) (x : String) : x ∈ saddStr s x := by
  unfold saddStr
  split
  · next hc => exact List.mem_of_elem_eq_true hc
  · simp

/-- Adding preserves membership. -/
theorem mem_saddStr_of_mem (s : List String) (x y : String) (h : y ∈ s) :
    y ∈ saddStr s x := by
  unfold saddStr
  split
  · exact h
  · exact List.mem_append.mpr (Or.inl h)

/-! ## Lemma kit: decimal formatting and the name allocator -/

/-- Numeric value of a big-endian string of decimal digit characters. -/
def charsVal (l : List Char) : Nat :=
  l.foldl (fun a c => 10 * a + (c.toNat - 48)) 0

/-- Folding digit characters computes the represented value. -/
theorem foldl_digitChars (L : List Nat) (hL : ∀ d ∈ L, d < 10) (a : Nat) :
    (L.reverse.map fun d => Char.ofNat (48 + d)).foldl
      (fun a c => 10 * a + (c.toNat - 48)) a =
    a * 10 ^ L.length + Nat.ofDigits 10 L := by
  induction L generalizing a with
  | nil => simp
  | cons d ds ih =>
      have hd : d < 10 := hL d (by simp)
      have hds : ∀ x ∈ ds, x < 10 := fun x hx => hL x (by simp [hx])
      have hchar : (Char.ofNat (48 + d)).toNat - 48 = d := by
        interval_cases d <;> rfl
      simp only [List.reverse_cons, List.map_append, List.map_cons, List.map_nil,
        List.foldl_append, List.foldl_cons, List.foldl_nil]
      rw [ih hds a, hchar, Nat.ofDigits_cons, List.length_cons, pow_succ]
      ring

/-- The numeric value of the rendered decimal digits is the number. -/
theorem charsVal_digitChars (n : Nat) : charsVal (digitChars n) = n := by
  by_cases h : n = 0
  · subst h
    rfl
  · unfold digitChars charsVal
    rw [if_neg h]
    have := foldl_digitChars (Nat.digits 10 n)
      (fun d hd => Nat.digits_lt_base (by norm_num) hd) 0
    rw [this, Nat.ofDigits_digits]
    simp

/-- Leading zero characters do not change the value. -/
theorem charsVal_replicate_zero (k : Nat) (l : List Char) :
    charsVal (List.replicate k '0' ++ l) = charsVal l := by
  induction k with
  | zero => simp
  | succ m ih =>
      simp only [List.replicate_succ, List.cons_append, charsVal, List.foldl_cons]
      exact ih

/-- The value of the zero-padded rendering is the number. -/
theorem charsVal_pad5 (n : Nat) : charsVal (pad5 n).data = n := by
  show charsVal (List.replicate (5 - (digitChars n).length) '0' ++ digitChars n) = n
  rw [charsVal_replicate_zero, charsVal_digitChars]

/-- pad5 is injective. -/
theorem pad5_inj (m n : Nat) (h : pad5 m = pad5 n) : m = n := by
  have : charsVal (pad5 m).data = charsVal (pad5 n).data := by rw [h]
  rwa [charsVal_pad5, charsVal_pad5] at this

/-- packName is injective in the index. -/
theorem packName_inj (pfx sfx : String) (m n : Nat)
    (h : packName pfx m sfx = packName pfx n sfx) : m = n := by
  apply pad5_inj
  unfold packName at h
  have hd : pfx.data ++ ((pad5 m).data ++ (".tar".data ++ sfx.data)) =
      pfx.data ++ ((pad5 n).data ++ (".tar".data ++ sfx.data)) := by
    have := congrArg String.data h
    simpa [String.data_append, List.append_assoc] using this
  have h2 := List.append_cancel_left hd
  have h3 : (pad5 m).data ++ (".tar".data ++ sfx.data) =
      (pad5 n).data ++ (".tar".data ++ sfx.data) := h2
  have h4 : (pad5 m).data = (pad5 n).data := List.append_cancel_right h3
  exact String.ext h4

/-- Some candidate among names.length + 1 consecutive pack names is free. -/
theorem alloc_exists_free (pfx sfx : String) (names : List String) (idx : Nat) :
    ∃ k, k < names.length + 1 ∧ packName pfx (idx + k) sfx ∉ names := by
  by_contra hall
  push_neg at hall
  have hmem : ∀ k < names.length + 1, packName pfx (idx + k) sfx ∈ names := hall
  let cands := (List.range (names.length + 1)).map fun k => packName pfx (idx + k) sfx
  have hnd : cands.Nodup := by
    refine List.Nodup.map ?_ (List.nodup_range _)
    intro i j hij
    have := packName_inj pfx sfx (idx + i) (idx + j) hij
    omega
  have hsub : ∀ x ∈ cands, x ∈ names := by
    intro x hx
    rcases List.mem_map.mp hx with ⟨k, hk, rfl⟩
    exact hmem k (List.mem_range.mp hk)
  have hcard : cands.length ≤ names.length := by
    have h1 : cands.toFinset.card = cands.length := List.toFinset_card_of_nodup hnd
    have h2 : cands.toFinset ⊆ names.toFinset := by
      intro x hx
      exact List.mem_toFinset.mpr (hsub x (List.mem_toFinset.mp hx))
    have h3 := Finset.card_le_card h2
    have h4 : names.toFinset.card ≤ names.length := names.toFinset_card_le
    omega
  have : cands.length = names.length + 1 := by simp [cands]
  omega

/-- The allocator loop returns a name outside the reserved set whenever a
free candidate exists within its fuel. -/
theorem alloc_go_free (pfx sfx : String) (names : List String) :
    ∀ fuel idx, (∃ k, k < fuel ∧ packName pfx (idx + k) sfx ∉ names) →
    (alloc_go pfx sfx names fuel idx).1 ∉ names := by
  intro fuel
  induction fuel with
  | zero =>
      intro idx h
      rcases h with ⟨k, hk, _⟩
      omega
  | succ m ih =>
      intro idx h
      by_cases hc : names.contains (packName pfx idx sfx)
      · simp only [alloc_go, hc, ite_true]
        rcases h with ⟨k, hk, hfree⟩
        have hk0 : k ≠ 0 := by
          intro he
          subst he
          exact hfree (by simpa using List.mem_of_elem_eq_true hc)
        refine ih (idx + 1) ⟨k - 1, by omega, ?_⟩
        have : idx + 1 + (k - 1) = idx + k := by omega
        rw [this]
        exact hfree
      · simp only [alloc_go, hc, ite_false]
        intro hmem
        exact hc (List.elem_eq_true_of_mem hmem)

/-- The allocated pack name is never in the reserved-name set. -/
theorem alloc_name_free (conf : UploadConfig) (names : List String) (idx : Nat) :
    (alloc_name conf names idx).1 ∉ names := by
  unfold alloc_name
  exact alloc_go_free conf.reserved_pfx conf.compression_suffix names
    (names.length + 1) idx (alloc_exists_free _ _ names idx)

/-! ## Lemma kit: the name codec round trip -/

/-- A byte survives the bit decomposition. -/
theorem bitsVal_byteBits : ∀ b : Nat, b < 256 → bitsVal (byteBits b) = b := by decide

/-- A 5-bit group has a value below 32. -/
theorem bitsVal_lt32 : ∀ g : List Bool, g.length = 5 → bitsVal g < 32 := by
  intro g h
  rcases g with _ | ⟨a, g⟩; · simp at h
  rcases g with _ | ⟨b, g⟩; · simp at h
  rcases g with _ | ⟨c, g⟩; · simp at h
  rcases g with _ | ⟨d, g⟩; · simp at h
  rcases g with _ | ⟨e, g⟩; · simp at h
  rcases g with _ | ⟨f, g⟩
  · revert a b c d e; decide
  · simp at h

/-- A 5-bit group survives the value round trip. -/
theorem valBits_bitsVal : ∀ g : List Bool, g.length = 5 → valBits (bitsVal g) = g := by
  intro g h
  rcases g with _ | ⟨a, g⟩; · simp at h
  rcases g with _ | ⟨b, g⟩; · simp at h
  rcases g with _ | ⟨c, g⟩; · simp at h
  rcases g with _ | ⟨d, g⟩; · simp at h
  rcases g with _ | ⟨e, g⟩; · simp at h
  rcases g with _ | ⟨f, g⟩
  · revert a b c d e; decide
  · simp at h

/-- An alphabet value survives the character round trip. -/
theorem charVal_valChar : ∀ v : Nat, v < 32 → charVal (valChar v) = v := by decide

/-- Every 5-bit group produced by the splitter has five bits. -/
theorem groups5_len : ∀ n l, List.length l ≤ n → ∀ g ∈ groups5 l, g.length = 5 := by
  intro n
  induction n with
  | zero =>
      intro l hl g hg
      rcases l with _ | ⟨a, l⟩
      · cases hg
      · simp at hl
  | succ m ih =>
      intro l hl g hg
      rcases l with _ | ⟨a, l⟩
      · cases hg
      rcases l with _ | ⟨b, l⟩
      · rcases List.mem_cons.mp hg with hg | hg
        · subst hg; rfl
        · cases hg
      rcases l with _ | ⟨c, l⟩
      · rcases List.mem_cons.mp hg with hg | hg
        · subst hg; rfl
        · cases hg
      rcases l with _ | ⟨d, l⟩
      · rcases List.mem_cons.mp hg with hg | hg
        · subst hg; rfl
        · cases hg
      rcases l with _ | ⟨e, l⟩
      · rcases List.mem_cons.mp hg with hg | hg
        · subst hg; rfl
        · cases hg
      rcases List.mem_cons.mp hg with hg | hg
      · subst hg; rfl
      · refine ih l ?_ g hg
        simp only [List.length_cons] at hl
        omega

/-- The byte stream survives grouping into fives and regrouping into
eights: the zero bits padded into the last 5-bit group are dropped. -/
theorem groups_rt : ∀ n l, List.length l ≤ n → (∀ b ∈ l, b < 256) →
    groups8 ((groups5 (bitsOf l)).flatten) = l := by
  intro n
  induction n with
  | zero =>
      intro l hl h
      rcases l with _ | ⟨b1, l⟩
      · rfl
      · simp at hl
  | succ m ih =>
      intro l hl h
      rcases l with _ | ⟨b1, l⟩
      · rfl
      rcases l with _ | ⟨b2, l⟩
      · show [bitsVal (byteBits b1)] = [b1]
        rw [bitsVal_byteBits b1 (h b1 (by simp))]
      rcases l with _ | ⟨b3, l⟩
      · show [bitsVal (byteBits b1), bitsVal (byteBits b2)] = [b1, b2]
        rw [bitsVal_byteBits b1 (h b1 (by simp)), bitsVal_byteBits b2 (h b2 (by simp))]
      rcases l with _ | ⟨b4, l⟩
      · show [bitsVal (byteBits b1), bitsVal (byteBits b2), bitsVal (byteBits b3)] =
          [b1, b2, b3]
        rw [bitsVal_byteBits b1 (h b1 (by simp)), bitsVal_byteBits b2 (h b2 (by simp)),
          bitsVal_byteBits b3 (h b3 (by simp))]
      rcases l with _ | ⟨b5, l⟩
      · show [bitsVal (byteBits b1), bitsVal (byteBits b2), bitsVal (byteBits b3),
          bitsVal (byteBits b4)] = [b1, b2, b3, b4]
        rw [bitsVal_byteBits b1 (h b1 (by simp)), bitsVal_byteBits b2 (h b2 (by simp)),
          bitsVal_byteBits b3 (h b3 (by simp)), bitsVal_byteBits b4 (h b4 (by simp))]
      show bitsVal (byteBits b1) :: bitsVal (byteBits b2) :: bitsVal (byteBits b3) ::
          bitsVal (byteBits b4) :: bitsVal (byteBits b5) ::
          groups8 ((groups5 (bitsOf l)).flatten) =
        b1 :: b2 :: b3 :: b4 :: b5 :: l
      rw [bitsVal_byteBits b1 (h b1 (by simp)), bitsVal_byteBits b2 (h b2 (by simp)),
        bitsVal_byteBits b3 (h b3 (by simp)), bitsVal_byteBits b4 (h b4 (by simp)),
        bitsVal_byteBits b5 (h b5 (by simp))]
      have hlen : List.length l ≤ m := by
        simp only [List.length_cons] at hl
        omega
      rw [ih l hlen (fun b hb => h b (by simp [hb]))]

/-- utils.decode_child inverts utils.encode_child on byte filenames. -/
theorem decode_encode (l : ByteStr) (h : ∀ b ∈ l, b < 256) :
    decode_child (encode_child l) = l := by
  unfold decode_child encode_child
  have hdata : (String.mk ((groups5 (bitsOf l)).map fun g => valChar (bitsVal g))).data =
      (groups5 (bitsOf l)).map fun g => valChar (bitsVal g) := rfl
  rw [hdata, List.map_map]
  have hlen := groups5_len (bitsOf l).length (bitsOf l) le_rfl
  have hmap : ((groups5 (bitsOf l)).map (charVal ∘ fun g => valChar (bitsVal g))) =
      (groups5 (bitsOf l)).map bitsVal := by
    apply List.map_congr_left
    intro g hg
    have h5 := hlen g hg
    exact charVal_valChar (bitsVal g) (bitsVal_lt32 g h5)
  rw [hmap]
  have hfold : ((groups5 (bitsOf l)).map bitsVal).foldr
      (fun v acc => valBits v ++ acc) [] = (groups5 (bitsOf l)).flatten := by
    rw [List.foldr_map]
    have : ∀ (gs : List (List Bool)), (∀ g ∈ gs, g.length = 5) →
        gs.foldr (fun g acc => valBits (bitsVal g) ++ acc) [] = gs.flatten := by
      intro gs
      induction gs with
      | nil => intro _; rfl
      | cons g rest ihg =>
          intro hall
          simp only [List.foldr_cons, List.flatten_cons]
          rw [valBits_bitsVal g (hall g (by simp)), ihg (fun x hx => hall x (by simp [hx]))]
    exact this (groups5 (bitsOf l)) hlen
  rw [hfold]
  exact groups_rt l.length l le_rfl h

/-- encode_child is injective on byte filenames. -/
theorem encode_child_inj (a b : ByteStr) (ha : ∀ x ∈ a, x < 256)
    (hb : ∀ x ∈ b, x < 256) (h : encode_child a = encode_child b) : a = b := by
  have := congrArg decode_child h
  rwa [decode_encode a ha, decode_encode b hb] at this

/-! ## Lemma kit: filesystem trees -/

/-- Structural induction over listings (the nested node is unconstrained). -/
@[induction_eliminator]
theorem FSChildren.inductionOn {motive : FSChildren → Prop}
    (nil : motive .nil)
    (cons : ∀ (name : ByteStr) (node : FSNode) (rest : FSChildren),
      motive rest → motive (.cons name node rest)) :
    ∀ cs : FSChildren, motive cs := by
  have key : ∀ n cs, FSChildren.sz cs ≤ n → motive cs := by
    intro n
    induction n with
    | zero =>
        intro cs h
        exact absurd h (by cases cs <;> simp [FSChildren.sz])
    | succ m ih =>
        intro cs h
        cases cs with
        | nil => exact nil
        | cons nm nd rest =>
            refine cons nm nd rest (ih rest ?_)
            simp only [FSChildren.sz] at h
            omega
  intro cs
  exact key cs.sz cs le_rfl

/-- A found child is smaller than its listing. -/
theorem FSChildren.lookup_sz (cs : FSChildren) (n : ByteStr) (nd : FSNode)
    (h : cs.lookup n = some nd) : nd.sz < cs.sz := by
  induction cs with
  | nil => cases h
  | cons n' nd' rest ih =>
      simp only [FSChildren.lookup] at h
      by_cases he : n = n'
      · rw [if_pos he] at h
        cases h
        simp [FSChildren.sz]
        omega
      · rw [if_neg he] at h
        have := ih h
        simp only [FSChildren.sz]
        omega

/-- Lookup succeeds exactly on listed names. -/
theorem FSChildren.lookup_isSome_iff (cs : FSChildren) (n : ByteStr) :
    (cs.lookup n).isSome = true ↔ n ∈ cs.names := by
  induction cs with
  | nil => simp [FSChildren.lookup, FSChildren.names]
  | cons n' nd' rest ih =>
      simp only [FSChildren.lookup, FSChildren.names, List.mem_cons]
      by_cases he : n = n'
      · simp [he]
      · simp [he, ih]

/-- The names of a wellformed listing are distinct. -/
theorem FSChildren.wf_names_nodup (cs : FSChildren) (h : cs.wf = true) :
    cs.names.Nodup := by
  induction cs with
  | nil => simp [FSChildren.names]
  | cons n nd rest ih =>
      simp only [FSChildren.wf, Bool.and_eq_true] at h
      refine List.nodup_cons.mpr ⟨?_, ih h.2⟩
      intro hmem
      have hc := h.1.1.2
      simp only [Bool.not_eq_true'] at hc
      have hc' : rest.names.elem n = false := hc
      rw [List.elem_eq_true_of_mem hmem] at hc'
      cases hc'

/-- Looked-up children of a wellformed listing are wellformed. -/
theorem FSChildren.wf_lookup (cs : FSChildren) (n : ByteStr) (nd : FSNode)
    (hwf : cs.wf = true) (h : cs.lookup n = some nd) : nd.wf = true := by
  induction cs with
  | nil => cases h
  | cons n' nd' rest ih =>
      simp only [FSChildren.wf, Bool.and_eq_true] at hwf
      simp only [FSChildren.lookup] at h
      by_cases he : n = n'
      · rw [if_pos he] at h
        cases h
        exact hwf.1.2
      · rw [if_neg he] at h
        exact ih hwf.2 h

/-- Listed names of a wellformed listing are good names. -/
theorem FSChildren.wf_names_good (cs : FSChildren) (hwf : cs.wf = true) :
    ∀ n ∈ cs.names, goodName n = true := by
  induction cs with
  | nil => intro n h; cases h
  | cons n' nd' rest ih =>
      simp only [FSChildren.wf, Bool.and_eq_true] at hwf
      intro n hn
      rcases List.mem_cons.mp hn with he | hn'
      · subst he
        exact hwf.1.1.1
      · exact ih hwf.2 n hn'

/-- Bytes of a good name are below 256. -/
theorem goodName_bytes (n : ByteStr) (h : goodName n = true) :
    ∀ b ∈ n, b < 256 := by
  intro b hb
  simp only [goodName, Bool.and_eq_true, List.all_eq_true] at h
  have := h.2 b hb
  simp only [goodByte, Bool.and_eq_true, decide_eq_true_eq] at this
  exact this.1

/-- Looked-up children of a hard-link-free listing are hard-link-free. -/
theorem FSChildren.noHL_lookup (cs : FSChildren) (n : ByteStr) (nd : FSNode)
    (hn : cs.noHL = true) (h : cs.lookup n = some nd) : nd.noHL = true := by
  induction cs with
  | nil => cases h
  | cons n' nd' rest ih =>
      simp only [FSChildren.noHL, Bool.and_eq_true] at hn
      simp only [FSChildren.lookup] at h
      by_cases he : n = n'
      · rw [if_pos he] at h
        cases h
        exact hn.1
      · rw [if_neg he] at h
        exact ih hn.2 h

/-- The listing as pairs is the names paired with their lookups, when the
names are distinct. -/
theorem FSChildren.toList_eq (cs : FSChildren) (hnd : cs.names.Nodup) :
    cs.toList = cs.names.map fun n => (n, cs.lookupD n) := by
  induction cs with
  | nil => rfl
  | cons n nd rest ih =>
      simp only [FSChildren.toList, FSChildren.names, List.map_cons]
      rcases List.nodup_cons.mp hnd with ⟨hn, hrest⟩
      rw [ih hrest]
      congr 1
      · simp [FSChildren.lookupD, FSChildren.lookup]
      · apply List.map_congr_left
        intro x hx
        have hne : x ≠ n := fun he => hn (he ▸ hx)
        simp [FSChildren.lookupD, FSChildren.lookup, hne]

/-! ## Lemma kit: checksum bridges -/

/-- On a non-directory node of a wellformed tree, the recursive checksum is
the single-entry checksum. -/
theorem file_checksum_nondir (name fp : ByteStr) (nd : FSNode) (conf : SyncConfig)
    (sp : Bool) (hwf : nd.wf = true) (hmode : S_ISDIR nd.stat.st_mode = false) :
    (file_checksum name fp nd conf sp).1 = one_file_checksum name nd conf sp := by
  cases nd with
  | file st c => rfl
  | dir st cs =>
      simp only [FSNode.wf, Bool.and_eq_true] at hwf
      rw [FSNode.stat] at hmode
      rw [hwf.1] at hmode
      cases hmode

/-- The per-child digest list in terms of the pair list. -/
theorem child_sigs_toList (cs : FSChildren) (fp : ByteStr) (conf : SyncConfig)
    (sp : Bool) :
    child_sigs cs fp conf sp =
      cs.toList.map fun q => (q.1, file_checksum q.1 (bjoin fp q.1) q.2 conf sp) := by
  induction cs with
  | nil => rfl
  | cons n nd rest ih =>
      simp only [child_sigs, FSChildren.toList, List.map_cons]
      rw [ih]

/-- The per-child digest list as a map over the names. -/
theorem child_sigs_map (cs : FSChildren) (fp : ByteStr) (conf : SyncConfig)
    (sp : Bool) (hnd : cs.names.Nodup) :
    child_sigs cs fp conf sp =
      cs.names.map fun n =>
        (n, file_checksum n (bjoin fp n) (cs.lookupD n) conf sp) := by
  rw [child_sigs_toList, FSChildren.toList_eq cs hnd, List.map_map]
  rfl

/-- Inserting into a name-keyed pair list tracks inserting the name. -/
theorem insLe_map_pairs {β : Type} (a : ByteStr) (f : ByteStr → β) (l : List ByteStr) :
    insLe nameLe (a, f a) (l.map fun n => (n, f n)) =
      (insLe bytesLe a l).map fun n => (n, f n) := by
  induction l with
  | nil => rfl
  | cons b bs ih =>
      simp only [List.map_cons, insLe, nameLe]
      by_cases h : bytesLe a b = true
      · simp [h]
      · simp only [Bool.not_eq_true] at h
        simp [h, ih]

/-- Sorting a name-keyed pair list tracks sorting the names. -/
theorem isort_map_pairs {β : Type} (f : ByteStr → β) (l : List ByteStr) :
    isort nameLe (l.map fun n => (n, f n)) =
      (isort bytesLe l).map fun n => (n, f n) := by
  induction l with
  | nil => rfl
  | cons a as ih =>
      simp only [List.map_cons, isort]
      rw [ih, insLe_map_pairs]

/-- The recursive directory checksum as a fold over the sorted names. -/
theorem file_checksum_dir (name fp : ByteStr) (st : StatRes) (cs : FSChildren)
    (conf : SyncConfig) (sp : Bool) (hnd : cs.names.Nodup) :
    (file_checksum name fp (.dir st cs) conf sp).1 =
      conf.hashF ((isort bytesLe cs.names).foldl
        (fun h n => h ++ (file_checksum n (bjoin fp n) (cs.lookupD n) conf sp).1)
        (init_file_checksum name st conf)) := by
  show conf.hashF ((isort nameLe (child_sigs cs fp conf sp)).foldl
      (fun h p => h ++ p.2.1) (init_file_checksum name st conf)) = _
  rw [child_sigs_map cs fp conf sp hnd, isort_map_pairs, List.foldl_map]

/-- The group checksum of name-keyed pairs as a fold over the sorted names. -/
theorem checksum_walk_fst (g : List ByteStr) (cs : FSChildren) (path : ByteStr)
    (conf : SyncConfig) (sp : Bool) :
    (checksum_walk (g.map fun n => (n, cs.lookupD n)) path conf sp).1 =
      hexStr (conf.hashF ((isort bytesLe g).foldl
        (fun h n => h ++ (file_checksum n (bjoin path n) (cs.lookupD n) conf sp).1) [])) := by
  show hexStr (conf.hashF (((isort nameLe (g.map fun n => (n, cs.lookupD n))).map
      fun p => file_checksum p.1 (bjoin path p.1) p.2 conf sp).foldl
      (fun h s => h ++ s.1) [])) = _
  rw [isort_map_pairs, List.map_map, List.foldl_map]
  rfl

/-- multifile_checksum computes the fold of the recursive per-child
checksums when every named directory has a folded walk result carrying the
matching checksum. -/
theorem multifile_eq (cs : FSChildren) (path : ByteStr) (conf : UploadConfig)
    (drm : List (ByteStr × SWR)) (ns : List ByteStr) (sp : Bool) (h0 : ByteStr)
    (hsp : sp = true → conf.use_file_checksum = true)
    (hwf : cs.wf = true)
    (hdrm : ∀ ch ∈ ns, ∃ nd, cs.lookup ch = some nd ∧
      (S_ISDIR nd.stat.st_mode = true → ∃ cr, alookup ch drm = some cr ∧
        (if sp then cr.second_checksum else cr.first_checksum) =
          some (file_checksum ch (bjoin path ch) nd conf.toSyncConfig sp).1)) :
    multifile_checksum cs path conf drm ns sp h0 =
      ns.foldl (fun h n =>
        h ++ (file_checksum n (bjoin path n) (cs.lookupD n) conf.toSyncConfig sp).1) h0 := by
  induction ns generalizing h0 with
  | nil => rfl
  | cons ch rest ih =>
      rcases hdrm ch (by simp) with ⟨nd, hnd, hdir⟩
      have hD : cs.lookupD ch = nd := by simp [FSChildren.lookupD, hnd]
      have hstep : ∀ h : ByteStr,
          multifile_checksum cs path conf drm (ch :: rest) sp h =
          multifile_checksum cs path conf drm rest sp
            (h ++ (file_checksum ch (bjoin path ch) nd conf.toSyncConfig sp).1) := by
        intro h
        show List.foldl _ _ (ch :: rest) = _
        rw [List.foldl_cons]
        congr 1
        rw [hnd]
        dsimp only
        by_cases hm : S_ISDIR nd.stat.st_mode = true
        · rcases hdir hm with ⟨cr, hcr, hval⟩
          simp only [hm, ite_true, hcr]
          have hcond : (sp && conf.use_file_checksum) = sp := by
            cases hs : sp
            · rfl
            · simp [hsp hs]
          rw [hcond]
          cases hs : sp
          · rw [hs] at hval
            simp at hval
            simp [hval]
          · rw [hs] at hval
            simp at hval
            simp [hval]
        · have hm' : S_ISDIR nd.stat.st_mode = false := by
            simpa using hm
          have hwnd : nd.wf = true := FSChildren.wf_lookup cs ch nd hwf hnd
          simp only [hm', Bool.false_eq_true, ite_false]
          rw [file_checksum_nondir ch (bjoin path ch) nd conf.toSyncConfig sp hwnd hm']
      rw [hstep h0, List.foldl_cons, hD]
      exact ih _ (fun c hc => hdrm c (List.mem_cons_of_mem ch hc))

/-! ## Lemma kit: the reuse pass without a kept pack -/

/-- remote_del changes only the deletion list and the error count. -/
theorem remote_del_same (conf : UploadConfig) (rp : String) (res : SWR)
    (n : String) (d : Bool) :
    (remote_del conf rp res n d).force_retain = res.force_retain ∧
    (remote_del conf rp res n d).metadata = res.metadata ∧
    (remote_del conf rp res n d).files_to_tar = res.files_to_tar ∧
    (remote_del conf rp res n d).hard_link_map = res.hard_link_map ∧
    (remote_del conf rp res n d).first_checksum = res.first_checksum ∧
    (remote_del conf rp res n d).second_checksum = res.second_checksum ∧
    (remote_del conf rp res n d).total_size = res.total_size ∧
    (remote_del conf rp res n d).total_files = res.total_files ∧
    (remote_del conf rp res n d).real_transfer_size = res.real_transfer_size ∧
    (remote_del conf rp res n d).real_transfer_files = res.real_transfer_files ∧
    (remote_del conf rp res n d).retained_directories = res.retained_directories := by
  unfold remote_del
  dsimp only
  split
  · simp
  · split <;> simp

/-- set_force_retain always leaves the flag set. -/
theorem set_force_retain_fr (res : SWR) (p : ByteStr) :
    (res.set_force_retain p).force_retain = true := by
  unfold SWR.set_force_retain
  split
  · assumption
  · rfl

/-- meta_add_file does not touch the force-retain flag. -/
theorem meta_add_file_fr (res : SWR) (k : String) (v : PackEntry) :
    (res.meta_add_file k v).force_retain = res.force_retain := rfl

/-- One reuse step keeps the force-retain flag set. -/
theorem reuse_one_fr_mono (conf : UploadConfig) (cs : FSChildren) (path : ByteStr)
    (rp : String) (acc : WalkAcc) (fn : String) (rf : PackEntry)
    (h : acc.res.force_retain = true) :
    (reuse_one conf cs path rp acc fn rf).res.force_retain = true := by
  unfold reuse_one
  split
  · simp [reuse_keep, meta_add_file_fr, set_force_retain_fr]
  · show (reuse_del conf rp acc fn).res.force_retain = true
    exact (remote_del_same conf rp acc.res fn false).1.trans h

/-- A reuse step whose output is not force-retained is a pure deletion
step: the keep branch was not taken. -/
theorem reuse_one_no_keep (conf : UploadConfig) (cs : FSChildren) (path : ByteStr)
    (rp : String) (acc : WalkAcc) (fn : String) (rf : PackEntry)
    (h : (reuse_one conf cs path rp acc fn rf).res.force_retain = false) :
    (reuse_one conf cs path rp acc fn rf).child_list = acc.child_list ∧
    (reuse_one conf cs path rp acc fn rf).state = acc.state ∧
    (reuse_one conf cs path rp acc fn rf).res = remote_del conf rp acc.res fn false := by
  by_cases hk : keep_cond conf cs path rf = true
  · exfalso
    unfold reuse_one at h
    rw [if_pos hk] at h
    simp [reuse_keep, meta_add_file_fr, set_force_retain_fr] at h
  · unfold reuse_one
    rw [if_neg hk]
    exact ⟨rfl, rfl, rfl⟩

/-- The reuse pass keeps the force-retain flag set. -/
theorem reuse_pass_fr_mono (conf : UploadConfig) (cs : FSChildren) (path : ByteStr)
    (rp : String) (files : List (String × PackEntry)) (acc : WalkAcc)
    (h : acc.res.force_retain = true) :
    (reuse_pass conf cs path rp files acc).res.force_retain = true := by
  induction files generalizing acc with
  | nil => exact h
  | cons p rest ih =>
      exact ih _ (reuse_one_fr_mono conf cs path rp acc p.1 p.2 h)

/-- When the reuse pass keeps nothing (its output is not force-retained),
the child list, the state and everything in the walk result other than the
deletion list and the error count are unchanged. -/
theorem reuse_pass_no_keep (conf : UploadConfig) (cs : FSChildren) (path : ByteStr)
    (rp : String) (files : List (String × PackEntry)) (acc : WalkAcc)
    (h : (reuse_pass conf cs path rp files acc).res.force_retain = false) :
    (reuse_pass conf cs path rp files acc).child_list = acc.child_list ∧
    (reuse_pass conf cs path rp files acc).state = acc.state ∧
    (reuse_pass conf cs path rp files acc).res.force_retain = acc.res.force_retain ∧
    (reuse_pass conf cs path rp files acc).res.metadata = acc.res.metadata ∧
    (reuse_pass conf cs path rp files acc).res.files_to_tar = acc.res.files_to_tar ∧
    (reuse_pass conf cs path rp files acc).res.hard_link_map = acc.res.hard_link_map ∧
    (reuse_pass conf cs path rp files acc).res.first_checksum = acc.res.first_checksum ∧
    (reuse_pass conf cs path rp files acc).res.second_checksum = acc.res.second_checksum ∧
    (reuse_pass conf cs path rp files acc).res.total_size = acc.res.total_size ∧
    (reuse_pass conf cs path rp files acc).res.total_files = acc.res.total_files ∧
    (reuse_pass conf cs path rp files acc).res.real_transfer_size = acc.res.real_transfer_size ∧
    (reuse_pass conf cs path rp files acc).res.real_transfer_files =
      acc.res.real_transfer_files ∧
    (reuse_pass conf cs path rp files acc).res.retained_directories =
      acc.res.retained_directories := by
  induction files generalizing acc with
  | nil =>
      exact ⟨rfl, rfl, rfl, rfl, rfl, rfl, rfl, rfl, rfl, rfl, rfl, rfl, rfl⟩
  | cons p rest ih =>
      have hpass : reuse_pass conf cs path rp (p :: rest) acc =
          reuse_pass conf cs path rp rest (reuse_one conf cs path rp acc p.1 p.2) := rfl
      rw [hpass] at h
      have hmid : (reuse_one conf cs path rp acc p.1 p.2).res.force_retain = false := by
        by_contra hc
        simp only [Bool.not_eq_false] at hc
        have := reuse_pass_fr_mono conf cs path rp rest _ hc
        rw [this] at h
        cases h
      have hstep := reuse_one_no_keep conf cs path rp acc p.1 p.2 hmid
      have hrec := ih (reuse_one conf cs path rp acc p.1 p.2) h
      have hdel := remote_del_same conf rp acc.res p.1 false
      rw [hpass]
      refine ⟨?_, ?_, ?_, ?_, ?_, ?_, ?_, ?_, ?_, ?_, ?_, ?_, ?_⟩
      · rw [hrec.1, hstep.1]
      · rw [hrec.2.1, hstep.2.1]
      · rw [hrec.2.2.1, hstep.2.2, hdel.1]
      · rw [hrec.2.2.2.1, hstep.2.2, hdel.2.1]
      · rw [hrec.2.2.2.2.1, hstep.2.2, hdel.2.2.1]
      · rw [hrec.2.2.2.2.2.1, hstep.2.2, hdel.2.2.2.1]
      · rw [hrec.2.2.2.2.2.2.1, hstep.2.2, hdel.2.2.2.2.1]
      · rw [hrec.2.2.2.2.2.2.2.1, hstep.2.2, hdel.2.2.2.2.2.1]
      · rw [hrec.2.2.2.2.2.2.2.2.1, hstep.2.2, hdel.2.2.2.2.2.2.1]
      · rw [hrec.2.2.2.2.2.2.2.2.2.1, hstep.2.2, hdel.2.2.2.2.2.2.2.1]
      · rw [hrec.2.2.2.2.2.2.2.2.2.2.1, hstep.2.2, hdel.2.2.2.2.2.2.2.2.1]
      · rw [hrec.2.2.2.2.2.2.2.2.2.2.2.1, hstep.2.2, hdel.2.2.2.2.2.2.2.2.2.1]
      · rw [hrec.2.2.2.2.2.2.2.2.2.2.2.2, hstep.2.2, hdel.2.2.2.2.2.2.2.2.2.2]

/-- C1.  The claim states that the document checksum object records all
four fields use_file_checksum, use_directory_mtime, use_owner and
hash_function, and that download reads exactly these without error.  In
the code, upload.py lines 335-339 record only three fields: use_owner is
absent, and download.py line 52 then fails looking it up (KeyError).  For
every document a successful upload produces, the use_owner key is missing
and the download-side configuration step errors. -/
theorem C1_use_owner_missing_from_checksum_object
    (node : FSNode) (path : ByteStr) (remote : String) (doc0 : Option Document)
    (conf : UploadConfig) (r : SWR) (d : Document)
    (h : upload node path remote doc0 conf = .ok (some (r, d))) :
    alookup "use_owner" d.checksum = none ∧
    download_configure d.checksum = .error () := by
  have hcs : d.checksum = upload_checksum_obj conf := by
    unfold upload at h
    cases hw : upload_walk node path remote (doc0.map fun x => x.meta) conf {} true with
    | error e => rw [hw] at h; cases h
    | ok w =>
        rw [hw] at h
        simp only [Bind.bind, Except.bind] at h
        rcases w with ⟨resO, st'⟩
        cases resO with
        | none => cases h
        | some res =>
            simp only [Except.ok.injEq, Option.some.injEq, Prod.mk.injEq] at h
            rw [← h.2]
  rw [hcs]
  exact ⟨rfl, rfl⟩

/-- Witness for C1 at the concrete one-file tree. -/
theorem C1_use_owner_missing_witness :
    alookup "use_owner" exDoc1.checksum = none ∧
    download_configure exDoc1.checksum = .error () :=
  C1_use_owner_missing_from_checksum_object exTree1 [114] "rem" none exConf
    exPair1.1 exDoc1 (by rfl)

/-! ## C2: exit codes and the ignore-errors flag -/

/-- C2.  The claim states that with --ignore-errors a run with a positive
error count exits 0.  cli.py stores ignore_errors on the configuration
(line 122) but lines 179-181 and 196-198 exit 1 whenever error_count is
positive, never consulting the flag: with ignore_errors set and one error
the exit code is still 1. -/
theorem C2_exit_code_ignores_the_ignore_errors_flag :
    ∀ b : Bool, upload_exit_code b 1 = 1 ∧ download_exit_code b 1 = 1 :=
  fun _ => ⟨rfl, rfl⟩

/-! ## C4: the grouping orders -/

/-- C4.  The claim states that all four grouping orders size, name, mtime
and ctime are accepted at the CLI and that upload_walk returns normally
for each.  The CLI does accept all four (cli.py line 154), but
upload_walk handles only size, mtime and ctime and raises
NotImplementedError for name (upload.py lines 240-247): uploading even an
empty directory with grouping order name fails. -/
theorem C4_name_grouping_order_raises :
    cli_grouping_orders.contains "name" = true ∧
    upload exEmptyDir [114] "rem" none exConfName = .error () :=
  ⟨rfl, rfl⟩

/-! ## C3: load_metadata error behaviour -/

/-- C3 counterexample.  The claim states load_metadata never raises and
returns absent on a JSON-decode failure for every metadata location.  For
an explicitly configured local path the Python catches only
FileNotFoundError (metadata.py lines 36-40), so a stored file whose bytes
fail to decode as JSON raises: here the local read succeeds, gunzip
succeeds and the JSON parse fails, and load_metadata errors instead of
returning absent. -/
theorem C3_local_json_failure_raises :
    load_metadata (fun _ => none) (fun _ => some [1]) some (fun _ => none)
      "rem" exConfLocalMeta = .error () := rfl

/-- C3 amended.  Remote locations (the default location, or a configured
path with a drive-free colon) return absent both on not-found and on a
JSON-decode failure; an explicitly configured local path returns absent on
not-found but raises on a JSON-decode failure. -/
theorem C3_load_metadata_error_behaviour
    (rg fs : String → Option (List Nat)) (gz : List Nat → Option (List Nat))
    (jp : List Nat → Option Document) (remote : String) (conf : SyncConfig) :
    ((metadata_path remote conf).1 = true →
      (rg (metadata_path remote conf).2 = none →
        load_metadata rg fs gz jp remote conf = .ok none) ∧
      (∀ data plain, rg (metadata_path remote conf).2 = some data →
        gz data = some plain → jp plain = none →
        load_metadata rg fs gz jp remote conf = .ok none)) ∧
    ((metadata_path remote conf).1 = false →
      (fs (metadata_path remote conf).2 = none →
        load_metadata rg fs gz jp remote conf = .ok none) ∧
      (∀ data plain, fs (metadata_path remote conf).2 = some data →
        gz data = some plain → jp plain = none →
        load_metadata rg fs gz jp remote conf = .error ())) := by
  constructor
  · intro hrem
    constructor
    · intro hget
      simp [load_metadata, hrem, hget]
    · intro data plain hget hgz hjp
      simp [load_metadata, hrem, hget, hgz, hjp]
  · intro hloc
    constructor
    · intro hget
      simp [load_metadata, hloc, hget]
    · intro data plain hget hgz hjp
      simp [load_metadata, hloc, hget, hgz, hjp]

/-- Witness for C3 amended: at the default remote location a JSON-decode
failure yields absent. -/
theorem C3_load_metadata_witness :
    load_metadata (fun _ => some [1]) (fun _ => none) some (fun _ => none)
      "rem" exConfRemoteMeta = .ok none :=
  ((C3_load_metadata_error_behaviour (fun _ => some [1]) (fun _ => none) some
    (fun _ => none) "rem" exConfRemoteMeta).1 rfl).2 [1] [1] rfl rfl rfl

/-! ## C5: the file digest formula -/

/-- C5 counterexample.  The claim states the stat-mode file digest wraps
the inner digest of header, name and mode into a fresh hash state before
the stat fields are appended.  The code (checksum.py lines 52-67) appends
the stat fields to the same hash state: only directories are wrapped
(lines 19-24).  With the length digest the two formulas give different
bytes on a concrete file. -/
theorem C5_file_digest_is_not_wrapped :
    one_file_checksum [97] exFileNode exSyncConf false ≠
      spec_file_digest [97] exStReg exSyncConf := by decide

/-- C5 amended.  In stat mode (content mode off, or the first pass) the
digest of a non-directory file is the single hash of header, name, mode,
size, mtime and optionally ownership, with no inner wrapping. -/
theorem C5_file_digest_single_hash
    (name : ByteStr) (node : FSNode) (conf : SyncConfig) (sp : Bool)
    (hnd : S_ISDIR node.stat.st_mode = false)
    (hsp : conf.use_file_checksum = false ∨ sp = false) :
    one_file_checksum name node conf sp =
      conf.hashF (conf.head_bytes ++ name ++ toLE node.stat.st_mode 4 ++
        toLE node.stat.st_size 16 ++ sToLE node.stat.st_mtime_ns 16 ++
        (if conf.use_owner then toLE node.stat.st_uid 4 ++ toLE node.stat.st_gid 4 else [])) := by
  have hsp' : (conf.use_file_checksum && sp) = false := by
    rcases hsp with h | h <;> simp [h]
  simp [one_file_checksum, init_file_checksum, hnd, hsp', List.append_assoc]

/-- Witness for C5 amended at a concrete file. -/
theorem C5_file_digest_single_hash_witness :
    one_file_checksum [97] exFileNode exSyncConf false =
      exSyncConf.hashF (exSyncConf.head_bytes ++ [97] ++ toLE exStReg.st_mode 4 ++
        toLE exStReg.st_size 16 ++ sToLE exStReg.st_mtime_ns 16 ++
        (if exSyncConf.use_owner then
          toLE exStReg.st_uid 4 ++ toLE exStReg.st_gid 4 else [])) :=
  C5_file_digest_single_hash [97] exFileNode exSyncConf false rfl (Or.inl rfl)

/-! ## C7: the chunk-size escalation formula -/

/-- C7 counterexample.  The claim states the escalated chunk size is
max(kib, ceil(expected / (6000 * 1024))).  rclone.py line 42 computes
floor(expected / (6000 * 1024)) + 1, which exceeds the ceiling by one when
expected is an exact multiple of 6000 * 1024: at expected =
6000 * 1024 * 6000 with the default 5 MiB floor the code passes 6001 KiB
while the claimed formula gives 6000 KiB. -/
theorem C7_chunk_size_not_ceiling :
    s3_chunk_size_arg 5120 (6000 * 1024 * 6000) = some 6001 ∧
    max 5120 ((6000 * 1024 * 6000 + (6000 * 1024 - 1)) / (6000 * 1024)) = 6000 ∧
    (6001 : Nat) ≠ 6000 := by decide

/-- C7 amended.  When the hint exceeds 6000 * kib * 1024 the transport is
invoked with chunk size max(kib, floor(expected / (6000 * 1024)) + 1) KiB,
which equals max(kib, ceil((expected + 1) / (6000 * 1024))). -/
theorem C7_chunk_size_formula (kib suggested : Nat)
    (h : suggested > 6000 * kib * 1024) :
    s3_chunk_size_arg kib suggested =
      some (max kib (suggested / (6000 * 1024) + 1)) ∧
    suggested / (6000 * 1024) + 1 = (suggested + 6000 * 1024) / (6000 * 1024) := by
  constructor
  · simp [s3_chunk_size_arg, h]
  · rw [Nat.add_div_right _ (by norm_num)]

/-- Witness for C7 amended at the default floor. -/
theorem C7_chunk_size_formula_witness :
    s3_chunk_size_arg 5120 (6000 * 1024 * 6000) =
      some (max 5120 (6000 * 1024 * 6000 / (6000 * 1024) + 1)) ∧
    6000 * 1024 * 6000 / (6000 * 1024) + 1 =
      (6000 * 1024 * 6000 + 6000 * 1024) / (6000 * 1024) :=
  C7_chunk_size_formula 5120 (6000 * 1024 * 6000) (by norm_num)

/-! ## C10: the reserved-name set -/

/-- One reuse step never removes a name from the reserved set. -/
theorem reuse_one_names_mono (conf : UploadConfig) (cs : FSChildren)
    (path : ByteStr) (rp : String) (acc : WalkAcc) (fn : String)
    (rf : PackEntry) (x : String) (h : x ∈ acc.remote_names) :
    x ∈ (reuse_one conf cs path rp acc fn rf).remote_names := by
  unfold reuse_one
  split
  · exact mem_saddStr_of_mem _ _ _ h
  · show x ∈ (reuse_del conf rp acc fn).remote_names
    unfold reuse_del
    dsimp only
    split
    · exact mem_saddStr_of_mem _ _ _ h
    · exact h

/-- One reuse step records its own filename in the reserved set whenever
deletions are deferred. -/
theorem reuse_one_adds (conf : UploadConfig) (cs : FSChildren)
    (path : ByteStr) (rp : String) (acc : WalkAcc) (fn : String)
    (rf : PackEntry) (hd : conf.delete_after_upload = true) :
    fn ∈ (reuse_one conf cs path rp acc fn rf).remote_names := by
  unfold reuse_one
  split
  · exact mem_saddStr_self _ _
  · show fn ∈ (reuse_del conf rp acc fn).remote_names
    unfold reuse_del
    dsimp only
    simp only [hd, ite_true]
    exact mem_saddStr_self _ _

/-- The whole reuse pass never removes a name from the reserved set. -/
theorem reuse_pass_names_mono (conf : UploadConfig) (cs : FSChildren)
    (path : ByteStr) (rp : String) (files : List (String × PackEntry))
    (acc : WalkAcc) (x : String) (h : x ∈ acc.remote_names) :
    x ∈ (reuse_pass conf cs path rp files acc).remote_names := by
  induction files generalizing acc with
  | nil => exact h
  | cons p rest ih =>
      exact ih _ (reuse_one_names_mono conf cs path rp acc p.1 p.2 x h)

/-- With deferred deletion, every stored pack name, kept or scheduled for
deletion, ends up in the reserved-name set. -/
theorem reuse_pass_names (conf : UploadConfig) (cs : FSChildren)
    (path : ByteStr) (rp : String) (files : List (String × PackEntry))
    (acc : WalkAcc) (hd : conf.delete_after_upload = true) :
    ∀ fn ∈ files.map Prod.fst,
      fn ∈ (reuse_pass conf cs path rp files acc).remote_names := by
  induction files generalizing acc with
  | nil => intro fn h; cases h
  | cons p rest ih =>
      intro fn hfn
      rcases List.mem_cons.mp hfn with he | h'
      · subst he
        exact reuse_pass_names_mono conf cs path rp rest _ _
          (reuse_one_adds conf cs path rp acc p.1 p.2 hd)
      · exact ih _ fn h'

/-- C10.  With delete_after_upload, every stored pack name of the previous
metadata, whether kept or scheduled for deferred deletion, is inserted into
the reserved-name set (upload.py lines 143, 157-158), and the pack-name
allocator skips that set (lines 258-262): every newly allocated pack name
differs from every kept name and from every name scheduled for deletion in
that directory, so the post-upload delete phase never deletes an object the
new metadata references. -/
theorem C10_allocator_avoids_kept_and_deleted_names
    (conf : UploadConfig) (cs : FSChildren) (path : ByteStr)
    (remote_path : String) (files : List (String × PackEntry)) (acc0 : WalkAcc)
    (hd : conf.delete_after_upload = true) :
    ∀ fn ∈ files.map Prod.fst, ∀ idx,
      (alloc_name conf
        (reuse_pass conf cs path remote_path files acc0).remote_names idx).1 ≠ fn := by
  intro fn hfn idx heq
  apply alloc_name_free conf
    (reuse_pass conf cs path remote_path files acc0).remote_names idx
  rw [heq]
  exact reuse_pass_names conf cs path remote_path files acc0 hd fn hfn

/-- Witness for C10 with one stale stored pack. -/
theorem C10_allocator_witness :
    (alloc_name exConf
      (reuse_pass exConf .nil [114] "rem" [("X.tar.gz", { list := [] })]
        ⟨[], {}, {}, []⟩).remote_names 0).1 ≠ "X.tar.gz" :=
  C10_allocator_avoids_kept_and_deleted_names exConf .nil [114] "rem"
    [("X.tar.gz", { list := [] })] ⟨[], {}, {}, []⟩ rfl "X.tar.gz" (by simp) 0

/-! ## Lemma kit: decomposition of the directory walk -/

/-- upload_walk on a file returns no result and the unchanged state. -/
theorem upload_walk_file (st : StatRes) (c : ByteStr) (path : ByteStr)
    (rp : String) (md : Option DirMeta) (conf : UploadConfig) (state : SyncState)
    (is_root : Bool) :
    upload_walk (.file st c) path rp md conf state is_root = .ok (none, state) := rfl

/-- upload_walk on a directory is the child recursion followed by the
finishing step, from the accumulator the reuse passes produce. -/
theorem upload_walk_dir_eq (st : StatRes) (cs : FSChildren) (path : ByteStr)
    (rp : String) (md : Option DirMeta) (conf : UploadConfig) (state : SyncState)
    (is_root : Bool) :
    upload_walk (.dir st cs) path rp md conf state is_root =
      Except.bind (walk_children cs (walk_acc1 cs path rp md conf state).child_list md path
          rp conf ⟨(walk_acc1 cs path rp md conf state).res,
            (walk_acc1 cs path rp md conf state).state, [], []⟩)
        (walk_finish st cs path rp conf is_root (walk_acc1 cs path rp md conf state)) := rfl

/-- Membership after an insertion. -/
theorem mem_ainsert {α β : Type} [DecidableEq α] (k : α) (v : β)
    (l : List (α × β)) (p : α × β) (h : p ∈ ainsert k v l) :
    p ∈ l ∨ p = (k, v) := by
  induction l with
  | nil =>
      simp only [ainsert] at h
      rcases List.mem_cons.mp h with he | h'
      · exact Or.inr he
      · cases h'
  | cons q rest ih =>
      simp only [ainsert] at h
      by_cases hq : k = q.1
      · rw [if_pos hq] at h
        rcases List.mem_cons.mp h with he | h'
        · exact Or.inr he
        · exact Or.inl (List.mem_cons_of_mem q h')
      · rw [if_neg hq] at h
        rcases List.mem_cons.mp h with he | h'
        · exact Or.inl (he ▸ List.mem_cons_self q rest)
        · rcases ih h' with hl | hr
          · exact Or.inl (List.mem_cons_of_mem q hl)
          · exact Or.inr hr

/-- Lookup after an insertion: the inserted key or an original binding. -/
theorem alookup_ainsert_cases {α β : Type} [DecidableEq α] (k : α) (v : β)
    (l : List (α × β)) (q : α) (w : β) (h : alookup q (ainsert k v l) = some w) :
    (q = k ∧ w = v) ∨ (q ≠ k ∧ alookup q l = some w) := by
  by_cases hq : q = k
  · subst hq
    rw [alookup_ainsert_self] at h
    exact Or.inl ⟨rfl, (Option.some.injEq _ _ ▸ h).symm⟩
  · rw [alookup_ainsert_ne k q v l hq] at h
    exact Or.inr ⟨hq, h⟩

/-- Boolean list containment is membership. -/
theorem list_contains_mem {α : Type} [BEq α] [LawfulBEq α] (l : List α) (x : α) :
    l.contains x = true ↔ x ∈ l := by
  induction l with
  | nil => simp
  | cons a rest ih =>
      simp only [List.contains_cons, Bool.or_eq_true, beq_iff_eq, List.mem_cons]
      rw [ih]

/-- A found name is listed. -/
theorem FSChildren.lookup_mem_names (cs : FSChildren) (n : ByteStr) (nd : FSNode)
    (h : cs.lookup n = some nd) : n ∈ cs.names :=
  (FSChildren.lookup_isSome_iff cs n).mp (by rw [h]; rfl)

/-- Trees have positive size. -/
theorem FSNode.sz_pos (node : FSNode) : 1 ≤ node.sz := by
  cases node with
  | file st c => exact Nat.le_refl 1
  | dir st cs => exact Nat.succ_le_succ (Nat.zero_le _)

/-- The root path of a subtree is among its paths. -/
theorem FSNode.mem_allPaths_self (node : FSNode) (p : ByteStr) :
    p ∈ node.allPaths p := by
  cases node with
  | file st c => exact List.mem_singleton.mpr rfl
  | dir st cs => exact List.mem_cons_self p _

/-- Paths under a listing decompose by the child that contributes them. -/
theorem FSChildren.mem_allPaths_iff (cs : FSChildren) (p x : ByteStr)
    (hnd : cs.names.Nodup) :
    x ∈ cs.allPaths p ↔
      ∃ ch nd, cs.lookup ch = some nd ∧ x ∈ nd.allPaths (bjoin p ch) := by
  induction cs with
  | nil =>
      simp only [FSChildren.allPaths, List.not_mem_nil, false_iff]
      rintro ⟨ch, nd, hlk, _⟩
      cases hlk
  | cons n nd rest ih =>
      rcases List.nodup_cons.mp hnd with ⟨hn, hrest⟩
      simp only [FSChildren.allPaths, List.mem_append]
      constructor
      · rintro (hl | hr)
        · exact ⟨n, nd, by simp [FSChildren.lookup], hl⟩
        · rcases (ih hrest).mp hr with ⟨ch, nd', hlk, hx⟩
          have hch : ch ≠ n := by
            intro he
            exact hn (he ▸ FSChildren.lookup_mem_names rest ch nd' hlk)
          exact ⟨ch, nd', by simp [FSChildren.lookup, hch, hlk], hx⟩
      · rintro ⟨ch, nd', hlk, hx⟩
        by_cases hch : ch = n
        · have h2 : (FSChildren.cons n nd rest).lookup ch = some nd := by
            simp [FSChildren.lookup, hch]
          rw [h2] at hlk
          have he : nd = nd' := (Option.some.injEq _ _).mp hlk
          refine Or.inl ?_
          rw [he, ← hch]
          exact hx
        · simp only [FSChildren.lookup, if_neg hch] at hlk
          exact Or.inr ((ih hrest).mpr ⟨ch, nd', hlk, hx⟩)

/-- takeWhile runs past a prefix it accepts entirely. -/
theorem takeWhile_all_append {α : Type} (p : α → Bool) (l1 l2 : List α)
    (h : ∀ x ∈ l1, p x = true) :
    (l1 ++ l2).takeWhile p = l1 ++ l2.takeWhile p := by
  induction l1 with
  | nil => rfl
  | cons a t ih =>
      simp only [List.cons_append, List.takeWhile_cons, h a (List.mem_cons_self a t)]
      rw [ih fun x hx => h x (List.mem_cons_of_mem a hx)]
      exact if_pos trivial

/-- The basename of a joined path is the appended good name. -/
theorem basename_bjoin (p n : ByteStr) (h : goodName n = true) :
    basename (bjoin p n) = n := by
  have hsep : ∀ x ∈ n.reverse, (decide (x ≠ 47)) = true := by
    intro x hx
    have hx' := List.mem_reverse.mp hx
    simp only [goodName, Bool.and_eq_true, List.all_eq_true] at h
    have := h.2 x hx'
    simp only [goodByte, Bool.and_eq_true] at this
    simp only [decide_eq_true_eq]
    intro he
    rw [he] at this
    cases this.2
  show (((p ++ [47] ++ n).reverse).takeWhile _).reverse = n
  rw [List.reverse_append, List.reverse_append]
  simp only [List.reverse_singleton, List.singleton_append]
  rw [takeWhile_all_append _ n.reverse (47 :: p.reverse) hsep]
  simp

/-- remote_del only rewrites the deletion list and the error count. -/
theorem remote_del_eq (conf : UploadConfig) (rp : String) (res : SWR)
    (n : String) (d : Bool) :
    ∃ fdl ec, remote_del conf rp res n d =
      { res with files_to_delete := fdl, error_count := ec } := by
  unfold remote_del
  dsimp only
  split
  · exact ⟨_, _, rfl⟩
  · split
    · exact ⟨res.files_to_delete, res.error_count, rfl⟩
    · exact ⟨res.files_to_delete, res.error_count + 1, rfl⟩

/-- The stale-children pass only rewrites the deletion list and the error
count of the accumulator. -/
theorem children_del_acc (conf : UploadConfig) (cs : FSChildren) (rp : String) :
    ∀ (children : List (String × DirMeta)) (acc : WalkAcc),
    ∃ r' : SWR, children_del_pass conf cs rp children acc =
        ⟨acc.child_list, r', acc.state, acc.remote_names⟩ ∧
      r'.force_retain = acc.res.force_retain ∧
      r'.metadata = acc.res.metadata ∧
      r'.files_to_tar = acc.res.files_to_tar ∧
      r'.hard_link_map = acc.res.hard_link_map ∧
      r'.first_checksum = acc.res.first_checksum ∧
      r'.second_checksum = acc.res.second_checksum ∧
      r'.total_size = acc.res.total_size ∧
      r'.total_files = acc.res.total_files ∧
      r'.real_transfer_size = acc.res.real_transfer_size ∧
      r'.real_transfer_files = acc.res.real_transfer_files ∧
      r'.retained_directories = acc.res.retained_directories := by
  intro children
  induction children with
  | nil =>
      intro acc
      exact ⟨acc.res, rfl, rfl, rfl, rfl, rfl, rfl, rfl, rfl, rfl, rfl, rfl, rfl⟩
  | cons kv rest ih =>
      intro acc
      have hpass : children_del_pass conf cs rp (kv :: rest) acc =
          children_del_pass conf cs rp rest
            (if (if acc.child_list.contains (decode_child kv.1) then
                  match cs.lookup (decode_child kv.1) with
                  | some nd => !S_ISDIR nd.stat.st_mode
                  | none => true
                else true) then
              { acc with res := remote_del conf rp acc.res kv.1 true } else acc) := rfl
      rw [hpass]
      by_cases hC : (if acc.child_list.contains (decode_child kv.1) then
          match cs.lookup (decode_child kv.1) with
          | some nd => !S_ISDIR nd.stat.st_mode
          | none => true
        else true) = true
      case pos =>
        rw [if_pos hC]
        rcases ih { acc with res := remote_del conf rp acc.res kv.1 true }
          with ⟨r', heq, h1, h2, h3, h4, h5, h6, h7, h8, h9, h10, h11⟩
        obtain ⟨d1, d2, d3, d4, d5, d6, d7, d8, d9, d10, d11⟩ :=
          remote_del_same conf rp acc.res kv.1 true
        exact ⟨r', heq.trans rfl, h1.trans d1, h2.trans d2, h3.trans d3, h4.trans d4,
          h5.trans d5, h6.trans d6, h7.trans d7, h8.trans d8, h9.trans d9,
          h10.trans d10, h11.trans d11⟩
      case neg =>
        rw [if_neg hC]
        exact ih acc

/-- The pack-emission loop never changes the force-retain flag. -/
theorem emission_fr (conf : UploadConfig) (cs : FSChildren) (path : ByteStr)
    (rp : String) (drm : List (ByteStr × SWR)) (sm : List (ByteStr × Nat))
    (rn : List String) :
    ∀ (l : List ByteStr) (gs : Nat) (cg : List ByteStr) (fi : Nat) (res : SWR)
      (st : SyncState),
      (emission_loop conf cs path rp drm sm rn l gs cg fi res st).1.force_retain =
        res.force_retain := by
  intro l
  induction l with
  | nil => intro gs cg fi res st; rfl
  | cons child rest ih =>
      intro gs cg fi res st
      simp only [emission_loop]
      split
      · rw [ih]
        split
        · rfl
        · rfl
      · exact ih _ _ _ _ _

/-- A non-root finishing step that returns without the force-retain flag
took the fold branch: the guard held, the result is the folded record and
the state is the recursion state. -/
theorem walk_finish_fold (st : StatRes) (cs : FSChildren) (path : ByteStr)
    (rp : String) (conf : UploadConfig) (acc1 : WalkAcc) (racc : RecAcc)
    (r : SWR) (s2 : SyncState)
    (h : walk_finish st cs path rp conf false acc1 racc = .ok (some r, s2))
    (hfr : r.force_retain = false) :
    racc.res.force_retain = false ∧
    racc.res.total_size + racc.res.total_files * conf.file_base_bytes ≤
      conf.merge_threshold ∧
    r = fold_swr st cs path conf acc1 racc ∧ s2 = racc.state := by
  unfold walk_finish at h
  dsimp only at h
  by_cases hc : (!false && !racc.res.force_retain &&
      decide (racc.res.total_size + racc.res.total_files * conf.file_base_bytes ≤
        conf.merge_threshold)) = true
  · rw [if_pos hc] at h
    have h2 := Except.ok.inj h
    have h3 : some (fold_swr st cs path conf acc1 racc) = some r := congrArg Prod.fst h2
    have h4 : racc.state = s2 := congrArg Prod.snd h2
    simp only [Bool.not_false, Bool.true_and, Bool.and_eq_true, Bool.not_eq_true',
      decide_eq_true_eq] at hc
    exact ⟨hc.1, hc.2, (Option.some.inj h3).symm, h4.symm⟩
  · rw [if_neg hc] at h
    exfalso
    simp only [Bind.bind, Except.bind] at h
    cases hgs : group_sort conf cs racc.size_map with
    | error e => rw [hgs] at h; cases h
    | ok gl =>
        rw [hgs] at h
        have h2 := Except.ok.inj h
        have h3 := congrArg Prod.fst h2
        simp only [Option.some.injEq] at h3
        have h5 : r.force_retain = true := by
          rw [← h3]
          rw [emission_fr]
          exact set_force_retain_fr racc.res path
        rw [h5] at hfr
        cases hfr

/-- The walk of a directory, when it returns, always returns a result. -/
theorem upload_walk_dir_some (st : StatRes) (cs : FSChildren) (path : ByteStr)
    (rp : String) (md : Option DirMeta) (conf : UploadConfig) (state : SyncState)
    (ir : Bool) (w1 : Option SWR) (s2 : SyncState)
    (h : upload_walk (.dir st cs) path rp md conf state ir = .ok (w1, s2)) :
    ∃ r, w1 = some r := by
  rw [upload_walk_dir_eq] at h
  cases hw : walk_children cs (walk_acc1 cs path rp md conf state).child_list md path
      rp conf ⟨(walk_acc1 cs path rp md conf state).res,
        (walk_acc1 cs path rp md conf state).state, [], []⟩ with
  | error e => rw [hw] at h; cases h
  | ok racc =>
      rw [hw] at h
      simp only [Except.bind] at h
      unfold walk_finish at h
      dsimp only at h
      split at h
      · have h2 := congrArg Prod.fst (Except.ok.inj h)
        exact ⟨_, h2.symm⟩
      · simp only [Bind.bind, Except.bind] at h
        cases hgs : group_sort conf cs racc.size_map with
        | error e => rw [hgs] at h; cases h
        | ok gl =>
            rw [hgs] at h
            have h2 := congrArg Prod.fst (Except.ok.inj h)
            exact ⟨_, h2.symm⟩

/-- The child recursion keeps the force-retain flag set. -/
theorem wc_fr_mono :
    ∀ (cs_it : FSChildren) (cl : List ByteStr) (md : Option DirMeta)
      (path : ByteStr) (rp : String) (conf : UploadConfig) (acc racc : RecAcc),
      walk_children cs_it cl md path rp conf acc = .ok racc →
      acc.res.force_retain = true → racc.res.force_retain = true := by
  intro cs_it
  induction cs_it with
  | nil =>
      intro cl md path rp conf acc racc hok hfr
      have h : acc = racc := Except.ok.inj hok
      rw [← h]
      exact hfr
  | cons child node rest ih =>
      intro cl md path rp conf acc racc hok hfr
      simp only [walk_children] at hok
      by_cases hcc : cl.contains child = true
      · rw [if_pos hcc] at hok
        by_cases hdir : S_ISDIR node.stat.st_mode = true
        · rw [if_pos hdir] at hok
          simp only [Bind.bind, Except.bind] at hok
          cases hw : upload_walk node (bjoin path child) (pjoin rp (encode_child child))
              (md.bind fun m => alookup (encode_child child) m.children) conf
              acc.state false with
          | error e => rw [hw] at hok; cases hok
          | ok w =>
              rw [hw] at hok
              obtain ⟨w1, w2⟩ := w
              cases w1 with
              | none =>
                  dsimp only at hok
                  exact ih _ _ _ _ _ _ _ hok hfr
              | some cr =>
                  dsimp only at hok
                  cases hcr : cr.force_retain with
                  | true =>
                      simp only [hcr, ite_true] at hok
                      refine ih _ _ _ _ _ _ _ hok ?_
                      show (acc.res.set_force_retain path).force_retain = true
                      exact set_force_retain_fr acc.res path
                  | false =>
                      simp only [hcr, Bool.false_eq_true, ite_false] at hok
                      exact ih _ _ _ _ _ _ _ hok hfr
        · rw [if_neg hdir] at hok
          exact ih _ _ _ _ _ _ _ hok hfr
      · rw [if_neg hcc] at hok
        exact ih _ _ _ _ _ _ _ hok hfr

/-- Inserting a fresh key keeps an association list fresh for the rest of
the listing. -/
theorem fresh_step {β : Type} (m : List (ByteStr × β)) (child : ByteStr) (v : β)
    (rest_names : List ByteStr)
    (h : ∀ p ∈ m, p.1 ∉ (child :: rest_names)) (hchild : child ∉ rest_names) :
    ∀ p ∈ ainsert child v m, p.1 ∉ rest_names := by
  intro p hp hmem
  rcases mem_ainsert child v m p hp with hl | he
  · exact h p hl (List.mem_cons_of_mem child hmem)
  · rw [he] at hmem
    exact hchild hmem

/-- A key bound in a fresh association list differs from the head name. -/
theorem alookup_key_ne {β : Type} (m : List (ByteStr × β)) (child : ByteStr)
    (rest_names : List ByteStr) (h : ∀ p ∈ m, p.1 ∉ (child :: rest_names))
    (q : ByteStr) (w : β) (hq : alookup q m = some w) : q ≠ child := by
  intro he
  exact h (q, w) (mem_of_alookup_eq_some m q w hq)
    (he ▸ List.mem_cons_self child rest_names)

/-- The child recursion preserves association-list entries whose keys are
not listed. -/
theorem wc_pres :
    ∀ (cs_it : FSChildren) (cl : List ByteStr) (md : Option DirMeta)
      (path : ByteStr) (rp : String) (conf : UploadConfig) (acc racc : RecAcc),
      walk_children cs_it cl md path rp conf acc = .ok racc →
      cs_it.names.Nodup →
      (∀ p ∈ acc.drm, p.1 ∉ cs_it.names) →
      (∀ p ∈ acc.size_map, p.1 ∉ cs_it.names) →
      (∀ q cr, alookup q acc.drm = some cr → alookup q racc.drm = some cr) ∧
      (∀ q v, alookup q acc.size_map = some v → alookup q racc.size_map = some v) := by
  intro cs_it
  induction cs_it with
  | nil =>
      intro cl md path rp conf acc racc hok _ _ _
      have h : acc = racc := Except.ok.inj hok
      rw [← h]
      exact ⟨fun q cr hq => hq, fun q v hq => hq⟩
  | cons child node rest ih =>
      intro cl md path rp conf acc racc hok hnd hfd hfs
      have hchild : child ∉ rest.names := (List.nodup_cons.mp hnd).1
      have hnd' : rest.names.Nodup := (List.nodup_cons.mp hnd).2
      have hfd' : ∀ p ∈ acc.drm, p.1 ∉ rest.names := fun p hp hm =>
        hfd p hp (List.mem_cons_of_mem child hm)
      have hfs' : ∀ p ∈ acc.size_map, p.1 ∉ rest.names := fun p hp hm =>
        hfs p hp (List.mem_cons_of_mem child hm)
      simp only [walk_children] at hok
      by_cases hcc : cl.contains child = true
      · rw [if_pos hcc] at hok
        by_cases hdir : S_ISDIR node.stat.st_mode = true
        · rw [if_pos hdir] at hok
          simp only [Bind.bind, Except.bind] at hok
          cases hw : upload_walk node (bjoin path child) (pjoin rp (encode_child child))
              (md.bind fun m => alookup (encode_child child) m.children) conf
              acc.state false with
          | error e => rw [hw] at hok; cases hok
          | ok w =>
              rw [hw] at hok
              obtain ⟨w1, w2⟩ := w
              cases w1 with
              | none =>
                  dsimp only at hok
                  exact ih cl md path rp conf ⟨acc.res, w2, acc.drm, acc.size_map⟩ racc
                    hok hnd' hfd' hfs'
              | some cr =>
                  dsimp only at hok
                  cases hcr : cr.force_retain with
                  | true =>
                      simp only [hcr, ite_true] at hok
                      have key := ih _ _ _ _ _ _ _ hok hnd'
                        (fresh_step acc.drm child cr rest.names hfd hchild) hfs'
                      refine ⟨?_, key.2⟩
                      intro q cr0 hq
                      have hqne : q ≠ child := alookup_key_ne acc.drm child rest.names hfd q cr0 hq
                      refine key.1 q cr0 ?_
                      rw [alookup_ainsert_ne child q cr acc.drm hqne]
                      exact hq
                  | false =>
                      simp only [hcr, Bool.false_eq_true, ite_false] at hok
                      have key := ih _ _ _ _ _ _ _ hok hnd'
                        (fresh_step acc.drm child cr rest.names hfd hchild)
                        (fresh_step acc.size_map child
                          (cr.total_size + cr.total_files * conf.file_base_bytes)
                          rest.names hfs hchild)
                      constructor
                      · intro q cr0 hq
                        have hqne : q ≠ child :=
                          alookup_key_ne acc.drm child rest.names hfd q cr0 hq
                        refine key.1 q cr0 ?_
                        rw [alookup_ainsert_ne child q cr acc.drm hqne]
                        exact hq
                      · intro q v hq
                        have hqne : q ≠ child :=
                          alookup_key_ne acc.size_map child rest.names hfs q v hq
                        refine key.2 q v ?_
                        rw [alookup_ainsert_ne child q _ acc.size_map hqne]
                        exact hq
        · rw [if_neg hdir] at hok
          have key := ih _ _ _ _ _ _ _ hok hnd' hfd'
            (fresh_step acc.size_map child
              (node.stat.st_size + conf.file_base_bytes) rest.names hfs hchild)
          refine ⟨key.1, ?_⟩
          intro q v hq
          have hqne : q ≠ child := alookup_key_ne acc.size_map child rest.names hfs q v hq
          refine key.2 q v ?_
          rw [alookup_ainsert_ne child q _ acc.size_map hqne]
          exact hq
      · rw [if_neg hcc] at hok
        exact ih _ _ _ _ _ _ _ hok hnd' hfd' hfs'

/-- When no child is promoted (the recursion output is not force-retained),
the child recursion preserves the core fields of the walk result. -/
theorem wc_core :
    ∀ (cs_it : FSChildren) (cl : List ByteStr) (md : Option DirMeta)
      (path : ByteStr) (rp : String) (conf : UploadConfig) (acc racc : RecAcc),
      walk_children cs_it cl md path rp conf acc = .ok racc →
      racc.res.force_retain = false →
      swrCore racc.res = swrCore acc.res := by
  intro cs_it
  induction cs_it with
  | nil =>
      intro cl md path rp conf acc racc hok _
      have h : acc = racc := Except.ok.inj hok
      rw [← h]
  | cons child node rest ih =>
      intro cl md path rp conf acc racc hok hr
      simp only [walk_children] at hok
      by_cases hcc : cl.contains child = true
      · rw [if_pos hcc] at hok
        by_cases hdir : S_ISDIR node.stat.st_mode = true
        · rw [if_pos hdir] at hok
          simp only [Bind.bind, Except.bind] at hok
          cases hw : upload_walk node (bjoin path child) (pjoin rp (encode_child child))
              (md.bind fun m => alookup (encode_child child) m.children) conf
              acc.state false with
          | error e => rw [hw] at hok; cases hok
          | ok w =>
              rw [hw] at hok
              obtain ⟨w1, w2⟩ := w
              cases w1 with
              | none =>
                  dsimp only at hok
                  exact ih cl md path rp conf ⟨acc.res, w2, acc.drm, acc.size_map⟩ racc hok hr
              | some cr =>
                  dsimp only at hok
                  cases hcr : cr.force_retain with
                  | true =>
                      simp only [hcr, ite_true] at hok
                      have hM := wc_fr_mono rest _ _ _ _ _ _ _ hok
                        (set_force_retain_fr acc.res path)
                      rw [hM] at hr
                      cases hr
                  | false =>
                      simp only [hcr, Bool.false_eq_true, ite_false] at hok
                      exact (ih _ _ _ _ _ _ _ hok hr).trans rfl
        · rw [if_neg hdir] at hok
          exact (ih _ _ _ _ _ _ _ hok hr).trans rfl
      · rw [if_neg hcc] at hok
        exact ih _ _ _ _ _ _ _ hok hr

/-- Every key of the recursion size map was present already or is a listed
name. -/
theorem wc_size_sub :
    ∀ (cs_it : FSChildren) (cl : List ByteStr) (md : Option DirMeta)
      (path : ByteStr) (rp : String) (conf : UploadConfig) (acc racc : RecAcc),
      walk_children cs_it cl md path rp conf acc = .ok racc →
      ∀ q, (alookup q racc.size_map).isSome = true →
        (alookup q acc.size_map).isSome = true ∨
        (q ∈ cs_it.names ∧ cl.contains q = true) := by
  intro cs_it
  induction cs_it with
  | nil =>
      intro cl md path rp conf acc racc hok q hq
      have h : acc = racc := Except.ok.inj hok
      rw [h]
      exact Or.inl hq
  | cons child node rest ih =>
      intro cl md path rp conf acc racc hok q hq
      simp only [walk_children] at hok
      by_cases hcc : cl.contains child = true
      · rw [if_pos hcc] at hok
        by_cases hdir : S_ISDIR node.stat.st_mode = true
        · rw [if_pos hdir] at hok
          simp only [Bind.bind, Except.bind] at hok
          cases hw : upload_walk node (bjoin path child) (pjoin rp (encode_child child))
              (md.bind fun m => alookup (encode_child child) m.children) conf
              acc.state false with
          | error e => rw [hw] at hok; cases hok
          | ok w =>
              rw [hw] at hok
              obtain ⟨w1, w2⟩ := w
              cases w1 with
              | none =>
                  dsimp only at hok
                  rcases ih _ _ _ _ _ _ _ hok q hq with hl | hrm
                  · exact Or.inl hl
                  · exact Or.inr ⟨List.mem_cons_of_mem child hrm.1, hrm.2⟩
              | some cr =>
                  dsimp only at hok
                  cases hcr : cr.force_retain with
                  | true =>
                      simp only [hcr, ite_true] at hok
                      rcases ih _ _ _ _ _ _ _ hok q hq with hl | hrm
                      · exact Or.inl hl
                      · exact Or.inr ⟨List.mem_cons_of_mem child hrm.1, hrm.2⟩
                  | false =>
                      simp only [hcr, Bool.false_eq_true, ite_false] at hok
                      rcases ih _ _ _ _ _ _ _ hok q hq with hl | hrm
                      · rcases Option.isSome_iff_exists.mp hl with ⟨w0, hw0⟩
                        rcases alookup_ainsert_cases child _ acc.size_map q w0 hw0 with
                          ⟨he, _⟩ | ⟨_, hold⟩
                        · refine Or.inr ⟨?_, ?_⟩
                          · rw [he]
                            exact List.mem_cons_self child rest.names
                          · rw [he]
                            exact hcc
                        · exact Or.inl (by rw [hold]; rfl)
                      · exact Or.inr ⟨List.mem_cons_of_mem child hrm.1, hrm.2⟩
        · rw [if_neg hdir] at hok
          rcases ih _ _ _ _ _ _ _ hok q hq with hl | hrm
          · rcases Option.isSome_iff_exists.mp hl with ⟨w0, hw0⟩
            rcases alookup_ainsert_cases child _ acc.size_map q w0 hw0 with
              ⟨he, _⟩ | ⟨_, hold⟩
            · exact Or.inr ⟨by rw [he]; exact List.mem_cons_self child rest.names,
                by rw [he]; exact hcc⟩
            · exact Or.inl (by rw [hold]; rfl)
          · exact Or.inr ⟨List.mem_cons_of_mem child hrm.1, hrm.2⟩
      · rw [if_neg hcc] at hok
        rcases ih _ _ _ _ _ _ _ hok q hq with hl | hrm
        · exact Or.inl hl
        · exact Or.inr ⟨List.mem_cons_of_mem child hrm.1, hrm.2⟩

/-- Every entry of the recursion directory-result map is inherited or was
produced by a successful child walk; when nothing is promoted the recorded
child results are themselves not force-retained. -/
theorem wc_drm_mem :
    ∀ (cs_it : FSChildren) (cl : List ByteStr) (md : Option DirMeta)
      (path : ByteStr) (rp : String) (conf : UploadConfig) (acc racc : RecAcc),
      walk_children cs_it cl md path rp conf acc = .ok racc →
      cs_it.names.Nodup →
      ∀ p ∈ racc.drm, p ∈ acc.drm ∨
        ((racc.res.force_retain = false → p.2.force_retain = false) ∧
         ∃ nd s1 s2, cs_it.lookup p.1 = some nd ∧
           upload_walk nd (bjoin path p.1) (pjoin rp (encode_child p.1))
             (md.bind fun m => alookup (encode_child p.1) m.children) conf s1 false =
               .ok (some p.2, s2)) := by
  intro cs_it
  induction cs_it with
  | nil =>
      intro cl md path rp conf acc racc hok _ p hp
      have h : acc = racc := Except.ok.inj hok
      rw [h]
      exact Or.inl hp
  | cons child node rest ih =>
      intro cl md path rp conf acc racc hok hnd p hp
      have hchild : child ∉ rest.names := (List.nodup_cons.mp hnd).1
      have hnd' : rest.names.Nodup := (List.nodup_cons.mp hnd).2
      simp only [walk_children] at hok
      by_cases hcc : cl.contains child = true
      · rw [if_pos hcc] at hok
        by_cases hdir : S_ISDIR node.stat.st_mode = true
        · rw [if_pos hdir] at hok
          simp only [Bind.bind, Except.bind] at hok
          cases hw : upload_walk node (bjoin path child) (pjoin rp (encode_child child))
              (md.bind fun m => alookup (encode_child child) m.children) conf
              acc.state false with
          | error e => rw [hw] at hok; cases hok
          | ok w =>
              rw [hw] at hok
              obtain ⟨w1, w2⟩ := w
              cases w1 with
              | none =>
                  dsimp only at hok
                  rcases ih _ _ _ _ _ _ _ hok hnd' p hp with hl | ⟨hfr, nd, s1, s2, hlk, hwk⟩
                  · exact Or.inl hl
                  · refine Or.inr ⟨hfr, nd, s1, s2, ?_, hwk⟩
                    have hpne : p.1 ≠ child := fun he =>
                      hchild (he ▸ FSChildren.lookup_mem_names rest p.1 nd hlk)
                    show (if p.1 = child then some node else rest.lookup p.1) = some nd
                    rw [if_neg hpne]
                    exact hlk
              | some cr =>
                  dsimp only at hok
                  cases hcr : cr.force_retain with
                  | true =>
                      simp only [hcr, ite_true] at hok
                      have hM := wc_fr_mono rest _ _ _ _ _ _ _ hok
                        (set_force_retain_fr acc.res path)
                      rcases ih _ _ _ _ _ _ _ hok hnd' p hp with hl |
                        ⟨hfr, nd, s1, s2, hlk, hwk⟩
                      · rcases mem_ainsert child cr acc.drm p hl with hold | hnew
                        · exact Or.inl hold
                        · refine Or.inr ⟨?_, node, acc.state, w2, ?_, ?_⟩
                          · intro hr
                            rw [hM] at hr
                            cases hr
                          · show (if p.1 = child then some node else rest.lookup p.1) = some node
                            rw [hnew]
                            rw [if_pos rfl]
                          · rw [hnew]
                            exact hw
                      · refine Or.inr ⟨hfr, nd, s1, s2, ?_, hwk⟩
                        have hpne : p.1 ≠ child := fun he =>
                          hchild (he ▸ FSChildren.lookup_mem_names rest p.1 nd hlk)
                        show (if p.1 = child then some node else rest.lookup p.1) = some nd
                        rw [if_neg hpne]
                        exact hlk
                  | false =>
                      simp only [hcr, Bool.false_eq_true, ite_false] at hok
                      rcases ih _ _ _ _ _ _ _ hok hnd' p hp with hl |
                        ⟨hfr, nd, s1, s2, hlk, hwk⟩
                      · rcases mem_ainsert child cr acc.drm p hl with hold | hnew
                        · exact Or.inl hold
                        · refine Or.inr ⟨?_, node, acc.state, w2, ?_, ?_⟩
                          · intro _
                            rw [hnew]
                            exact hcr
                          · show (if p.1 = child then some node else rest.lookup p.1) = some node
                            rw [hnew]
                            rw [if_pos rfl]
                          · rw [hnew]
                            exact hw
                      · refine Or.inr ⟨hfr, nd, s1, s2, ?_, hwk⟩
                        have hpne : p.1 ≠ child := fun he =>
                          hchild (he ▸ FSChildren.lookup_mem_names rest p.1 nd hlk)
                        show (if p.1 = child then some node else rest.lookup p.1) = some nd
                        rw [if_neg hpne]
                        exact hlk
        · rw [if_neg hdir] at hok
          rcases ih _ _ _ _ _ _ _ hok hnd' p hp with hl | ⟨hfr, nd, s1, s2, hlk, hwk⟩
          · exact Or.inl hl
          · refine Or.inr ⟨hfr, nd, s1, s2, ?_, hwk⟩
            have hpne : p.1 ≠ child := fun he =>
              hchild (he ▸ FSChildren.lookup_mem_names rest p.1 nd hlk)
            show (if p.1 = child then some node else rest.lookup p.1) = some nd
            rw [if_neg hpne]
            exact hlk
      · rw [if_neg hcc] at hok
        rcases ih _ _ _ _ _ _ _ hok hnd' p hp with hl | ⟨hfr, nd, s1, s2, hlk, hwk⟩
        · exact Or.inl hl
        · refine Or.inr ⟨hfr, nd, s1, s2, ?_, hwk⟩
          have hpne : p.1 ≠ child := fun he =>
            hchild (he ▸ FSChildren.lookup_mem_names rest p.1 nd hlk)
          show (if p.1 = child then some node else rest.lookup p.1) = some nd
          rw [if_neg hpne]
          exact hlk

/-- Coverage of the child recursion when nothing is promoted: every
pending child of a wellformed listing receives its size-map entry, and
every pending directory child a successful non-retained walk result
recorded in the directory-result map. -/
theorem wc_cover :
    ∀ (cs_it : FSChildren) (cl : List ByteStr) (md : Option DirMeta)
      (path : ByteStr) (rp : String) (conf : UploadConfig) (acc racc : RecAcc),
      walk_children cs_it cl md path rp conf acc = .ok racc →
      cs_it.wf = true →
      (∀ p ∈ acc.drm, p.1 ∉ cs_it.names) →
      (∀ p ∈ acc.size_map, p.1 ∉ cs_it.names) →
      racc.res.force_retain = false →
      ∀ ch nd, cl.contains ch = true → cs_it.lookup ch = some nd →
        (S_ISDIR nd.stat.st_mode = false →
          alookup ch racc.size_map = some (nd.stat.st_size + conf.file_base_bytes)) ∧
        (S_ISDIR nd.stat.st_mode = true →
          ∃ cr s1 s2, upload_walk nd (bjoin path ch) (pjoin rp (encode_child ch))
              (md.bind fun m => alookup (encode_child ch) m.children) conf s1 false =
                .ok (some cr, s2) ∧
            cr.force_retain = false ∧
            alookup ch racc.drm = some cr ∧
            alookup ch racc.size_map =
              some (cr.total_size + cr.total_files * conf.file_base_bytes)) := by
  intro cs_it
  induction cs_it with
  | nil =>
      intro cl md path rp conf acc racc hok hwf hfd hfs hr ch nd hcl hlk
      cases hlk
  | cons child node rest ih =>
      intro cl md path rp conf acc racc hok hwf hfd hfs hr ch nd hcl hlk
      simp only [FSChildren.wf, Bool.and_eq_true] at hwf
      have hwnode : node.wf = true := hwf.1.2
      have hwrest : rest.wf = true := hwf.2
      have hchild : child ∉ rest.names := by
        intro hmem
        have hc := hwf.1.1.2
        simp only [Bool.not_eq_true'] at hc
        have hc' : rest.names.elem child = false := hc
        rw [List.elem_eq_true_of_mem hmem] at hc'
        cases hc'
      have hnd' : rest.names.Nodup := FSChildren.wf_names_nodup rest hwrest
      have hfd' : ∀ p ∈ acc.drm, p.1 ∉ rest.names := fun p hp hm =>
        hfd p hp (List.mem_cons_of_mem child hm)
      have hfs' : ∀ p ∈ acc.size_map, p.1 ∉ rest.names := fun p hp hm =>
        hfs p hp (List.mem_cons_of_mem child hm)
      simp only [walk_children] at hok
      by_cases hcc : cl.contains child = true
      · rw [if_pos hcc] at hok
        by_cases hdir : S_ISDIR node.stat.st_mode = true
        · rw [if_pos hdir] at hok
          simp only [Bind.bind, Except.bind] at hok
          cases hw : upload_walk node (bjoin path child) (pjoin rp (encode_child child))
              (md.bind fun m => alookup (encode_child child) m.children) conf
              acc.state false with
          | error e => rw [hw] at hok; cases hok
          | ok w =>
              rw [hw] at hok
              obtain ⟨w1, w2⟩ := w
              cases w1 with
              | none =>
                  exfalso
                  cases node with
                  | file stf cf =>
                      have hs : (!S_ISDIR stf.st_mode) = true := hwnode
                      simp only [Bool.not_eq_true'] at hs
                      have hdir' : S_ISDIR stf.st_mode = true := hdir
                      rw [hs] at hdir'
                      cases hdir'
                  | dir st2 cs2 =>
                      rcases upload_walk_dir_some st2 cs2 _ _ _ conf _ _ _ _ hw with ⟨r0, hr0⟩
                      cases hr0
              | some cr =>
                  dsimp only at hok
                  cases hcr : cr.force_retain with
                  | true =>
                      simp only [hcr, ite_true] at hok
                      have hM := wc_fr_mono rest _ _ _ _ _ _ _ hok
                        (set_force_retain_fr acc.res path)
                      rw [hM] at hr
                      cases hr
                  | false =>
                      simp only [hcr, Bool.false_eq_true, ite_false] at hok
                      have hA := fresh_step acc.drm child cr rest.names hfd hchild
                      have hB := fresh_step acc.size_map child
                        (cr.total_size + cr.total_files * conf.file_base_bytes)
                        rest.names hfs hchild
                      have pres := wc_pres rest cl md path rp conf _ racc hok hnd' hA hB
                      by_cases hch : ch = child
                      · subst hch
                        have h2 : (FSChildren.cons ch node rest).lookup ch = some node := by
                          simp [FSChildren.lookup]
                        rw [h2] at hlk
                        have hne : node = nd := Option.some.inj hlk
                        constructor
                        · intro hf
                          rw [← hne] at hf
                          rw [hdir] at hf
                          cases hf
                        · intro _
                          refine ⟨cr, acc.state, w2, ?_, hcr, ?_, ?_⟩
                          · rw [← hne]
                            exact hw
                          · exact pres.1 ch cr (alookup_ainsert_self ch cr acc.drm)
                          · exact pres.2 ch _ (alookup_ainsert_self ch _ acc.size_map)
                      · have h2 : (FSChildren.cons child node rest).lookup ch =
                            rest.lookup ch := by
                          simp [FSChildren.lookup, hch]
                        rw [h2] at hlk
                        exact ih cl md path rp conf _ racc hok hwrest hA hB hr ch nd hcl hlk
        · rw [if_neg hdir] at hok
          have hB := fresh_step acc.size_map child
            (node.stat.st_size + conf.file_base_bytes) rest.names hfs hchild
          have pres := wc_pres rest cl md path rp conf _ racc hok hnd' hfd' hB
          by_cases hch : ch = child
          · subst hch
            have h2 : (FSChildren.cons ch node rest).lookup ch = some node := by
              simp [FSChildren.lookup]
            rw [h2] at hlk
            have hne : node = nd := Option.some.inj hlk
            constructor
            · intro _
              rw [← hne]
              exact pres.2 ch _ (alookup_ainsert_self ch _ acc.size_map)
            · intro hT
              rw [← hne] at hT
              exact absurd hT hdir
          · have h2 : (FSChildren.cons child node rest).lookup ch = rest.lookup ch := by
              simp [FSChildren.lookup, hch]
            rw [h2] at hlk
            exact ih cl md path rp conf _ racc hok hwrest hfd' hB hr ch nd hcl hlk
      · rw [if_neg hcc] at hok
        by_cases hch : ch = child
        · subst hch
          exact absurd hcl hcc
        · have h2 : (FSChildren.cons child node rest).lookup ch = rest.lookup ch := by
            simp [FSChildren.lookup, hch]
          rw [h2] at hlk
          exact ih cl md path rp conf _ racc hok hwrest hfd' hfs' hr ch nd hcl hlk

/-- A listed binding makes lookup succeed. -/
theorem alookup_isSome_of_mem {α β : Type} [DecidableEq α] (l : List (α × β))
    (k : α) (v : β) (h : (k, v) ∈ l) : (alookup k l).isSome = true := by
  induction l with
  | nil => cases h
  | cons p rest ih =>
      by_cases hk : k = p.1
      · simp [alookup, hk]
      · rcases List.mem_cons.mp h with he | h'
        · exact absurd (by rw [← he]) hk
        · simp only [alookup, if_neg hk]
          exact ih h'

/-- Field values of the folded walk result. -/
theorem fold_swr_fields (st : StatRes) (cs : FSChildren) (path : ByteStr)
    (conf : UploadConfig) (acc1 : WalkAcc) (racc : RecAcc) :
    (fold_swr st cs path conf acc1 racc).force_retain = racc.res.force_retain ∧
    (fold_swr st cs path conf acc1 racc).metadata = racc.res.metadata ∧
    (fold_swr st cs path conf acc1 racc).real_transfer_files =
      racc.res.real_transfer_files ∧
    (fold_swr st cs path conf acc1 racc).real_transfer_size =
      racc.res.real_transfer_size ∧
    (fold_swr st cs path conf acc1 racc).retained_directories =
      racc.res.retained_directories ∧
    (fold_swr st cs path conf acc1 racc).total_size = racc.res.total_size ∧
    (fold_swr st cs path conf acc1 racc).total_files = racc.res.total_files ∧
    (fold_swr st cs path conf acc1 racc).files_to_tar =
      some ((racc.res.files_to_tar.getD []) ++ [path] ++
        (racc.size_map.map fun kv => bjoin path kv.1) ++
        (racc.drm.map fun kv => kv.2.files_to_tar.getD []).flatten) ∧
    (fold_swr st cs path conf acc1 racc).first_checksum =
      some (conf.hashF (multifile_checksum cs path conf racc.drm
        (isort bytesLe acc1.child_list) false
        (init_file_checksum (basename path) st conf.toSyncConfig))) ∧
    (conf.use_file_checksum = true →
      (fold_swr st cs path conf acc1 racc).second_checksum =
        some (conf.hashF (multifile_checksum cs path conf racc.drm
          (isort bytesLe acc1.child_list) true
          (init_file_checksum (basename path) st conf.toSyncConfig)))) ∧
    (conf.use_file_checksum = false →
      (fold_swr st cs path conf acc1 racc).second_checksum =
        racc.res.second_checksum) := by
  cases hu : conf.use_file_checksum with
  | true =>
      refine ⟨by simp [fold_swr, hu], by simp [fold_swr, hu], by simp [fold_swr, hu],
        by simp [fold_swr, hu], by simp [fold_swr, hu], by simp [fold_swr, hu],
        by simp [fold_swr, hu], by simp [fold_swr, hu], by simp [fold_swr, hu],
        fun _ => by simp [fold_swr, hu], fun h => absurd h (by simp)⟩
  | false =>
      exact ⟨by simp [fold_swr, hu], by simp [fold_swr, hu], by simp [fold_swr, hu],
        by simp [fold_swr, hu], by simp [fold_swr, hu], by simp [fold_swr, hu],
        by simp [fold_swr, hu], by simp [fold_swr, hu], by simp [fold_swr, hu],
        fun h => absurd h (by simp), fun _ => by simp [fold_swr, hu]⟩

/-- Master lemma for foldable walks: a non-root walk whose result is not
force-retained folded the directory, producing no metadata and no real
transfers, a tar list covering exactly the subtree paths, and the recursive
engine checksums. -/
theorem folded_walk :
    ∀ (n : Nat) (node : FSNode) (path : ByteStr) (rp : String) (md : Option DirMeta)
      (conf : UploadConfig) (state : SyncState) (r : SWR) (s2 : SyncState),
      node.sz ≤ n → node.wf = true →
      upload_walk node path rp md conf state false = .ok (some r, s2) →
      r.force_retain = false →
      (r.metadata = none ∧
       r.real_transfer_files = 0 ∧
       r.retained_directories = none ∧
       r.total_size + r.total_files * conf.file_base_bytes ≤ conf.merge_threshold ∧
       (∃ tar, r.files_to_tar = some tar ∧ ∀ x, x ∈ tar ↔ x ∈ node.allPaths path) ∧
       r.first_checksum =
         some (file_checksum (basename path) path node conf.toSyncConfig false).1 ∧
       (conf.use_file_checksum = true →
         r.second_checksum =
           some (file_checksum (basename path) path node conf.toSyncConfig true).1) ∧
       (conf.use_file_checksum = false → r.second_checksum = none)) := by
  intro n
  induction n with
  | zero =>
      intro node path rp md conf state r s2 hsz hwf hok hfr
      exact absurd hsz (by have := FSNode.sz_pos node; omega)
  | succ n ihn =>
      intro node path rp md conf state r s2 hsz hwf hok hfr
      cases node with
      | file stf cf =>
          rw [upload_walk_file] at hok
          have h2 := congrArg Prod.fst (Except.ok.inj hok)
          cases h2
      | dir st cs =>
          have hwf' : (S_ISDIR st.st_mode && cs.wf) = true := hwf
          simp only [Bool.and_eq_true] at hwf'
          have hwcs : cs.wf = true := hwf'.2
          have hnd : cs.names.Nodup := FSChildren.wf_names_nodup cs hwcs
          rw [show FSNode.sz (.dir st cs) = cs.sz + 1 from rfl] at hsz
          have hszcs : cs.sz ≤ n := by omega
          rw [upload_walk_dir_eq] at hok
          cases hw : walk_children cs (walk_acc1 cs path rp md conf state).child_list md
              path rp conf ⟨(walk_acc1 cs path rp md conf state).res,
                (walk_acc1 cs path rp md conf state).state, [], []⟩ with
          | error e => rw [hw] at hok; cases hok
          | ok racc =>
              rw [hw] at hok
              simp only [Except.bind] at hok
              obtain ⟨hrfr, hsize, hreq, hs2eq⟩ :=
                walk_finish_fold st cs path rp conf _ racc r s2 hok hfr
              have hAfr : (walk_acc1 cs path rp md conf state).res.force_retain = false := by
                by_contra hc
                simp only [Bool.not_eq_false] at hc
                have hM := wc_fr_mono cs _ _ _ _ _ _ _ hw hc
                rw [hM] at hrfr
                cases hrfr
              have hA : (walk_acc1 cs path rp md conf state).child_list = cs.names ∧
                  (walk_acc1 cs path rp md conf state).res.metadata = none ∧
                  (walk_acc1 cs path rp md conf state).res.files_to_tar = some [] ∧
                  (walk_acc1 cs path rp md conf state).res.first_checksum = none ∧
                  (walk_acc1 cs path rp md conf state).res.second_checksum = none ∧
                  (walk_acc1 cs path rp md conf state).res.real_transfer_files = 0 ∧
                  (walk_acc1 cs path rp md conf state).res.retained_directories = none := by
                cases hmd : md with
                | none => exact ⟨rfl, rfl, rfl, rfl, rfl, rfl, rfl⟩
                | some m =>
                    rw [hmd] at hAfr
                    have hW : walk_acc1 cs path rp (some m) conf state =
                        children_del_pass conf cs rp m.children
                          (reuse_pass conf cs path rp m.files ⟨cs.names, {}, state, []⟩) :=
                      rfl
                    rcases children_del_acc conf cs rp m.children
                        (reuse_pass conf cs path rp m.files ⟨cs.names, {}, state, []⟩) with
                      ⟨r', heq, f1, f2, f3, f4, f5, f6, f7, f8, f9, f10, f11⟩
                    rw [hW, heq] at hAfr
                    have hRfr : (reuse_pass conf cs path rp m.files
                        ⟨cs.names, {}, state, []⟩).res.force_retain = false := by
                      rw [← f1]
                      exact hAfr
                    obtain ⟨g1, g2, g3, g4, g5, g6, g7, g8, g9, g10, g11, g12, g13⟩ :=
                      reuse_pass_no_keep conf cs path rp m.files ⟨cs.names, {}, state, []⟩ hRfr
                    rw [hW, heq]
                    refine ⟨g1, ?_, ?_, ?_, ?_, ?_, ?_⟩
                    · exact (f2.trans g4).trans rfl
                    · exact (f3.trans g5).trans rfl
                    · exact (f5.trans g7).trans rfl
                    · exact (f6.trans g8).trans rfl
                    · exact (f10.trans g12).trans rfl
                    · exact (f11.trans g13).trans rfl
              obtain ⟨hA1, hA2, hA3, hA4, hA5, hA6, hA7⟩ := hA
              have hFd : ∀ p ∈ (⟨(walk_acc1 cs path rp md conf state).res,
                  (walk_acc1 cs path rp md conf state).state, [], []⟩ : RecAcc).drm,
                  p.1 ∉ cs.names := fun p hp => absurd hp (List.not_mem_nil p)
              have hFs : ∀ p ∈ (⟨(walk_acc1 cs path rp md conf state).res,
                  (walk_acc1 cs path rp md conf state).state, [], []⟩ : RecAcc).size_map,
                  p.1 ∉ cs.names := fun p hp => absurd hp (List.not_mem_nil p)
              have hcov := wc_cover cs (walk_acc1 cs path rp md conf state).child_list md
                path rp conf _ racc hw hwcs hFd hFs hrfr
              have hdrm_mem := wc_drm_mem cs (walk_acc1 cs path rp md conf state).child_list
                md path rp conf _ racc hw hnd
              have hssub := wc_size_sub cs (walk_acc1 cs path rp md conf state).child_list
                md path rp conf _ racc hw
              have hcore := wc_core cs (walk_acc1 cs path rp md conf state).child_list md
                path rp conf _ racc hw hrfr
              simp only [swrCore, Prod.mk.injEq] at hcore
              obtain ⟨hc1, hc2, hc3, hc4, hc5, hc6, hc7, hc8, hc9⟩ := hcore
              obtain ⟨hff, hfm, hfrf, hfrs, hfret, hfts, hftf, hftar, hffirst, hfsndT,
                hfsndF⟩ := fold_swr_fields st cs path conf
                  (walk_acc1 cs path rp md conf state) racc
              subst hreq
              have hIH : ∀ ch nd, cs.lookup ch = some nd →
                  S_ISDIR nd.stat.st_mode = true →
                  ∃ cr, alookup ch racc.drm = some cr ∧ cr.force_retain = false ∧
                    alookup ch racc.size_map =
                      some (cr.total_size + cr.total_files * conf.file_base_bytes) ∧
                    (∃ tarC, cr.files_to_tar = some tarC ∧
                      ∀ x, x ∈ tarC ↔ x ∈ nd.allPaths (bjoin path ch)) ∧
                    cr.first_checksum =
                      some (file_checksum ch (bjoin path ch) nd conf.toSyncConfig false).1 ∧
                    (conf.use_file_checksum = true → cr.second_checksum =
                      some (file_checksum ch (bjoin path ch) nd conf.toSyncConfig
                        true).1) := by
                intro ch nd hlk hdirn
                have hchm : ch ∈ cs.names := FSChildren.lookup_mem_names cs ch nd hlk
                have hcc : (walk_acc1 cs path rp md conf state).child_list.contains ch =
                    true := by
                  rw [hA1]
                  exact (list_contains_mem cs.names ch).mpr hchm
                obtain ⟨hcovF, hcovD⟩ := hcov ch nd hcc hlk
                obtain ⟨cr, s1', s2', hwk, hcrfr, hdrmE, hsmE⟩ := hcovD hdirn
                have hsz' : nd.sz ≤ n := by
                  have := FSChildren.lookup_sz cs ch nd hlk
                  omega
                have hwnd : nd.wf = true := FSChildren.wf_lookup cs ch nd hwcs hlk
                obtain ⟨_, _, _, _, htarC, hfstC, hsndCT, _⟩ :=
                  ihn nd (bjoin path ch) (pjoin rp (encode_child ch)) _ conf s1' cr s2'
                    hsz' hwnd hwk hcrfr
                have hgood : goodName ch = true :=
                  FSChildren.wf_names_good cs hwcs ch hchm
                refine ⟨cr, hdrmE, hcrfr, hsmE, htarC, ?_, ?_⟩
                · rw [hfstC, basename_bjoin path ch hgood]
                · intro hu
                  rw [hsndCT hu, basename_bjoin path ch hgood]
              refine ⟨?_, ?_, ?_, ?_, ?_, ?_, ?_, ?_⟩
              · rw [hfm, hc2, hA2]
              · rw [hfrf, hc8, hA6]
              · rw [hfret, hc9, hA7]
              · rw [hfts, hftf]
                exact hsize
              · refine ⟨_, hftar, ?_⟩
                have hftt0 : racc.res.files_to_tar = some [] := by rw [hc3, hA3]
                intro x
                rw [hftt0]
                simp only [Option.getD_some, List.nil_append, List.append_assoc,
                  List.mem_append, List.mem_singleton]
                rw [show FSNode.allPaths (.dir st cs) path = path :: cs.allPaths path
                  from rfl, List.mem_cons]
                constructor
                · rintro (he | hsm | hfl)
                  · exact Or.inl he
                  · right
                    rcases List.mem_map.mp hsm with ⟨kv, hkvm, hbj⟩
                    have hS := alookup_isSome_of_mem racc.size_map kv.1 kv.2 hkvm
                    rcases hssub kv.1 hS with habs | hmem
                    · simp [alookup] at habs
                    · obtain ⟨nd, hlk⟩ := Option.isSome_iff_exists.mp
                        ((FSChildren.lookup_isSome_iff cs kv.1).mpr hmem.1)
                      refine (FSChildren.mem_allPaths_iff cs path x hnd).mpr
                        ⟨kv.1, nd, hlk, ?_⟩
                      rw [← hbj]
                      exact FSNode.mem_allPaths_self nd (bjoin path kv.1)
                  · right
                    rcases List.mem_flatten.mp hfl with ⟨l0, hl0, hxl⟩
                    rcases List.mem_map.mp hl0 with ⟨kv, hkvm, hfeq⟩
                    rcases hdrm_mem kv hkvm with habs |
                      ⟨hfrimp, nd, s1', s2', hlk, hwk⟩
                    · exact absurd habs (List.not_mem_nil kv)
                    · have hcrfr := hfrimp hrfr
                      have hsz' : nd.sz ≤ n := by
                        have := FSChildren.lookup_sz cs kv.1 nd hlk
                        omega
                      have hwnd : nd.wf = true :=
                        FSChildren.wf_lookup cs kv.1 nd hwcs hlk
                      obtain ⟨_, _, _, _, ⟨tarC, htarC, hiffC⟩, _, _, _⟩ :=
                        ihn nd (bjoin path kv.1) (pjoin rp (encode_child kv.1)) _ conf
                          s1' kv.2 s2' hsz' hwnd hwk hcrfr
                      refine (FSChildren.mem_allPaths_iff cs path x hnd).mpr
                        ⟨kv.1, nd, hlk, ?_⟩
                      refine (hiffC x).mp ?_
                      rw [← hfeq] at hxl
                      rw [htarC] at hxl
                      simpa using hxl
                · rintro (he | hcs2)
                  · exact Or.inl he
                  · rcases (FSChildren.mem_allPaths_iff cs path x hnd).mp hcs2 with
                      ⟨ch, nd, hlk, hxnd⟩
                    have hchm : ch ∈ cs.names := FSChildren.lookup_mem_names cs ch nd hlk
                    have hcc : (walk_acc1 cs path rp md conf state).child_list.contains
                        ch = true := by
                      rw [hA1]
                      exact (list_contains_mem cs.names ch).mpr hchm
                    obtain ⟨hcovF, hcovD⟩ := hcov ch nd hcc hlk
                    cases hdirn : S_ISDIR nd.stat.st_mode with
                    | false =>
                        have hwnd : nd.wf = true :=
                          FSChildren.wf_lookup cs ch nd hwcs hlk
                        cases nd with
                        | dir st2 cs2 =>
                            exfalso
                            have hwd : (S_ISDIR st2.st_mode && cs2.wf) = true := hwnd
                            simp only [Bool.and_eq_true] at hwd
                            have hd2 : S_ISDIR (FSNode.dir st2 cs2).stat.st_mode = true :=
                              hwd.1
                            rw [hdirn] at hd2
                            cases hd2
                        | file st2 c2 =>
                            have hx2 : x = bjoin path ch := by
                              simpa [FSNode.allPaths] using hxnd
                            have hsmE := hcovF hdirn
                            refine Or.inr (Or.inl ?_)
                            refine List.mem_map.mpr
                              ⟨(ch, (FSNode.file st2 c2).stat.st_size +
                                conf.file_base_bytes),
                                mem_of_alookup_eq_some _ _ _ hsmE, ?_⟩
                            exact hx2.symm
                    | true =>
                        obtain ⟨cr, s1', s2', hwk, hcrfr, hdrmE, hsmE⟩ := hcovD hdirn
                        have hsz' : nd.sz ≤ n := by
                          have := FSChildren.lookup_sz cs ch nd hlk
                          omega
                        have hwnd : nd.wf = true :=
                          FSChildren.wf_lookup cs ch nd hwcs hlk
                        obtain ⟨_, _, _, _, ⟨tarC, htarC, hiffC⟩, _, _, _⟩ :=
                          ihn nd (bjoin path ch) (pjoin rp (encode_child ch)) _ conf s1'
                            cr s2' hsz' hwnd hwk hcrfr
                        refine Or.inr (Or.inr ?_)
                        refine List.mem_flatten.mpr ⟨tarC, ?_, (hiffC x).mpr hxnd⟩
                        refine List.mem_map.mpr
                          ⟨(ch, cr), mem_of_alookup_eq_some _ _ _ hdrmE, ?_⟩
                        show cr.files_to_tar.getD [] = tarC
                        rw [htarC]
                        rfl
              · have hdrm0 : ∀ ch ∈ isort bytesLe cs.names, ∃ nd,
                    cs.lookup ch = some nd ∧
                    (S_ISDIR nd.stat.st_mode = true → ∃ cr, alookup ch racc.drm = some cr ∧
                      (if false then cr.second_checksum else cr.first_checksum) =
                        some (file_checksum ch (bjoin path ch) nd conf.toSyncConfig
                          false).1) := by
                  intro ch hch
                  have hchm : ch ∈ cs.names := (mem_isort bytesLe ch cs.names).mp hch
                  obtain ⟨nd, hlk⟩ := Option.isSome_iff_exists.mp
                    ((FSChildren.lookup_isSome_iff cs ch).mpr hchm)
                  refine ⟨nd, hlk, ?_⟩
                  intro hdirn
                  obtain ⟨cr, hdrmE, _, _, _, hfst, _⟩ := hIH ch nd hlk hdirn
                  exact ⟨cr, hdrmE, hfst⟩
                have hm0 := multifile_eq cs path conf racc.drm (isort bytesLe cs.names)
                  false (init_file_checksum (basename path) st conf.toSyncConfig)
                  (fun h => by cases h) hwcs hdrm0
                rw [hffirst, hA1, hm0,
                  file_checksum_dir (basename path) path st cs conf.toSyncConfig false hnd]
              · intro hu
                have hdrm1 : ∀ ch ∈ isort bytesLe cs.names, ∃ nd,
                    cs.lookup ch = some nd ∧
                    (S_ISDIR nd.stat.st_mode = true → ∃ cr, alookup ch racc.drm = some cr ∧
                      (if true then cr.second_checksum else cr.first_checksum) =
                        some (file_checksum ch (bjoin path ch) nd conf.toSyncConfig
                          true).1) := by
                  intro ch hch
                  have hchm : ch ∈ cs.names := (mem_isort bytesLe ch cs.names).mp hch
                  obtain ⟨nd, hlk⟩ := Option.isSome_iff_exists.mp
                    ((FSChildren.lookup_isSome_iff cs ch).mpr hchm)
                  refine ⟨nd, hlk, ?_⟩
                  intro hdirn
                  obtain ⟨cr, hdrmE, _, _, _, _, hsnd⟩ := hIH ch nd hlk hdirn
                  exact ⟨cr, hdrmE, hsnd hu⟩
                have hm1 := multifile_eq cs path conf racc.drm (isort bytesLe cs.names)
                  true (init_file_checksum (basename path) st conf.toSyncConfig)
                  (fun _ => hu) hwcs hdrm1
                rw [hfsndT hu, hA1, hm1,
                  file_checksum_dir (basename path) path st cs conf.toSyncConfig true hnd]
              · intro hu
                rw [hfsndF hu, hc6, hA5]

/-- C8.  A non-root directory walk that returns un-retained (no kept pack
and no force-retained descendant) is a fold: the size condition
total_size + total_files * file_base_bytes ≤ merge_threshold holds, no pack
is emitted and no DirNode is produced at this level (the result carries no
metadata and zero real transfers), files_to_tar collects the directory
path itself together with all descendants, and first_checksum (with
second_checksum exactly in content mode) is the recursive engine checksum
over all sorted children. -/
theorem C8_foldable_directory_walk
    (st : StatRes) (cs : FSChildren) (path : ByteStr) (rp : String)
    (md : Option DirMeta) (conf : UploadConfig) (state : SyncState)
    (r : SWR) (s2 : SyncState)
    (hwf : (FSNode.dir st cs).wf = true)
    (hok : upload_walk (.dir st cs) path rp md conf state false = .ok (some r, s2))
    (hfr : r.force_retain = false) :
    r.metadata = none ∧ r.real_transfer_files = 0 ∧ r.retained_directories = none ∧
    r.total_size + r.total_files * conf.file_base_bytes ≤ conf.merge_threshold ∧
    (∃ tar, r.files_to_tar = some tar ∧
      ∀ x, x ∈ tar ↔ x ∈ FSNode.allPaths (.dir st cs) path) ∧
    r.first_checksum =
      some (file_checksum (basename path) path (.dir st cs) conf.toSyncConfig false).1 ∧
    (conf.use_file_checksum = true → r.second_checksum =
      some (file_checksum (basename path) path (.dir st cs) conf.toSyncConfig true).1) ∧
    (conf.use_file_checksum = false → r.second_checksum = none) :=
  folded_walk (FSNode.sz (.dir st cs)) (.dir st cs) path rp md conf state r s2
    (Nat.le_refl _) hwf hok hfr

/-- Witness for C8 on a concrete empty directory walked below the root. -/
theorem C8_foldable_directory_walk_witness :
    (FSNode.dir exStD FSChildren.nil).wf = true ∧
    (∃ r s2, upload_walk (.dir exStD .nil) [114] "rem" none exConf {} false =
        .ok (some r, s2) ∧ r.force_retain = false ∧
      (r.metadata = none ∧ r.real_transfer_files = 0 ∧ r.retained_directories = none ∧
       r.total_size + r.total_files * exConf.file_base_bytes ≤ exConf.merge_threshold ∧
       (∃ tar, r.files_to_tar = some tar ∧
         ∀ x, x ∈ tar ↔ x ∈ FSNode.allPaths (.dir exStD .nil) [114]) ∧
       r.first_checksum = some (file_checksum (basename [114]) [114] (.dir exStD .nil)
         exConf.toSyncConfig false).1 ∧
       (exConf.use_file_checksum = true → r.second_checksum =
         some (file_checksum (basename [114]) [114] (.dir exStD .nil)
           exConf.toSyncConfig true).1) ∧
       (exConf.use_file_checksum = false → r.second_checksum = none))) :=
  ⟨by decide,
   ⟨0, 1, 0, 1, 0, 0, false, some [], some [[114]], [], none, none, some [1], none, 0⟩,
   {}, rfl, rfl,
   C8_foldable_directory_walk exStD .nil [114] "rem" none exConf {}
     ⟨0, 1, 0, 1, 0, 0, false, some [], some [[114]], [], none, none, some [1], none, 0⟩
     {} (by decide) rfl rfl⟩

/-! ## Lemma kit: metadata record operations -/

/-- Removal only drops entries. -/
theorem mem_aremove_sub {α β : Type} [DecidableEq α] (k : α) (l : List (α × β))
    (p : α × β) (h : p ∈ aremove k l) : p ∈ l := by
  induction l with
  | nil => cases h
  | cons q rest ih =>
      simp only [aremove] at h
      by_cases hq : k = q.1
      · rw [if_pos hq] at h
        exact List.mem_cons_of_mem q h
      · rw [if_neg hq] at h
        rcases List.mem_cons.mp h with he | h'
        · exact he ▸ List.mem_cons_self q rest
        · exact List.mem_cons_of_mem q (ih h')

/-- Lookup misses a key bound nowhere. -/
theorem alookup_eq_none_of_fresh {α β : Type} [DecidableEq α] (l : List (α × β))
    (k : α) (h : ∀ p ∈ l, p.1 ≠ k) : alookup k l = none := by
  induction l with
  | nil => rfl
  | cons q rest ih =>
      have hq : k ≠ q.1 := fun he => h q (List.mem_cons_self q rest) he.symm
      simp only [alookup, if_neg hq]
      exact ih fun p hp => h p (List.mem_cons_of_mem q hp)

/-- Recording a pack entry inserts it into the pack records. -/
theorem metaFiles_add (res : SWR) (k : String) (v : PackEntry) :
    metaFiles (res.meta_add_file k v) = ainsert k v (metaFiles res) := by
  cases hm : res.metadata <;> simp [SWR.meta_add_file, metaFiles, hm, ainsert, DirMeta.files]

/-- Recording a pack entry leaves the child records alone. -/
theorem metaChildren_add_file (res : SWR) (k : String) (v : PackEntry) :
    metaChildren (res.meta_add_file k v) = metaChildren res := by
  cases hm : res.metadata <;> simp [SWR.meta_add_file, metaChildren, hm, DirMeta.children]

/-- Dropping a pack entry removes it from the pack records. -/
theorem metaFiles_remove (res : SWR) (k : String) :
    metaFiles (res.meta_remove_file k) = aremove k (metaFiles res) := by
  cases hm : res.metadata <;> simp [SWR.meta_remove_file, metaFiles, hm, aremove, DirMeta.files]

/-- Dropping a pack entry leaves the child records alone. -/
theorem metaChildren_remove (res : SWR) (k : String) :
    metaChildren (res.meta_remove_file k) = metaChildren res := by
  cases hm : res.metadata <;> simp [SWR.meta_remove_file, metaChildren, hm, DirMeta.children]

/-- Recording a child record leaves the pack records alone. -/
theorem metaFiles_add_child (res : SWR) (k : String) (v : DirMeta) :
    metaFiles (res.meta_add_child k v) = metaFiles res := by
  cases hm : res.metadata <;> simp [SWR.meta_add_child, metaFiles, hm, DirMeta.files]

/-- Recording a child record inserts it into the child records. -/
theorem metaChildren_add (res : SWR) (k : String) (v : DirMeta) :
    metaChildren (res.meta_add_child k v) = ainsert k v (metaChildren res) := by
  cases hm : res.metadata <;> simp [SWR.meta_add_child, metaChildren, hm, ainsert, DirMeta.children]

/-- Setting force-retain on an already retained result is the identity. -/
theorem sfr_id (res : SWR) (p : ByteStr) (h : res.force_retain = true) :
    res.set_force_retain p = res := by
  unfold SWR.set_force_retain
  rw [if_pos h]

/-- Setting force-retain on a fresh result installs empty metadata. -/
theorem sfr_meta (res : SWR) (p : ByteStr) (h : res.force_retain = false) :
    metaFiles (res.set_force_retain p) = [] ∧
    metaChildren (res.set_force_retain p) = [] := by
  unfold SWR.set_force_retain
  rw [if_neg (by rw [h]; exact Bool.false_ne_true)]
  exact ⟨rfl, rfl⟩

/-- The grouping sort returns a permutation of the size-map keys. -/
theorem group_sort_mem (conf : UploadConfig) (cs : FSChildren)
    (sm : List (ByteStr × Nat)) (gl : List ByteStr)
    (h : group_sort conf cs sm = .ok gl) :
    (∀ x ∈ gl, (alookup x sm).isSome = true) ∧
    ((sm.map Prod.fst).Nodup → gl.Nodup) := by
  have key : ∀ le : ByteStr → ByteStr → Bool, gl = isort le (sm.map Prod.fst) →
      (∀ x ∈ gl, (alookup x sm).isSome = true) ∧
      ((sm.map Prod.fst).Nodup → gl.Nodup) := by
    intro le hgl
    constructor
    · intro x hx
      rw [hgl] at hx
      have hx' := (mem_isort le x (sm.map Prod.fst)).mp hx
      rcases List.mem_map.mp hx' with ⟨p, hp, hpe⟩
      have : (p.1, p.2) ∈ sm := hp
      exact hpe ▸ alookup_isSome_of_mem sm p.1 p.2 this
    · intro hnd
      rw [hgl]
      exact isort_nodup le _ hnd
  unfold group_sort at h
  split at h
  · exact key _ (Except.ok.inj h).symm
  · split at h
    · exact key _ (Except.ok.inj h).symm
    · split at h
      · exact key _ (Except.ok.inj h).symm
      · cases h

/-- One step of the emission loop, phrased with the named group record and
result constructors. -/
theorem emission_step (conf : UploadConfig) (cs : FSChildren) (path : ByteStr)
    (rp : String) (drm : List (ByteStr × SWR)) (sm : List (ByteStr × Nat))
    (rn : List String) (child : ByteStr) (rest : List ByteStr)
    (gs fi : Nat) (cg : List ByteStr) (res : SWR) (st : SyncState) :
    emission_loop conf cs path rp drm sm rn (child :: rest) gs cg fi res st =
      (if gs + (alookup child sm).getD 0 > conf.merge_threshold || rest.isEmpty then
        emission_loop conf cs path rp drm sm rn rest 0 []
          ((alloc_name conf rn fi).2 + 1)
          (emit_res conf cs path rp drm (isort bytesLe (cg ++ [child]))
            (alloc_name conf rn fi).1 res st)
          (expand_group conf cs path drm (isort bytesLe (cg ++ [child])) st).2
      else
        emission_loop conf cs path rp drm sm rn rest
          (gs + (alookup child sm).getD 0) (cg ++ [child]) fi res st) := rfl

/-- The emission step leaves the child records alone. -/
theorem emit_res_children (conf : UploadConfig) (cs : FSChildren) (path : ByteStr)
    (rp : String) (drm : List (ByteStr × SWR)) (g : List ByteStr) (uname : String)
    (res : SWR) (st : SyncState) :
    metaChildren (emit_res conf cs path rp drm g uname res st) = metaChildren res := by
  unfold emit_res
  dsimp only
  split
  · have h1 : metaChildren ({ (res.meta_add_file uname
        (emit_item conf cs path drm g)).meta_remove_file uname with
        error_count := (res.meta_add_file uname
          (emit_item conf cs path drm g)).error_count + 1 }) =
        metaChildren ((res.meta_add_file uname
          (emit_item conf cs path drm g)).meta_remove_file uname) := rfl
    rw [h1, metaChildren_remove, metaChildren_add_file]
  · have h1 : ∀ a b : Nat, metaChildren ({ res.meta_add_file uname
        (emit_item conf cs path drm g) with
        real_transfer_size := a, real_transfer_files := b }) =
        metaChildren (res.meta_add_file uname (emit_item conf cs path drm g)) :=
      fun a b => rfl
    rw [h1, metaChildren_add_file]

/-- Every pack record after the emission step is an original record or the
newly recorded group entry. -/
theorem emit_res_files (conf : UploadConfig) (cs : FSChildren) (path : ByteStr)
    (rp : String) (drm : List (ByteStr × SWR)) (g : List ByteStr) (uname : String)
    (res : SWR) (st : SyncState) :
    ∀ p ∈ metaFiles (emit_res conf cs path rp drm g uname res st),
      p ∈ metaFiles res ∨ p = (uname, emit_item conf cs path drm g) := by
  intro p hp
  unfold emit_res at hp
  dsimp only at hp
  split at hp
  · have h1 : metaFiles ({ (res.meta_add_file uname
        (emit_item conf cs path drm g)).meta_remove_file uname with
        error_count := (res.meta_add_file uname
          (emit_item conf cs path drm g)).error_count + 1 }) =
        aremove uname (ainsert uname (emit_item conf cs path drm g)
          (metaFiles res)) := by
      have h2 : metaFiles ({ (res.meta_add_file uname
          (emit_item conf cs path drm g)).meta_remove_file uname with
          error_count := (res.meta_add_file uname
            (emit_item conf cs path drm g)).error_count + 1 }) =
          metaFiles ((res.meta_add_file uname
            (emit_item conf cs path drm g)).meta_remove_file uname) := rfl
      rw [h2, metaFiles_remove, metaFiles_add]
    rw [h1] at hp
    exact mem_ainsert _ _ _ p (mem_aremove_sub _ _ p hp)
  · have h1 : metaFiles ({ res.meta_add_file uname
        (emit_item conf cs path drm g) with
        real_transfer_size := (res.meta_add_file uname
          (emit_item conf cs path drm g)).real_transfer_size +
            (conf.t_upload path (isort bytesLe ((expand_group conf cs path drm
              g st).1.map (relpath path))) (pjoin rp uname)).toNat
        real_transfer_files := (res.meta_add_file uname
          (emit_item conf cs path drm g)).real_transfer_files + 1 }) =
        ainsert uname (emit_item conf cs path drm g) (metaFiles res) := by
      have h2 : ∀ a b : Nat, metaFiles ({ res.meta_add_file uname
          (emit_item conf cs path drm g) with
          real_transfer_size := a, real_transfer_files := b }) =
          metaFiles (res.meta_add_file uname (emit_item conf cs path drm g)) :=
        fun a b => rfl
      rw [h2, metaFiles_add]
    rw [h1] at hp
    exact mem_ainsert _ _ _ p hp

/-- The recorded list of a group entry is the encoded group. -/
theorem emit_item_list (conf : UploadConfig) (cs : FSChildren) (path : ByteStr)
    (drm : List (ByteStr × SWR)) (g : List ByteStr) :
    (emit_item conf cs path drm g).list = g.map encode_child := by
  unfold emit_item
  split
  · rfl
  · rfl

/-- Specification of the pack-emission loop over a duplicate-free
disposition list: child records are unchanged, and every pack record of the
result is an original record or records a closed group - a non-empty
duplicate-free sub-list of the dispositions, stored as the base32 encodings
of its raw-sorted members - where distinct new records hold disjoint
groups. -/
theorem emission_spec (conf : UploadConfig) (cs : FSChildren) (path : ByteStr)
    (rp : String) (drm : List (ByteStr × SWR)) (sm : List (ByteStr × Nat))
    (rn : List String) :
    ∀ (l cg : List ByteStr) (gs fi : Nat) (res : SWR) (st : SyncState),
      (l = [] → cg = []) →
      (cg ++ l).Nodup →
      (metaChildren (emission_loop conf cs path rp drm sm rn l gs cg fi res st).1 =
        metaChildren res ∧
      ∃ np : List (String × List ByteStr),
        (∀ p ∈ np, p.2 ≠ [] ∧ p.2.Nodup ∧ ∀ x ∈ p.2, x ∈ cg ++ l) ∧
        (∀ p1 ∈ np, ∀ p2 ∈ np, p1.1 ≠ p2.1 → ∀ x ∈ p1.2, x ∉ p2.2) ∧
        (∀ k pe, alookup k
            (metaFiles (emission_loop conf cs path rp drm sm rn l gs cg fi res st).1) =
            some pe →
          (k, pe) ∈ metaFiles res ∨
          ∃ g, (k, g) ∈ np ∧ pe.list = (isort bytesLe g).map encode_child)) := by
  intro l
  induction l with
  | nil =>
      intro cg gs fi res st hl0 hnd
      refine ⟨rfl, [], ?_, ?_, ?_⟩
      · intro p hp; cases hp
      · intro p1 hp1; cases hp1
      · intro k pe h
        exact Or.inl (mem_of_alookup_eq_some _ _ _ h)
  | cons child rest ih =>
      intro cg gs fi res st hl0 hnd
      have hnd' : ((cg ++ [child]) ++ rest).Nodup := by
        rw [List.append_assoc, List.singleton_append]
        exact hnd
      have hndParts := List.nodup_append.mp hnd'
      rw [emission_step]
      by_cases hcond : (decide (gs + (alookup child sm).getD 0 > conf.merge_threshold)
          || rest.isEmpty) = true
      · rw [if_pos hcond]
        obtain ⟨ihC, np', hshape', hdisj', hent'⟩ :=
          ih [] 0 ((alloc_name conf rn fi).2 + 1)
            (emit_res conf cs path rp drm (isort bytesLe (cg ++ [child]))
              (alloc_name conf rn fi).1 res st)
            (expand_group conf cs path drm (isort bytesLe (cg ++ [child])) st).2
            (fun _ => rfl) (by simpa using hndParts.2.1)
        refine ⟨ihC.trans (emit_res_children conf cs path rp drm _ _ res st),
          ((alloc_name conf rn fi).1, cg ++ [child]) :: np', ?_, ?_, ?_⟩
        · intro p hp
          rcases List.mem_cons.mp hp with he | hp'
          · subst he
            refine ⟨by simp, hndParts.1, ?_⟩
            intro x hx
            rw [show cg ++ child :: rest = (cg ++ [child]) ++ rest by
              rw [List.append_assoc, List.singleton_append]]
            exact List.mem_append_left rest hx
          · obtain ⟨hne, hnodup, hsub⟩ := hshape' p hp'
            refine ⟨hne, hnodup, ?_⟩
            intro x hx
            have : x ∈ rest := by simpa using hsub x hx
            exact List.mem_append_right cg (List.mem_cons_of_mem child this)
        · intro p1 hp1 p2 hp2 hkne x hx1 hx2
          rcases List.mem_cons.mp hp1 with he1 | hp1' <;>
            rcases List.mem_cons.mp hp2 with he2 | hp2'
          · rw [he1, he2] at hkne
            exact hkne rfl
          · obtain ⟨_, _, hsub2⟩ := hshape' p2 hp2'
            have hx2' : x ∈ rest := by simpa using hsub2 x hx2
            rw [he1] at hx1
            exact hndParts.2.2 hx1 hx2'
          · obtain ⟨_, _, hsub1⟩ := hshape' p1 hp1'
            have hx1' : x ∈ rest := by simpa using hsub1 x hx1
            rw [he2] at hx2
            exact hndParts.2.2 hx2 hx1'
          · exact hdisj' p1 hp1' p2 hp2' hkne x hx1 hx2
        · intro k pe h
          rcases hent' k pe h with hold | ⟨g, hg, hlist⟩
          · rcases emit_res_files conf cs path rp drm _ _ res st (k, pe) hold with
              horig | hnew
            · exact Or.inl horig
            · have hk1 : k = (alloc_name conf rn fi).1 := congrArg Prod.fst hnew
              have hk : pe = emit_item conf cs path drm
                  (isort bytesLe (cg ++ [child])) := congrArg Prod.snd hnew
              refine Or.inr ⟨cg ++ [child], ?_, ?_⟩
              · rw [hk1]
                exact List.mem_cons_self _ _
              · rw [hk, emit_item_list]
          · exact Or.inr ⟨g, List.mem_cons_of_mem _ hg, hlist⟩
      · rw [if_neg hcond]
        have hrest : rest ≠ [] := by
          intro hre
          rw [hre] at hcond
          simp at hcond
        have key := ih (cg ++ [child]) (gs + (alookup child sm).getD 0) fi res st
          (fun hre => absurd hre hrest) hnd'
        rw [show cg ++ child :: rest = (cg ++ [child]) ++ rest by
          rw [List.append_assoc, List.singleton_append]]
        exact key

/-- The child recursion only writes size-map entries for listed names. -/
theorem wc_size_frame :
    ∀ (cs_it : FSChildren) (cl : List ByteStr) (md : Option DirMeta)
      (path : ByteStr) (rp : String) (conf : UploadConfig) (acc racc : RecAcc),
      walk_children cs_it cl md path rp conf acc = .ok racc →
      ∀ q, q ∉ cs_it.names → alookup q racc.size_map = alookup q acc.size_map := by
  intro cs_it
  induction cs_it with
  | nil =>
      intro cl md path rp conf acc racc hok q hq
      have h : acc = racc := Except.ok.inj hok
      rw [h]
  | cons child node rest ih =>
      intro cl md path rp conf acc racc hok q hq
      have hqc : q ≠ child := fun he => hq (he ▸ List.mem_cons_self child rest.names)
      have hqr : q ∉ rest.names := fun hm => hq (List.mem_cons_of_mem child hm)
      simp only [walk_children] at hok
      by_cases hcc : cl.contains child = true
      · rw [if_pos hcc] at hok
        by_cases hdir : S_ISDIR node.stat.st_mode = true
        · rw [if_pos hdir] at hok
          simp only [Bind.bind, Except.bind] at hok
          cases hw : upload_walk node (bjoin path child) (pjoin rp (encode_child child))
              (md.bind fun m => alookup (encode_child child) m.children) conf
              acc.state false with
          | error e => rw [hw] at hok; cases hok
          | ok w =>
              rw [hw] at hok
              obtain ⟨w1, w2⟩ := w
              cases w1 with
              | none =>
                  dsimp only at hok
                  exact ih _ _ _ _ _ _ _ hok q hqr
              | some cr =>
                  dsimp only at hok
                  cases hcr : cr.force_retain with
                  | true =>
                      simp only [hcr, ite_true] at hok
                      exact ih _ _ _ _ _ _ _ hok q hqr
                  | false =>
                      simp only [hcr, Bool.false_eq_true, ite_false] at hok
                      rw [ih _ _ _ _ _ _ _ hok q hqr]
                      exact alookup_ainsert_ne child q _ acc.size_map hqc
        · rw [if_neg hdir] at hok
          rw [ih _ _ _ _ _ _ _ hok q hqr]
          exact alookup_ainsert_ne child q _ acc.size_map hqc
      · rw [if_neg hcc] at hok
        exact ih _ _ _ _ _ _ _ hok q hqr

/-- The size map keeps distinct keys through the child recursion. -/
theorem wc_size_keys :
    ∀ (cs_it : FSChildren) (cl : List ByteStr) (md : Option DirMeta)
      (path : ByteStr) (rp : String) (conf : UploadConfig) (acc racc : RecAcc),
      walk_children cs_it cl md path rp conf acc = .ok racc →
      cs_it.names.Nodup →
      (∀ p ∈ acc.size_map, p.1 ∉ cs_it.names) →
      (acc.size_map.map Prod.fst).Nodup →
      (racc.size_map.map Prod.fst).Nodup := by
  intro cs_it
  induction cs_it with
  | nil =>
      intro cl md path rp conf acc racc hok _ _ hkn
      have h : acc = racc := Except.ok.inj hok
      rw [← h]
      exact hkn
  | cons child node rest ih =>
      intro cl md path rp conf acc racc hok hnd hfs hkn
      have hchild : child ∉ rest.names := (List.nodup_cons.mp hnd).1
      have hnd' : rest.names.Nodup := (List.nodup_cons.mp hnd).2
      have hfs' : ∀ p ∈ acc.size_map, p.1 ∉ rest.names := fun p hp hm =>
        hfs p hp (List.mem_cons_of_mem child hm)
      have hfresh : child ∉ acc.size_map.map Prod.fst := by
        intro hm
        rcases List.mem_map.mp hm with ⟨p, hp, hpe⟩
        exact hfs p hp (hpe ▸ List.mem_cons_self child rest.names)
      have hinsnd : ∀ v : Nat, ((ainsert child v acc.size_map).map Prod.fst).Nodup := by
        intro v
        rw [ainsert_keys_fresh child v acc.size_map hfresh]
        simp only [List.nodup_append, List.nodup_cons, List.not_mem_nil,
          List.nodup_nil, List.Disjoint]
        exact ⟨hkn, ⟨fun h => h, trivial⟩, fun a ha hc => by
          rcases List.mem_singleton.mp hc with he
          rcases List.mem_map.mp (he ▸ ha) with ⟨p, hp, hpe⟩
          exact hfs p hp (hpe ▸ List.mem_cons_self child rest.names)⟩
      simp only [walk_children] at hok
      by_cases hcc : cl.contains child = true
      · rw [if_pos hcc] at hok
        by_cases hdir : S_ISDIR node.stat.st_mode = true
        · rw [if_pos hdir] at hok
          simp only [Bind.bind, Except.bind] at hok
          cases hw : upload_walk node (bjoin path child) (pjoin rp (encode_child child))
              (md.bind fun m => alookup (encode_child child) m.children) conf
              acc.state false with
          | error e => rw [hw] at hok; cases hok
          | ok w =>
              rw [hw] at hok
              obtain ⟨w1, w2⟩ := w
              cases w1 with
              | none =>
                  dsimp only at hok
                  exact ih _ _ _ _ _ _ _ hok hnd' hfs' hkn
              | some cr =>
                  dsimp only at hok
                  cases hcr : cr.force_retain with
                  | true =>
                      simp only [hcr, ite_true] at hok
                      exact ih _ _ _ _ _ _ _ hok hnd' hfs' hkn
                  | false =>
                      simp only [hcr, Bool.false_eq_true, ite_false] at hok
                      exact ih _ _ _ _ _ _ _ hok hnd'
                        (fresh_step acc.size_map child _ rest.names hfs hchild)
                        (hinsnd _)
        · rw [if_neg hdir] at hok
          exact ih _ _ _ _ _ _ _ hok hnd'
            (fresh_step acc.size_map child _ rest.names hfs hchild)
            (hinsnd _)
      · rw [if_neg hcc] at hok
        exact ih _ _ _ _ _ _ _ hok hnd' hfs' hkn

/-- Pack records only shrink through the child recursion. -/
theorem wc_files_sub :
    ∀ (cs_it : FSChildren) (cl : List ByteStr) (md : Option DirMeta)
      (path : ByteStr) (rp : String) (conf : UploadConfig) (acc racc : RecAcc),
      walk_children cs_it cl md path rp conf acc = .ok racc →
      ∀ p ∈ metaFiles racc.res, p ∈ metaFiles acc.res := by
  intro cs_it
  induction cs_it with
  | nil =>
      intro cl md path rp conf acc racc hok p hp
      have h : acc = racc := Except.ok.inj hok
      rw [h]
      exact hp
  | cons child node rest ih =>
      intro cl md path rp conf acc racc hok p hp
      simp only [walk_children] at hok
      by_cases hcc : cl.contains child = true
      · rw [if_pos hcc] at hok
        by_cases hdir : S_ISDIR node.stat.st_mode = true
        · rw [if_pos hdir] at hok
          simp only [Bind.bind, Except.bind] at hok
          cases hw : upload_walk node (bjoin path child) (pjoin rp (encode_child child))
              (md.bind fun m => alookup (encode_child child) m.children) conf
              acc.state false with
          | error e => rw [hw] at hok; cases hok
          | ok w =>
              rw [hw] at hok
              obtain ⟨w1, w2⟩ := w
              cases w1 with
              | none =>
                  dsimp only at hok
                  exact ih _ _ _ _ _ _ _ hok p hp
              | some cr =>
                  dsimp only at hok
                  cases hcr : cr.force_retain with
                  | true =>
                      simp only [hcr, ite_true] at hok
                      have hmid := ih _ _ _ _ _ _ _ hok p hp
                      have hmid2 : p ∈ metaFiles ((({ acc.res.set_force_retain path with
                          retained_directories := some
                            (((acc.res.set_force_retain path).retained_directories.getD
                              []) ++ (cr.retained_directories.getD [])) } :
                          SWR).meta_add_child (encode_child child)
                            (cr.metadata.getD (.mk [] []))) : SWR) := hmid
                      rw [metaFiles_add_child] at hmid2
                      have hmid3 : p ∈ metaFiles (acc.res.set_force_retain path) := hmid2
                      cases hfr0 : acc.res.force_retain with
                      | true =>
                          rw [sfr_id acc.res path hfr0] at hmid3
                          exact hmid3
                      | false =>
                          rw [(sfr_meta acc.res path hfr0).1] at hmid3
                          cases hmid3
                  | false =>
                      simp only [hcr, Bool.false_eq_true, ite_false] at hok
                      exact ih _ _ _ _ _ _ _ hok p hp
        · rw [if_neg hdir] at hok
          exact ih _ _ _ _ _ _ _ hok p hp
      · rw [if_neg hcc] at hok
        exact ih _ _ _ _ _ _ _ hok p hp

/-- Every child record the recursion adds names a promoted listed child
that received no size-map entry. -/
theorem wc_children_char :
    ∀ (cs_it : FSChildren) (cl : List ByteStr) (md : Option DirMeta)
      (path : ByteStr) (rp : String) (conf : UploadConfig) (acc racc : RecAcc),
      walk_children cs_it cl md path rp conf acc = .ok racc →
      cs_it.names.Nodup →
      (∀ p ∈ acc.size_map, p.1 ∉ cs_it.names) →
      ∀ p ∈ metaChildren racc.res,
        p ∈ metaChildren acc.res ∨
        ∃ child, p.1 = encode_child child ∧ child ∈ cs_it.names ∧
          alookup child racc.size_map = none := by
  intro cs_it
  induction cs_it with
  | nil =>
      intro cl md path rp conf acc racc hok _ _ p hp
      have h : acc = racc := Except.ok.inj hok
      rw [h]
      exact Or.inl hp
  | cons child node rest ih =>
      intro cl md path rp conf acc racc hok hnd hfs p hp
      have hchild : child ∉ rest.names := (List.nodup_cons.mp hnd).1
      have hnd' : rest.names.Nodup := (List.nodup_cons.mp hnd).2
      have hfs' : ∀ q ∈ acc.size_map, q.1 ∉ rest.names := fun q hq hm =>
        hfs q hq (List.mem_cons_of_mem child hm)
      simp only [walk_children] at hok
      by_cases hcc : cl.contains child = true
      · rw [if_pos hcc] at hok
        by_cases hdir : S_ISDIR node.stat.st_mode = true
        · rw [if_pos hdir] at hok
          simp only [Bind.bind, Except.bind] at hok
          cases hw : upload_walk node (bjoin path child) (pjoin rp (encode_child child))
              (md.bind fun m => alookup (encode_child child) m.children) conf
              acc.state false with
          | error e => rw [hw] at hok; cases hok
          | ok w =>
              rw [hw] at hok
              obtain ⟨w1, w2⟩ := w
              cases w1 with
              | none =>
                  dsimp only at hok
                  rcases ih _ _ _ _ _ _ _ hok hnd' hfs' p hp with hl | ⟨c, h1, h2, h3⟩
                  · exact Or.inl hl
                  · exact Or.inr ⟨c, h1, List.mem_cons_of_mem child h2, h3⟩
              | some cr =>
                  dsimp only at hok
                  cases hcr : cr.force_retain with
                  | true =>
                      simp only [hcr, ite_true] at hok
                      have hnone : alookup child racc.size_map = none := by
                        rw [wc_size_frame rest _ _ _ _ _ _ _ hok child hchild]
                        exact alookup_eq_none_of_fresh acc.size_map child
                          (fun q hq he =>
                            hfs q hq (he ▸ List.mem_cons_self child rest.names))
                      rcases ih _ _ _ _ _ _ _ hok hnd' hfs' p hp with hl |
                        ⟨c, h1, h2, h3⟩
                      · have hl2 : p ∈ metaChildren ((({ acc.res.set_force_retain path with
                            retained_directories := some
                              (((acc.res.set_force_retain
                                path).retained_directories.getD []) ++
                                (cr.retained_directories.getD [])) } :
                            SWR).meta_add_child (encode_child child)
                              (cr.metadata.getD (.mk [] []))) : SWR) := hl
                        rw [metaChildren_add] at hl2
                        rcases mem_ainsert _ _ _ p hl2 with hbase | hnew
                        · have hbase2 : p ∈ metaChildren (acc.res.set_force_retain path) :=
                            hbase
                          cases hfr0 : acc.res.force_retain with
                          | true =>
                              rw [sfr_id acc.res path hfr0] at hbase2
                              exact Or.inl hbase2
                          | false =>
                              rw [(sfr_meta acc.res path hfr0).2] at hbase2
                              cases hbase2
                        · refine Or.inr ⟨child, ?_, List.mem_cons_self child rest.names,
                            hnone⟩
                          rw [hnew]
                      · exact Or.inr ⟨c, h1, List.mem_cons_of_mem child h2, h3⟩
                  | false =>
                      simp only [hcr, Bool.false_eq_true, ite_false] at hok
                      rcases ih _ _ _ _ _ _ _ hok hnd'
                        (fresh_step acc.size_map child _ rest.names hfs hchild) p hp with
                        hl | ⟨c, h1, h2, h3⟩
                      · exact Or.inl hl
                      · exact Or.inr ⟨c, h1, List.mem_cons_of_mem child h2, h3⟩
        · rw [if_neg hdir] at hok
          rcases ih _ _ _ _ _ _ _ hok hnd'
            (fresh_step acc.size_map child _ rest.names hfs hchild) p hp with
            hl | ⟨c, h1, h2, h3⟩
          · exact Or.inl hl
          · exact Or.inr ⟨c, h1, List.mem_cons_of_mem child h2, h3⟩
      · rw [if_neg hcc] at hok
        rcases ih _ _ _ _ _ _ _ hok hnd' hfs' p hp with hl | ⟨c, h1, h2, h3⟩
        · exact Or.inl hl
        · exact Or.inr ⟨c, h1, List.mem_cons_of_mem child h2, h3⟩

/-- The metadata-reuse pass records only verified stored packs, and every
recorded pack has its members removed from the pending child list. -/
theorem reuse_inv (conf : UploadConfig) (cs : FSChildren) (path : ByteStr)
    (rp : String) (F : List (String × PackEntry)) :
    ∀ (files : List (String × PackEntry)) (acc : WalkAcc),
      (∀ p ∈ files, p ∈ F) →
      (∀ p ∈ metaFiles acc.res, p ∈ F ∧
        ∀ x ∈ pack_members p.2, x ∉ acc.child_list) →
      metaChildren acc.res = [] →
      ((∀ p ∈ metaFiles (reuse_pass conf cs path rp files acc).res, p ∈ F ∧
         ∀ x ∈ pack_members p.2,
           x ∉ (reuse_pass conf cs path rp files acc).child_list) ∧
       metaChildren (reuse_pass conf cs path rp files acc).res = [] ∧
       (∀ x ∈ (reuse_pass conf cs path rp files acc).child_list,
         x ∈ acc.child_list)) := by
  intro files
  induction files with
  | nil =>
      intro acc hF hinv hch
      exact ⟨hinv, hch, fun x hx => hx⟩
  | cons kv rest ih =>
      intro acc hF hinv hch
      have hpass : reuse_pass conf cs path rp (kv :: rest) acc =
          reuse_pass conf cs path rp rest (reuse_one conf cs path rp acc kv.1 kv.2) :=
        rfl
      rw [hpass]
      have hstep : (∀ p ∈ metaFiles (reuse_one conf cs path rp acc kv.1 kv.2).res,
            p ∈ F ∧ ∀ x ∈ pack_members p.2,
              x ∉ (reuse_one conf cs path rp acc kv.1 kv.2).child_list) ∧
          metaChildren (reuse_one conf cs path rp acc kv.1 kv.2).res = [] ∧
          (∀ x ∈ (reuse_one conf cs path rp acc kv.1 kv.2).child_list,
            x ∈ acc.child_list) := by
        unfold reuse_one
        split
        · -- keep branch
          show (∀ p ∈ metaFiles (reuse_keep conf cs path acc kv.1 kv.2).res, _) ∧ _
          unfold reuse_keep
          dsimp only
          refine ⟨?_, ?_, ?_⟩
          · intro p hp
            have hp2 : p ∈ metaFiles ((acc.res.set_force_retain path).meta_add_file
                kv.1 kv.2) := hp
            rw [metaFiles_add] at hp2
            rcases mem_ainsert _ _ _ p hp2 with hbase | hnew
            · have hbase2 : p ∈ metaFiles (acc.res.set_force_retain path) := hbase
              cases hfr0 : acc.res.force_retain with
              | true =>
                  rw [sfr_id acc.res path hfr0] at hbase2
                  obtain ⟨hF0, hmem0⟩ := hinv p hbase2
                  refine ⟨hF0, ?_⟩
                  intro x hx hxin
                  exact hmem0 x hx (List.mem_of_mem_filter hxin)
              | false =>
                  rw [(sfr_meta acc.res path hfr0).1] at hbase2
                  cases hbase2
            · refine ⟨?_, ?_⟩
              · rw [hnew]
                exact hF kv (List.mem_cons_self kv rest)
              · intro x hx hxin
                have hpred := List.of_mem_filter hxin
                rw [hnew] at hx
                have : (pack_members kv.2).contains x = true :=
                  (list_contains_mem _ x).mpr hx
                rw [this] at hpred
                cases hpred
          · show metaChildren ((acc.res.set_force_retain path).meta_add_file
                kv.1 kv.2) = []
            rw [metaChildren_add_file]
            cases hfr0 : acc.res.force_retain with
            | true =>
                rw [sfr_id acc.res path hfr0]
                exact hch
            | false =>
                exact (sfr_meta acc.res path hfr0).2
          · intro x hx
            exact List.mem_of_mem_filter hx
        · -- delete branch
          show (∀ p ∈ metaFiles (reuse_del conf rp acc kv.1).res, _) ∧ _
          unfold reuse_del
          dsimp only
          rcases remote_del_eq conf rp acc.res kv.1 false with ⟨fdl, ec, hdel⟩
          rw [hdel]
          exact ⟨fun p hp => hinv p hp, hch, fun x hx => hx⟩
      obtain ⟨c1, c2, c3⟩ := ih (reuse_one conf cs path rp acc kv.1 kv.2)
        (fun p hp => hF p (List.mem_cons_of_mem kv hp)) hstep.1 hstep.2.1
      exact ⟨c1, c2, fun x hx => hstep.2.2 x (c3 x hx)⟩

/-- At the end of the reuse and stale-children passes, every pack record is
a verbatim entry of the stored document with its members removed from the
pending list, no child record exists yet, and the pending list only holds
listed names. -/
theorem walk_acc1_meta (cs : FSChildren) (path : ByteStr) (rp : String)
    (md : Option DirMeta) (conf : UploadConfig) (state : SyncState) :
    (∀ p ∈ metaFiles (walk_acc1 cs path rp md conf state).res,
      (∃ m, md = some m ∧ p ∈ m.files) ∧
      ∀ x ∈ pack_members p.2, x ∉ (walk_acc1 cs path rp md conf state).child_list) ∧
    metaChildren (walk_acc1 cs path rp md conf state).res = [] ∧
    (∀ x ∈ (walk_acc1 cs path rp md conf state).child_list, x ∈ cs.names) := by
  cases hmd : md with
  | none =>
      refine ⟨?_, rfl, fun x hx => hx⟩
      intro p hp
      cases hp
  | some m =>
      have hW : walk_acc1 cs path rp (some m) conf state =
          children_del_pass conf cs rp m.children
            (reuse_pass conf cs path rp m.files ⟨cs.names, {}, state, []⟩) := rfl
      rcases children_del_acc conf cs rp m.children
          (reuse_pass conf cs path rp m.files ⟨cs.names, {}, state, []⟩) with
        ⟨r', heq, f1, f2, f3, f4, f5, f6, f7, f8, f9, f10, f11⟩
      obtain ⟨c1, c2, c3⟩ := reuse_inv conf cs path rp m.files m.files
        ⟨cs.names, {}, state, []⟩ (fun p hp => hp)
        (fun p hp => absurd hp (List.not_mem_nil p)) rfl
      have hf : metaFiles r' = metaFiles (reuse_pass conf cs path rp m.files
          ⟨cs.names, {}, state, []⟩).res := by
        unfold metaFiles
        rw [f2]
      have hc : metaChildren r' = metaChildren (reuse_pass conf cs path rp m.files
          ⟨cs.names, {}, state, []⟩).res := by
        unfold metaChildren
        rw [f2]
      rw [hW, heq]
      refine ⟨?_, ?_, ?_⟩
      · intro p hp
        have hp2 : p ∈ metaFiles r' := hp
        rw [hf] at hp2
        obtain ⟨hpF, hmem⟩ := c1 p hp2
        exact ⟨⟨m, rfl, hpF⟩, fun x hx hxin => hmem x hx hxin⟩
      · show metaChildren r' = []
        rw [hc]
        exact c2
      · intro x hx
        exact c3 x hx

/-- Every pack record of a produced directory node is either a stored
entry kept verbatim, or an emitted pack whose list encodes a raw-sorted
group of child names, disjoint from every other record and every child
key. -/
theorem emitted_packs
    (st : StatRes) (cs : FSChildren) (path : ByteStr) (rp : String)
    (md : Option DirMeta) (conf : UploadConfig) (state : SyncState)
    (ir : Bool) (r : SWR) (s2 : SyncState) (m : DirMeta)
    (hwf : (FSNode.dir st cs).wf = true)
    (hok : upload_walk (.dir st cs) path rp md conf state ir = .ok (some r, s2))
    (hmeta : r.metadata = some m) :
    ∀ k pe, alookup k m.files = some pe →
      (∃ m0, md = some m0 ∧ (k, pe) ∈ m0.files) ∨
      (∃ g, g ≠ [] ∧ (∀ x ∈ g, x ∈ cs.names) ∧
        pe.list = (isort bytesLe g).map encode_child ∧
        pe.list.map decode_child = isort bytesLe g ∧
        (∀ k2 pe2, k2 ≠ k → alookup k2 m.files = some pe2 →
          ∀ s ∈ pe.list, s ∉ pe2.list) ∧
        (∀ key dm, alookup key m.children = some dm → key ∉ pe.list)) := by
  have hok0 := hok
  have hwf' : (S_ISDIR st.st_mode && cs.wf) = true := hwf
  simp only [Bool.and_eq_true] at hwf'
  have hwcs : cs.wf = true := hwf'.2
  have hnd : cs.names.Nodup := FSChildren.wf_names_nodup cs hwcs
  rw [upload_walk_dir_eq] at hok
  cases hw : walk_children cs (walk_acc1 cs path rp md conf state).child_list md
      path rp conf ⟨(walk_acc1 cs path rp md conf state).res,
        (walk_acc1 cs path rp md conf state).state, [], []⟩ with
  | error e => rw [hw] at hok; cases hok
  | ok racc =>
      rw [hw] at hok
      simp only [Except.bind] at hok
      obtain ⟨hAfiles, hAchildren, hAcl⟩ := walk_acc1_meta cs path rp md conf state
      have hFs : ∀ p ∈ (⟨(walk_acc1 cs path rp md conf state).res,
          (walk_acc1 cs path rp md conf state).state, [], []⟩ : RecAcc).size_map,
          p.1 ∉ cs.names := fun p hp => absurd hp (List.not_mem_nil p)
      have hsmk : (racc.size_map.map Prod.fst).Nodup :=
        wc_size_keys cs (walk_acc1 cs path rp md conf state).child_list md path rp
          conf _ racc hw hnd hFs (by simp)
      have hssub := wc_size_sub cs (walk_acc1 cs path rp md conf state).child_list md
        path rp conf _ racc hw
      have hfsub := wc_files_sub cs (walk_acc1 cs path rp md conf state).child_list md
        path rp conf _ racc hw
      have hcchar := wc_children_char cs (walk_acc1 cs path rp md conf state).child_list
        md path rp conf _ racc hw hnd hFs
      unfold walk_finish at hok
      dsimp only at hok
      split at hok
      next hguard =>
        simp only [Bool.and_eq_true, Bool.not_eq_true'] at hguard
        have hir : ir = false := hguard.1.1
        subst hir
        have h2 := Except.ok.inj hok
        have hreq : fold_swr st cs path conf (walk_acc1 cs path rp md conf state)
            racc = r := Option.some.inj (congrArg Prod.fst h2)
        have hfr : r.force_retain = false := by
          rw [← hreq]
          rw [(fold_swr_fields st cs path conf _ racc).1]
          exact hguard.1.2
        have hnone := (folded_walk (FSNode.sz (.dir st cs)) (.dir st cs) path rp md
          conf state r s2 (Nat.le_refl _) hwf hok0 hfr).1
        rw [hmeta] at hnone
        cases hnone
      next hguard =>
        simp only [Bind.bind, Except.bind] at hok
        cases hgs : group_sort conf cs racc.size_map with
        | error e => rw [hgs] at hok; cases hok
        | ok gl =>
            rw [hgs] at hok
            have h2 := Except.ok.inj hok
            have hr : (emission_loop conf cs path rp racc.drm racc.size_map
                (walk_acc1 cs path rp md conf state).remote_names gl 0 [] 0
                (racc.res.set_force_retain path) racc.state).1 = r :=
              Option.some.inj (congrArg Prod.fst h2)
            obtain ⟨hglmem, hglnd'⟩ := group_sort_mem conf cs racc.size_map gl hgs
            have hglnd : gl.Nodup := hglnd' hsmk
            obtain ⟨hch, np, hshape, hdisj, hent⟩ := emission_spec conf cs path rp
              racc.drm racc.size_map
              (walk_acc1 cs path rp md conf state).remote_names gl [] 0 0
              (racc.res.set_force_retain path) racc.state (fun _ => rfl)
              (by simpa using hglnd)
            have hstart : ∀ p ∈ metaFiles (racc.res.set_force_retain path),
                (∃ m0, md = some m0 ∧ p ∈ m0.files) ∧
                ∀ x ∈ pack_members p.2,
                  x ∉ (walk_acc1 cs path rp md conf state).child_list := by
              intro p hp
              cases hfr0 : racc.res.force_retain with
              | false =>
                  rw [(sfr_meta racc.res path hfr0).1] at hp
                  cases hp
              | true =>
                  rw [sfr_id racc.res path hfr0] at hp
                  exact hAfiles p (hfsub p hp)
            have hchstart : ∀ p ∈ metaChildren (racc.res.set_force_retain path),
                ∃ child, p.1 = encode_child child ∧ child ∈ cs.names ∧
                  alookup child racc.size_map = none := by
              intro p hp
              cases hfr0 : racc.res.force_retain with
              | false =>
                  rw [(sfr_meta racc.res path hfr0).2] at hp
                  cases hp
              | true =>
                  rw [sfr_id racc.res path hfr0] at hp
                  rcases hcchar p hp with hbase | hnew
                  · rw [hAchildren] at hbase
                    cases hbase
                  · exact hnew
            have hmf : metaFiles r = m.files := by
              unfold metaFiles
              rw [hmeta]
            have hmc : metaChildren r = m.children := by
              unfold metaChildren
              rw [hmeta]
            -- facts about new groups
            have hgfacts : ∀ k g, (k, g) ∈ np →
                (g ≠ [] ∧ (∀ x ∈ g, x ∈ cs.names) ∧ (∀ x ∈ g, goodName x = true) ∧
                 (∀ x ∈ g, x ∈ (walk_acc1 cs path rp md conf state).child_list) ∧
                 (∀ x ∈ g, (alookup x racc.size_map).isSome = true)) := by
              intro k g hg
              obtain ⟨hne, hnodup, hsubgl⟩ := hshape (k, g) hg
              have hsome : ∀ x ∈ g, (alookup x racc.size_map).isSome = true := by
                intro x hx
                exact hglmem x (by simpa using hsubgl x hx)
              have hnames : ∀ x ∈ g, x ∈ cs.names := by
                intro x hx
                rcases hssub x (hsome x hx) with habs | hm
                · simp [alookup] at habs
                · exact hm.1
              refine ⟨hne, hnames, fun x hx =>
                FSChildren.wf_names_good cs hwcs x (hnames x hx), ?_, hsome⟩
              intro x hx
              rcases hssub x (hsome x hx) with habs | hm
              · simp [alookup] at habs
              · exact (list_contains_mem _ x).mp hm.2
            intro k pe hk
            have hkF : alookup k (metaFiles (emission_loop conf cs path rp racc.drm
                racc.size_map (walk_acc1 cs path rp md conf state).remote_names gl 0
                [] 0 (racc.res.set_force_retain path) racc.state).1) = some pe := by
              rw [hr, hmf]
              exact hk
            rcases hent k pe hkF with hold | ⟨g, hg, hlist⟩
            · exact Or.inl (hstart (k, pe) hold).1
            · obtain ⟨hne, hgnames, hgood, hgcl, hgsome⟩ := hgfacts k g hg
              refine Or.inr ⟨g, hne, hgnames, hlist, ?_, ?_, ?_⟩
              · rw [hlist, List.map_map]
                have hmapid : (isort bytesLe g).map (decode_child ∘ encode_child) =
                    (isort bytesLe g).map id := by
                  refine List.map_congr_left ?_
                  intro x hx
                  exact decode_encode x
                    (goodName_bytes x (hgood x ((mem_isort bytesLe x g).mp hx)))
                rw [hmapid, List.map_id]
              · intro k2 pe2 hk2ne hk2look s hsin hsin2
                have hk2F : alookup k2 (metaFiles (emission_loop conf cs path rp
                    racc.drm racc.size_map
                    (walk_acc1 cs path rp md conf state).remote_names gl 0 [] 0
                    (racc.res.set_force_retain path) racc.state).1) = some pe2 := by
                  rw [hr, hmf]
                  exact hk2look
                rw [hlist] at hsin
                rcases List.mem_map.mp hsin with ⟨x, hxs, hxe⟩
                have hxg : x ∈ g := (mem_isort bytesLe x g).mp hxs
                rcases hent k2 pe2 hk2F with hold2 | ⟨g2, hg2, hlist2⟩
                · obtain ⟨_, hmem2⟩ := hstart (k2, pe2) hold2
                  have hdec : decode_child s ∈ pack_members pe2 := by
                    unfold pack_members
                    exact List.mem_map.mpr ⟨s, hsin2, rfl⟩
                  have hds : decode_child s = x := by
                    rw [← hxe]
                    exact decode_encode x (goodName_bytes x (hgood x hxg))
                  rw [hds] at hdec
                  exact hmem2 x hdec (hgcl x hxg)
                · obtain ⟨_, hgnames2, hgood2, _, _⟩ := hgfacts k2 g2 hg2
                  rw [hlist2] at hsin2
                  rcases List.mem_map.mp hsin2 with ⟨x2, hx2s, hx2e⟩
                  have hx2g : x2 ∈ g2 := (mem_isort bytesLe x2 g2).mp hx2s
                  have hxx : x = x2 := by
                    refine encode_child_inj x x2 (goodName_bytes x (hgood x hxg))
                      (goodName_bytes x2 (hgood2 x2 hx2g)) ?_
                    rw [hxe, hx2e]
                  exact hdisj (k, g) hg (k2, g2) hg2 (fun h => hk2ne h.symm) x hxg
                    (hxx ▸ hx2g)
              · intro key dm hkey hkeyin
                have hkey2 : (key, dm) ∈ metaChildren r :=
                  hmc ▸ mem_of_alookup_eq_some m.children key dm hkey
                rw [← hr, hch] at hkey2
                obtain ⟨child0, hk0, hc0names, hc0none⟩ := hchstart (key, dm) hkey2
                rw [hlist] at hkeyin
                rcases List.mem_map.mp hkeyin with ⟨x, hxs, hxe⟩
                have hxg : x ∈ g := (mem_isort bytesLe x g).mp hxs
                have hc0x : child0 = x := by
                  refine encode_child_inj child0 x
                    (goodName_bytes child0
                      (FSChildren.wf_names_good cs hwcs child0 hc0names))
                    (goodName_bytes x (hgood x hxg)) ?_
                  rw [← hk0, ← hxe]
                have hsx := hgsome x hxg
                rw [← hc0x, hc0none] at hsx
                cases hsx

/-- C9 counterexample: a directory with children named 0x61 and 0xff packs
both into one artifact; the stored list is ["ME", "74"], the base32
encodings in raw-name order, which is not sorted as a string sequence
since "7" precedes "M" in code-point order. -/
theorem C9_pack_list_not_string_sorted :
    ∃ r d, upload exTreeC9 [114] "rem" none exConf = .ok (some (r, d)) ∧
      (d.meta.files.map fun p => p.2.list) = [["ME", "74"]] ∧
      strSorted ["ME", "74"] = false := by
  refine ⟨_, _, rfl, rfl, rfl⟩

/-- C9.  Every pack record of the directory node upload_walk produces is
either a stored pack kept verbatim from the input document, or an emitted
pack whose stored list is the base32 encodings of its member names sorted
as raw byte strings (equivalently, the decoded list is the sorted member
set; the encoded strings themselves need not be in string order), and the
list of an emitted pack shares no entry with any other pack record of the
node nor with any of its child-record keys. -/
theorem C9_emitted_pack_list_sorted_and_disjoint
    (st : StatRes) (cs : FSChildren) (path : ByteStr) (rp : String)
    (md : Option DirMeta) (conf : UploadConfig) (state : SyncState)
    (ir : Bool) (r : SWR) (s2 : SyncState) (m : DirMeta)
    (hwf : (FSNode.dir st cs).wf = true)
    (hok : upload_walk (.dir st cs) path rp md conf state ir = .ok (some r, s2))
    (hmeta : r.metadata = some m) :
    ∀ k pe, alookup k m.files = some pe →
      (∃ m0, md = some m0 ∧ (k, pe) ∈ m0.files) ∨
      (∃ g, g ≠ [] ∧ (∀ x ∈ g, x ∈ cs.names) ∧
        pe.list = (isort bytesLe g).map encode_child ∧
        pe.list.map decode_child = isort bytesLe g ∧
        (∀ k2 pe2, k2 ≠ k → alookup k2 m.files = some pe2 →
          ∀ s ∈ pe.list, s ∉ pe2.list) ∧
        (∀ key dm, alookup key m.children = some dm → key ∉ pe.list)) :=
  emitted_packs st cs path rp md conf state ir r s2 m hwf hok hmeta

/-- Witness for C9 on the two-file directory uploaded as the root. -/
theorem C9_emitted_pack_witness :
    (FSNode.dir exStD (.cons [97] (.file exStF [104])
      (.cons [255] (.file exStF [104]) .nil))).wf = true ∧
    (∃ r s2 m pe, upload_walk (.dir exStD (.cons [97] (.file exStF [104])
        (.cons [255] (.file exStF [104]) .nil))) [114] "rem" none exConf {} true =
          .ok (some r, s2) ∧
      r.metadata = some m ∧
      alookup "_METARCLONE_00000.tar.gz" m.files = some pe ∧
      ((∃ m0, (none : Option DirMeta) = some m0 ∧
          ("_METARCLONE_00000.tar.gz", pe) ∈ m0.files) ∨
       (∃ g, g ≠ [] ∧ (∀ x ∈ g, x ∈ (FSChildren.cons [97] (.file exStF [104])
            (.cons [255] (.file exStF [104]) .nil)).names) ∧
         pe.list = (isort bytesLe g).map encode_child ∧
         pe.list.map decode_child = isort bytesLe g ∧
         (∀ k2 pe2, k2 ≠ "_METARCLONE_00000.tar.gz" →
           alookup k2 m.files = some pe2 → ∀ s ∈ pe.list, s ∉ pe2.list) ∧
         (∀ key dm, alookup key m.children = some dm → key ∉ pe.list)))) :=
  ⟨by decide,
   ⟨_, _, _, _, rfl, rfl, rfl,
    C9_emitted_pack_list_sorted_and_disjoint exStD
      (.cons [97] (.file exStF [104]) (.cons [255] (.file exStF [104]) .nil))
      [114] "rem" none exConf {} true _ _ _ (by decide) rfl rfl
      "_METARCLONE_00000.tar.gz" _ rfl⟩⟩

/-! ## Lemma kit: hard-link bookkeeping over a link-free tree -/

/-- Folding no hard-link candidates into the state leaves it unchanged. -/
theorem upd_hlm_all_nil (state : SyncState) : upd_hlm_all state [] = state := by
  show { state with hard_link_map := aupdate state.hard_link_map [] } = state
  rw [aupdate_nil]

/-- The merge of two checksum deltas accumulates their hard-link maps. -/
theorem cwr_merge_hlm (a b : CWR) :
    (CWR.merge a b).hard_link_map = aupdate a.hard_link_map b.hard_link_map := rfl

/-- Every child signature is the checksum of a listed node of bounded size,
link-free when the listing is. -/
theorem child_sigs_mem (cs : FSChildren) (fp : ByteStr) (conf : SyncConfig)
    (sp : Bool) :
    ∀ p ∈ child_sigs cs fp conf sp, ∃ nd : FSNode,
      p.2 = file_checksum p.1 (bjoin fp p.1) nd conf sp ∧
      nd.sz ≤ cs.sz ∧ (cs.noHL = true → nd.noHL = true) := by
  induction cs with
  | nil => intro p hp; cases hp
  | cons n node rest ih =>
      intro p hp
      rcases List.mem_cons.mp hp with he | hp'
      · subst he
        refine ⟨node, rfl, ?_, ?_⟩
        · show node.sz ≤ node.sz + rest.sz + 1
          omega
        · intro hn
          have hn' : (node.noHL && rest.noHL) = true := hn
          simp only [Bool.and_eq_true] at hn'
          exact hn'.1
      · rcases ih p hp' with ⟨nd, h1, h2, h3⟩
        refine ⟨nd, h1, ?_, ?_⟩
        · show nd.sz ≤ node.sz + rest.sz + 1
          have h2' : nd.sz ≤ rest.sz := h2
          omega
        · intro hn
          have hn' : (node.noHL && rest.noHL) = true := hn
          simp only [Bool.and_eq_true] at hn'
          exact h3 hn'.2

/-- A fold of checksum merges over signature deltas with empty hard-link
maps keeps the hard-link map empty. -/
theorem foldl_merge_hlm (l : List (ByteStr × (ByteStr × CWR))) (r0 : CWR)
    (h0 : r0.hard_link_map = [])
    (h : ∀ p ∈ l, p.2.2.hard_link_map = []) :
    (l.foldl (fun (r : CWR) p => r.merge p.2.2) r0).hard_link_map = [] := by
  induction l generalizing r0 with
  | nil => exact h0
  | cons p rest ih =>
      rw [List.foldl_cons]
      refine ih _ ?_ (fun q hq => h q (List.mem_cons_of_mem p hq))
      rw [cwr_merge_hlm, h p (List.mem_cons_self p rest), h0]
      exact aupdate_nil []

/-- Same fold lemma for the walk-level signature pairs. -/
theorem foldl_merge_hlm2 (l : List (ByteStr × CWR)) (r0 : CWR)
    (h0 : r0.hard_link_map = [])
    (h : ∀ p ∈ l, p.2.hard_link_map = []) :
    (l.foldl (fun (r : CWR) s => r.merge s.2) r0).hard_link_map = [] := by
  induction l generalizing r0 with
  | nil => exact h0
  | cons p rest ih =>
      rw [List.foldl_cons]
      refine ih _ ?_ (fun q hq => h q (List.mem_cons_of_mem p hq))
      rw [cwr_merge_hlm, h p (List.mem_cons_self p rest), h0]
      exact aupdate_nil []

/-- The checksum engine collects no hard links from a link-free subtree. -/
theorem file_checksum_hlm :
    ∀ (n : Nat) (name fp : ByteStr) (node : FSNode) (conf : SyncConfig) (sp : Bool),
      node.sz ≤ n → node.noHL = true →
      (file_checksum name fp node conf sp).2.hard_link_map = [] := by
  intro n
  induction n with
  | zero =>
      intro name fp node conf sp hsz _
      exact absurd hsz (by have := FSNode.sz_pos node; omega)
  | succ n ihn =>
      intro name fp node conf sp hsz hn
      cases node with
      | file st c =>
          have h1 : st.st_nlink ≤ 1 := by
            have h2 : decide (st.st_nlink ≤ 1) = true := hn
            simpa using h2
          show (if st.st_nlink > 1 then [((st.st_dev, st.st_ino), fp)] else []) = []
          rw [if_neg (by omega)]
      | dir st cs =>
          have hsz' : cs.sz ≤ n := by
            have h2 : FSNode.sz (.dir st cs) = cs.sz + 1 := rfl
            omega
          have hcs : cs.noHL = true := hn
          have key : ∀ p ∈ isort nameLe (child_sigs cs fp conf sp),
              p.2.2.hard_link_map = [] := by
            intro p hp
            have hp' : p ∈ child_sigs cs fp conf sp := (mem_isort _ _ _).mp hp
            rcases child_sigs_mem cs fp conf sp p hp' with ⟨nd, he, hle, hhl⟩
            rw [he]
            exact ihn p.1 (bjoin fp p.1) nd conf sp (le_trans hle hsz') (hhl hcs)
          show ((isort nameLe (child_sigs cs fp conf sp)).foldl
              (fun (r : CWR) p => r.merge p.2.2) ({} : CWR)).hard_link_map = []
          exact foldl_merge_hlm _ _ rfl key

/-- checksum_walk collects no hard links over link-free nodes. -/
theorem checksum_walk_hlm (names : List (ByteStr × FSNode)) (path : ByteStr)
    (conf : SyncConfig) (sp : Bool)
    (h : ∀ p ∈ names, p.2.noHL = true) :
    (checksum_walk names path conf sp).2.hard_link_map = [] := by
  show (((isort nameLe names).map
      (fun p => file_checksum p.1 (bjoin path p.1) p.2 conf sp)).foldl
      (fun (r : CWR) s => r.merge s.2) ({} : CWR)).hard_link_map = []
  refine foldl_merge_hlm2 _ _ rfl ?_
  intro s hs
  rcases List.mem_map.mp hs with ⟨p, hp, he⟩
  have hp' : p ∈ names := (mem_isort _ _ _).mp hp
  rw [← he]
  exact file_checksum_hlm p.2.sz p.1 (bjoin path p.1) p.2 conf sp (Nat.le_refl _)
    (h p hp')

/-- The walk list of a stored pack consists of link-free nodes when the
listing is link-free. -/
theorem pack_walk_noHL (cs : FSChildren) (rf : PackEntry) (hn : cs.noHL = true) :
    ∀ p ∈ pack_walk_list cs rf, p.2.noHL = true := by
  intro p hp
  unfold pack_walk_list at hp
  rcases List.mem_filterMap.mp hp with ⟨f, _, he⟩
  cases hlk : cs.lookup f with
  | none => rw [hlk] at he; cases he
  | some nd =>
      rw [hlk] at he
      have hpe : p = (f, nd) := (Option.some.inj (by simpa using he)).symm
      rw [hpe]
      exact FSChildren.noHL_lookup cs f nd hn hlk

/-- The metadata-reuse pass leaves the sync state unchanged over a
link-free listing. -/
theorem reuse_state (conf : UploadConfig) (cs : FSChildren) (path : ByteStr)
    (rp : String) (hn : cs.noHL = true) :
    ∀ (files : List (String × PackEntry)) (acc : WalkAcc),
      (reuse_pass conf cs path rp files acc).state = acc.state := by
  intro files
  induction files with
  | nil => intro acc; rfl
  | cons kv rest ih =>
      intro acc
      have hpass : reuse_pass conf cs path rp (kv :: rest) acc =
          reuse_pass conf cs path rp rest (reuse_one conf cs path rp acc kv.1 kv.2) :=
        rfl
      rw [hpass, ih]
      unfold reuse_one
      split
      · show (reuse_keep conf cs path acc kv.1 kv.2).state = acc.state
        unfold reuse_keep
        dsimp only
        rw [checksum_walk_hlm _ _ _ _ (pack_walk_noHL cs kv.2 hn)]
        exact upd_hlm_all_nil acc.state
      · rfl

/-- The pieces of expand_group, as a fold of the named step. -/
theorem expand_group_eq (conf : UploadConfig) (cs : FSChildren) (path : ByteStr)
    (drm : List (ByteStr × SWR)) (g : List ByteStr) (state : SyncState) :
    expand_group conf cs path drm g state =
      ((g.foldl (eg_step conf cs path drm) ([], state, [])).1,
       { (g.foldl (eg_step conf cs path drm) ([], state, [])).2.1 with
         hard_link_map := aupdate
           (g.foldl (eg_step conf cs path drm) ([], state, [])).2.1.hard_link_map
           (g.foldl (eg_step conf cs path drm) ([], state, [])).2.2 }) := rfl

/-- One expand_group step does not touch the state components when the
tree is wellformed and link-free and the recorded child results carry no
hard links. -/
theorem eg_step_state (conf : UploadConfig) (cs : FSChildren) (path : ByteStr)
    (drm : List (ByteStr × SWR)) (hwf : cs.wf = true) (hn : cs.noHL = true)
    (hdrm : ∀ p ∈ drm, p.2.hard_link_map = none ∨ p.2.hard_link_map = some [])
    (acc : List ByteStr × SyncState × List ((Nat × Nat) × ByteStr)) (f : ByteStr) :
    (eg_step conf cs path drm acc f).2.1 = acc.2.1 ∧
    (eg_step conf cs path drm acc f).2.2 = acc.2.2 := by
  unfold eg_step
  cases hlk : cs.lookup f with
  | none => exact ⟨rfl, rfl⟩
  | some nd =>
      dsimp only
      by_cases hdir : S_ISDIR nd.stat.st_mode = true
      · rw [if_pos hdir]
        cases hdl : alookup f drm with
        | none => exact ⟨rfl, rfl⟩
        | some fr =>
            have hfr : fr.hard_link_map.getD [] = [] := by
              rcases hdrm (f, fr) (mem_of_alookup_eq_some drm f fr hdl) with h | h
              · show fr.hard_link_map.getD [] = []
                rw [show fr.hard_link_map = none from h]
                rfl
              · show fr.hard_link_map.getD [] = []
                rw [show fr.hard_link_map = some [] from h]
                rfl
            dsimp only
            rw [hfr]
            exact ⟨rfl, rfl⟩
      · rw [if_neg hdir]
        cases nd with
        | dir st2 cs2 =>
            exfalso
            have hw := FSChildren.wf_lookup cs f _ hwf hlk
            have hw2 : (S_ISDIR st2.st_mode && cs2.wf) = true := hw
            simp only [Bool.and_eq_true] at hw2
            exact hdir hw2.1
        | file st2 c =>
            have hnl := FSChildren.noHL_lookup cs f _ hn hlk
            have hle : st2.st_nlink ≤ 1 := by
              have h2 : decide (st2.st_nlink ≤ 1) = true := hnl
              simpa using h2
            rw [if_neg (show ¬ (FSNode.stat (.file st2 c)).st_nlink > 1 by
              show ¬ st2.st_nlink > 1
              omega)]
            exact ⟨rfl, rfl⟩

/-- expand_group leaves the state unchanged over a wellformed link-free
listing whose recorded child results carry no hard links. -/
theorem expand_group_state (conf : UploadConfig) (cs : FSChildren) (path : ByteStr)
    (drm : List (ByteStr × SWR)) (g : List ByteStr) (state : SyncState)
    (hwf : cs.wf = true) (hn : cs.noHL = true)
    (hdrm : ∀ p ∈ drm, p.2.hard_link_map = none ∨ p.2.hard_link_map = some []) :
    (expand_group conf cs path drm g state).2 = state := by
  have key : ∀ (l : List ByteStr)
      (acc : List ByteStr × SyncState × List ((Nat × Nat) × ByteStr)),
      (l.foldl (eg_step conf cs path drm) acc).2.1 = acc.2.1 ∧
      (l.foldl (eg_step conf cs path drm) acc).2.2 = acc.2.2 := by
    intro l
    induction l with
    | nil => intro acc; exact ⟨rfl, rfl⟩
    | cons f rest ih =>
        intro acc
        rw [List.foldl_cons]
        obtain ⟨h1, h2⟩ := ih (eg_step conf cs path drm acc f)
        obtain ⟨g1, g2⟩ := eg_step_state conf cs path drm hwf hn hdrm acc f
        exact ⟨h1.trans g1, h2.trans g2⟩
  rw [expand_group_eq]
  show ({ (g.foldl (eg_step conf cs path drm) ([], state, [])).2.1 with
      hard_link_map := aupdate
        (g.foldl (eg_step conf cs path drm) ([], state, [])).2.1.hard_link_map
        (g.foldl (eg_step conf cs path drm) ([], state, [])).2.2 } : SyncState) = state
  rw [(key g ([], state, [])).1, (key g ([], state, [])).2, aupdate_nil]

/-- The emission loop leaves the state unchanged under the same
hypotheses. -/
theorem emission_state (conf : UploadConfig) (cs : FSChildren) (path : ByteStr)
    (rp : String) (drm : List (ByteStr × SWR)) (sm : List (ByteStr × Nat))
    (rn : List String) (hwf : cs.wf = true) (hn : cs.noHL = true)
    (hdrm : ∀ p ∈ drm, p.2.hard_link_map = none ∨ p.2.hard_link_map = some []) :
    ∀ (l : List ByteStr) (gs : Nat) (cg : List ByteStr) (fi : Nat) (res : SWR)
      (st : SyncState),
      (emission_loop conf cs path rp drm sm rn l gs cg fi res st).2 = st := by
  intro l
  induction l with
  | nil => intro gs cg fi res st; rfl
  | cons child rest ih =>
      intro gs cg fi res st
      rw [emission_step]
      split
      · rw [ih]
        exact expand_group_state conf cs path drm _ st hwf hn hdrm
      · exact ih _ _ _ _ _

/-- The emission loop never touches the hard-link map field of the walk
result. -/
theorem emission_hlm (conf : UploadConfig) (cs : FSChildren) (path : ByteStr)
    (rp : String) (drm : List (ByteStr × SWR)) (sm : List (ByteStr × Nat))
    (rn : List String) :
    ∀ (l : List ByteStr) (gs : Nat) (cg : List ByteStr) (fi : Nat) (res : SWR)
      (st : SyncState),
      (emission_loop conf cs path rp drm sm rn l gs cg fi res st).1.hard_link_map =
        res.hard_link_map := by
  intro l
  induction l with
  | nil => intro gs cg fi res st; rfl
  | cons child rest ih =>
      intro gs cg fi res st
      rw [emission_step]
      split
      · rw [ih]
        unfold emit_res
        dsimp only
        split
        · rfl
        · rfl
      · exact ih _ _ _ _ _

/-- set_force_retain keeps the hard-link map empty or absent. -/
theorem sfr_hlm (res : SWR) (p : ByteStr)
    (h : res.hard_link_map = none ∨ res.hard_link_map = some []) :
    (res.set_force_retain p).hard_link_map = none ∨
    (res.set_force_retain p).hard_link_map = some [] := by
  unfold SWR.set_force_retain
  split
  · exact h
  · exact Or.inl rfl

/-- The child recursion keeps the hard-link map field empty or absent. -/
theorem wc_hlm_inv :
    ∀ (cs_it : FSChildren) (cl : List ByteStr) (md : Option DirMeta)
      (path : ByteStr) (rp : String) (conf : UploadConfig) (acc racc : RecAcc),
      walk_children cs_it cl md path rp conf acc = .ok racc →
      (acc.res.hard_link_map = none ∨ acc.res.hard_link_map = some []) →
      (racc.res.hard_link_map = none ∨ racc.res.hard_link_map = some []) := by
  intro cs_it
  induction cs_it with
  | nil =>
      intro cl md path rp conf acc racc hok h
      have he : acc = racc := Except.ok.inj hok
      rw [← he]
      exact h
  | cons child node rest ih =>
      intro cl md path rp conf acc racc hok h
      simp only [walk_children] at hok
      by_cases hcc : cl.contains child = true
      · rw [if_pos hcc] at hok
        by_cases hdir : S_ISDIR node.stat.st_mode = true
        · rw [if_pos hdir] at hok
          simp only [Bind.bind, Except.bind] at hok
          cases hw : upload_walk node (bjoin path child) (pjoin rp (encode_child child))
              (md.bind fun m => alookup (encode_child child) m.children) conf
              acc.state false with
          | error e => rw [hw] at hok; cases hok
          | ok w =>
              rw [hw] at hok
              obtain ⟨w1, w2⟩ := w
              cases w1 with
              | none =>
                  dsimp only at hok
                  exact ih _ _ _ _ _ ⟨acc.res, w2, acc.drm, acc.size_map⟩ racc hok h
              | some cr =>
                  dsimp only at hok
                  cases hcr : cr.force_retain with
                  | true =>
                      simp only [hcr, ite_true] at hok
                      refine ih _ _ _ _ _ _ racc hok ?_
                      exact sfr_hlm acc.res path h
                  | false =>
                      simp only [hcr, Bool.false_eq_true, ite_false] at hok
                      exact ih _ _ _ _ _ _ racc hok h
        · rw [if_neg hdir] at hok
          exact ih _ _ _ _ _ _ racc hok h
      · rw [if_neg hcc] at hok
        exact ih _ _ _ _ _ _ racc hok h

/-- The child recursion leaves the state unchanged when every child walk
does. -/
theorem wc_state :
    ∀ (cs_it : FSChildren) (cl : List ByteStr) (md : Option DirMeta)
      (path : ByteStr) (rp : String) (conf : UploadConfig) (acc racc : RecAcc),
      walk_children cs_it cl md path rp conf acc = .ok racc →
      (∀ p ∈ cs_it.toList, ∀ (s1 : SyncState) (w : Option SWR) (s2' : SyncState),
        upload_walk p.2 (bjoin path p.1) (pjoin rp (encode_child p.1))
          (md.bind fun m => alookup (encode_child p.1) m.children) conf s1 false =
          .ok (w, s2') → s2' = s1) →
      racc.state = acc.state := by
  intro cs_it
  induction cs_it with
  | nil =>
      intro cl md path rp conf acc racc hok _
      have he : acc = racc := Except.ok.inj hok
      rw [← he]
  | cons child node rest ih =>
      intro cl md path rp conf acc racc hok hrec
      have hrec' : ∀ p ∈ rest.toList, ∀ (s1 : SyncState) (w : Option SWR)
          (s2' : SyncState),
          upload_walk p.2 (bjoin path p.1) (pjoin rp (encode_child p.1))
            (md.bind fun m => alookup (encode_child p.1) m.children) conf s1 false =
            .ok (w, s2') → s2' = s1 :=
        fun p hp => hrec p (List.mem_cons_of_mem _ hp)
      simp only [walk_children] at hok
      by_cases hcc : cl.contains child = true
      · rw [if_pos hcc] at hok
        by_cases hdir : S_ISDIR node.stat.st_mode = true
        · rw [if_pos hdir] at hok
          simp only [Bind.bind, Except.bind] at hok
          cases hw : upload_walk node (bjoin path child) (pjoin rp (encode_child child))
              (md.bind fun m => alookup (encode_child child) m.children) conf
              acc.state false with
          | error e => rw [hw] at hok; cases hok
          | ok w =>
              rw [hw] at hok
              obtain ⟨w1, w2⟩ := w
              have hw2 : w2 = acc.state :=
                hrec (child, node) (List.mem_cons_self _ _) acc.state w1 w2 hw
              cases w1 with
              | none =>
                  dsimp only at hok
                  have := ih _ _ _ _ _ ⟨acc.res, w2, acc.drm, acc.size_map⟩ racc hok hrec'
                  rw [this]
                  exact hw2
              | some cr =>
                  dsimp only at hok
                  cases hcr : cr.force_retain with
                  | true =>
                      simp only [hcr, ite_true] at hok
                      have := ih _ _ _ _ _ _ racc hok hrec'
                      rw [this]
                      exact hw2
                  | false =>
                      simp only [hcr, Bool.false_eq_true, ite_false] at hok
                      have := ih _ _ _ _ _ _ racc hok hrec'
                      rw [this]
                      exact hw2
        · rw [if_neg hdir] at hok
          have key := ih _ _ _ _ _ _ racc hok hrec'
          exact key
      · rw [if_neg hcc] at hok
        exact ih _ _ _ _ _ _ racc hok hrec'

/-- Sub-listing nodes are bounded by the listing size. -/
theorem FSChildren.toList_mem_sz (cs : FSChildren) (p : ByteStr × FSNode)
    (hp : p ∈ cs.toList) : p.2.sz ≤ cs.sz := by
  induction cs with
  | nil => cases hp
  | cons n node rest ih =>
      rcases List.mem_cons.mp hp with he | hp'
      · subst he
        show node.sz ≤ node.sz + rest.sz + 1
        omega
      · have h2 : p.2.sz ≤ rest.sz := ih hp'
        show p.2.sz ≤ node.sz + rest.sz + 1
        omega

/-- Sub-listing nodes are wellformed when the listing is. -/
theorem FSChildren.toList_mem_wf (cs : FSChildren) (hwf : cs.wf = true)
    (p : ByteStr × FSNode) (hp : p ∈ cs.toList) : p.2.wf = true := by
  induction cs with
  | nil => cases hp
  | cons n node rest ih =>
      have hw : (goodName n && !(rest.names.contains n) && node.wf && rest.wf) = true :=
        hwf
      simp only [Bool.and_eq_true] at hw
      rcases List.mem_cons.mp hp with he | hp'
      · subst he
        exact hw.1.2
      · exact ih hw.2 hp'

/-- Sub-listing nodes are link-free when the listing is. -/
theorem FSChildren.toList_mem_noHL (cs : FSChildren) (hn : cs.noHL = true)
    (p : ByteStr × FSNode) (hp : p ∈ cs.toList) : p.2.noHL = true := by
  induction cs with
  | nil => cases hp
  | cons n node rest ih =>
      have hw : (node.noHL && rest.noHL) = true := hn
      simp only [Bool.and_eq_true] at hw
      rcases List.mem_cons.mp hp with he | hp'
      · subst he
        exact hw.1
      · exact ih hw.2 hp'

/-- The hard-link map of the folded walk result. -/
theorem fold_swr_hlm (st : StatRes) (cs : FSChildren) (path : ByteStr)
    (conf : UploadConfig) (acc1 : WalkAcc) (racc : RecAcc) :
    (fold_swr st cs path conf acc1 racc).hard_link_map =
      some (acc1.child_list.foldl (fun m ch =>
        match cs.lookup ch with
        | some nd =>
            if !S_ISDIR nd.stat.st_mode && nd.stat.st_nlink > 1 then
              ainsert (nd.stat.st_dev, nd.stat.st_ino) (bjoin path ch) m
            else m
        | none => m)
        (racc.drm.foldl (fun m kv => aupdate m (kv.2.hard_link_map.getD []))
          (racc.res.hard_link_map.getD []))) := by
  cases hu : conf.use_file_checksum with
  | true => simp [fold_swr, hu]
  | false => simp [fold_swr, hu]

/-- Folding empty hard-link deltas of child results adds nothing. -/
theorem foldl_aupdate_nil (l : List (ByteStr × SWR))
    (h : ∀ kv ∈ l, kv.2.hard_link_map.getD [] = []) :
    (l.foldl (fun m kv => aupdate m (kv.2.hard_link_map.getD []))
      ([] : List ((Nat × Nat) × ByteStr))) = [] := by
  induction l with
  | nil => rfl
  | cons kv rest ih =>
      rw [List.foldl_cons, h kv (List.mem_cons_self kv rest), aupdate_nil]
      exact ih (fun q hq => h q (List.mem_cons_of_mem kv hq))

/-- The subtree hard-link update adds nothing over a link-free listing. -/
theorem foldl_hlm_update_nil (cs : FSChildren) (path : ByteStr)
    (hwf : cs.wf = true) (hn : cs.noHL = true) :
    ∀ (l : List ByteStr),
      (l.foldl (fun m ch =>
        match cs.lookup ch with
        | some nd =>
            if !S_ISDIR nd.stat.st_mode && nd.stat.st_nlink > 1 then
              ainsert (nd.stat.st_dev, nd.stat.st_ino) (bjoin path ch) m
            else m
        | none => m) ([] : List ((Nat × Nat) × ByteStr))) = [] := by
  intro l
  induction l with
  | nil => rfl
  | cons ch rest ih =>
      rw [List.foldl_cons]
      have hstep : (match cs.lookup ch with
          | some nd =>
              if !S_ISDIR nd.stat.st_mode && nd.stat.st_nlink > 1 then
                ainsert (nd.stat.st_dev, nd.stat.st_ino) (bjoin path ch)
                  ([] : List ((Nat × Nat) × ByteStr))
              else []
          | none => []) = ([] : List ((Nat × Nat) × ByteStr)) := by
        cases hlk : cs.lookup ch with
        | none => rfl
        | some nd =>
            cases nd with
            | dir st2 cs2 =>
                have hw := FSChildren.wf_lookup cs ch _ hwf hlk
                have hw2 : (S_ISDIR st2.st_mode && cs2.wf) = true := hw
                simp only [Bool.and_eq_true] at hw2
                have hS : S_ISDIR st2.st_mode = true := hw2.1
                dsimp only
                rw [if_neg (by simp [FSNode.stat, hS])]
            | file st2 c =>
                have hnl := FSChildren.noHL_lookup cs ch _ hn hlk
                have hle : st2.st_nlink ≤ 1 := by
                  have h2 : decide (st2.st_nlink ≤ 1) = true := hnl
                  simpa using h2
                dsimp only
                rw [if_neg (by simp only [FSNode.stat, Bool.and_eq_true,
                  Bool.not_eq_true', decide_eq_true_eq]; omega)]
      rw [hstep]
      exact ih

/-- A fresh upload walk of a wellformed link-free tree leaves the sync
state unchanged and carries no hard-link map entries in its result. -/
theorem walk_hll :
    ∀ (n : Nat) (node : FSNode) (path : ByteStr) (rp : String)
      (conf : UploadConfig) (state : SyncState) (ir : Bool)
      (w1 : Option SWR) (s2 : SyncState),
      node.sz ≤ n → node.wf = true → node.noHL = true →
      upload_walk node path rp none conf state ir = .ok (w1, s2) →
      s2 = state ∧
      ∀ r, w1 = some r → (r.hard_link_map = none ∨ r.hard_link_map = some []) := by
  intro n
  induction n with
  | zero =>
      intro node path rp conf state ir w1 s2 hsz _ _ _
      exact absurd hsz (by have := FSNode.sz_pos node; omega)
  | succ n ihn =>
      intro node path rp conf state ir w1 s2 hsz hwf hn hok
      cases node with
      | file stf cf =>
          rw [upload_walk_file] at hok
          have h2 := Except.ok.inj hok
          have hw1 : (none : Option SWR) = w1 := congrArg Prod.fst h2
          have hs2 : state = s2 := congrArg Prod.snd h2
          refine ⟨hs2.symm, ?_⟩
          intro r hr
          rw [← hw1] at hr
          cases hr
      | dir st cs =>
          have hwf' : (S_ISDIR st.st_mode && cs.wf) = true := hwf
          simp only [Bool.and_eq_true] at hwf'
          have hwcs : cs.wf = true := hwf'.2
          have hncs : cs.noHL = true := hn
          have hnd : cs.names.Nodup := FSChildren.wf_names_nodup cs hwcs
          have hszcs : cs.sz ≤ n := by
            have h2 : FSNode.sz (.dir st cs) = cs.sz + 1 := rfl
            omega
          rw [upload_walk_dir_eq] at hok
          cases hw : walk_children cs (walk_acc1 cs path rp none conf state).child_list
              none path rp conf ⟨(walk_acc1 cs path rp none conf state).res,
                (walk_acc1 cs path rp none conf state).state, [], []⟩ with
          | error e => rw [hw] at hok; cases hok
          | ok racc =>
              rw [hw] at hok
              simp only [Except.bind] at hok
              have hrec : ∀ p ∈ cs.toList, ∀ (s1 : SyncState) (w : Option SWR)
                  (s2' : SyncState),
                  upload_walk p.2 (bjoin path p.1) (pjoin rp (encode_child p.1))
                    ((none : Option DirMeta).bind fun m =>
                      alookup (encode_child p.1) m.children) conf s1 false =
                    .ok (w, s2') → s2' = s1 := by
                intro p hp s1 w s2' hwk
                exact (ihn p.2 (bjoin path p.1) (pjoin rp (encode_child p.1)) conf s1
                  false w s2'
                  (le_trans (FSChildren.toList_mem_sz cs p hp) hszcs)
                  (FSChildren.toList_mem_wf cs hwcs p hp)
                  (FSChildren.toList_mem_noHL cs hncs p hp) hwk).1
              have hst : racc.state = state :=
                wc_state cs _ none path rp conf _ racc hw hrec
              have hdrmf : ∀ kv ∈ racc.drm, kv.2.hard_link_map = none ∨
                  kv.2.hard_link_map = some [] := by
                intro kv hkv
                rcases wc_drm_mem cs _ none path rp conf _ racc hw hnd kv hkv with
                  habs | ⟨_, nd, s1, s2', hlk, hwk⟩
                · cases habs
                · refine (ihn nd (bjoin path kv.1) (pjoin rp (encode_child kv.1)) conf
                    s1 false (some kv.2) s2' ?_ ?_ ?_ hwk).2 kv.2 rfl
                  · have := FSChildren.lookup_sz cs kv.1 nd hlk
                    omega
                  · exact FSChildren.wf_lookup cs kv.1 nd hwcs hlk
                  · exact FSChildren.noHL_lookup cs kv.1 nd hncs hlk
              have hhlminv : racc.res.hard_link_map = none ∨
                  racc.res.hard_link_map = some [] :=
                wc_hlm_inv cs _ none path rp conf _ racc hw (Or.inr rfl)
              unfold walk_finish at hok
              dsimp only at hok
              split at hok
              next hguard =>
                have h2 := Except.ok.inj hok
                have hw1 : some (fold_swr st cs path conf
                    (walk_acc1 cs path rp none conf state) racc) = w1 :=
                  congrArg Prod.fst h2
                have hs2 : racc.state = s2 := congrArg Prod.snd h2
                refine ⟨by rw [← hs2]; exact hst, ?_⟩
                intro r hr
                rw [← hw1] at hr
                have hre : r = fold_swr st cs path conf
                    (walk_acc1 cs path rp none conf state) racc :=
                  (Option.some.inj hr).symm
                right
                rw [hre, fold_swr_hlm]
                congr 1
                have hbase : racc.res.hard_link_map.getD [] = [] := by
                  rcases hhlminv with h | h
                  · rw [h]; rfl
                  · rw [h]; rfl
                rw [hbase]
                rw [foldl_aupdate_nil racc.drm (fun kv hkv => by
                  rcases hdrmf kv hkv with h | h
                  · rw [h]; rfl
                  · rw [h]; rfl)]
                exact foldl_hlm_update_nil cs path hwcs hncs _
              next hguard =>
                simp only [Bind.bind, Except.bind] at hok
                cases hgs : group_sort conf cs racc.size_map with
                | error e => rw [hgs] at hok; cases hok
                | ok gl =>
                    rw [hgs] at hok
                    have h2 := Except.ok.inj hok
                    have hw1 : some (emission_loop conf cs path rp racc.drm
                        racc.size_map (walk_acc1 cs path rp none conf state).remote_names
                        gl 0 [] 0 (racc.res.set_force_retain path) racc.state).1 = w1 :=
                      congrArg Prod.fst h2
                    have hs2 : (emission_loop conf cs path rp racc.drm racc.size_map
                        (walk_acc1 cs path rp none conf state).remote_names
                        gl 0 [] 0 (racc.res.set_force_retain path) racc.state).2 = s2 :=
                      congrArg Prod.snd h2
                    constructor
                    · rw [← hs2]
                      rw [emission_state conf cs path rp racc.drm racc.size_map _
                        hwcs hncs hdrmf gl 0 [] 0 _ racc.state]
                      exact hst
                    · intro r hr
                      rw [← hw1] at hr
                      have hre := (Option.some.inj hr).symm
                      rw [hre, emission_hlm]
                      exact sfr_hlm racc.res path hhlminv

/-! ## Lemma kit: association-list keys and the name allocator -/

/-- The allocator returns the pack name of the index it settles on. -/
theorem alloc_go_fst (pfx sfx : String) (names : List String) :
    ∀ (fuel idx : Nat),
      (alloc_go pfx sfx names fuel idx).1 =
        packName pfx (alloc_go pfx sfx names fuel idx).2 sfx := by
  intro fuel
  induction fuel with
  | zero => intro idx; rfl
  | succ fuel ih =>
      intro idx
      unfold alloc_go
      dsimp only
      split
      · exact ih (idx + 1)
      · rfl

/-- The allocator never decreases the index. -/
theorem alloc_go_idx_ge (pfx sfx : String) (names : List String) :
    ∀ (fuel idx : Nat), idx ≤ (alloc_go pfx sfx names fuel idx).2 := by
  intro fuel
  induction fuel with
  | zero => intro idx; exact Nat.le_refl idx
  | succ fuel ih =>
      intro idx
      unfold alloc_go
      dsimp only
      split
      · exact le_trans (Nat.le_succ idx) (ih (idx + 1))
      · exact Nat.le_refl idx

/-- The allocated name is the pack name of the returned index. -/
theorem alloc_name_fst (conf : UploadConfig) (names : List String) (idx : Nat) :
    (alloc_name conf names idx).1 =
      packName conf.reserved_pfx (alloc_name conf names idx).2
        conf.compression_suffix :=
  alloc_go_fst conf.reserved_pfx conf.compression_suffix names (names.length + 1) idx

/-- The allocated index is at least the starting index. -/
theorem alloc_name_idx_ge (conf : UploadConfig) (names : List String) (idx : Nat) :
    idx ≤ (alloc_name conf names idx).2 :=
  alloc_go_idx_ge conf.reserved_pfx conf.compression_suffix names
    (names.length + 1) idx

/-- Insertion keeps the keys duplicate-free. -/
theorem ainsert_keys_nodup {α β : Type} [DecidableEq α] (k : α) (v : β)
    (l : List (α × β)) (h : (l.map Prod.fst).Nodup) :
    ((ainsert k v l).map Prod.fst).Nodup := by
  induction l with
  | nil => simp [ainsert]
  | cons p rest ih =>
      obtain ⟨k', v'⟩ := p
      simp only [List.map_cons] at h
      rcases List.nodup_cons.mp h with ⟨hp, hrest⟩
      show ((if k = k' then (k, v) :: rest else (k', v') :: ainsert k v rest).map
        Prod.fst).Nodup
      by_cases hk : k = k'
      · rw [if_pos hk]
        simp only [List.map_cons]
        exact List.nodup_cons.mpr ⟨by rw [hk]; exact hp, hrest⟩
      · rw [if_neg hk]
        simp only [List.map_cons]
        refine List.nodup_cons.mpr ⟨?_, ih hrest⟩
        intro hmem
        rcases List.mem_map.mp hmem with ⟨q, hq, he⟩
        rcases mem_ainsert k v rest q hq with hql | hqe
        · exact hp (he ▸ List.mem_map.mpr ⟨q, hql, rfl⟩)
        · rw [hqe] at he
          exact hk (by rw [← he])

/-- The keys after a removal are a sub-list of the keys. -/
theorem aremove_keys_sublist {α β : Type} [DecidableEq α] (k : α)
    (l : List (α × β)) :
    ((aremove k l).map Prod.fst).Sublist (l.map Prod.fst) := by
  induction l with
  | nil => simp [aremove]
  | cons p rest ih =>
      obtain ⟨k', v'⟩ := p
      show ((if k = k' then rest else (k', v') :: aremove k rest).map
        Prod.fst).Sublist _
      by_cases hk : k = k'
      · rw [if_pos hk]
        simp only [List.map_cons]
        exact List.Sublist.cons k' (List.Sublist.refl _)
      · rw [if_neg hk]
        simp only [List.map_cons]
        exact List.Sublist.cons₂ k' ih

/-- Removal keeps the keys duplicate-free. -/
theorem aremove_keys_nodup {α β : Type} [DecidableEq α] (k : α)
    (l : List (α × β)) (h : (l.map Prod.fst).Nodup) :
    ((aremove k l).map Prod.fst).Nodup :=
  (aremove_keys_sublist k l).nodup h

/-- Entries with a different key survive an insertion. -/
theorem mem_ainsert_of_ne {α β : Type} [DecidableEq α] (k : α) (v : β)
    (l : List (α × β)) (p : α × β) (hp : p ∈ l) (hne : p.1 ≠ k) :
    p ∈ ainsert k v l := by
  induction l with
  | nil => cases hp
  | cons q rest ih =>
      obtain ⟨k', v'⟩ := q
      show p ∈ (if k = k' then (k, v) :: rest else (k', v') :: ainsert k v rest)
      by_cases hk : k = k'
      · rw [if_pos hk]
        rcases List.mem_cons.mp hp with he | hp'
        · exfalso
          apply hne
          rw [he, ← hk]
        · exact List.mem_cons_of_mem _ hp'
      · rw [if_neg hk]
        rcases List.mem_cons.mp hp with he | hp'
        · rw [he]
          exact List.mem_cons_self _ _
        · exact List.mem_cons_of_mem _ (ih hp')

/-- When every name in a list is present, the pack walk list of those
names is the paired lookups. -/
theorem filterMap_all_present (cs : FSChildren) (l : List ByteStr)
    (h : ∀ x ∈ l, (cs.lookup x).isSome = true) :
    (l.filterMap fun f => (cs.lookup f).map fun nd => (f, nd)) =
      l.map fun f => (f, cs.lookupD f) := by
  induction l with
  | nil => rfl
  | cons x rest ih =>
      have hx := h x (List.mem_cons_self x rest)
      rcases Option.isSome_iff_exists.mp hx with ⟨nd, hnd⟩
      have hD : cs.lookupD x = nd := by simp [FSChildren.lookupD, hnd]
      have hstep : (List.filterMap (fun f => Option.map (fun nd => (f, nd))
          (cs.lookup f)) (x :: rest)) = (x, nd) :: List.filterMap
            (fun f => Option.map (fun nd => (f, nd)) (cs.lookup f)) rest := by
        rw [List.filterMap_cons, hnd]
        rfl
      rw [hstep, List.map_cons, hD, ih (fun y hy => h y (List.mem_cons_of_mem x hy))]

/-- Sorting by the byte order is idempotent. -/
theorem isort_bytesLe_idem (l : List ByteStr) :
    isort bytesLe (isort bytesLe l) = isort bytesLe l :=
  isort_eq_of_pairwise bytesLe (isort bytesLe l)
    (isort_pairwise bytesLe bytesLe_total bytesLe_trans l)

/-! ## Lemma kit: per-child dispositions of the recursion -/

/-- A directory child holding a size-map entry after the recursion was
walked to an un-retained result recorded in the directory-result map. -/
theorem wc_size_drm :
    ∀ (cs_it : FSChildren) (cl : List ByteStr) (md : Option DirMeta)
      (path : ByteStr) (rp : String) (conf : UploadConfig) (acc racc : RecAcc),
      walk_children cs_it cl md path rp conf acc = .ok racc →
      cs_it.names.Nodup →
      (∀ p ∈ acc.drm, p.1 ∉ cs_it.names) →
      (∀ p ∈ acc.size_map, p.1 ∉ cs_it.names) →
      ∀ ch nd, cs_it.lookup ch = some nd → S_ISDIR nd.stat.st_mode = true →
        (alookup ch racc.size_map).isSome = true →
        ∃ cr s1 s2, upload_walk nd (bjoin path ch) (pjoin rp (encode_child ch))
            (md.bind fun m => alookup (encode_child ch) m.children) conf s1 false =
              .ok (some cr, s2) ∧
          cr.force_retain = false ∧
          alookup ch racc.drm = some cr ∧
          alookup ch racc.size_map =
            some (cr.total_size + cr.total_files * conf.file_base_bytes) := by
  intro cs_it
  induction cs_it with
  | nil =>
      intro cl md path rp conf acc racc hok _ _ _ ch nd hlk
      cases hlk
  | cons child node rest ih =>
      intro cl md path rp conf acc racc hok hnd hfd hfs ch nd hlk hdirch hsome
      have hchild : child ∉ rest.names := (List.nodup_cons.mp hnd).1
      have hnd' : rest.names.Nodup := (List.nodup_cons.mp hnd).2
      have hfd' : ∀ p ∈ acc.drm, p.1 ∉ rest.names := fun p hp hm =>
        hfd p hp (List.mem_cons_of_mem child hm)
      have hfs' : ∀ p ∈ acc.size_map, p.1 ∉ rest.names := fun p hp hm =>
        hfs p hp (List.mem_cons_of_mem child hm)
      have hfreshsz : alookup child acc.size_map = none :=
        alookup_eq_none_of_fresh acc.size_map child
          (fun q hq he => hfs q hq (he ▸ List.mem_cons_self child rest.names))
      simp only [walk_children] at hok
      by_cases hcc : cl.contains child = true
      · rw [if_pos hcc] at hok
        by_cases hdir : S_ISDIR node.stat.st_mode = true
        · rw [if_pos hdir] at hok
          simp only [Bind.bind, Except.bind] at hok
          cases hw : upload_walk node (bjoin path child) (pjoin rp (encode_child child))
              (md.bind fun m => alookup (encode_child child) m.children) conf
              acc.state false with
          | error e => rw [hw] at hok; cases hok
          | ok w =>
              rw [hw] at hok
              obtain ⟨w1, w2⟩ := w
              cases w1 with
              | none =>
                  dsimp only at hok
                  by_cases hch : ch = child
                  · exfalso
                    subst hch
                    rw [wc_size_frame rest cl md path rp conf _ racc hok ch hchild]
                      at hsome
                    rw [hfreshsz] at hsome
                    cases hsome
                  · have h2 : (FSChildren.cons child node rest).lookup ch =
                        rest.lookup ch := by
                      simp [FSChildren.lookup, hch]
                    rw [h2] at hlk
                    exact ih cl md path rp conf _ racc hok hnd' hfd' hfs' ch nd hlk
                      hdirch hsome
              | some cr =>
                  dsimp only at hok
                  cases hcr : cr.force_retain with
                  | true =>
                      simp only [hcr, ite_true] at hok
                      by_cases hch : ch = child
                      · exfalso
                        subst hch
                        rw [wc_size_frame rest cl md path rp conf _ racc hok ch hchild]
                          at hsome
                        rw [hfreshsz] at hsome
                        cases hsome
                      · have h2 : (FSChildren.cons child node rest).lookup ch =
                            rest.lookup ch := by
                          simp [FSChildren.lookup, hch]
                        rw [h2] at hlk
                        exact ih cl md path rp conf _ racc hok hnd'
                          (fresh_step acc.drm child cr rest.names hfd hchild) hfs'
                          ch nd hlk hdirch hsome
                  | false =>
                      simp only [hcr, Bool.false_eq_true, ite_false] at hok
                      have hA := fresh_step acc.drm child cr rest.names hfd hchild
                      have hB := fresh_step acc.size_map child
                        (cr.total_size + cr.total_files * conf.file_base_bytes)
                        rest.names hfs hchild
                      have pres := wc_pres rest cl md path rp conf _ racc hok hnd' hA hB
                      by_cases hch : ch = child
                      · subst hch
                        have h2 : (FSChildren.cons ch node rest).lookup ch =
                            some node := by
                          simp [FSChildren.lookup]
                        rw [h2] at hlk
                        have hne : node = nd := Option.some.inj hlk
                        refine ⟨cr, acc.state, w2, ?_, hcr, ?_, ?_⟩
                        · rw [← hne]
                          exact hw
                        · exact pres.1 ch cr (alookup_ainsert_self ch cr acc.drm)
                        · exact pres.2 ch _ (alookup_ainsert_self ch _ acc.size_map)
                      · have h2 : (FSChildren.cons child node rest).lookup ch =
                            rest.lookup ch := by
                          simp [FSChildren.lookup, hch]
                        rw [h2] at hlk
                        exact ih cl md path rp conf _ racc hok hnd' hA hB ch nd hlk
                          hdirch hsome
        · rw [if_neg hdir] at hok
          by_cases hch : ch = child
          · exfalso
            subst hch
            have h2 : (FSChildren.cons ch node rest).lookup ch = some node := by
              simp [FSChildren.lookup]
            rw [h2] at hlk
            have hne : node = nd := Option.some.inj hlk
            rw [← hne] at hdirch
            rw [hdirch] at hdir
            exact hdir rfl
          · have h2 : (FSChildren.cons child node rest).lookup ch =
                rest.lookup ch := by
              simp [FSChildren.lookup, hch]
            rw [h2] at hlk
            exact ih cl md path rp conf _ racc hok hnd' hfd'
              (fresh_step acc.size_map child _ rest.names hfs hchild) ch nd hlk
              hdirch hsome
      · rw [if_neg hcc] at hok
        by_cases hch : ch = child
        · exfalso
          subst hch
          rw [wc_size_frame rest cl md path rp conf _ racc hok ch hchild] at hsome
          rw [hfreshsz] at hsome
          cases hsome
        · have h2 : (FSChildren.cons child node rest).lookup ch = rest.lookup ch := by
            simp [FSChildren.lookup, hch]
          rw [h2] at hlk
          exact ih cl md path rp conf _ racc hok hnd' hfd' hfs' ch nd hlk hdirch hsome

/-! ## Lemma kit: metadata presence and key distinctness -/

/-- set_force_retain preserves metadata presence on a retained result. -/
theorem sfr_meta_some (res : SWR) (p : ByteStr)
    (h : res.force_retain = true → (res.metadata).isSome = true) :
    (res.set_force_retain p).force_retain = true →
      ((res.set_force_retain p).metadata).isSome = true := by
  unfold SWR.set_force_retain
  split
  · exact h
  · intro _
    rfl

/-- The child recursion keeps metadata present on retained results. -/
theorem wc_meta_some :
    ∀ (cs_it : FSChildren) (cl : List ByteStr) (md : Option DirMeta)
      (path : ByteStr) (rp : String) (conf : UploadConfig) (acc racc : RecAcc),
      walk_children cs_it cl md path rp conf acc = .ok racc →
      (acc.res.force_retain = true → (acc.res.metadata).isSome = true) →
      (racc.res.force_retain = true → (racc.res.metadata).isSome = true) := by
  intro cs_it
  induction cs_it with
  | nil =>
      intro cl md path rp conf acc racc hok h
      have he : acc = racc := Except.ok.inj hok
      rw [← he]
      exact h
  | cons child node rest ih =>
      intro cl md path rp conf acc racc hok h
      simp only [walk_children] at hok
      by_cases hcc : cl.contains child = true
      · rw [if_pos hcc] at hok
        by_cases hdir : S_ISDIR node.stat.st_mode = true
        · rw [if_pos hdir] at hok
          simp only [Bind.bind, Except.bind] at hok
          cases hw : upload_walk node (bjoin path child) (pjoin rp (encode_child child))
              (md.bind fun m => alookup (encode_child child) m.children) conf
              acc.state false with
          | error e => rw [hw] at hok; cases hok
          | ok w =>
              rw [hw] at hok
              obtain ⟨w1, w2⟩ := w
              cases w1 with
              | none =>
                  dsimp only at hok
                  exact ih _ _ _ _ _ ⟨acc.res, w2, acc.drm, acc.size_map⟩ racc hok h
              | some cr =>
                  dsimp only at hok
                  cases hcr : cr.force_retain with
                  | true =>
                      simp only [hcr, ite_true] at hok
                      refine ih _ _ _ _ _ _ racc hok ?_
                      intro _
                      rfl
                  | false =>
                      simp only [hcr, Bool.false_eq_true, ite_false] at hok
                      exact ih _ _ _ _ _ _ racc hok h
        · rw [if_neg hdir] at hok
          exact ih _ _ _ _ _ _ racc hok h
      · rw [if_neg hcc] at hok
        exact ih _ _ _ _ _ _ racc hok h

/-- The emission step always leaves metadata present. -/
theorem emit_res_meta_some (conf : UploadConfig) (cs : FSChildren) (path : ByteStr)
    (rp : String) (drm : List (ByteStr × SWR)) (g : List ByteStr) (uname : String)
    (res : SWR) (st : SyncState) :
    ((emit_res conf cs path rp drm g uname res st).metadata).isSome = true := by
  unfold emit_res
  dsimp only
  split
  · rfl
  · rfl

/-- The emission loop keeps metadata present. -/
theorem emission_meta_some (conf : UploadConfig) (cs : FSChildren) (path : ByteStr)
    (rp : String) (drm : List (ByteStr × SWR)) (sm : List (ByteStr × Nat))
    (rn : List String) :
    ∀ (l : List ByteStr) (gs : Nat) (cg : List ByteStr) (fi : Nat) (res : SWR)
      (st : SyncState),
      ((res.metadata).isSome = true) →
      (((emission_loop conf cs path rp drm sm rn l gs cg fi res st).1.metadata).isSome =
        true) := by
  intro l
  induction l with
  | nil => intro gs cg fi res st h; exact h
  | cons child rest ih =>
      intro gs cg fi res st h
      rw [emission_step]
      split
      · exact ih _ _ _ _ _ (emit_res_meta_some conf cs path rp drm _ _ res st)
      · exact ih _ _ _ _ _ h

/-- A retained walk of a fresh directory produced a metadata record. -/
theorem retain_metadata_some (st : StatRes) (cs : FSChildren) (path : ByteStr)
    (rp : String) (conf : UploadConfig) (state : SyncState) (ir : Bool)
    (r : SWR) (s2 : SyncState)
    (hok : upload_walk (.dir st cs) path rp none conf state ir = .ok (some r, s2))
    (hfr : r.force_retain = true) :
    ∃ mr, r.metadata = some mr := by
  rw [upload_walk_dir_eq] at hok
  cases hw : walk_children cs (walk_acc1 cs path rp none conf state).child_list
      none path rp conf ⟨(walk_acc1 cs path rp none conf state).res,
        (walk_acc1 cs path rp none conf state).state, [], []⟩ with
  | error e => rw [hw] at hok; cases hok
  | ok racc =>
      rw [hw] at hok
      simp only [Except.bind] at hok
      unfold walk_finish at hok
      dsimp only at hok
      split at hok
      next hguard =>
        exfalso
        have h2 := Except.ok.inj hok
        have hre : fold_swr st cs path conf (walk_acc1 cs path rp none conf state)
            racc = r := Option.some.inj (congrArg Prod.fst h2)
        simp only [Bool.and_eq_true, Bool.not_eq_true'] at hguard
        have hfr2 : r.force_retain = false := by
          rw [← hre, (fold_swr_fields st cs path conf _ racc).1]
          exact hguard.1.2
        rw [hfr2] at hfr
        cases hfr
      next hguard =>
        simp only [Bind.bind, Except.bind] at hok
        cases hgs : group_sort conf cs racc.size_map with
        | error e => rw [hgs] at hok; cases hok
        | ok gl =>
            rw [hgs] at hok
            have h2 := Except.ok.inj hok
            have hre : (emission_loop conf cs path rp racc.drm racc.size_map
                (walk_acc1 cs path rp none conf state).remote_names gl 0 [] 0
                (racc.res.set_force_retain path) racc.state).1 = r :=
              Option.some.inj (congrArg Prod.fst h2)
            have hstart : (((racc.res.set_force_retain path)).metadata).isSome =
                true := by
              refine sfr_meta_some racc.res path ?_ (set_force_retain_fr racc.res path)
              refine wc_meta_some cs _ none path rp conf _ racc hw ?_
              intro habs
              cases habs
            have hsome := emission_meta_some conf cs path rp racc.drm racc.size_map
              (walk_acc1 cs path rp none conf state).remote_names gl 0 [] 0
              (racc.res.set_force_retain path) racc.state hstart
            rw [hre] at hsome
            exact Option.isSome_iff_exists.mp hsome

/-- set_force_retain keeps the pack-record keys distinct. -/
theorem sfr_files_keys (res : SWR) (p : ByteStr)
    (h : ((metaFiles res).map Prod.fst).Nodup) :
    ((metaFiles (res.set_force_retain p)).map Prod.fst).Nodup := by
  unfold SWR.set_force_retain
  split
  · exact h
  · exact List.nodup_nil

/-- The child recursion keeps the pack-record keys distinct. -/
theorem wc_files_keys :
    ∀ (cs_it : FSChildren) (cl : List ByteStr) (md : Option DirMeta)
      (path : ByteStr) (rp : String) (conf : UploadConfig) (acc racc : RecAcc),
      walk_children cs_it cl md path rp conf acc = .ok racc →
      ((metaFiles acc.res).map Prod.fst).Nodup →
      ((metaFiles racc.res).map Prod.fst).Nodup := by
  intro cs_it
  induction cs_it with
  | nil =>
      intro cl md path rp conf acc racc hok h
      have he : acc = racc := Except.ok.inj hok
      rw [← he]
      exact h
  | cons child node rest ih =>
      intro cl md path rp conf acc racc hok h
      simp only [walk_children] at hok
      by_cases hcc : cl.contains child = true
      · rw [if_pos hcc] at hok
        by_cases hdir : S_ISDIR node.stat.st_mode = true
        · rw [if_pos hdir] at hok
          simp only [Bind.bind, Except.bind] at hok
          cases hw : upload_walk node (bjoin path child) (pjoin rp (encode_child child))
              (md.bind fun m => alookup (encode_child child) m.children) conf
              acc.state false with
          | error e => rw [hw] at hok; cases hok
          | ok w =>
              rw [hw] at hok
              obtain ⟨w1, w2⟩ := w
              cases w1 with
              | none =>
                  dsimp only at hok
                  exact ih _ _ _ _ _ ⟨acc.res, w2, acc.drm, acc.size_map⟩ racc hok h
              | some cr =>
                  dsimp only at hok
                  cases hcr : cr.force_retain with
                  | true =>
                      simp only [hcr, ite_true] at hok
                      have hmid : ((metaFiles ((({ acc.res.set_force_retain path with
                          retained_directories := some
                            (((acc.res.set_force_retain path).retained_directories.getD
                              []) ++ (cr.retained_directories.getD [])) } :
                          SWR).meta_add_child (encode_child child)
                            (cr.metadata.getD (.mk [] []))) : SWR)).map
                          Prod.fst).Nodup := by
                        rw [metaFiles_add_child]
                        exact sfr_files_keys acc.res path h
                      exact ih _ _ _ _ _ _ racc hok hmid
                  | false =>
                      simp only [hcr, Bool.false_eq_true, ite_false] at hok
                      exact ih _ _ _ _ _ _ racc hok h
        · rw [if_neg hdir] at hok
          exact ih _ _ _ _ _ _ racc hok h
      · rw [if_neg hcc] at hok
        exact ih _ _ _ _ _ _ racc hok h

/-- The emission step keeps the pack-record keys distinct. -/
theorem emit_res_keys (conf : UploadConfig) (cs : FSChildren) (path : ByteStr)
    (rp : String) (drm : List (ByteStr × SWR)) (g : List ByteStr) (uname : String)
    (res : SWR) (st : SyncState)
    (h : ((metaFiles res).map Prod.fst).Nodup) :
    ((metaFiles (emit_res conf cs path rp drm g uname res st)).map Prod.fst).Nodup := by
  unfold emit_res
  dsimp only
  split
  · have h1 : metaFiles ({ (res.meta_add_file uname
        (emit_item conf cs path drm g)).meta_remove_file uname with
        error_count := (res.meta_add_file uname
          (emit_item conf cs path drm g)).error_count + 1 }) =
        aremove uname (ainsert uname (emit_item conf cs path drm g)
          (metaFiles res)) := by
      have h2 : metaFiles ({ (res.meta_add_file uname
          (emit_item conf cs path drm g)).meta_remove_file uname with
          error_count := (res.meta_add_file uname
            (emit_item conf cs path drm g)).error_count + 1 }) =
          metaFiles ((res.meta_add_file uname
            (emit_item conf cs path drm g)).meta_remove_file uname) := rfl
      rw [h2, metaFiles_remove, metaFiles_add]
    rw [h1]
    exact aremove_keys_nodup _ _ (ainsert_keys_nodup _ _ _ h)
  · have h1 : metaFiles ({ res.meta_add_file uname
        (emit_item conf cs path drm g) with
        real_transfer_size := (res.meta_add_file uname
          (emit_item conf cs path drm g)).real_transfer_size +
            (conf.t_upload path (isort bytesLe ((expand_group conf cs path drm
              g st).1.map (relpath path))) (pjoin rp uname)).toNat
        real_transfer_files := (res.meta_add_file uname
          (emit_item conf cs path drm g)).real_transfer_files + 1 }) =
        ainsert uname (emit_item conf cs path drm g) (metaFiles res) := by
      have h2 : ∀ a b : Nat, metaFiles ({ res.meta_add_file uname
          (emit_item conf cs path drm g) with
          real_transfer_size := a, real_transfer_files := b }) =
          metaFiles (res.meta_add_file uname (emit_item conf cs path drm g)) :=
        fun a b => rfl
      rw [h2, metaFiles_add]
    rw [h1]
    exact ainsert_keys_nodup _ _ _ h

/-- The emission loop keeps the pack-record keys distinct. -/
theorem emission_keys (conf : UploadConfig) (cs : FSChildren) (path : ByteStr)
    (rp : String) (drm : List (ByteStr × SWR)) (sm : List (ByteStr × Nat))
    (rn : List String) :
    ∀ (l : List ByteStr) (gs : Nat) (cg : List ByteStr) (fi : Nat) (res : SWR)
      (st : SyncState),
      ((metaFiles res).map Prod.fst).Nodup →
      ((metaFiles (emission_loop conf cs path rp drm sm rn l gs cg fi
        res st).1).map Prod.fst).Nodup := by
  intro l
  induction l with
  | nil => intro gs cg fi res st h; exact h
  | cons child rest ih =>
      intro gs cg fi res st h
      rw [emission_step]
      split
      · exact ih _ _ _ _ _ (emit_res_keys conf cs path rp drm _ _ res st h)
      · exact ih _ _ _ _ _ h

/-! ## Lemma kit: the emission loop under successful transport -/

/-- When the transport succeeds, the emission step records the group entry
on top of the existing records. -/
theorem emit_res_files_eq (conf : UploadConfig) (cs : FSChildren) (path : ByteStr)
    (rp : String) (drm : List (ByteStr × SWR)) (g : List ByteStr) (uname : String)
    (res : SWR) (st : SyncState)
    (hnb : 0 ≤ conf.t_upload path (isort bytesLe ((expand_group conf cs path drm g
      st).1.map (relpath path))) (pjoin rp uname)) :
    metaFiles (emit_res conf cs path rp drm g uname res st) =
      ainsert uname (emit_item conf cs path drm g) (metaFiles res) := by
  unfold emit_res
  dsimp only
  rw [if_neg (show ¬ conf.t_upload path (isort bytesLe ((expand_group conf cs path
    drm g st).1.map (relpath path))) (pjoin rp uname) < 0 by omega)]
  have h2 : ∀ a b : Nat, metaFiles ({ res.meta_add_file uname
      (emit_item conf cs path drm g) with
      real_transfer_size := a, real_transfer_files := b }) =
      metaFiles (res.meta_add_file uname (emit_item conf cs path drm g)) :=
    fun a b => rfl
  rw [h2, metaFiles_add]

/-- The freshly recorded entry is found under its name. -/
theorem emit_res_lookup_self (conf : UploadConfig) (cs : FSChildren) (path : ByteStr)
    (rp : String) (drm : List (ByteStr × SWR)) (g : List ByteStr) (uname : String)
    (res : SWR) (st : SyncState)
    (hnb : 0 ≤ conf.t_upload path (isort bytesLe ((expand_group conf cs path drm g
      st).1.map (relpath path))) (pjoin rp uname)) :
    alookup uname (metaFiles (emit_res conf cs path rp drm g uname res st)) =
      some (emit_item conf cs path drm g) := by
  rw [emit_res_files_eq conf cs path rp drm g uname res st hnb]
  exact alookup_ainsert_self uname _ (metaFiles res)

/-- Entries under a different name keep their binding through the step. -/
theorem emit_res_lookup_pres (conf : UploadConfig) (cs : FSChildren) (path : ByteStr)
    (rp : String) (drm : List (ByteStr × SWR)) (g : List ByteStr) (uname : String)
    (res : SWR) (st : SyncState) (k : String) (pe : PackEntry)
    (hnb : 0 ≤ conf.t_upload path (isort bytesLe ((expand_group conf cs path drm g
      st).1.map (relpath path))) (pjoin rp uname))
    (h : alookup k (metaFiles res) = some pe) (hne : k ≠ uname) :
    alookup k (metaFiles (emit_res conf cs path rp drm g uname res st)) = some pe := by
  rw [emit_res_files_eq conf cs path rp drm g uname res st hnb]
  rw [alookup_ainsert_ne uname k _ _ hne]
  exact h

/-- Every pack record after the emission loop is an original record or
records a group drawn from the dispositions. -/
theorem emission_files_mem (conf : UploadConfig) (cs : FSChildren) (path : ByteStr)
    (rp : String) (drm : List (ByteStr × SWR)) (sm : List (ByteStr × Nat))
    (rn : List String) :
    ∀ (l cg : List ByteStr) (gs fi : Nat) (res : SWR) (st : SyncState),
      ∀ p ∈ metaFiles (emission_loop conf cs path rp drm sm rn l gs cg fi res st).1,
        p ∈ metaFiles res ∨
        ∃ g, g ≠ [] ∧ (∀ y ∈ g, y ∈ cg ∨ y ∈ l) ∧
          p.2 = emit_item conf cs path drm (isort bytesLe g) := by
  intro l
  induction l with
  | nil =>
      intro cg gs fi res st p hp
      exact Or.inl hp
  | cons child rest ih =>
      intro cg gs fi res st p hp
      rw [emission_step] at hp
      split at hp
      · rcases ih [] 0 _ _ _ p hp with hbase | ⟨g, hne, hsub, hitem⟩
        · rcases emit_res_files conf cs path rp drm _ _ res st p hbase with h1 | h2
          · exact Or.inl h1
          · refine Or.inr ⟨cg ++ [child], by simp, ?_, ?_⟩
            · intro y hy
              rcases List.mem_append.mp hy with h | h
              · exact Or.inl h
              · simp only [List.mem_singleton] at h
                exact Or.inr (h ▸ List.mem_cons_self child rest)
            · exact congrArg Prod.snd h2
        · refine Or.inr ⟨g, hne, ?_, hitem⟩
          intro y hy
          rcases hsub y hy with h | h
          · cases h
          · exact Or.inr (List.mem_cons_of_mem child h)
      · rcases ih (cg ++ [child]) _ _ _ _ p hp with hbase | ⟨g, hne, hsub, hitem⟩
        · exact Or.inl hbase
        · refine Or.inr ⟨g, hne, ?_, hitem⟩
          intro y hy
          rcases hsub y hy with h | h
          · rcases List.mem_append.mp h with h' | h'
            · exact Or.inl h'
            · simp only [List.mem_singleton] at h'
              exact Or.inr (h' ▸ List.mem_cons_self child rest)
          · exact Or.inr (List.mem_cons_of_mem child h)

/-- A recorded binding survives the rest of the emission loop when its key
is reserved or differs from every name the allocator can still produce. -/
theorem emission_pres_lookup (conf : UploadConfig) (cs : FSChildren) (path : ByteStr)
    (rp : String) (drm : List (ByteStr × SWR)) (sm : List (ByteStr × Nat))
    (rn : List String)
    (htup : ∀ (p : ByteStr) (l : List ByteStr) (nm : String), 0 ≤ conf.t_upload p l nm) :
    ∀ (l cg : List ByteStr) (gs fi : Nat) (res : SWR) (st : SyncState) (k : String)
      (pe : PackEntry),
      alookup k (metaFiles res) = some pe →
      (k ∈ rn ∨ ∀ j, fi ≤ j →
        k ≠ packName conf.reserved_pfx j conf.compression_suffix) →
      alookup k (metaFiles (emission_loop conf cs path rp drm sm rn l gs cg fi
        res st).1) = some pe := by
  intro l
  induction l with
  | nil => intro cg gs fi res st k pe h _; exact h
  | cons child rest ih =>
      intro cg gs fi res st k pe h hkfresh
      rw [emission_step]
      split
      · have hkne : k ≠ (alloc_name conf rn fi).1 := by
          rcases hkfresh with hrn | hfut
          · intro he
            rw [he] at hrn
            exact absurd hrn (alloc_name_free conf rn fi)
          · rw [alloc_name_fst conf rn fi]
            exact hfut (alloc_name conf rn fi).2 (alloc_name_idx_ge conf rn fi)
        refine ih [] 0 ((alloc_name conf rn fi).2 + 1) _ _ k pe ?_ ?_
        · exact emit_res_lookup_pres conf cs path rp drm _ _ res st k pe
            (htup _ _ _) h hkne
        · rcases hkfresh with hrn | hfut
          · exact Or.inl hrn
          · refine Or.inr ?_
            intro j hj
            refine hfut j ?_
            have := alloc_name_idx_ge conf rn fi
            omega
      · exact ih (cg ++ [child]) _ fi _ _ k pe h hkfresh

/-- When the transport always succeeds, every pending disposition ends up
in exactly one recorded group entry that survives to the end of the loop. -/
theorem emission_exhaust (conf : UploadConfig) (cs : FSChildren) (path : ByteStr)
    (rp : String) (drm : List (ByteStr × SWR)) (sm : List (ByteStr × Nat))
    (rn : List String)
    (htup : ∀ (p : ByteStr) (l : List ByteStr) (nm : String), 0 ≤ conf.t_upload p l nm) :
    ∀ (l cg : List ByteStr) (gs fi : Nat) (res : SWR) (st : SyncState),
      (l = [] → cg = []) →
      ∀ x, (x ∈ cg ∨ x ∈ l) →
      ∃ k g, g ≠ [] ∧ (∀ y ∈ g, y ∈ cg ∨ y ∈ l) ∧ x ∈ g ∧
        alookup k (metaFiles (emission_loop conf cs path rp drm sm rn l gs cg fi
          res st).1) = some (emit_item conf cs path drm (isort bytesLe g)) := by
  intro l
  induction l with
  | nil =>
      intro cg gs fi res st hcg x hx
      rcases hx with h | h
      · rw [hcg rfl] at h
        cases h
      · cases h
  | cons child rest ih =>
      intro cg gs fi res st hcg x hx
      rw [emission_step]
      split
      · by_cases hxg : x ∈ cg ++ [child]
        · refine ⟨(alloc_name conf rn fi).1, cg ++ [child], by simp, ?_, hxg, ?_⟩
          · intro y hy
            rcases List.mem_append.mp hy with h | h
            · exact Or.inl h
            · simp only [List.mem_singleton] at h
              exact Or.inr (h ▸ List.mem_cons_self child rest)
          · refine emission_pres_lookup conf cs path rp drm sm rn htup rest [] 0
              ((alloc_name conf rn fi).2 + 1) _ _ _ _ ?_ ?_
            · exact emit_res_lookup_self conf cs path rp drm _ _ res st (htup _ _ _)
            · refine Or.inr ?_
              intro j hj he
              rw [alloc_name_fst conf rn fi] at he
              have := packName_inj _ _ _ _ he
              omega
        · have hxrest : x ∈ rest := by
            rcases hx with h | h
            · exact absurd (List.mem_append_left [child] h) hxg
            · rcases List.mem_cons.mp h with he | h'
              · exact absurd (List.mem_append_right cg
                  (he ▸ List.mem_singleton.mpr rfl)) hxg
              · exact h'
          rcases ih [] 0 ((alloc_name conf rn fi).2 + 1) _ _ (fun _ => rfl) x
            (Or.inr hxrest) with ⟨k, g, hne, hsub, hxg', hlook⟩
          refine ⟨k, g, hne, ?_, hxg', hlook⟩
          intro y hy
          rcases hsub y hy with h | h
          · cases h
          · exact Or.inr (List.mem_cons_of_mem child h)
      next hcond =>
        have hrest : rest ≠ [] := by
          intro hre
          rw [hre] at hcond
          simp at hcond
        have hx' : x ∈ cg ++ [child] ∨ x ∈ rest := by
          rcases hx with h | h
          · exact Or.inl (List.mem_append_left [child] h)
          · rcases List.mem_cons.mp h with he | h'
            · exact Or.inl (List.mem_append_right cg (he ▸ List.mem_singleton.mpr rfl))
            · exact Or.inr h'
        rcases ih (cg ++ [child]) _ fi res st (fun hre => absurd hre hrest) x hx' with
          ⟨k, g, hne, hsub, hxg, hlook⟩
        refine ⟨k, g, hne, ?_, hxg, hlook⟩
        intro y hy
        rcases hsub y hy with h | h
        · rcases List.mem_append.mp h with h' | h'
          · exact Or.inl h'
          · simp only [List.mem_singleton] at h'
            exact Or.inr (h' ▸ List.mem_cons_self child rest)
        · exact Or.inr (List.mem_cons_of_mem child h)

/-- An emitted pack entry verifies against the unchanged tree: its members
exist and the stored checksums equal the recomputed walk checksums, given
that every recorded directory member carries the engine checksums. -/
theorem keep_cond_emit (conf : UploadConfig) (cs : FSChildren) (path : ByteStr)
    (g : List ByteStr) (drm : List (ByteStr × SWR))
    (hwf : cs.wf = true)
    (hmem : ∀ x ∈ g, x ∈ cs.names)
    (hdrm1 : ∀ x ∈ g, ∀ nd, cs.lookup x = some nd → S_ISDIR nd.stat.st_mode = true →
      ∃ cr, alookup x drm = some cr ∧
        cr.first_checksum = some (file_checksum x (bjoin path x) nd
          conf.toSyncConfig false).1 ∧
        (conf.use_file_checksum = true → cr.second_checksum =
          some (file_checksum x (bjoin path x) nd conf.toSyncConfig true).1)) :
    keep_cond conf cs path (emit_item conf cs path drm (isort bytesLe g)) = true := by
  have hgood : ∀ x ∈ isort bytesLe g, goodName x = true := fun x hx =>
    FSChildren.wf_names_good cs hwf x (hmem x ((mem_isort bytesLe x g).mp hx))
  have hnames : ∀ x ∈ isort bytesLe g, x ∈ cs.names := fun x hx =>
    hmem x ((mem_isort bytesLe x g).mp hx)
  have hmembers : pack_members (emit_item conf cs path drm (isort bytesLe g)) =
      isort bytesLe g := by
    unfold pack_members
    rw [emit_item_list, List.map_map]
    have hmapid : (isort bytesLe g).map (decode_child ∘ encode_child) =
        (isort bytesLe g).map id := by
      refine List.map_congr_left ?_
      intro x hx
      exact decode_encode x (goodName_bytes x (hgood x hx))
    rw [hmapid, List.map_id]
  have hsome : ∀ x ∈ isort bytesLe g, (cs.lookup x).isSome = true := fun x hx =>
    (FSChildren.lookup_isSome_iff cs x).mpr (hnames x hx)
  have hwalk : pack_walk_list cs (emit_item conf cs path drm (isort bytesLe g)) =
      (isort bytesLe g).map fun f => (f, cs.lookupD f) := by
    unfold pack_walk_list
    rw [hmembers]
    exact filterMap_all_present cs _ hsome
  have hmf : ∀ sp : Bool, (sp = true → conf.use_file_checksum = true) →
      multifile_checksum cs path conf drm (isort bytesLe g) sp [] =
        (isort bytesLe (isort bytesLe g)).foldl (fun h n =>
          h ++ (file_checksum n (bjoin path n) (cs.lookupD n) conf.toSyncConfig sp).1)
          [] := by
    intro sp hsp
    rw [isort_bytesLe_idem]
    refine multifile_eq cs path conf drm (isort bytesLe g) sp [] hsp hwf ?_
    intro ch hch
    rcases Option.isSome_iff_exists.mp (hsome ch hch) with ⟨nd, hnd⟩
    refine ⟨nd, hnd, ?_⟩
    intro hdirm
    rcases hdrm1 ch ((mem_isort bytesLe ch g).mp hch) nd hnd hdirm with
      ⟨cr, hcr, hfst, hsnd⟩
    refine ⟨cr, hcr, ?_⟩
    cases hspv : sp with
    | false => simpa using hfst
    | true => simpa using hsnd (hsp hspv)
  have hcw : ∀ sp : Bool,
      (checksum_walk (pack_walk_list cs (emit_item conf cs path drm
        (isort bytesLe g))) path conf.toSyncConfig sp).1 =
      hexStr (conf.hashF ((isort bytesLe (isort bytesLe g)).foldl (fun h n =>
        h ++ (file_checksum n (bjoin path n) (cs.lookupD n) conf.toSyncConfig sp).1)
        [])) := by
    intro sp
    rw [hwalk]
    exact checksum_walk_fst (isort bytesLe g) cs path conf.toSyncConfig sp
  have hall : ((pack_members (emit_item conf cs path drm (isort bytesLe g))).all
      fun f => (cs.lookup f).isSome) = true := by
    rw [hmembers]
    rw [List.all_eq_true]
    intro x hx
    exact hsome x hx
  cases hu : conf.use_file_checksum with
  | false =>
      have hitem2 : (emit_item conf cs path drm (isort bytesLe g)).mtime_checksum =
          some (hexStr (conf.hashF (multifile_checksum cs path conf drm
            (isort bytesLe g) false []))) := by
        unfold emit_item
        rw [hu]
        rfl
      unfold keep_cond
      rw [hall, Bool.true_and, hu, if_neg Bool.false_ne_true]
      rw [hitem2, hcw false, hmf false (fun h => absurd h Bool.false_ne_true)]
      simp
  | true =>
      have hitem2 : (emit_item conf cs path drm
          (isort bytesLe g)).file_size_checksum =
          some (hexStr (conf.hashF (multifile_checksum cs path conf drm
            (isort bytesLe g) false []))) := by
        unfold emit_item
        rw [hu]
        rfl
      have hitem3 : (emit_item conf cs path drm (isort bytesLe g)).file_checksum =
          some (hexStr (conf.hashF (multifile_checksum cs path conf drm
            (isort bytesLe g) true []))) := by
        unfold emit_item
        rw [hu]
        rfl
      unfold keep_cond
      rw [hall, Bool.true_and, hu, if_pos rfl]
      rw [hitem2, hitem3, hcw false, hcw true,
        hmf false (fun h => absurd h Bool.false_ne_true),
        hmf true (fun _ => hu)]
      simp

/-- Exact characterisation of the child records the recursion produces:
they extend the starting records by one entry per promoted child - the
listed pending children without a size-map entry, in listing order - whose
value is the metadata of the retained child walk; the pack records are
untouched, and the force-retain flag is set exactly when it was set before
or some child was promoted. -/
theorem wc_children_exact :
    ∀ (cs_it : FSChildren) (cl : List ByteStr) (md : Option DirMeta)
      (path : ByteStr) (rp : String) (conf : UploadConfig) (acc racc : RecAcc),
      walk_children cs_it cl md path rp conf acc = .ok racc →
      cs_it.wf = true →
      (∀ p ∈ acc.drm, p.1 ∉ cs_it.names) →
      (∀ p ∈ acc.size_map, p.1 ∉ cs_it.names) →
      (acc.res.force_retain = true ∨
        (metaFiles acc.res = [] ∧ metaChildren acc.res = [])) →
      (∀ p ∈ metaChildren acc.res, ∀ ch2, ch2 ∈ cs_it.names →
        p.1 ≠ encode_child ch2) →
      ∃ V : ByteStr → SWR,
        metaChildren racc.res = metaChildren acc.res ++
          (cs_it.names.filter (fun ch => cl.contains ch &&
            (alookup ch racc.size_map).isNone)).map
            (fun ch => (encode_child ch, (V ch).metadata.getD (.mk [] []))) ∧
        metaFiles racc.res = metaFiles acc.res ∧
        racc.res.force_retain = (acc.res.force_retain ||
          !(cs_it.names.filter (fun ch => cl.contains ch &&
            (alookup ch racc.size_map).isNone)).isEmpty) ∧
        ∀ ch ∈ cs_it.names.filter (fun ch => cl.contains ch &&
            (alookup ch racc.size_map).isNone),
          ∃ nd s1 s2, cs_it.lookup ch = some nd ∧ S_ISDIR nd.stat.st_mode = true ∧
            upload_walk nd (bjoin path ch) (pjoin rp (encode_child ch))
              (md.bind fun m => alookup (encode_child ch) m.children) conf s1 false =
                .ok (some (V ch), s2) ∧
            (V ch).force_retain = true := by
  intro cs_it
  induction cs_it with
  | nil =>
      intro cl md path rp conf acc racc hok _ _ _ _ _
      have he : acc = racc := Except.ok.inj hok
      subst he
      refine ⟨fun _ => ({} : SWR), by simp [FSChildren.names], rfl,
        by simp [FSChildren.names], ?_⟩
      intro ch hch
      simp [FSChildren.names] at hch
  | cons child node rest ih =>
      intro cl md path rp conf acc racc hok hwf hfd hfs hacc hfresh
      have hwf2 : (goodName child && !(rest.names.contains child) && node.wf &&
          rest.wf) = true := hwf
      simp only [Bool.and_eq_true] at hwf2
      have hgoodc : goodName child = true := hwf2.1.1.1
      have hwnode : node.wf = true := hwf2.1.2
      have hwrest : rest.wf = true := hwf2.2
      have hchild : child ∉ rest.names := by
        intro hmem
        have hc := hwf2.1.1.2
        simp only [Bool.not_eq_true'] at hc
        have hc' : rest.names.elem child = false := hc
        rw [List.elem_eq_true_of_mem hmem] at hc'
        cases hc'
      have hfd' : ∀ p ∈ acc.drm, p.1 ∉ rest.names := fun p hp hm =>
        hfd p hp (List.mem_cons_of_mem child hm)
      have hfs' : ∀ p ∈ acc.size_map, p.1 ∉ rest.names := fun p hp hm =>
        hfs p hp (List.mem_cons_of_mem child hm)
      have hfresh' : ∀ p ∈ metaChildren acc.res, ∀ ch2, ch2 ∈ rest.names →
          p.1 ≠ encode_child ch2 :=
        fun p hp ch2 hch2 => hfresh p hp ch2 (List.mem_cons_of_mem child hch2)
      have hfreshsz : alookup child acc.size_map = none :=
        alookup_eq_none_of_fresh acc.size_map child
          (fun q hq he => hfs q hq (he ▸ List.mem_cons_self child rest.names))
      have hsfr_children : metaChildren (acc.res.set_force_retain path) =
          metaChildren acc.res := by
        cases hfr0 : acc.res.force_retain with
        | true => rw [sfr_id acc.res path hfr0]
        | false =>
            rw [(sfr_meta acc.res path hfr0).2]
            rcases hacc with h | ⟨_, h2⟩
            · rw [hfr0] at h; cases h
            · rw [h2]
      have hsfr_files : metaFiles (acc.res.set_force_retain path) =
          metaFiles acc.res := by
        cases hfr0 : acc.res.force_retain with
        | true => rw [sfr_id acc.res path hfr0]
        | false =>
            rw [(sfr_meta acc.res path hfr0).1]
            rcases hacc with h | ⟨h1, _⟩
            · rw [hfr0] at h; cases h
            · rw [h1]
      have hconsnames : (FSChildren.cons child node rest).names =
          child :: rest.names := rfl
      simp only [walk_children] at hok
      by_cases hcc : cl.contains child = true
      · rw [if_pos hcc] at hok
        by_cases hdir : S_ISDIR node.stat.st_mode = true
        · rw [if_pos hdir] at hok
          simp only [Bind.bind, Except.bind] at hok
          cases hw : upload_walk node (bjoin path child) (pjoin rp (encode_child child))
              (md.bind fun m => alookup (encode_child child) m.children) conf
              acc.state false with
          | error e => rw [hw] at hok; cases hok
          | ok w =>
              rw [hw] at hok
              obtain ⟨w1, w2⟩ := w
              cases w1 with
              | none =>
                  exfalso
                  cases node with
                  | file stf cf =>
                      have hs : (!S_ISDIR stf.st_mode) = true := hwnode
                      simp only [Bool.not_eq_true'] at hs
                      have hdir' : S_ISDIR stf.st_mode = true := hdir
                      rw [hs] at hdir'
                      cases hdir'
                  | dir st2 cs2 =>
                      rcases upload_walk_dir_some st2 cs2 _ _ _ conf _ _ _ _ hw with
                        ⟨r0, hr0⟩
                      cases hr0
              | some cr =>
                  dsimp only at hok
                  cases hcr : cr.force_retain with
                  | true =>
                      simp only [hcr, ite_true] at hok
                      have hnone : alookup child racc.size_map = none := by
                        rw [wc_size_frame rest _ _ _ _ _ _ _ hok child hchild]
                        exact hfreshsz
                      have haccP : ((({ acc.res.set_force_retain path with
                          retained_directories := some
                            (((acc.res.set_force_retain path).retained_directories.getD
                              []) ++ (cr.retained_directories.getD [])) } :
                          SWR).meta_add_child (encode_child child)
                            (cr.metadata.getD (.mk [] []))) : SWR).force_retain =
                          true := set_force_retain_fr acc.res path
                      have hfreshP : ∀ p ∈ metaChildren ((({
                          acc.res.set_force_retain path with
                          retained_directories := some
                            (((acc.res.set_force_retain path).retained_directories.getD
                              []) ++ (cr.retained_directories.getD [])) } :
                          SWR).meta_add_child (encode_child child)
                            (cr.metadata.getD (.mk [] []))) : SWR),
                          ∀ ch2, ch2 ∈ rest.names → p.1 ≠ encode_child ch2 := by
                        intro p hp ch2 hch2 he
                        rw [metaChildren_add] at hp
                        rcases mem_ainsert _ _ _ p hp with hbase | hnew
                        · have hb4 : p ∈ metaChildren
                              (acc.res.set_force_retain path) := hbase
                          rw [hsfr_children] at hb4
                          exact hfresh p hb4 ch2
                            (List.mem_cons_of_mem child hch2) he
                        · have he2 : p.1 = encode_child child := congrArg Prod.fst hnew
                          rw [he2] at he
                          have hch2good : goodName ch2 = true :=
                            FSChildren.wf_names_good rest hwrest ch2 hch2
                          have hce : child = ch2 := encode_child_inj child ch2
                            (goodName_bytes child hgoodc)
                            (goodName_bytes ch2 hch2good) he
                          rw [hce] at hchild
                          exact hchild hch2
                      obtain ⟨V', ihc, ihf, ihfr, ihw⟩ := ih cl md path rp conf _ racc
                        hok hwrest (fresh_step acc.drm child cr rest.names hfd hchild)
                        hfs' (Or.inl haccP) hfreshP
                      have hkey : encode_child child ∉
                          (metaChildren (acc.res.set_force_retain path)).map
                            Prod.fst := by
                        intro hmem
                        rcases List.mem_map.mp hmem with ⟨p, hp, he⟩
                        rw [hsfr_children] at hp
                        exact hfresh p hp child (List.mem_cons_self child rest.names)
                          he
                      have ihc2 : metaChildren racc.res =
                          metaChildren ((({ acc.res.set_force_retain path with
                            retained_directories := some
                              (((acc.res.set_force_retain
                                path).retained_directories.getD []) ++
                                (cr.retained_directories.getD [])) } :
                            SWR).meta_add_child (encode_child child)
                              (cr.metadata.getD (.mk [] []))) : SWR) ++
                          (rest.names.filter (fun ch => cl.contains ch &&
                            (alookup ch racc.size_map).isNone)).map
                            (fun ch => (encode_child ch,
                              (V' ch).metadata.getD (.mk [] []))) := ihc
                      have ihf2 : metaFiles racc.res =
                          metaFiles ((({ acc.res.set_force_retain path with
                            retained_directories := some
                              (((acc.res.set_force_retain
                                path).retained_directories.getD []) ++
                                (cr.retained_directories.getD [])) } :
                            SWR).meta_add_child (encode_child child)
                              (cr.metadata.getD (.mk [] []))) : SWR) := ihf
                      have ihfr2 : racc.res.force_retain =
                          (((acc.res.set_force_retain path)).force_retain ||
                          !(rest.names.filter (fun ch => cl.contains ch &&
                            (alookup ch racc.size_map).isNone)).isEmpty) := ihfr
                      rw [metaChildren_add] at ihc2
                      have hins : ainsert (encode_child child)
                          (cr.metadata.getD (.mk [] []))
                          (metaChildren ({ acc.res.set_force_retain path with
                            retained_directories := some
                              (((acc.res.set_force_retain
                                path).retained_directories.getD []) ++
                                (cr.retained_directories.getD [])) } : SWR)) =
                          metaChildren acc.res ++
                            [(encode_child child, cr.metadata.getD (.mk [] []))] := by
                        have hmc : metaChildren ({ acc.res.set_force_retain path with
                            retained_directories := some
                              (((acc.res.set_force_retain
                                path).retained_directories.getD []) ++
                                (cr.retained_directories.getD [])) } : SWR) =
                            metaChildren (acc.res.set_force_retain path) := rfl
                        rw [hmc, ainsert_eq_append _ _ _ hkey, hsfr_children]
                      rw [hins] at ihc2
                      have ihfm : metaFiles ((({ acc.res.set_force_retain path with
                          retained_directories := some
                            (((acc.res.set_force_retain
                              path).retained_directories.getD []) ++
                              (cr.retained_directories.getD [])) } :
                          SWR).meta_add_child (encode_child child)
                            (cr.metadata.getD (.mk [] []))) : SWR) =
                          metaFiles acc.res := by
                        rw [metaFiles_add_child]
                        exact hsfr_files
                      rw [ihfm] at ihf2
                      have hPc : (cl.contains child &&
                          (alookup child racc.size_map).isNone) = true := by
                        rw [hcc, hnone]
                        rfl
                      refine ⟨Function.update V' child cr, ?_, ihf2, ?_, ?_⟩
                      · rw [hconsnames, List.filter_cons, if_pos hPc, List.map_cons]
                        rw [ihc2, List.append_assoc, List.singleton_append]
                        congr 1
                        congr 1
                        · rw [Function.update_same]
                        · refine List.map_congr_left ?_
                          intro ch hch
                          have hchr : ch ∈ rest.names :=
                            List.mem_of_mem_filter hch
                          have hne : ch ≠ child := fun he => hchild (he ▸ hchr)
                          rw [Function.update_noteq hne]
                      · rw [hconsnames, List.filter_cons, if_pos hPc]
                        rw [ihfr2, set_force_retain_fr, Bool.true_or]
                        simp
                      · intro ch hch
                        rw [hconsnames, List.filter_cons, if_pos hPc] at hch
                        rcases List.mem_cons.mp hch with he | hch'
                        · subst he
                          refine ⟨node, acc.state, w2, ?_, hdir, ?_, ?_⟩
                          · simp [FSChildren.lookup]
                          · rw [Function.update_same]
                            exact hw
                          · rw [Function.update_same]
                            exact hcr
                        · rcases ihw ch hch' with ⟨nd, s1, s2, hlk, hdir2, hwk, hfr2⟩
                          have hchr : ch ∈ rest.names := List.mem_of_mem_filter hch'
                          have hne : ch ≠ child := fun he => hchild (he ▸ hchr)
                          refine ⟨nd, s1, s2, ?_, hdir2, ?_, ?_⟩
                          · show (if ch = child then some node else rest.lookup ch) =
                              some nd
                            rw [if_neg hne]
                            exact hlk
                          · rw [Function.update_noteq hne]
                            exact hwk
                          · rw [Function.update_noteq hne]
                            exact hfr2
                  | false =>
                      simp only [hcr, Bool.false_eq_true, ite_false] at hok
                      have hfdB := fresh_step acc.drm child cr rest.names hfd hchild
                      have hfsB := fresh_step acc.size_map child
                        (cr.total_size + cr.total_files * conf.file_base_bytes)
                        rest.names hfs hchild
                      have hsome : alookup child racc.size_map =
                          some (cr.total_size + cr.total_files *
                            conf.file_base_bytes) := by
                        have pres := wc_pres rest cl md path rp conf _ racc hok
                          (FSChildren.wf_names_nodup rest hwrest) hfdB hfsB
                        exact pres.2 child _ (alookup_ainsert_self child _
                          acc.size_map)
                      obtain ⟨V', ihc, ihf, ihfr, ihw⟩ := ih cl md path rp conf _ racc
                        hok hwrest hfdB hfsB
                        (by
                          rcases hacc with h | ⟨h1, h2⟩
                          · exact Or.inl h
                          · exact Or.inr ⟨h1, h2⟩)
                        (fun p hp ch2 hch2 => hfresh' p hp ch2 hch2)
                      have ihc2 : metaChildren racc.res = metaChildren acc.res ++
                          (rest.names.filter (fun ch => cl.contains ch &&
                            (alookup ch racc.size_map).isNone)).map
                            (fun ch => (encode_child ch,
                              (V' ch).metadata.getD (.mk [] []))) := ihc
                      have ihf2 : metaFiles racc.res = metaFiles acc.res := ihf
                      have ihfr2 : racc.res.force_retain = (acc.res.force_retain ||
                          !(rest.names.filter (fun ch => cl.contains ch &&
                            (alookup ch racc.size_map).isNone)).isEmpty) := ihfr
                      have hPc : (cl.contains child &&
                          (alookup child racc.size_map).isNone) = false := by
                        rw [hcc, hsome]
                        rfl
                      refine ⟨V', ?_, ihf2, ?_, ?_⟩
                      · rw [hconsnames, List.filter_cons, if_neg (by rw [hPc]; exact
                          Bool.false_ne_true)]
                        exact ihc2
                      · rw [hconsnames, List.filter_cons, if_neg (by rw [hPc]; exact
                          Bool.false_ne_true)]
                        exact ihfr2
                      · intro ch hch
                        rw [hconsnames, List.filter_cons, if_neg (by rw [hPc]; exact
                          Bool.false_ne_true)] at hch
                        rcases ihw ch hch with ⟨nd, s1, s2, hlk, hdir2, hwk, hfr2⟩
                        have hchr : ch ∈ rest.names := List.mem_of_mem_filter hch
                        have hne : ch ≠ child := fun he => hchild (he ▸ hchr)
                        refine ⟨nd, s1, s2, ?_, hdir2, hwk, hfr2⟩
                        show (if ch = child then some node else rest.lookup ch) =
                          some nd
                        rw [if_neg hne]
                        exact hlk
        · rw [if_neg hdir] at hok
          have hfsB := fresh_step acc.size_map child
            (node.stat.st_size + conf.file_base_bytes) rest.names hfs hchild
          have hsome : alookup child racc.size_map =
              some (node.stat.st_size + conf.file_base_bytes) := by
            have pres := wc_pres rest cl md path rp conf _ racc hok
              (FSChildren.wf_names_nodup rest hwrest) hfd' hfsB
            exact pres.2 child _ (alookup_ainsert_self child _ acc.size_map)
          obtain ⟨V', ihc, ihf, ihfr, ihw⟩ := ih cl md path rp conf _ racc
            hok hwrest hfd' hfsB
            (by
              rcases hacc with h | ⟨h1, h2⟩
              · exact Or.inl h
              · exact Or.inr ⟨h1, h2⟩)
            (fun p hp ch2 hch2 => hfresh' p hp ch2 hch2)
          have ihc2 : metaChildren racc.res = metaChildren acc.res ++
              (rest.names.filter (fun ch => cl.contains ch &&
                (alookup ch racc.size_map).isNone)).map
                (fun ch => (encode_child ch,
                  (V' ch).metadata.getD (.mk [] []))) := ihc
          have ihf2 : metaFiles racc.res = metaFiles acc.res := ihf
          have ihfr2 : racc.res.force_retain = (acc.res.force_retain ||
              !(rest.names.filter (fun ch => cl.contains ch &&
                (alookup ch racc.size_map).isNone)).isEmpty) := ihfr
          have hPc : (cl.contains child &&
              (alookup child racc.size_map).isNone) = false := by
            rw [hcc, hsome]
            rfl
          refine ⟨V', ?_, ihf2, ?_, ?_⟩
          · rw [hconsnames, List.filter_cons, if_neg (by rw [hPc]; exact
              Bool.false_ne_true)]
            exact ihc2
          · rw [hconsnames, List.filter_cons, if_neg (by rw [hPc]; exact
              Bool.false_ne_true)]
            exact ihfr2
          · intro ch hch
            rw [hconsnames, List.filter_cons, if_neg (by rw [hPc]; exact
              Bool.false_ne_true)] at hch
            rcases ihw ch hch with ⟨nd, s1, s2, hlk, hdir2, hwk, hfr2⟩
            have hchr : ch ∈ rest.names := List.mem_of_mem_filter hch
            have hne : ch ≠ child := fun he => hchild (he ▸ hchr)
            refine ⟨nd, s1, s2, ?_, hdir2, hwk, hfr2⟩
            show (if ch = child then some node else rest.lookup ch) = some nd
            rw [if_neg hne]
            exact hlk
      · rw [if_neg hcc] at hok
        have hccf : cl.contains child = false := by
          cases h : cl.contains child
          · rfl
          · exact absurd h hcc
        obtain ⟨V', ihc, ihf, ihfr, ihw⟩ := ih cl md path rp conf _ racc
          hok hwrest hfd' hfs' hacc hfresh'
        have hPc : (cl.contains child &&
            (alookup child racc.size_map).isNone) = false := by
          rw [hccf]
          rfl
        refine ⟨V', ?_, ihf, ?_, ?_⟩
        · rw [hconsnames, List.filter_cons, if_neg (by rw [hPc]; exact
            Bool.false_ne_true)]
          exact ihc
        · rw [hconsnames, List.filter_cons, if_neg (by rw [hPc]; exact
            Bool.false_ne_true)]
          exact ihfr
        · intro ch hch
          rw [hconsnames, List.filter_cons, if_neg (by rw [hPc]; exact
            Bool.false_ne_true)] at hch
          rcases ihw ch hch with ⟨nd, s1, s2, hlk, hdir2, hwk, hfr2⟩
          have hchr : ch ∈ rest.names := List.mem_of_mem_filter hch
          have hne : ch ≠ child := fun he => hchild (he ▸ hchr)
          refine ⟨nd, s1, s2, ?_, hdir2, hwk, hfr2⟩
          show (if ch = child then some node else rest.lookup ch) = some nd
          rw [if_neg hne]
          exact hlk

/-- A bound key is among the keys. -/
theorem alookup_isSome_mem_keys {α β : Type} [DecidableEq α]
    (l : List (α × β)) (k : α) (h : (alookup k l).isSome = true) :
    k ∈ l.map Prod.fst := by
  rcases Option.isSome_iff_exists.mp h with ⟨v, hv⟩
  exact List.mem_map.mpr ⟨(k, v), mem_of_alookup_eq_some l k v hv, rfl⟩

/-- Every size-map key appears in the sorted grouping list. -/
theorem group_sort_mem2 (conf : UploadConfig) (cs : FSChildren)
    (sm : List (ByteStr × Nat)) (gl : List ByteStr) (x : ByteStr)
    (h : group_sort conf cs sm = .ok gl)
    (hx : (alookup x sm).isSome = true) : x ∈ gl := by
  have hk : x ∈ sm.map Prod.fst := alookup_isSome_mem_keys sm x hx
  have key : ∀ le : ByteStr → ByteStr → Bool, gl = isort le (sm.map Prod.fst) →
      x ∈ gl := by
    intro le hgl
    rw [hgl]
    exact (mem_isort le x _).mpr hk
  unfold group_sort at h
  split at h
  · exact key _ (Except.ok.inj h).symm
  · split at h
    · exact key _ (Except.ok.inj h).symm
    · split at h
      · exact key _ (Except.ok.inj h).symm
      · cases h

/-- A sort with an empty result sorted the empty list. -/
theorem isort_eq_nil {α : Type} (le : α → α → Bool) (l : List α)
    (h : isort le l = []) : l = [] := by
  have hp := isort_perm le l
  rw [h] at hp
  exact List.Perm.eq_nil hp.symm

/-- An empty grouping list means an empty size map. -/
theorem group_sort_nil_sm (conf : UploadConfig) (cs : FSChildren)
    (sm : List (ByteStr × Nat))
    (h : group_sort conf cs sm = .ok []) : sm = [] := by
  have key : ∀ le : ByteStr → ByteStr → Bool, ([] : List ByteStr) =
      isort le (sm.map Prod.fst) → sm = [] := by
    intro le hgl
    have : sm.map Prod.fst = [] := isort_eq_nil le _ hgl.symm
    exact List.map_eq_nil_iff.mp this
  unfold group_sort at h
  split at h
  · exact key _ (Except.ok.inj h).symm
  · split at h
    · exact key _ (Except.ok.inj h).symm
    · split at h
      · exact key _ (Except.ok.inj h).symm
      · cases h

/-- The emission loop leaves the child records alone. -/
theorem emission_children_pres (conf : UploadConfig) (cs : FSChildren)
    (path : ByteStr) (rp : String) (drm : List (ByteStr × SWR))
    (sm : List (ByteStr × Nat)) (rn : List String) :
    ∀ (l : List ByteStr) (gs : Nat) (cg : List ByteStr) (fi : Nat) (res : SWR)
      (st : SyncState),
      metaChildren (emission_loop conf cs path rp drm sm rn l gs cg fi res st).1 =
        metaChildren res := by
  intro l
  induction l with
  | nil => intro gs cg fi res st; rfl
  | cons child rest ih =>
      intro gs cg fi res st
      rw [emission_step]
      split
      · rw [ih]
        exact emit_res_children conf cs path rp drm _ _ res st
      · exact ih _ _ _ _ _

/-- The decoded member list of an emitted entry is its raw-sorted group. -/
theorem emit_item_members (conf : UploadConfig) (cs : FSChildren) (path : ByteStr)
    (drm : List (ByteStr × SWR)) (g : List ByteStr)
    (hgood : ∀ x ∈ g, goodName x = true) :
    pack_members (emit_item conf cs path drm (isort bytesLe g)) = isort bytesLe g := by
  unfold pack_members
  rw [emit_item_list, List.map_map]
  have hmapid : (isort bytesLe g).map (decode_child ∘ encode_child) =
      (isort bytesLe g).map id := by
    refine List.map_congr_left ?_
    intro x hx
    exact decode_encode x (goodName_bytes x (hgood x ((mem_isort bytesLe x g).mp hx)))
  rw [hmapid, List.map_id]

/-- A fresh retained walk of a wellformed directory produces a directory
record that verifies against the unchanged tree: every stored pack
re-verifies, the child records are exactly the uncovered children in
listing order with recursively good records, and off the root the record
is non-trivial. -/
theorem run1_good :
    ∀ (n : Nat) (st : StatRes) (cs : FSChildren) (path : ByteStr) (rp : String)
      (conf : UploadConfig) (state : SyncState) (ir : Bool) (r : SWR)
      (s2 : SyncState) (m : DirMeta),
      FSNode.sz (.dir st cs) ≤ n →
      FSNode.wf (.dir st cs) = true →
      (∀ (p : ByteStr) (l : List ByteStr) (nm : String), 0 ≤ conf.t_upload p l nm) →
      upload_walk (.dir st cs) path rp none conf state ir = .ok (some r, s2) →
      r.metadata = some m →
      GoodM m cs path conf ∧
      (ir = false → m.files ≠ [] ∨ m.children ≠ [] ∨
        conf.merge_threshold < conf.file_base_bytes) := by
  intro n
  induction n with
  | zero =>
      intro st cs path rp conf state ir r s2 m hsz _ _ _ _
      exact absurd hsz (by have := FSNode.sz_pos (.dir st cs); omega)
  | succ n ihn =>
      intro st cs path rp conf state ir r s2 m hsz hwf htup hok hmeta
      have hok0 := hok
      have hwf' : (S_ISDIR st.st_mode && cs.wf) = true := hwf
      simp only [Bool.and_eq_true] at hwf'
      have hwcs : cs.wf = true := hwf'.2
      have hnd : cs.names.Nodup := FSChildren.wf_names_nodup cs hwcs
      have hszcs : cs.sz ≤ n := by
        rw [show FSNode.sz (.dir st cs) = cs.sz + 1 from rfl] at hsz
        omega
      rw [upload_walk_dir_eq] at hok
      cases hw : walk_children cs (walk_acc1 cs path rp none conf state).child_list
          none path rp conf ⟨(walk_acc1 cs path rp none conf state).res,
            (walk_acc1 cs path rp none conf state).state, [], []⟩ with
      | error e => rw [hw] at hok; cases hok
      | ok racc =>
          rw [hw] at hok
          simp only [Except.bind] at hok
          have hFd : ∀ p ∈ (⟨(walk_acc1 cs path rp none conf state).res,
              (walk_acc1 cs path rp none conf state).state, [], []⟩ : RecAcc).drm,
              p.1 ∉ cs.names := fun p hp => absurd hp (List.not_mem_nil p)
          have hFs : ∀ p ∈ (⟨(walk_acc1 cs path rp none conf state).res,
              (walk_acc1 cs path rp none conf state).state, [], []⟩ : RecAcc).size_map,
              p.1 ∉ cs.names := fun p hp => absurd hp (List.not_mem_nil p)
          have hssub := wc_size_sub cs (walk_acc1 cs path rp none conf state).child_list
            none path rp conf _ racc hw
          have hnamesz : ∀ x, (alookup x racc.size_map).isSome = true →
              x ∈ cs.names := by
            intro x hx
            rcases hssub x hx with habs | hm
            · rw [show (alookup x (⟨(walk_acc1 cs path rp none conf state).res,
                (walk_acc1 cs path rp none conf state).state, [], []⟩ :
                  RecAcc).size_map) = none from rfl] at habs
              cases habs
            · exact hm.1
          obtain ⟨V, hchl, hfl, hfrl, ihw⟩ := wc_children_exact cs
            (walk_acc1 cs path rp none conf state).child_list none path rp conf _
            racc hw hwcs hFd hFs (Or.inr ⟨rfl, rfl⟩)
            (fun p hp => absurd hp (List.not_mem_nil p))
          have hchl2 : metaChildren racc.res = ([] : List (String × DirMeta)) ++
              (cs.names.filter (fun ch => cs.names.contains ch &&
                (alookup ch racc.size_map).isNone)).map
                (fun ch => (encode_child ch, (V ch).metadata.getD (.mk [] []))) := hchl
          rw [List.nil_append] at hchl2
          have hfl2 : metaFiles racc.res = ([] : List (String × PackEntry)) := hfl
          have hfrl2 : racc.res.force_retain = (false ||
              !(cs.names.filter (fun ch => cs.names.contains ch &&
                (alookup ch racc.size_map).isNone)).isEmpty) := hfrl
          rw [Bool.false_or] at hfrl2
          have ihw2 : ∀ ch ∈ cs.names.filter (fun ch => cs.names.contains ch &&
              (alookup ch racc.size_map).isNone),
              ∃ nd s1 s2x, cs.lookup ch = some nd ∧ S_ISDIR nd.stat.st_mode = true ∧
                upload_walk nd (bjoin path ch) (pjoin rp (encode_child ch)) none conf
                  s1 false = .ok (some (V ch), s2x) ∧
                (V ch).force_retain = true := ihw
          unfold walk_finish at hok
          dsimp only at hok
          split at hok
          next hguard =>
            exfalso
            simp only [Bool.and_eq_true, Bool.not_eq_true'] at hguard
            have hir : ir = false := hguard.1.1
            subst hir
            have h2 := Except.ok.inj hok
            have hreq : fold_swr st cs path conf (walk_acc1 cs path rp none conf
                state) racc = r := Option.some.inj (congrArg Prod.fst h2)
            have hfr : r.force_retain = false := by
              rw [← hreq, (fold_swr_fields st cs path conf _ racc).1]
              exact hguard.1.2
            have hnone := (folded_walk (FSNode.sz (.dir st cs)) (.dir st cs) path rp
              none conf state r s2 (Nat.le_refl _) hwf hok0 hfr).1
            rw [hmeta] at hnone
            cases hnone
          next hguard =>
            simp only [Bind.bind, Except.bind] at hok
            cases hgs : group_sort conf cs racc.size_map with
            | error e => rw [hgs] at hok; cases hok
            | ok gl =>
                rw [hgs] at hok
                have h2 := Except.ok.inj hok
                have hr : (emission_loop conf cs path rp racc.drm racc.size_map
                    (walk_acc1 cs path rp none conf state).remote_names gl 0 [] 0
                    (racc.res.set_force_retain path) racc.state).1 = r :=
                  Option.some.inj (congrArg Prod.fst h2)
                have hmf : metaFiles r = m.files := by
                  unfold metaFiles
                  rw [hmeta]
                have hmc : metaChildren r = m.children := by
                  unfold metaChildren
                  rw [hmeta]
                have hglsz := group_sort_mem conf cs racc.size_map gl hgs
                -- starting records of the emission
                have hsfiles : metaFiles (racc.res.set_force_retain path) = [] := by
                  cases hfr0 : racc.res.force_retain with
                  | true =>
                      rw [sfr_id racc.res path hfr0]
                      exact hfl2
                  | false => exact (sfr_meta racc.res path hfr0).1
                have hschildren : metaChildren (racc.res.set_force_retain path) =
                    (cs.names.filter (fun ch => cs.names.contains ch &&
                      (alookup ch racc.size_map).isNone)).map
                      (fun ch => (encode_child ch,
                        (V ch).metadata.getD (.mk [] []))) := by
                  cases hfr0 : racc.res.force_retain with
                  | true =>
                      rw [sfr_id racc.res path hfr0]
                      exact hchl2
                  | false =>
                      rw [(sfr_meta racc.res path hfr0).2]
                      rw [hfr0] at hfrl2
                      have hemp : (cs.names.filter (fun ch =>
                          cs.names.contains ch &&
                          (alookup ch racc.size_map).isNone)).isEmpty = true := by
                        cases he : (cs.names.filter (fun ch =>
                            cs.names.contains ch &&
                            (alookup ch racc.size_map).isNone)).isEmpty
                        · rw [he] at hfrl2
                          cases hfrl2
                        · rfl
                      rw [List.isEmpty_iff.mp hemp]
                      rfl
                -- every record of the result is an emitted group entry
                have hentries : ∀ p ∈ m.files, ∃ g, g ≠ [] ∧ (∀ y ∈ g, y ∈ gl) ∧
                    p.2 = emit_item conf cs path racc.drm (isort bytesLe g) := by
                  intro p hp
                  rw [← hmf, ← hr] at hp
                  rcases emission_files_mem conf cs path rp racc.drm racc.size_map
                    (walk_acc1 cs path rp none conf state).remote_names gl [] 0 0
                    (racc.res.set_force_retain path) racc.state p hp with hbase | hgp
                  · rw [hsfiles] at hbase
                    cases hbase
                  · rcases hgp with ⟨g, hne, hsub, hitem⟩
                    refine ⟨g, hne, ?_, hitem⟩
                    intro y hy
                    rcases hsub y hy with h | h
                    · cases h
                    · exact h
                have hgmem : ∀ g : List ByteStr, (∀ y ∈ g, y ∈ gl) →
                    ∀ x ∈ g, x ∈ cs.names := by
                  intro g hsub x hx
                  exact hnamesz x (hglsz.1 x (hsub x hx))
                -- coverage facts
                have hcov : ∀ x, (alookup x racc.size_map).isSome = true →
                    ∃ p, p ∈ m.files ∧ x ∈ pack_members p.2 := by
                  intro x hx
                  rcases emission_exhaust conf cs path rp racc.drm racc.size_map
                    (walk_acc1 cs path rp none conf state).remote_names htup gl []
                    0 0 (racc.res.set_force_retain path) racc.state (fun _ => rfl) x
                    (Or.inr (group_sort_mem2 conf cs racc.size_map gl x hgs hx)) with
                    ⟨k, g, hne, hsub, hxg, hlook⟩
                  have hsub2 : ∀ y ∈ g, y ∈ gl := by
                    intro y hy
                    rcases hsub y hy with h | h
                    · cases h
                    · exact h
                  rw [hr, hmf] at hlook
                  refine ⟨(k, emit_item conf cs path racc.drm (isort bytesLe g)),
                    mem_of_alookup_eq_some _ _ _ hlook, ?_⟩
                  rw [emit_item_members conf cs path racc.drm g
                    (fun y hy => FSChildren.wf_names_good cs hwcs y
                      (hgmem g hsub2 y hy))]
                  exact (mem_isort bytesLe x g).mpr hxg
                have huncov : ∀ x, x ∈ cs.names →
                    alookup x racc.size_map = none →
                    ∀ p ∈ m.files, x ∉ pack_members p.2 := by
                  intro x _ hxnone p hp hxm
                  rcases hentries p hp with ⟨g, hne, hsub, hitem⟩
                  rw [hitem, emit_item_members conf cs path racc.drm g
                    (fun y hy => FSChildren.wf_names_good cs hwcs y
                      (hgmem g hsub y hy))] at hxm
                  have hxg : x ∈ g := (mem_isort bytesLe x g).mp hxm
                  have := hglsz.1 x (hsub x hxg)
                  rw [hxnone] at this
                  cases this
                -- filter predicates agree
                have hfeq : cs.names.filter (fun ch => cs.names.contains ch &&
                    (alookup ch racc.size_map).isNone) =
                    cs.names.filter (uncovered m.files) := by
                  refine List.filter_congr ?_
                  intro ch hch
                  have hcont : cs.names.contains ch = true :=
                    (list_contains_mem _ _).mpr hch
                  cases hszc : alookup ch racc.size_map with
                  | some v =>
                      rcases hcov ch (by rw [hszc]; rfl) with ⟨p, hp, hxm⟩
                      have hunc : uncovered m.files ch = false := by
                        unfold uncovered
                        have hany : m.files.any
                            (fun p => (pack_members p.2).contains ch) = true :=
                          List.any_eq_true.mpr ⟨p, hp,
                            (list_contains_mem _ _).mpr hxm⟩
                        rw [hany]
                        rfl
                      rw [hunc, hcont]
                      rfl
                  | none =>
                      have hunc : uncovered m.files ch = true := by
                        unfold uncovered
                        have hany : m.files.any
                            (fun p => (pack_members p.2).contains ch) = false := by
                          cases hany : m.files.any
                              (fun p => (pack_members p.2).contains ch) with
                          | false => rfl
                          | true =>
                              exfalso
                              rcases List.any_eq_true.mp hany with ⟨p, hp, hc⟩
                              exact huncov ch hch hszc p hp
                                ((list_contains_mem _ _).mp hc)
                        rw [hany]
                        rfl
                      rw [hunc, hcont]
                      rfl
                -- the children equation
                have hchildrenR : m.children =
                    (cs.names.filter (uncovered m.files)).map
                      (fun ch => (encode_child ch,
                        (V ch).metadata.getD (.mk [] []))) := by
                  rw [← hfeq, ← hschildren, ← hmc, ← hr]
                  exact emission_children_pres conf cs path rp racc.drm
                    racc.size_map (walk_acc1 cs path rp none conf state).remote_names
                    gl 0 [] 0 (racc.res.set_force_retain path) racc.state
                -- the per-child walk facts over the uncovered filter
                have hperch : ∀ ch ∈ cs.names.filter (uncovered m.files),
                    ∃ nd s1 s2x, cs.lookup ch = some nd ∧
                      S_ISDIR nd.stat.st_mode = true ∧
                      upload_walk nd (bjoin path ch) (pjoin rp (encode_child ch))
                        none conf s1 false = .ok (some (V ch), s2x) ∧
                      (V ch).force_retain = true := by
                  intro ch hch
                  rw [← hfeq] at hch
                  exact ihw2 ch hch
                constructor
                · -- the GoodM record
                  refine GoodM.mk m cs path conf
                    (fun ch => (V ch).metadata.getD (.mk [] []))
                    (fun ch => match cs.lookup ch with
                      | some (.dir a _) => a
                      | _ => st)
                    (fun ch => match cs.lookup ch with
                      | some (.dir _ b) => b
                      | _ => .nil)
                    ?_ ?_ hchildrenR ?_ ?_ ?_
                  · -- distinct keys
                    rw [← hmf, ← hr]
                    refine emission_keys conf cs path rp racc.drm racc.size_map
                      (walk_acc1 cs path rp none conf state).remote_names gl 0 [] 0
                      (racc.res.set_force_retain path) racc.state ?_
                    rw [hsfiles]
                    exact List.nodup_nil
                  · -- every record verifies
                    intro p hp
                    rcases hentries p hp with ⟨g, hne, hsub, hitem⟩
                    rw [hitem]
                    refine keep_cond_emit conf cs path g racc.drm hwcs
                      (hgmem g hsub) ?_
                    intro x hx nd hlk hdirm
                    have hxsz : (alookup x racc.size_map).isSome = true :=
                      hglsz.1 x (hsub x hx)
                    rcases wc_size_drm cs
                      (walk_acc1 cs path rp none conf state).child_list none path rp
                      conf _ racc hw hnd hFd hFs x nd hlk hdirm hxsz with
                      ⟨cr, s1x, s2x, hwk, hcrfr, hdrmx, _⟩
                    have hgoodx : goodName x = true :=
                      FSChildren.wf_names_good cs hwcs x (hgmem g hsub x hx)
                    have hfold := folded_walk nd.sz nd (bjoin path x)
                      (pjoin rp (encode_child x)) none conf s1x cr s2x
                      (Nat.le_refl _) (FSChildren.wf_lookup cs x nd hwcs hlk) hwk
                      hcrfr
                    refine ⟨cr, hdrmx, ?_, ?_⟩
                    · have hfc := hfold.2.2.2.2.2.1
                      rw [basename_bjoin path x hgoodx] at hfc
                      exact hfc
                    · intro hu
                      have hsc := hfold.2.2.2.2.2.2.1 hu
                      rw [basename_bjoin path x hgoodx] at hsc
                      exact hsc
                  · -- uncovered children are directories
                    intro ch hch
                    rcases hperch ch hch with ⟨nd, s1, s2x, hlk, hdirS, _, _⟩
                    cases nd with
                    | file stf cf =>
                        exfalso
                        have hwn := FSChildren.wf_lookup cs ch _ hwcs hlk
                        have hs : (!S_ISDIR stf.st_mode) = true := hwn
                        simp only [Bool.not_eq_true'] at hs
                        have hdir' : S_ISDIR stf.st_mode = true := hdirS
                        rw [hs] at hdir'
                        cases hdir'
                    | dir st2 cs2 =>
                        dsimp only
                        rw [hlk]
                  · -- recursion
                    intro ch hch
                    rcases hperch ch hch with ⟨nd, s1, s2x, hlk, hdirS, hwk, hVfr⟩
                    cases nd with
                    | file stf cf =>
                        exfalso
                        have hwn := FSChildren.wf_lookup cs ch _ hwcs hlk
                        have hs : (!S_ISDIR stf.st_mode) = true := hwn
                        simp only [Bool.not_eq_true'] at hs
                        have hdir' : S_ISDIR stf.st_mode = true := hdirS
                        rw [hs] at hdir'
                        cases hdir'
                    | dir st2 cs2 =>
                        rcases retain_metadata_some st2 cs2 (bjoin path ch)
                          (pjoin rp (encode_child ch)) conf s1 false (V ch) s2x hwk
                          hVfr with ⟨mc, hmcv⟩
                        have hszc : FSNode.sz (.dir st2 cs2) ≤ n := by
                          have := FSChildren.lookup_sz cs ch _ hlk
                          omega
                        have hrec := ihn st2 cs2 (bjoin path ch)
                          (pjoin rp (encode_child ch)) conf s1 false (V ch) s2x mc
                          hszc (FSChildren.wf_lookup cs ch _ hwcs hlk) htup hwk hmcv
                        have hFv : (V ch).metadata.getD (.mk [] []) = mc := by
                          rw [hmcv]
                          rfl
                        have hGv : (match cs.lookup ch with
                            | some (.dir _ b) => b
                            | _ => FSChildren.nil) = cs2 := by
                          rw [hlk]
                        dsimp only
                        rw [hFv, hGv]
                        exact hrec.1
                  · -- non-trivial child records
                    intro ch hch
                    rcases hperch ch hch with ⟨nd, s1, s2x, hlk, hdirS, hwk, hVfr⟩
                    cases nd with
                    | file stf cf =>
                        exfalso
                        have hwn := FSChildren.wf_lookup cs ch _ hwcs hlk
                        have hs : (!S_ISDIR stf.st_mode) = true := hwn
                        simp only [Bool.not_eq_true'] at hs
                        have hdir' : S_ISDIR stf.st_mode = true := hdirS
                        rw [hs] at hdir'
                        cases hdir'
                    | dir st2 cs2 =>
                        rcases retain_metadata_some st2 cs2 (bjoin path ch)
                          (pjoin rp (encode_child ch)) conf s1 false (V ch) s2x hwk
                          hVfr with ⟨mc, hmcv⟩
                        have hszc : FSNode.sz (.dir st2 cs2) ≤ n := by
                          have := FSChildren.lookup_sz cs ch _ hlk
                          omega
                        have hrec := ihn st2 cs2 (bjoin path ch)
                          (pjoin rp (encode_child ch)) conf s1 false (V ch) s2x mc
                          hszc (FSChildren.wf_lookup cs ch _ hwcs hlk) htup hwk hmcv
                        have hFv : (V ch).metadata.getD (.mk [] []) = mc := by
                          rw [hmcv]
                          rfl
                        dsimp only
                        rw [hFv]
                        exact hrec.2 rfl
                · -- off the root the record is non-trivial
                  intro hir
                  subst hir
                  cases hfr0 : racc.res.force_retain with
                  | true =>
                      refine Or.inr (Or.inl ?_)
                      rw [hfr0] at hfrl2
                      have hne : (cs.names.filter (fun ch =>
                          cs.names.contains ch &&
                          (alookup ch racc.size_map).isNone)) ≠ [] := by
                        intro he
                        rw [he] at hfrl2
                        cases hfrl2
                      rw [hchildrenR, ← hfeq]
                      intro hmape
                      exact hne (List.map_eq_nil_iff.mp hmape)
                  | false =>
                      by_cases hgl : gl = []
                      · -- no dispositions at all: the listing is empty and the
                        -- size guard failed on the base record
                        subst hgl
                        have hsm : racc.size_map = [] :=
                          group_sort_nil_sm conf cs racc.size_map hgs
                        have hnames : cs.names = [] := by
                          by_contra hne
                          rcases List.exists_mem_of_ne_nil cs.names hne with ⟨ch, hch⟩
                          rcases Option.isSome_iff_exists.mp
                            ((FSChildren.lookup_isSome_iff cs ch).mpr hch) with
                            ⟨nd, hlk⟩
                          have hcl : (walk_acc1 cs path rp none conf
                              state).child_list.contains ch = true :=
                            (list_contains_mem _ _).mpr hch
                          have hcover := wc_cover cs
                            (walk_acc1 cs path rp none conf state).child_list none
                            path rp conf _ racc hw hwcs hFd hFs hfr0 ch nd hcl hlk
                          cases hdirn : S_ISDIR nd.stat.st_mode with
                          | false =>
                              have := hcover.1 hdirn
                              rw [hsm] at this
                              cases this
                          | true =>
                              rcases hcover.2 hdirn with ⟨cr, _, _, _, _, _, hsz2⟩
                              rw [hsm] at hsz2
                              cases hsz2
                        refine Or.inr (Or.inr ?_)
                        cases cs with
                        | cons c nd rest =>
                            exfalso
                            have : c ∈ FSChildren.names (.cons c nd rest) :=
                              List.mem_cons_self c rest.names
                            rw [hnames] at this
                            cases this
                        | nil =>
                            have hracc : racc = ⟨(walk_acc1 FSChildren.nil path rp
                                none conf state).res, (walk_acc1 FSChildren.nil path
                                rp none conf state).state, [], []⟩ :=
                              (Except.ok.inj hw).symm
                            have hts : racc.res.total_size = 0 := by rw [hracc]; rfl
                            have htf : racc.res.total_files = 1 := by rw [hracc]; rfl
                            by_contra hthr
                            refine hguard ?_
                            rw [hts, htf, hfr0]
                            simp only [Bool.not_false, Bool.and_eq_true,
                              decide_eq_true_eq]
                            exact ⟨⟨trivial, trivial⟩, by omega⟩
                      · rcases List.exists_mem_of_ne_nil gl hgl with ⟨x, hx⟩
                        refine Or.inl ?_
                        rcases hcov x (hglsz.1 x hx) with ⟨p, hp, _⟩
                        intro he
                        rw [he] at hp
                        cases hp

/-- The upload driver is the root walk followed by the named finish. -/
theorem upload_eq (node : FSNode) (path : ByteStr) (rp : String)
    (doc : Option Document) (conf : UploadConfig) :
    upload node path rp doc conf = Except.bind
      (upload_walk node path rp (doc.map (·.meta)) conf {} true)
      (upload_finish path rp conf) := rfl

/-- Setting force-retain leaves the counters and deletions alone. -/
theorem sfr_fields (res : SWR) (p : ByteStr) :
    (res.set_force_retain p).real_transfer_size = res.real_transfer_size ∧
    (res.set_force_retain p).real_transfer_files = res.real_transfer_files ∧
    (res.set_force_retain p).files_to_delete = res.files_to_delete ∧
    (res.set_force_retain p).error_count = res.error_count ∧
    (res.set_force_retain p).total_size = res.total_size ∧
    (res.set_force_retain p).total_files = res.total_files := by
  unfold SWR.set_force_retain
  split
  · exact ⟨rfl, rfl, rfl, rfl, rfl, rfl⟩
  · exact ⟨rfl, rfl, rfl, rfl, rfl, rfl⟩

/-- Setting force-retain on a fresh result installs the empty record. -/
theorem sfr_md (res : SWR) (p : ByteStr) (h : res.force_retain = false) :
    (res.set_force_retain p).metadata = some (.mk [] []) := by
  unfold SWR.set_force_retain
  rw [if_neg (by rw [h]; exact Bool.false_ne_true)]

/-- All-negations equals negated any. -/
theorem list_all_not_any {α : Type} (l : List α) (p : α → Bool) :
    (l.all fun a => !p a) = !(l.any p) := by
  induction l with
  | nil => rfl
  | cons a rest ih => simp [List.all_cons, List.any_cons, ih, Bool.not_or]

/-- The uncovered test as an all-negation. -/
theorem uncovered_eq_all (files : List (String × PackEntry)) (c : ByteStr) :
    (files.all fun p => !((pack_members p.2).contains c)) = uncovered files c :=
  list_all_not_any files _

/-- Inversion of the verification predicate. -/
theorem GoodM.inv {m : DirMeta} {cs : FSChildren} {path : ByteStr}
    {conf : UploadConfig} (h : GoodM m cs path conf) :
    (m.files.map Prod.fst).Nodup ∧
    (∀ p ∈ m.files, keep_cond conf cs path p.2 = true) ∧
    ∃ (F : ByteStr → DirMeta) (S : ByteStr → StatRes) (G : ByteStr → FSChildren),
      m.children = (cs.names.filter (uncovered m.files)).map
        (fun ch => (encode_child ch, F ch)) ∧
      (∀ ch ∈ cs.names.filter (uncovered m.files),
        cs.lookup ch = some (.dir (S ch) (G ch))) ∧
      (∀ ch ∈ cs.names.filter (uncovered m.files),
        GoodM (F ch) (G ch) (bjoin path ch) conf) ∧
      (∀ ch ∈ cs.names.filter (uncovered m.files),
        (F ch).files ≠ [] ∨ (F ch).children ≠ [] ∨
          conf.merge_threshold < conf.file_base_bytes) := by
  cases h with
  | mk _ _ _ _ F S G h1 h2 h3 h4 h5 h6 => exact ⟨h1, h2, F, S, G, h3, h4, h5, h6⟩

/-- A metadata-reuse pass whose packs all verify is a pure keep pass: it
filters the covered children out of the disposition list, appends the
stored pack records, retains the directory and touches no counters. -/
theorem reuse_pass_keep (conf : UploadConfig) (cs : FSChildren) (path : ByteStr)
    (rp : String) (hn : cs.noHL = true) :
    ∀ (files : List (String × PackEntry)) (acc : WalkAcc),
      (∀ p ∈ files, keep_cond conf cs path p.2 = true) →
      (files.map Prod.fst).Nodup →
      (∀ p ∈ files, p.1 ∉ (metaFiles acc.res).map Prod.fst) →
      (acc.res.force_retain = true ∨
        (metaFiles acc.res = [] ∧ metaChildren acc.res = [])) →
      (reuse_pass conf cs path rp files acc).child_list =
        acc.child_list.filter
          (fun c => files.all fun p => !((pack_members p.2).contains c)) ∧
      metaFiles (reuse_pass conf cs path rp files acc).res =
        metaFiles acc.res ++ files ∧
      metaChildren (reuse_pass conf cs path rp files acc).res =
        metaChildren acc.res ∧
      (reuse_pass conf cs path rp files acc).res.force_retain =
        (acc.res.force_retain || !files.isEmpty) ∧
      ((reuse_pass conf cs path rp files acc).res.metadata).isSome =
        ((acc.res.metadata).isSome || !files.isEmpty) ∧
      (reuse_pass conf cs path rp files acc).res.real_transfer_size =
        acc.res.real_transfer_size ∧
      (reuse_pass conf cs path rp files acc).res.real_transfer_files =
        acc.res.real_transfer_files ∧
      (reuse_pass conf cs path rp files acc).res.files_to_delete =
        acc.res.files_to_delete ∧
      (reuse_pass conf cs path rp files acc).res.error_count =
        acc.res.error_count := by
  intro files
  induction files with
  | nil =>
      intro acc _ _ _ _
      refine ⟨?_, (List.append_nil _).symm, rfl, (Bool.or_false _).symm,
        (Bool.or_false _).symm, rfl, rfl, rfl, rfl⟩
      exact (List.filter_eq_self.mpr fun a _ => rfl).symm
  | cons kv rest ih =>
      intro acc hkeep hnd hfresh hacc
      have hkc : keep_cond conf cs path kv.2 = true :=
        hkeep kv (List.mem_cons_self kv rest)
      have hpass : reuse_pass conf cs path rp (kv :: rest) acc =
          reuse_pass conf cs path rp rest (reuse_one conf cs path rp acc kv.1 kv.2) :=
        rfl
      have hone : reuse_one conf cs path rp acc kv.1 kv.2 =
          reuse_keep conf cs path acc kv.1 kv.2 := by
        unfold reuse_one
        rw [if_pos hkc]
      have hsfrF : metaFiles (acc.res.set_force_retain path) = metaFiles acc.res := by
        cases hfr0 : acc.res.force_retain with
        | true => rw [sfr_id acc.res path hfr0]
        | false =>
            rcases hacc with h | h
            · rw [hfr0] at h; cases h
            · rw [(sfr_meta acc.res path hfr0).1, h.1]
      have hsfrC : metaChildren (acc.res.set_force_retain path) =
          metaChildren acc.res := by
        cases hfr0 : acc.res.force_retain with
        | true => rw [sfr_id acc.res path hfr0]
        | false =>
            rcases hacc with h | h
            · rw [hfr0] at h; cases h
            · rw [(sfr_meta acc.res path hfr0).2, h.2]
      have hnd2 : kv.1 ∉ rest.map Prod.fst ∧ (rest.map Prod.fst).Nodup := by
        rw [List.map_cons] at hnd
        exact List.nodup_cons.mp hnd
      have hK1 : metaFiles (reuse_keep conf cs path acc kv.1 kv.2).res =
          metaFiles acc.res ++ [kv] := by
        have h1 : metaFiles (reuse_keep conf cs path acc kv.1 kv.2).res =
            ainsert kv.1 kv.2 (metaFiles (acc.res.set_force_retain path)) :=
          metaFiles_add (acc.res.set_force_retain path) kv.1 kv.2
        rw [h1, hsfrF, ainsert_eq_append kv.1 kv.2 (metaFiles acc.res)
          (hfresh kv (List.mem_cons_self kv rest))]
      have hK2 : metaChildren (reuse_keep conf cs path acc kv.1 kv.2).res =
          metaChildren acc.res := by
        have h1 : metaChildren (reuse_keep conf cs path acc kv.1 kv.2).res =
            metaChildren (acc.res.set_force_retain path) :=
          metaChildren_add_file (acc.res.set_force_retain path) kv.1 kv.2
        rw [h1, hsfrC]
      have hKfr : (reuse_keep conf cs path acc kv.1 kv.2).res.force_retain = true := by
        have h1 : (reuse_keep conf cs path acc kv.1 kv.2).res.force_retain =
            (acc.res.set_force_retain path).force_retain :=
          meta_add_file_fr (acc.res.set_force_retain path) kv.1 kv.2
        rw [h1]
        exact set_force_retain_fr acc.res path
      have hKsome : ((reuse_keep conf cs path acc kv.1 kv.2).res.metadata).isSome =
          true := rfl
      have hfresh2 : ∀ p ∈ rest,
          p.1 ∉ (metaFiles (reuse_keep conf cs path acc kv.1 kv.2).res).map Prod.fst := by
        intro p hp hmem
        rw [hK1, List.map_append] at hmem
        rcases List.mem_append.mp hmem with h | h
        · exact hfresh p (List.mem_cons_of_mem kv hp) h
        · have he : p.1 = kv.1 := by
            rcases List.mem_map.mp h with ⟨q, hq, he⟩
            rcases List.mem_singleton.mp hq with rfl
            exact he.symm
          exact hnd2.1 (he ▸ List.mem_map.mpr ⟨p, hp, rfl⟩)
      rcases ih (reuse_keep conf cs path acc kv.1 kv.2)
        (fun p hp => hkeep p (List.mem_cons_of_mem kv hp)) hnd2.2 hfresh2
        (Or.inl hKfr) with ⟨c1, c2, c3, c4, c5, c6, c7, c8, c9⟩
      rw [hpass, hone]
      refine ⟨?_, ?_, ?_, ?_, ?_, ?_, ?_, ?_, ?_⟩
      · rw [c1]
        have hKcl : (reuse_keep conf cs path acc kv.1 kv.2).child_list =
            acc.child_list.filter (fun c => !((pack_members kv.2).contains c)) := rfl
        rw [hKcl, List.filter_filter]
        exact List.filter_congr fun a _ => by
          rw [List.all_cons]
          exact Bool.and_comm _ _
      · rw [c2, hK1, List.append_assoc, List.singleton_append]
      · rw [c3, hK2]
      · rw [c4, hKfr]
        simp
      · rw [c5, hKsome]
        simp
      · rw [c6]
        exact (sfr_fields acc.res path).1
      · rw [c7]
        exact (sfr_fields acc.res path).2.1
      · rw [c8]
        exact (sfr_fields acc.res path).2.2.1
      · rw [c9]
        exact (sfr_fields acc.res path).2.2.2.1

/-- The stale-children pass deletes nothing when every stored child record
still names a present directory on the disposition list. -/
theorem children_del_nostale (conf : UploadConfig) (cs : FSChildren) (rp : String) :
    ∀ (children : List (String × DirMeta)) (acc : WalkAcc),
      (∀ kv ∈ children, acc.child_list.contains (decode_child kv.1) = true ∧
        ∃ nd, cs.lookup (decode_child kv.1) = some nd ∧
          S_ISDIR nd.stat.st_mode = true) →
      children_del_pass conf cs rp children acc = acc := by
  intro children
  induction children with
  | nil => intro acc _; rfl
  | cons kv rest ih =>
      intro acc h
      obtain ⟨hcont, nd, hlk, hdir⟩ := h kv (List.mem_cons_self kv rest)
      have hstale : (if acc.child_list.contains (decode_child kv.1) = true then
          match cs.lookup (decode_child kv.1) with
          | some nd2 => !S_ISDIR nd2.stat.st_mode
          | none => true
        else true) = false := by
        rw [if_pos hcont, hlk]
        show (!S_ISDIR nd.stat.st_mode) = false
        rw [hdir]
        rfl
      have hfold : children_del_pass conf cs rp (kv :: rest) acc =
          children_del_pass conf cs rp rest
            (if (if acc.child_list.contains (decode_child kv.1) = true then
                match cs.lookup (decode_child kv.1) with
                | some nd2 => !S_ISDIR nd2.stat.st_mode
                | none => true
              else true) = true then
              { acc with res := remote_del conf rp acc.res kv.1 true } else acc) := rfl
      rw [hfold, hstale, if_neg Bool.false_ne_true]
      exact ih acc (fun kv2 hkv2 => h kv2 (List.mem_cons_of_mem kv hkv2))

/-- Lookup by encoded key in an encoded-key map over valid names. -/
theorem alookup_enc_map {β : Type} (F : ByteStr → β) :
    ∀ (fl : List ByteStr) (ch : ByteStr), ch ∈ fl →
      (∀ x ∈ fl, goodName x = true) →
      alookup (encode_child ch) (fl.map fun c => (encode_child c, F c)) =
        some (F ch) := by
  intro fl
  induction fl with
  | nil => intro ch h _; cases h
  | cons c rest ih =>
      intro ch hch hgood
      by_cases he : ch = c
      · subst he
        simp only [List.map_cons, alookup, if_pos rfl]
        rfl
      · have hne : encode_child ch ≠ encode_child c := by
          intro habs
          exact he (encode_child_inj ch c
            (goodName_bytes ch (hgood ch hch))
            (goodName_bytes c (hgood c (List.mem_cons_self c rest))) habs)
        have hm : ch ∈ rest := by
          rcases List.mem_cons.mp hch with h | h
          · exact absurd h he
          · exact h
        simp only [List.map_cons, alookup, if_neg hne]
        exact ih ch hm (fun x hx => hgood x (List.mem_cons_of_mem c hx))

/-- An implemented grouping order sorts the empty disposition map to the
empty list without raising. -/
theorem group_sort_nil_ok (conf : UploadConfig) (cs : FSChildren)
    (hgo : conf.grouping_order = "size" ∨ conf.grouping_order = "mtime" ∨
      conf.grouping_order = "ctime") :
    group_sort conf cs [] = .ok [] := by
  unfold group_sort
  rcases hgo with h | h | h
  · rw [if_pos h]
    rfl
  · rw [if_neg (by rw [h]; decide), if_pos h]
    rfl
  · rw [if_neg (by rw [h]; decide), if_neg (by rw [h]; decide), if_pos h]
    rfl

/-- The deferred-deletion fold only counts failures. -/
theorem del_fold_fields (conf : UploadConfig) :
    ∀ (l : List (String × Bool)) (res : SWR),
      (l.foldl (fun (r : SWR) fd => if conf.t_delete fd.1 fd.2 then r
        else { r with error_count := r.error_count + 1 }) res).metadata =
        res.metadata ∧
      (l.foldl (fun (r : SWR) fd => if conf.t_delete fd.1 fd.2 then r
        else { r with error_count := r.error_count + 1 }) res).retained_directories =
        res.retained_directories ∧
      (l.foldl (fun (r : SWR) fd => if conf.t_delete fd.1 fd.2 then r
        else { r with error_count := r.error_count + 1 }) res).real_transfer_size =
        res.real_transfer_size ∧
      (l.foldl (fun (r : SWR) fd => if conf.t_delete fd.1 fd.2 then r
        else { r with error_count := r.error_count + 1 }) res).real_transfer_files =
        res.real_transfer_files := by
  intro l
  induction l with
  | nil => intro res; exact ⟨rfl, rfl, rfl, rfl⟩
  | cons fd rest ih =>
      intro res
      rw [List.foldl_cons]
      rcases ih (if conf.t_delete fd.1 fd.2 then res
        else { res with error_count := res.error_count + 1 }) with ⟨h1, h2, h3, h4⟩
      refine ⟨?_, ?_, ?_, ?_⟩
      · rw [h1]; split <;> rfl
      · rw [h2]; split <;> rfl
      · rw [h3]; split <;> rfl
      · rw [h4]; split <;> rfl

/-- The root walk always retains. -/
theorem root_walk_fr (st : StatRes) (cs : FSChildren) (path : ByteStr)
    (rp : String) (md : Option DirMeta) (conf : UploadConfig) (state : SyncState)
    (r : SWR) (s2 : SyncState)
    (hok : upload_walk (.dir st cs) path rp md conf state true = .ok (some r, s2)) :
    r.force_retain = true := by
  rw [upload_walk_dir_eq] at hok
  cases hw : walk_children cs (walk_acc1 cs path rp md conf state).child_list md
      path rp conf ⟨(walk_acc1 cs path rp md conf state).res,
        (walk_acc1 cs path rp md conf state).state, [], []⟩ with
  | error e => rw [hw] at hok; cases hok
  | ok racc =>
      rw [hw] at hok
      simp only [Except.bind] at hok
      unfold walk_finish at hok
      dsimp only at hok
      split at hok
      next hguard =>
        exfalso
        simp only [Bool.and_eq_true, Bool.not_eq_true'] at hguard
        cases hguard.1.1
      next =>
        simp only [Bind.bind, Except.bind] at hok
        cases hgs : group_sort conf cs racc.size_map with
        | error e => rw [hgs] at hok; cases hok
        | ok gl =>
            rw [hgs] at hok
            have h2 := Except.ok.inj hok
            have hre : (emission_loop conf cs path rp racc.drm racc.size_map
                (walk_acc1 cs path rp md conf state).remote_names gl 0 [] 0
                (racc.res.set_force_retain path) racc.state).1 = r :=
              Option.some.inj (congrArg Prod.fst h2)
            rw [← hre, emission_fr]
            exact set_force_retain_fr racc.res path

/-- The promoted-child record is retained. -/
theorem promote_res_fr (path child : ByteStr) (cr res0 : SWR) :
    (promote_res path child cr res0).force_retain = true :=
  set_force_retain_fr res0 path

/-- Promotion leaves the pack records alone. -/
theorem promote_res_files (path child : ByteStr) (cr res0 : SWR) :
    metaFiles (promote_res path child cr res0) =
      metaFiles (res0.set_force_retain path) :=
  metaFiles_add_child _ _ _

/-- Promotion inserts the child record. -/
theorem promote_res_children (path child : ByteStr) (cr res0 : SWR) :
    metaChildren (promote_res path child cr res0) =
      ainsert (encode_child child) (cr.metadata.getD (.mk [] []))
        (metaChildren (res0.set_force_retain path)) :=
  metaChildren_add _ _ _

/-- Real transfer counters of a promotion. -/
theorem promote_res_real1 (path child : ByteStr) (cr res0 : SWR) :
    (promote_res path child cr res0).real_transfer_size =
      (res0.set_force_retain path).real_transfer_size + cr.real_transfer_size := rfl

/-- Real transfer file count of a promotion. -/
theorem promote_res_real2 (path child : ByteStr) (cr res0 : SWR) :
    (promote_res path child cr res0).real_transfer_files =
      (res0.set_force_retain path).real_transfer_files + cr.real_transfer_files := rfl

/-- Deferred deletions of a promotion. -/
theorem promote_res_del (path child : ByteStr) (cr res0 : SWR) :
    (promote_res path child cr res0).files_to_delete =
      (res0.set_force_retain path).files_to_delete ++ cr.files_to_delete := rfl

/-- Error count of a promotion. -/
theorem promote_res_err (path child : ByteStr) (cr res0 : SWR) :
    (promote_res path child cr res0).error_count =
      (res0.set_force_retain path).error_count + cr.error_count := rfl

/-- A promotion always carries a metadata record. -/
theorem promote_res_md_some (path child : ByteStr) (cr res0 : SWR) :
    ((promote_res path child cr res0).metadata).isSome = true := rfl

/-- The child recursion skips a child missing from the disposition list. -/
theorem walk_children_cons_skip (child : ByteStr) (node : FSNode)
    (rest : FSChildren) (cl : List ByteStr) (md : Option DirMeta)
    (path : ByteStr) (rp : String) (conf : UploadConfig) (acc : RecAcc)
    (hcc : cl.contains child = false) :
    walk_children (.cons child node rest) cl md path rp conf acc =
      walk_children rest cl md path rp conf acc := by
  simp only [walk_children]
  rw [if_neg (by rw [hcc]; exact Bool.false_ne_true)]

/-- The child recursion on a listed directory child whose walk retains it
promotes the child record and keeps the size map. -/
theorem walk_children_cons_promote (child : ByteStr) (node : FSNode)
    (rest : FSChildren) (cl : List ByteStr) (md : Option DirMeta)
    (path : ByteStr) (rp : String) (conf : UploadConfig) (acc : RecAcc)
    (cr : SWR) (s2' : SyncState)
    (hcc : cl.contains child = true)
    (hdir : S_ISDIR node.stat.st_mode = true)
    (hwk : upload_walk node (bjoin path child) (pjoin rp (encode_child child))
      (md.bind fun m => alookup (encode_child child) m.children) conf acc.state
      false = .ok (some cr, s2'))
    (hfr : cr.force_retain = true) :
    walk_children (.cons child node rest) cl md path rp conf acc =
      walk_children rest cl md path rp conf
        ⟨promote_res path child cr acc.res, s2', ainsert child cr acc.drm,
          acc.size_map⟩ := by
  simp only [walk_children]
  rw [if_pos hcc, if_pos hdir]
  simp only [Bind.bind, Except.bind]
  rw [hwk]
  dsimp only
  rw [if_pos hfr, if_pos hfr]
  rfl

/-- Walking an unchanged listing against a verifying record recurses into
exactly the listed children, reproduces their stored records in order and
performs no work. -/
theorem run2_wc (cl : List ByteStr) (m1 : DirMeta) (path : ByteStr) (rp : String)
    (conf : UploadConfig) :
    ∀ (cs_it : FSChildren) (acc : RecAcc),
      cs_it.wf = true →
      (∀ ch, ch ∈ cs_it.names → cl.contains ch = true →
        ∃ st2 cs2, cs_it.lookup ch = some (.dir st2 cs2) ∧
          ∀ s1 : SyncState, ∃ cr,
            upload_walk (.dir st2 cs2) (bjoin path ch) (pjoin rp (encode_child ch))
              ((some m1).bind fun m => alookup (encode_child ch) m.children) conf
              s1 false = .ok (some cr, s1) ∧
            cr.force_retain = true ∧
            cr.metadata = some ((alookup (encode_child ch) m1.children).getD
              (.mk [] [])) ∧
            cr.real_transfer_size = 0 ∧ cr.real_transfer_files = 0 ∧
            cr.files_to_delete = [] ∧ cr.error_count = 0) →
      (acc.res.force_retain = true ∨
        (metaFiles acc.res = [] ∧ metaChildren acc.res = [])) →
      (∀ p ∈ metaChildren acc.res, ∀ ch2, ch2 ∈ cs_it.names →
        p.1 ≠ encode_child ch2) →
      ∃ racc, walk_children cs_it cl (some m1) path rp conf acc = .ok racc ∧
        racc.state = acc.state ∧
        racc.size_map = acc.size_map ∧
        metaFiles racc.res = metaFiles acc.res ∧
        metaChildren racc.res = metaChildren acc.res ++
          (cs_it.names.filter (fun ch => cl.contains ch)).map
            (fun ch => (encode_child ch,
              (alookup (encode_child ch) m1.children).getD (.mk [] []))) ∧
        racc.res.force_retain = (acc.res.force_retain ||
          !(cs_it.names.filter (fun ch => cl.contains ch)).isEmpty) ∧
        ((racc.res.metadata).isSome = ((acc.res.metadata).isSome ||
          !(cs_it.names.filter (fun ch => cl.contains ch)).isEmpty)) ∧
        racc.res.real_transfer_size = acc.res.real_transfer_size ∧
        racc.res.real_transfer_files = acc.res.real_transfer_files ∧
        racc.res.files_to_delete = acc.res.files_to_delete ∧
        racc.res.error_count = acc.res.error_count := by
  intro cs_it
  induction cs_it with
  | nil =>
      intro acc _ _ _ _
      exact ⟨acc, rfl, rfl, rfl, rfl, (List.append_nil _).symm,
        (Bool.or_false _).symm, (Bool.or_false _).symm, rfl, rfl, rfl, rfl⟩
  | cons child node rest ih =>
      intro acc hwf hch hacc hfresh
      have hwf2 : (goodName child && !(rest.names.contains child) && node.wf &&
          rest.wf) = true := hwf
      simp only [Bool.and_eq_true] at hwf2
      have hgoodc : goodName child = true := hwf2.1.1.1
      have hwnode : node.wf = true := hwf2.1.2
      have hwrest : rest.wf = true := hwf2.2
      have hchildnotin : child ∉ rest.names := by
        intro hmem
        have hc := hwf2.1.1.2
        simp only [Bool.not_eq_true'] at hc
        rw [(list_contains_mem _ _).mpr hmem] at hc
        cases hc
      have hch' : ∀ ch, ch ∈ rest.names → cl.contains ch = true →
          ∃ st2 cs2, rest.lookup ch = some (.dir st2 cs2) ∧
            ∀ s1 : SyncState, ∃ cr,
              upload_walk (.dir st2 cs2) (bjoin path ch)
                (pjoin rp (encode_child ch))
                ((some m1).bind fun m => alookup (encode_child ch) m.children) conf
                s1 false = .ok (some cr, s1) ∧
              cr.force_retain = true ∧
              cr.metadata = some ((alookup (encode_child ch) m1.children).getD
                (.mk [] [])) ∧
              cr.real_transfer_size = 0 ∧ cr.real_transfer_files = 0 ∧
              cr.files_to_delete = [] ∧ cr.error_count = 0 := by
        intro ch hm hcc2
        have hne : ch ≠ child := fun he => hchildnotin (he ▸ hm)
        rcases hch ch (List.mem_cons_of_mem child hm) hcc2 with ⟨st2, cs2, hlk, hr⟩
        refine ⟨st2, cs2, ?_, hr⟩
        rw [show FSChildren.lookup (.cons child node rest) ch =
          (if ch = child then some node else rest.lookup ch) from rfl,
          if_neg hne] at hlk
        exact hlk
      by_cases hcc : cl.contains child = true
      · rcases hch child (List.mem_cons_self child rest.names) hcc with
          ⟨st2, cs2, hlk, hallst⟩
        have hnode : node = .dir st2 cs2 := by
          have hlk2 := hlk
          rw [show FSChildren.lookup (.cons child node rest) child =
            (if child = child then some node else rest.lookup child) from rfl,
            if_pos rfl] at hlk2
          exact Option.some.inj hlk2
        have hwnode2 : (S_ISDIR st2.st_mode && cs2.wf) = true := by
          rw [hnode] at hwnode
          exact hwnode
        simp only [Bool.and_eq_true] at hwnode2
        have hdir : S_ISDIR node.stat.st_mode = true := by
          rw [hnode]
          exact hwnode2.1
        rcases hallst acc.state with ⟨cr, hwk, hcrfr, hcrmd, hz1, hz2, hz3, hz4⟩
        have hwk' : upload_walk node (bjoin path child)
            (pjoin rp (encode_child child))
            ((some m1).bind fun m => alookup (encode_child child) m.children) conf
            acc.state false = .ok (some cr, acc.state) := by
          rw [hnode]
          exact hwk
        have hstep := walk_children_cons_promote child node rest cl (some m1) path
          rp conf acc cr acc.state hcc hdir hwk' hcrfr
        have hsfrF : metaFiles (acc.res.set_force_retain path) =
            metaFiles acc.res := by
          cases hfr0 : acc.res.force_retain with
          | true => rw [sfr_id acc.res path hfr0]
          | false =>
              rcases hacc with h | h
              · rw [hfr0] at h; cases h
              · rw [(sfr_meta acc.res path hfr0).1, h.1]
        have hsfrC : metaChildren (acc.res.set_force_retain path) =
            metaChildren acc.res := by
          cases hfr0 : acc.res.force_retain with
          | true => rw [sfr_id acc.res path hfr0]
          | false =>
              rcases hacc with h | h
              · rw [hfr0] at h; cases h
              · rw [(sfr_meta acc.res path hfr0).2, h.2]
        have hNfr : (promote_res path child cr acc.res).force_retain = true :=
          promote_res_fr path child cr acc.res
        have hNfiles : metaFiles (promote_res path child cr acc.res) =
            metaFiles acc.res := by
          rw [promote_res_files, hsfrF]
        have hNchildren : metaChildren (promote_res path child cr acc.res) =
            metaChildren acc.res ++ [(encode_child child,
              (alookup (encode_child child) m1.children).getD (.mk [] []))] := by
          rw [promote_res_children, hsfrC, hcrmd, Option.getD_some]
          refine ainsert_eq_append _ _ _ ?_
          intro hmem
          rcases List.mem_map.mp hmem with ⟨p, hp, he⟩
          exact hfresh p hp child (List.mem_cons_self child rest.names) he
        have hNsome : ((promote_res path child cr acc.res).metadata).isSome = true :=
          promote_res_md_some path child cr acc.res
        have hNreal1 : (promote_res path child cr acc.res).real_transfer_size =
            acc.res.real_transfer_size := by
          rw [promote_res_real1, hz1, Nat.add_zero]
          exact (sfr_fields acc.res path).1
        have hNreal2 : (promote_res path child cr acc.res).real_transfer_files =
            acc.res.real_transfer_files := by
          rw [promote_res_real2, hz2, Nat.add_zero]
          exact (sfr_fields acc.res path).2.1
        have hNdel : (promote_res path child cr acc.res).files_to_delete =
            acc.res.files_to_delete := by
          rw [promote_res_del, hz3, List.append_nil]
          exact (sfr_fields acc.res path).2.2.1
        have hNerr : (promote_res path child cr acc.res).error_count =
            acc.res.error_count := by
          rw [promote_res_err, hz4, Nat.add_zero]
          exact (sfr_fields acc.res path).2.2.2.1
        have hfreshN : ∀ p ∈ metaChildren (promote_res path child cr acc.res),
            ∀ ch2, ch2 ∈ rest.names → p.1 ≠ encode_child ch2 := by
          intro p hp ch2 hm2
          rw [hNchildren] at hp
          rcases List.mem_append.mp hp with h | h
          · exact hfresh p h ch2 (List.mem_cons_of_mem child hm2)
          · rcases List.mem_singleton.mp h with rfl
            intro habs
            have : child = ch2 := encode_child_inj child ch2
              (goodName_bytes child hgoodc)
              (goodName_bytes ch2 (FSChildren.wf_names_good rest hwrest ch2 hm2))
              habs
            exact hchildnotin (this ▸ hm2)
        rcases ih ⟨promote_res path child cr acc.res, acc.state,
            ainsert child cr acc.drm, acc.size_map⟩ hwrest hch' (Or.inl hNfr)
            hfreshN with
          ⟨racc, hweq, k1, k2, k3, k4, k5, k6, k7, k8, k9, k10⟩
        refine ⟨racc, ?_, k1, k2, k3.trans hNfiles, ?_, ?_, ?_,
          k7.trans hNreal1, k8.trans hNreal2, k9.trans hNdel, k10.trans hNerr⟩
        · rw [hstep]
          exact hweq
        · show metaChildren racc.res = metaChildren acc.res ++
            ((child :: rest.names).filter (fun ch => cl.contains ch)).map
              (fun ch => (encode_child ch,
                (alookup (encode_child ch) m1.children).getD (.mk [] [])))
          rw [List.filter_cons,
            if_pos (show (fun ch => cl.contains ch) child = true from hcc),
            List.map_cons, k4, hNchildren, List.append_assoc,
            List.singleton_append]
        · show racc.res.force_retain = (acc.res.force_retain ||
            !((child :: rest.names).filter (fun ch => cl.contains ch)).isEmpty)
          rw [k5, hNfr, List.filter_cons,
            if_pos (show (fun ch => cl.contains ch) child = true from hcc)]
          simp
        · show (racc.res.metadata).isSome = ((acc.res.metadata).isSome ||
            !((child :: rest.names).filter (fun ch => cl.contains ch)).isEmpty)
          rw [k6, hNsome, List.filter_cons,
            if_pos (show (fun ch => cl.contains ch) child = true from hcc)]
          simp
      · have hccf : cl.contains child = false := by
          cases h2 : cl.contains child with
          | false => rfl
          | true => exact absurd h2 hcc
        have hstep := walk_children_cons_skip child node rest cl (some m1) path rp
          conf acc hccf
        have hfresh' : ∀ p ∈ metaChildren acc.res, ∀ ch2, ch2 ∈ rest.names →
            p.1 ≠ encode_child ch2 :=
          fun p hp ch2 hm2 => hfresh p hp ch2 (List.mem_cons_of_mem child hm2)
        rcases ih acc hwrest hch' hacc hfresh' with
          ⟨racc, hweq, k1, k2, k3, k4, k5, k6, k7, k8, k9, k10⟩
        refine ⟨racc, ?_, k1, k2, k3, ?_, ?_, ?_, k7, k8, k9, k10⟩
        · rw [hstep]
          exact hweq
        · show metaChildren racc.res = metaChildren acc.res ++
            ((child :: rest.names).filter (fun ch => cl.contains ch)).map
              (fun ch => (encode_child ch,
                (alookup (encode_child ch) m1.children).getD (.mk [] [])))
          rw [List.filter_cons,
            if_neg (show ¬ ((fun ch => cl.contains ch) child = true) from hcc)]
          exact k4
        · show racc.res.force_retain = (acc.res.force_retain ||
            !((child :: rest.names).filter (fun ch => cl.contains ch)).isEmpty)
          rw [List.filter_cons,
            if_neg (show ¬ ((fun ch => cl.contains ch) child = true) from hcc)]
          exact k5
        · show (racc.res.metadata).isSome = ((acc.res.metadata).isSome ||
            !((child :: rest.names).filter (fun ch => cl.contains ch)).isEmpty)
          rw [List.filter_cons,
            if_neg (show ¬ ((fun ch => cl.contains ch) child = true) from hcc)]
          exact k6

/-- A directory record is its pair of record lists. -/
theorem DirMeta.eta (m : DirMeta) : DirMeta.mk m.files m.children = m := by
  cases m
  rfl

/-- The child recursion over an empty disposition list skips every child. -/
theorem wc_nil_cl :
    ∀ (cs_it : FSChildren) (md : Option DirMeta) (path : ByteStr) (rp : String)
      (conf : UploadConfig) (acc : RecAcc),
      walk_children cs_it [] md path rp conf acc = .ok acc := by
  intro cs_it
  induction cs_it with
  | nil => intro md path rp conf acc; rfl
  | cons child node rest ih =>
      intro md path rp conf acc
      rw [walk_children_cons_skip child node rest [] md path rp conf acc rfl]
      exact ih md path rp conf acc

/-- A second walk of an unchanged link-free tree against its verifying
record retains the directory, reproduces the record exactly, transfers
nothing, schedules no deletions, counts no errors and leaves the sync
state untouched. -/
theorem run2_walk :
    ∀ (n : Nat) (st : StatRes) (cs : FSChildren) (m1 : DirMeta) (path : ByteStr)
      (rp : String) (conf : UploadConfig) (state : SyncState) (ir : Bool),
      FSNode.sz (.dir st cs) ≤ n →
      FSNode.wf (.dir st cs) = true →
      FSChildren.noHL cs = true →
      (conf.grouping_order = "size" ∨ conf.grouping_order = "mtime" ∨
        conf.grouping_order = "ctime") →
      GoodM m1 cs path conf →
      (ir = false → m1.files ≠ [] ∨ m1.children ≠ [] ∨
        conf.merge_threshold < conf.file_base_bytes) →
      ∃ r2, upload_walk (.dir st cs) path rp (some m1) conf state ir =
          .ok (some r2, state) ∧
        r2.force_retain = true ∧ r2.metadata = some m1 ∧
        r2.real_transfer_size = 0 ∧ r2.real_transfer_files = 0 ∧
        r2.files_to_delete = [] ∧ r2.error_count = 0 := by
  intro n
  induction n with
  | zero =>
      intro st cs m1 path rp conf state ir hsz _ _ _ _ _
      exact absurd hsz (by have := FSNode.sz_pos (.dir st cs); omega)
  | succ n ihn =>
      intro st cs m1 path rp conf state ir hsz hwf hn hgo hgm hcorner
      have hwf' : (S_ISDIR st.st_mode && cs.wf) = true := hwf
      simp only [Bool.and_eq_true] at hwf'
      have hwcs : cs.wf = true := hwf'.2
      have hszcs : cs.sz ≤ n := by
        rw [show FSNode.sz (.dir st cs) = cs.sz + 1 from rfl] at hsz
        omega
      obtain ⟨hnodup, hkeep, F, S, G, hcheq, hlkc, hrecg, hcornch⟩ := hgm.inv
      have hgoodfl : ∀ x ∈ cs.names.filter (uncovered m1.files),
          goodName x = true :=
        fun x hx => FSChildren.wf_names_good cs hwcs x (List.mem_of_mem_filter hx)
      -- the metadata-reuse pass keeps everything
      rcases reuse_pass_keep conf cs path rp hn m1.files ⟨cs.names, {}, state, []⟩
          hkeep hnodup
          (fun p _ h => absurd h (List.not_mem_nil p.1))
          (Or.inr ⟨rfl, rfl⟩) with ⟨R1, R2, R3, R4, R5, R6, R7, R8, R9⟩
      have R1' : (reuse_pass conf cs path rp m1.files
          ⟨cs.names, {}, state, []⟩).child_list =
          cs.names.filter (fun c => m1.files.all
            fun p => !((pack_members p.2).contains c)) := R1
      have hclRP : (reuse_pass conf cs path rp m1.files
          ⟨cs.names, {}, state, []⟩).child_list =
          cs.names.filter (uncovered m1.files) := by
        rw [R1']
        exact List.filter_congr fun c _ => uncovered_eq_all m1.files c
      have R2' : metaFiles (reuse_pass conf cs path rp m1.files
          ⟨cs.names, {}, state, []⟩).res = m1.files := by
        have h0 : metaFiles (reuse_pass conf cs path rp m1.files
            ⟨cs.names, {}, state, []⟩).res = [] ++ m1.files := R2
        rw [List.nil_append] at h0
        exact h0
      have R3' : metaChildren (reuse_pass conf cs path rp m1.files
          ⟨cs.names, {}, state, []⟩).res = [] := R3
      have R4' : (reuse_pass conf cs path rp m1.files
          ⟨cs.names, {}, state, []⟩).res.force_retain = !m1.files.isEmpty := by
        have h0 : (reuse_pass conf cs path rp m1.files
            ⟨cs.names, {}, state, []⟩).res.force_retain =
            (false || !m1.files.isEmpty) := R4
        rw [Bool.false_or] at h0
        exact h0
      have R5' : ((reuse_pass conf cs path rp m1.files
          ⟨cs.names, {}, state, []⟩).res.metadata).isSome = !m1.files.isEmpty := by
        have h0 : ((reuse_pass conf cs path rp m1.files
            ⟨cs.names, {}, state, []⟩).res.metadata).isSome =
            (false || !m1.files.isEmpty) := R5
        rw [Bool.false_or] at h0
        exact h0
      have R6' : (reuse_pass conf cs path rp m1.files
          ⟨cs.names, {}, state, []⟩).res.real_transfer_size = 0 := R6
      have R7' : (reuse_pass conf cs path rp m1.files
          ⟨cs.names, {}, state, []⟩).res.real_transfer_files = 0 := R7
      have R8' : (reuse_pass conf cs path rp m1.files
          ⟨cs.names, {}, state, []⟩).res.files_to_delete = [] := R8
      have R9' : (reuse_pass conf cs path rp m1.files
          ⟨cs.names, {}, state, []⟩).res.error_count = 0 := R9
      have hrpstate : (reuse_pass conf cs path rp m1.files
          ⟨cs.names, {}, state, []⟩).state = state :=
        reuse_state conf cs path rp hn m1.files ⟨cs.names, {}, state, []⟩
      -- the stale-children pass deletes nothing
      have hacc1 : walk_acc1 cs path rp (some m1) conf state =
          reuse_pass conf cs path rp m1.files ⟨cs.names, {}, state, []⟩ := by
        show children_del_pass conf cs rp m1.children
          (reuse_pass conf cs path rp m1.files ⟨cs.names, {}, state, []⟩) =
          reuse_pass conf cs path rp m1.files ⟨cs.names, {}, state, []⟩
        refine children_del_nostale conf cs rp m1.children _ ?_
        intro kv hkv
        rw [hcheq] at hkv
        rcases List.mem_map.mp hkv with ⟨ch, hchf, he⟩
        have hkv1 : kv.1 = encode_child ch := by rw [← he]
        have hdec : decode_child kv.1 = ch := by
          rw [hkv1]
          exact decode_encode ch (goodName_bytes ch (hgoodfl ch hchf))
        refine ⟨?_, ⟨.dir (S ch) (G ch), ?_, ?_⟩⟩
        · rw [hdec, hclRP]
          exact (list_contains_mem _ _).mpr hchf
        · rw [hdec]
          exact hlkc ch hchf
        · have hwn : ((.dir (S ch) (G ch)) : FSNode).wf = true :=
            FSChildren.wf_lookup cs ch _ hwcs (hlkc ch hchf)
          have h2 : (S_ISDIR (S ch).st_mode && (G ch).wf) = true := hwn
          simp only [Bool.and_eq_true] at h2
          exact h2.1
      -- per-child second walks via the induction hypothesis
      have hch : ∀ ch, ch ∈ cs.names →
          (cs.names.filter (uncovered m1.files)).contains ch = true →
          ∃ st2 cs2, cs.lookup ch = some (.dir st2 cs2) ∧
            ∀ s1 : SyncState, ∃ cr,
              upload_walk (.dir st2 cs2) (bjoin path ch)
                (pjoin rp (encode_child ch))
                ((some m1).bind fun m => alookup (encode_child ch) m.children) conf
                s1 false = .ok (some cr, s1) ∧
              cr.force_retain = true ∧
              cr.metadata = some ((alookup (encode_child ch) m1.children).getD
                (.mk [] [])) ∧
              cr.real_transfer_size = 0 ∧ cr.real_transfer_files = 0 ∧
              cr.files_to_delete = [] ∧ cr.error_count = 0 := by
        intro ch _ hcc
        have hfl : ch ∈ cs.names.filter (uncovered m1.files) :=
          (list_contains_mem _ _).mp hcc
        refine ⟨S ch, G ch, hlkc ch hfl, ?_⟩
        intro s1
        have hszch : FSNode.sz (.dir (S ch) (G ch)) ≤ n := by
          have := FSChildren.lookup_sz cs ch _ (hlkc ch hfl)
          omega
        have hwfc : FSNode.wf (.dir (S ch) (G ch)) = true :=
          FSChildren.wf_lookup cs ch _ hwcs (hlkc ch hfl)
        have hnc : FSChildren.noHL (G ch) = true :=
          FSChildren.noHL_lookup cs ch _ hn (hlkc ch hfl)
        rcases ihn (S ch) (G ch) (F ch) (bjoin path ch)
          (pjoin rp (encode_child ch)) conf s1 false hszch hwfc hnc hgo
          (hrecg ch hfl) (fun _ => hcornch ch hfl) with
          ⟨cr, hwkc, hcrfr, hcrmd, hz1, hz2, hz3, hz4⟩
        have halk : alookup (encode_child ch) m1.children = some (F ch) := by
          rw [hcheq]
          exact alookup_enc_map F _ ch hfl hgoodfl
        have hbind : ((some m1).bind fun m => alookup (encode_child ch) m.children) =
            some (F ch) := halk
        refine ⟨cr, ?_, hcrfr, ?_, hz1, hz2, hz3, hz4⟩
        · rw [hbind]
          exact hwkc
        · rw [halk, Option.getD_some]
          exact hcrmd
      -- the base accumulator of the child recursion
      have hA'acc : ((⟨(reuse_pass conf cs path rp m1.files
          ⟨cs.names, {}, state, []⟩).res, (reuse_pass conf cs path rp m1.files
          ⟨cs.names, {}, state, []⟩).state, [], []⟩ : RecAcc)).res.force_retain =
            true ∨
          (metaFiles ((⟨(reuse_pass conf cs path rp m1.files
            ⟨cs.names, {}, state, []⟩).res, (reuse_pass conf cs path rp m1.files
            ⟨cs.names, {}, state, []⟩).state, [], []⟩ : RecAcc)).res = [] ∧
           metaChildren ((⟨(reuse_pass conf cs path rp m1.files
            ⟨cs.names, {}, state, []⟩).res, (reuse_pass conf cs path rp m1.files
            ⟨cs.names, {}, state, []⟩).state, [], []⟩ : RecAcc)).res = []) := by
        by_cases hfe : m1.files = []
        · refine Or.inr ⟨?_, R3'⟩
          show metaFiles (reuse_pass conf cs path rp m1.files
            ⟨cs.names, {}, state, []⟩).res = []
          rw [R2', hfe]
        · refine Or.inl ?_
          show (reuse_pass conf cs path rp m1.files
            ⟨cs.names, {}, state, []⟩).res.force_retain = true
          rw [R4']
          cases h : m1.files with
          | nil => exact absurd h hfe
          | cons q qs => rfl
      rcases run2_wc (cs.names.filter (uncovered m1.files)) m1 path rp conf cs
          ⟨(reuse_pass conf cs path rp m1.files ⟨cs.names, {}, state, []⟩).res,
           (reuse_pass conf cs path rp m1.files ⟨cs.names, {}, state, []⟩).state,
           [], []⟩ hwcs hch hA'acc
          (by
            intro p hp ch2 _ habs
            have hp1 : p ∈ metaChildren (reuse_pass conf cs path rp m1.files
              ⟨cs.names, {}, state, []⟩).res := hp
            rw [R3'] at hp1
            cases hp1) with
        ⟨racc, hweq, k1, k2, k3, k4, k5, k6, k7, k8, k9, k10⟩
      -- transported walk facts
      have hkstate : racc.state = state :=
        (show racc.state = (reuse_pass conf cs path rp m1.files
          ⟨cs.names, {}, state, []⟩).state from k1).trans hrpstate
      have hsm : racc.size_map = [] := k2
      have hkfiles : metaFiles racc.res = m1.files :=
        (show metaFiles racc.res = metaFiles (reuse_pass conf cs path rp m1.files
          ⟨cs.names, {}, state, []⟩).res from k3).trans R2'
      have hfcl : cs.names.filter (fun ch =>
          (cs.names.filter (uncovered m1.files)).contains ch) =
          cs.names.filter (uncovered m1.files) := by
        refine List.filter_congr ?_
        intro ch hch2
        show (cs.names.filter (uncovered m1.files)).contains ch =
          uncovered m1.files ch
        cases hu : uncovered m1.files ch with
        | true => exact (list_contains_mem _ _).mpr (List.mem_filter.mpr ⟨hch2, hu⟩)
        | false =>
            cases hc : (cs.names.filter (uncovered m1.files)).contains ch with
            | false => rfl
            | true =>
                exfalso
                have hx := (List.mem_filter.mp ((list_contains_mem _ _).mp hc)).2
                rw [hu] at hx
                cases hx
      have hkch : metaChildren racc.res = m1.children := by
        have k4' : metaChildren racc.res =
            metaChildren (reuse_pass conf cs path rp m1.files
              ⟨cs.names, {}, state, []⟩).res ++
            (cs.names.filter (fun ch =>
              (cs.names.filter (uncovered m1.files)).contains ch)).map
              (fun ch => (encode_child ch,
                (alookup (encode_child ch) m1.children).getD (.mk [] []))) := k4
        rw [R3', List.nil_append, hfcl] at k4'
        rw [k4', hcheq]
        refine List.map_congr_left ?_
        intro ch hchf
        rw [alookup_enc_map F _ ch hchf hgoodfl, Option.getD_some]
      have k5' : racc.res.force_retain = ((reuse_pass conf cs path rp m1.files
          ⟨cs.names, {}, state, []⟩).res.force_retain ||
          !(cs.names.filter (fun ch =>
            (cs.names.filter (uncovered m1.files)).contains ch)).isEmpty) := k5
      rw [hfcl, R4'] at k5'
      have k6' : (racc.res.metadata).isSome =
          (((reuse_pass conf cs path rp m1.files
            ⟨cs.names, {}, state, []⟩).res.metadata).isSome ||
          !(cs.names.filter (fun ch =>
            (cs.names.filter (uncovered m1.files)).contains ch)).isEmpty) := k6
      rw [hfcl, R5'] at k6'
      have hkreal1 : racc.res.real_transfer_size = 0 :=
        (show racc.res.real_transfer_size = (reuse_pass conf cs path rp m1.files
          ⟨cs.names, {}, state, []⟩).res.real_transfer_size from k7).trans R6'
      have hkreal2 : racc.res.real_transfer_files = 0 :=
        (show racc.res.real_transfer_files = (reuse_pass conf cs path rp m1.files
          ⟨cs.names, {}, state, []⟩).res.real_transfer_files from k8).trans R7'
      have hkdel : racc.res.files_to_delete = [] :=
        (show racc.res.files_to_delete = (reuse_pass conf cs path rp m1.files
          ⟨cs.names, {}, state, []⟩).res.files_to_delete from k9).trans R8'
      have hkerr : racc.res.error_count = 0 :=
        (show racc.res.error_count = (reuse_pass conf cs path rp m1.files
          ⟨cs.names, {}, state, []⟩).res.error_count from k10).trans R9'
      -- the resulting record equals the stored one
      have hmd : (racc.res.set_force_retain path).metadata = some m1 := by
        cases hfrr : racc.res.force_retain with
        | false =>
            rw [sfr_md racc.res path hfrr]
            have h5 := k5'
            rw [hfrr] at h5
            have hfe : m1.files.isEmpty = true := by
              cases h : m1.files.isEmpty with
              | true => rfl
              | false => simp [h] at h5
            have hfle : (cs.names.filter (uncovered m1.files)).isEmpty = true := by
              cases h : (cs.names.filter (uncovered m1.files)).isEmpty with
              | true => rfl
              | false => simp [h] at h5
            have hfilesnil : m1.files = [] := List.isEmpty_iff.mp hfe
            have hchnil : m1.children = [] := by
              rw [hcheq, List.isEmpty_iff.mp hfle]
              rfl
            have hm1 : DirMeta.mk [] [] = m1 := by
              rw [← DirMeta.eta m1, hfilesnil, hchnil]
            rw [hm1]
        | true =>
            rw [sfr_id racc.res path hfrr]
            have hx : (!m1.files.isEmpty ||
                !(cs.names.filter (uncovered m1.files)).isEmpty) = true := by
              rw [← k5']
              exact hfrr
            have hsome : (racc.res.metadata).isSome = true := by
              rw [k6']
              exact hx
            rcases Option.isSome_iff_exists.mp hsome with ⟨mm, hmm⟩
            rw [hmm]
            have h7 : metaFiles racc.res = mm.files := by
              unfold metaFiles
              rw [hmm]
            have h8 : metaChildren racc.res = mm.children := by
              unfold metaChildren
              rw [hmm]
            have hfmm : mm.files = m1.files := h7.symm.trans hkfiles
            have hcmm : mm.children = m1.children := h8.symm.trans hkch
            have : mm = m1 := by
              rw [← DirMeta.eta mm, ← DirMeta.eta m1, hfmm, hcmm]
            rw [this]
      refine ⟨racc.res.set_force_retain path, ?_,
        set_force_retain_fr racc.res path, hmd,
        (sfr_fields racc.res path).1.trans hkreal1,
        (sfr_fields racc.res path).2.1.trans hkreal2,
        (sfr_fields racc.res path).2.2.1.trans hkdel,
        (sfr_fields racc.res path).2.2.2.1.trans hkerr⟩
      rw [upload_walk_dir_eq, hacc1, hclRP, hweq]
      simp only [Except.bind]
      unfold walk_finish
      dsimp only
      split
      next hcond =>
        exfalso
        simp only [Bool.and_eq_true, Bool.not_eq_true', decide_eq_true_eq] at hcond
        obtain ⟨⟨hia, hfra⟩, hlea⟩ := hcond
        rcases hcorner hia with hf | hc | ht
        · have hfrt : racc.res.force_retain = true := by
            rw [k5']
            cases hfe : m1.files with
            | nil => exact absurd hfe hf
            | cons q qs => rfl
          rw [hfrt] at hfra
          cases hfra
        · have hflne : cs.names.filter (uncovered m1.files) ≠ [] := by
            intro he
            rw [hcheq, he] at hc
            exact hc rfl
          have hfrt : racc.res.force_retain = true := by
            rw [k5']
            cases hfe : cs.names.filter (uncovered m1.files) with
            | nil => exact absurd hfe hflne
            | cons q qs => simp
          rw [hfrt] at hfra
          cases hfra
        · have h5 := k5'
          rw [hfra] at h5
          have hfe : m1.files.isEmpty = true := by
            cases h : m1.files.isEmpty with
            | true => rfl
            | false => simp [h] at h5
          have hfle : (cs.names.filter (uncovered m1.files)).isEmpty = true := by
            cases h : (cs.names.filter (uncovered m1.files)).isEmpty with
            | true => rfl
            | false => simp [h] at h5
          have hfilesnil : m1.files = [] := List.isEmpty_iff.mp hfe
          have hflnil : cs.names.filter (uncovered m1.files) = [] :=
            List.isEmpty_iff.mp hfle
          rw [hflnil] at hweq
          have hA'r : (⟨(reuse_pass conf cs path rp m1.files
              ⟨cs.names, {}, state, []⟩).res,
              (reuse_pass conf cs path rp m1.files
              ⟨cs.names, {}, state, []⟩).state, [], []⟩ : RecAcc) = racc :=
            Except.ok.inj ((wc_nil_cl cs (some m1) path rp conf _).symm.trans hweq)
          have hts : racc.res.total_size = 0 := by
            rw [← hA'r]
            show (reuse_pass conf cs path rp m1.files
              ⟨cs.names, {}, state, []⟩).res.total_size = 0
            rw [hfilesnil]
            rfl
          have htf : racc.res.total_files = 1 := by
            rw [← hA'r]
            show (reuse_pass conf cs path rp m1.files
              ⟨cs.names, {}, state, []⟩).res.total_files = 1
            rw [hfilesnil]
            rfl
          rw [hts, htf] at hlea
          omega
      next =>
        simp only [Bind.bind, Except.bind]
        rw [hsm, group_sort_nil_ok conf cs hgo]
        show Except.ok (some (racc.res.set_force_retain path), racc.state) =
          Except.ok (some (racc.res.set_force_retain path), state)
        rw [hkstate]

end Metarclone
